import Mathlib

/-!
# binarysort: record model, reference comparator, generated comparator, sort engine

A shallow embedding of the C++ sources `record.cpp`, `comparison_generator.cpp`
and `sort_engine.cpp`, followed by the properties proved about it.

* A record is the list of its bytes; a mapped region is the list of its records,
  element `i` being the `record_length` bytes at `data + i * record_length`.
* A pointer into a record is the list of the bytes from that address onwards; bytes
  past the end of what is modelled read as 0 (the properties concern keys inside the record).
* Functions that can throw return `Except Error _`; dividing by zero and indexing out of
  range are errors of their own.
* `size_t` arithmetic that can wrap is taken modulo `2 ^ 64`. Record indices are `int64_t`
  in the source and `Int` here: a region that fits in memory has fewer than `2 ^ 63` records.
* Loops are functions that recurse on the number of iterations left; the recursion of
  `quicksort` and the `while` loop that builds the chunks carry a budget, and running out
  of it is the error `out_of_fuel`, shown not to happen.
* The worker threads sort disjoint chunks and are run one after the other.
-/

namespace binsort

/-! ## Definitions: record model (`record.hpp`, `record.cpp`) -/

/-- One `uint8_t`. -/
abbrev Byte := Fin 256

/-- The bytes readable from a pointer onwards. -/
abbrev Bytes := List Byte

/-- Everything that can stop a computation of the embedded code: the exceptions thrown by
the sources (one constructor per `throw` site of the record model and of the code generator),
an instruction the processor model does not know, the two undefined operations the sort
engine can reach, and the exhaustion of the recursion budget of the embedding. -/
inductive Error where
  | key_beyond_record
  | invalid_integer_length
  | not_a_float_key
  | invalid_float_length
  | code_buffer_allocation_failed
  | code_buffer_overflow
  | make_executable_failed
  | illegal_instruction
  | division_by_zero
  | index_out_of_bounds
  | out_of_fuel
  deriving DecidableEq, Repr

deriving instance DecidableEq for Except

/-- Key type enumeration (`enum class KeyType`). -/
inductive KeyType where
  | Character
  | LittleEndianInt
  | BigEndianInt
  | LittleEndianFloat
  deriving DecidableEq, Repr

/-- Sort order (`enum class SortOrder`). -/
inductive SortOrder where
  | Ascending
  | Descending
  deriving DecidableEq, Repr

/-- Key specification (`struct KeySpec`); `position` and `length` are `size_t` values. -/
structure KeySpec where
  position : Nat
  length : Nat
  type : KeyType
  order : SortOrder
  deriving DecidableEq, Repr

/-- The number of values of a `size_t`. -/
def size_mod : Nat := 2 ^ 64

/-- `KeySpec::offset`: `position - 1` in `size_t` arithmetic. -/
def KeySpec.offset (k : KeySpec) : Nat := (k.position + (size_mod - 1)) % size_mod

/-- Byte order of the machine the program runs on (`std::endian::native`). -/
inductive Endian where
  | little
  | big
  deriving DecidableEq, Repr

/-- Record view (`class RecordView`): the bytes at `data_` and the declared `length_`. -/
structure RecordView where
  data : Bytes
  length : Nat
  deriving DecidableEq, Repr

/-- The byte `ptr[i]`; an address past the modelled bytes reads as 0. -/
def peek (ptr : Bytes) (i : Nat) : Byte := ptr.getD i 0

/-- The `n` bytes starting at `ptr`, in address order. -/
def fetch : Bytes → Nat → Bytes
  | _, 0 => []
  | [], n + 1 => 0 :: fetch [] n
  | b :: bs, n + 1 => b :: fetch bs n

/-- The value of an unsigned integer object whose bytes, in address order, are `bytes`
(`std::memcpy(&value, ptr, sizeof(value))`) on a machine of byte order `host`. -/
def load (host : Endian) (bytes : Bytes) : Nat :=
  match host with
  | .little => bytes.foldr (fun b acc => b.val + 256 * acc) 0
  | .big => bytes.foldl (fun acc b => 256 * acc + b.val) 0

/-- Byte reversal of an `n`-byte unsigned value (`__builtin_bswap16/32/64` for `n = 2, 4, 8`). -/
def bswap : Nat → Nat → Nat
  | 0, _ => 0
  | n + 1, v => (v % 256) * 256 ^ n + bswap n (v / 256)

/-- `RecordView::read_le16`. -/
def RecordView.read_le16 (host : Endian) (ptr : Bytes) : Nat :=
  let value := load host (fetch ptr 2)
  if host = .big then bswap 2 value else value

/-- `RecordView::read_le32`. -/
def RecordView.read_le32 (host : Endian) (ptr : Bytes) : Nat :=
  let value := load host (fetch ptr 4)
  if host = .big then bswap 4 value else value

/-- `RecordView::read_le64`. -/
def RecordView.read_le64 (host : Endian) (ptr : Bytes) : Nat :=
  let value := load host (fetch ptr 8)
  if host = .big then bswap 8 value else value

/-- `RecordView::read_be16`. -/
def RecordView.read_be16 (host : Endian) (ptr : Bytes) : Nat :=
  let value := load host (fetch ptr 2)
  if host = .little then bswap 2 value else value

/-- `RecordView::read_be32`. -/
def RecordView.read_be32 (host : Endian) (ptr : Bytes) : Nat :=
  let value := load host (fetch ptr 4)
  if host = .little then bswap 4 value else value

/-- `RecordView::read_be64`. -/
def RecordView.read_be64 (host : Endian) (ptr : Bytes) : Nat :=
  let value := load host (fetch ptr 8)
  if host = .little then bswap 8 value else value

/-- Conversion of an unsigned value to the signed integer type of `bits` bits
(`static_cast<int16_t>`, `static_cast<int32_t>`, `static_cast<int64_t>`, `static_cast<int8_t>`):
the value of that type congruent to `u` modulo `2 ^ bits`. -/
def static_cast_signed (bits : Nat) (u : Nat) : Int :=
  ((u : Int) + 2 ^ (bits - 1)) % 2 ^ bits - 2 ^ (bits - 1)

/-- `RecordView::extract_key`. The result is an `int64_t`; the narrower signed values widen
to it unchanged. -/
def RecordView.extract_key (host : Endian) (v : RecordView) (spec : KeySpec) :
    Except Error Int :=
  let ptr := v.data.drop spec.offset
  if (spec.offset + spec.length) % size_mod > v.length then .error .key_beyond_record
  else
    match spec.type with
    | .Character => .ok (static_cast_signed 8 (peek ptr 0).val)
    | .LittleEndianInt =>
      if spec.length = 2 then .ok (static_cast_signed 16 (RecordView.read_le16 host ptr))
      else if spec.length = 4 then .ok (static_cast_signed 32 (RecordView.read_le32 host ptr))
      else if spec.length = 8 then .ok (static_cast_signed 64 (RecordView.read_le64 host ptr))
      else .error .invalid_integer_length
    | .BigEndianInt =>
      if spec.length = 2 then .ok (static_cast_signed 16 (RecordView.read_be16 host ptr))
      else if spec.length = 4 then .ok (static_cast_signed 32 (RecordView.read_be32 host ptr))
      else if spec.length = 8 then .ok (static_cast_signed 64 (RecordView.read_be64 host ptr))
      else .error .invalid_integer_length
    | .LittleEndianFloat => .ok 0

/-- The value of a `double` (or of a `float`, whose conversion to `double` is exact):
not-a-number, an infinity, or a finite number. -/
inductive Double where
  | nan
  | inf (negative : Bool)
  | finite (q : Rat)
  deriving DecidableEq

/-- The IEEE 754 value of the bit pattern `bits` in a binary format with `ebits` exponent
bits and `mbits` fraction bits (binary32: 8 and 23, binary64: 11 and 52). -/
def ieee_value (ebits mbits : Nat) (bits : Nat) : Double :=
  let negative := (bits / 2 ^ (ebits + mbits)) % 2 = 1
  let e := (bits / 2 ^ mbits) % 2 ^ ebits
  let m := bits % 2 ^ mbits
  let bias := 2 ^ (ebits - 1) - 1
  if e = 2 ^ ebits - 1 then
    if m = 0 then .inf negative else .nan
  else
    let magnitude : Nat := if e = 0 then m * 2 else (2 ^ mbits + m) * 2 ^ e
    let numerator : Int := if negative then -(magnitude : Int) else magnitude
    .finite (mkRat numerator (2 ^ (bias + mbits)))

/-- The comparison `va < vb` of two `double` values. -/
def Double.lt : Double → Double → Bool
  | .nan, _ => false
  | _, .nan => false
  | .inf na, .inf nb => na && !nb
  | .inf na, .finite _ => na
  | .finite _, .inf nb => !nb
  | .finite p, .finite q => decide (p < q)

/-- `RecordView::read_le_float`. -/
def RecordView.read_le_float (host : Endian) (ptr : Bytes) : Double :=
  ieee_value 8 23 (RecordView.read_le32 host ptr)

/-- `RecordView::read_le_double`. -/
def RecordView.read_le_double (host : Endian) (ptr : Bytes) : Double :=
  ieee_value 11 52 (RecordView.read_le64 host ptr)

/-- `RecordView::extract_float_key`. -/
def RecordView.extract_float_key (host : Endian) (v : RecordView) (spec : KeySpec) :
    Except Error Double :=
  let ptr := v.data.drop spec.offset
  if spec.type ≠ .LittleEndianFloat then .error .not_a_float_key
  else if spec.length = 4 then .ok (RecordView.read_le_float host ptr)
  else if spec.length = 8 then .ok (RecordView.read_le_double host ptr)
  else .error .invalid_float_length

/-- The C library `memcmp(pa, pb, n)`. The C standard fixes the sign of the result only;
the result is taken to be the difference of the first pair of bytes that differ. -/
def memcmp : Bytes → Bytes → Nat → Int
  | _, _, 0 => 0
  | pa, pb, n + 1 =>
    if peek pa 0 ≠ peek pb 0 then ((peek pa 0).val : Int) - ((peek pb 0).val : Int)
    else memcmp pa.tail pb.tail n

/-- The body of the loop of `RecordComparator::compare` for one key, up to the place where
the sort order is applied: the value of `cmp` computed from the type of the key. -/
def RecordComparator.compare_field (host : Endian) (key : KeySpec) (a b : RecordView) :
    Except Error Int :=
  if key.type = .Character then
    let pa := a.data.drop key.offset
    let pb := b.data.drop key.offset
    .ok (memcmp pa pb key.length)
  else if key.type = .LittleEndianFloat then
    match a.extract_float_key host key with
    | .error e => .error e
    | .ok va =>
      match b.extract_float_key host key with
      | .error e => .error e
      | .ok vb => .ok (if va.lt vb then -1 else if vb.lt va then 1 else 0)
  else
    match a.extract_key host key with
    | .error e => .error e
    | .ok va =>
      match b.extract_key host key with
      | .error e => .error e
      | .ok vb => .ok (if va < vb then -1 else if va > vb then 1 else 0)

/-- `RecordComparator::compare` for the key list `keys_`. -/
def RecordComparator.compare (host : Endian) (keys_ : List KeySpec) (a b : RecordView) :
    Except Error Int :=
  match keys_ with
  | [] => .ok 0
  | key :: rest =>
    match RecordComparator.compare_field host key a b with
    | .error e => .error e
    | .ok cmp =>
      let cmp := if key.order = .Descending then -cmp else cmp
      if cmp ≠ 0 then .ok cmp else RecordComparator.compare host rest a b

/-- `InterpretedComparator::compare`: both pointers are viewed as records of 1000000 bytes. -/
def InterpretedComparator.compare (host : Endian) (keys_ : List KeySpec) (a b : Bytes) :
    Except Error Int :=
  RecordComparator.compare host keys_ ⟨a, 1000000⟩ ⟨b, 1000000⟩

/-! ## Definitions: comparison functions (`comparison_generator.hpp`, `comparison_generator.cpp`) -/

/-- What a call through a `ComparisonFunc` function pointer computes from the bytes behind
its two record pointers: an `int`, or nothing when the call throws. -/
abbrev ComparisonFunc := Bytes → Bytes → Except Error Int

/-- The process-wide variable `g_comparator`: `none` is `nullptr`, `some keys` an
`InterpretedComparator` built for `keys`. -/
abbrev GlobalComparator := Option (List KeySpec)

/-- `interpreted_compare_wrapper`, called while `g_comparator` holds `g_comparator`. -/
def interpreted_compare_wrapper (host : Endian) (g_comparator : GlobalComparator) :
    ComparisonFunc :=
  fun a b =>
    match g_comparator with
    | none => .ok 0
    | some keys => InterpretedComparator.compare host keys a b

/-- `InterpretedComparator::wrap`: the value it stores in `g_comparator`; the function pointer
it returns is always `interpreted_compare_wrapper`. -/
def InterpretedComparator.wrap (keys : List KeySpec) : GlobalComparator := some keys

/-- The build target and the answers of the operating system the code generator depends on. -/
structure Platform where
  x86_64 : Bool
  windows : Bool
  endian : Endian
  allocation_succeeds : Bool
  protection_succeeds : Bool
  rax_at_call : Nat
  deriving DecidableEq, Repr

/-- `ComparisonGenerator::is_available`. -/
def ComparisonGenerator.is_available (plat : Platform) : Bool := plat.x86_64

/-- `ComparisonGenerator::CodeBuffer`; `memory = none` is `nullptr`. -/
structure ComparisonGenerator.CodeBuffer where
  memory : Option Bytes
  size : Nat
  capacity : Nat
  deriving DecidableEq, Repr

/-- `ComparisonGenerator::ensure_capacity`. -/
def ComparisonGenerator.ensure_capacity (plat : Platform) (code : ComparisonGenerator.CodeBuffer)
    (required : Nat) : Except Error ComparisonGenerator.CodeBuffer :=
  if code.capacity = 0 then
    let capacity := if required < 4096 then 4096 else required
    if plat.allocation_succeeds then
      .ok { code with capacity := capacity, memory := some (List.replicate capacity 0) }
    else .error .code_buffer_allocation_failed
  else if code.size + required > code.capacity then .error .code_buffer_overflow
  else .ok code

/-- Writing `bytes` into a buffer at byte offset `at_`. -/
def write_at (memory : Bytes) (at_ : Nat) (bytes : Bytes) : Bytes :=
  memory.take at_ ++ bytes ++ memory.drop (at_ + bytes.length)

/-- `ComparisonGenerator::emit_bytes`. -/
def ComparisonGenerator.emit_bytes (plat : Platform) (code : ComparisonGenerator.CodeBuffer)
    (bytes : Bytes) : Except Error ComparisonGenerator.CodeBuffer :=
  match ComparisonGenerator.ensure_capacity plat code bytes.length with
  | .error e => .error e
  | .ok code =>
    .ok { code with
      memory := code.memory.map (fun m => write_at m code.size bytes)
      size := code.size + bytes.length }

/-- `ComparisonGenerator::make_executable`. -/
def ComparisonGenerator.make_executable (plat : Platform) (code : ComparisonGenerator.CodeBuffer) :
    Except Error ComparisonGenerator.CodeBuffer :=
  if plat.protection_succeeds then .ok code else .error .make_executable_failed

/-- `ComparisonGenerator::emit_prologue`. -/
def ComparisonGenerator.emit_prologue (plat : Platform) (code : ComparisonGenerator.CodeBuffer) :
    Except Error ComparisonGenerator.CodeBuffer :=
  if plat.windows then
    ComparisonGenerator.emit_bytes plat code [0x48, 0x89, 0xcf, 0x48, 0x89, 0xd6]
  else
    ComparisonGenerator.emit_bytes plat code [0x55, 0x48, 0x89, 0xe5]

/-- `ComparisonGenerator::emit_epilogue`. -/
def ComparisonGenerator.emit_epilogue (plat : Platform) (code : ComparisonGenerator.CodeBuffer) :
    Except Error ComparisonGenerator.CodeBuffer :=
  if plat.windows then
    ComparisonGenerator.emit_bytes plat code [0xc3]
  else
    ComparisonGenerator.emit_bytes plat code [0x5d, 0xc3]

/-- `ComparisonGenerator::emit_key_comparison`: the body is empty, the buffer is left as is. -/
def ComparisonGenerator.emit_key_comparison (code : ComparisonGenerator.CodeBuffer)
    (_spec : KeySpec) (_record_length : Nat) : Except Error ComparisonGenerator.CodeBuffer :=
  .ok code

/-- The loop `for (const auto& key : keys) emit_key_comparison(code, key, record_length)`. -/
def ComparisonGenerator.emit_keys (code : ComparisonGenerator.CodeBuffer)
    (record_length : Nat) : List KeySpec → Except Error ComparisonGenerator.CodeBuffer
  | [] => .ok code
  | key :: rest =>
    match ComparisonGenerator.emit_key_comparison code key record_length with
    | .error e => .error e
    | .ok code => ComparisonGenerator.emit_keys code record_length rest

/-- The `try` block of `ComparisonGenerator::generate`: the buffer handed out as the function. -/
def ComparisonGenerator.emit_all (plat : Platform) (keys : List KeySpec) (record_length : Nat) :
    Except Error ComparisonGenerator.CodeBuffer :=
  match ComparisonGenerator.emit_prologue plat ⟨none, 0, 0⟩ with
  | .error e => .error e
  | .ok code =>
    match ComparisonGenerator.emit_keys code record_length keys with
    | .error e => .error e
    | .ok code =>
      match ComparisonGenerator.emit_bytes plat code [0x31, 0xc0] with
      | .error e => .error e
      | .ok code =>
        match ComparisonGenerator.emit_epilogue plat code with
        | .error e => .error e
        | .ok code => ComparisonGenerator.make_executable plat code

/-- The registers of the x86-64 processor that the emitted instructions name, the stack, and
the bytes behind the two record pointers. -/
structure X64State where
  rax : Nat
  rcx : Nat
  rdx : Nat
  rsi : Nat
  rdi : Nat
  rbp : Nat
  rsp : Nat
  stack : List Nat
  deriving DecidableEq, Repr

/-- Execution of x86-64 machine code from its first byte up to `ret`, for the instructions
`push rbp` (55), `mov rbp, rsp` (48 89 e5), `mov rdi, rcx` (48 89 cf), `mov rsi, rdx`
(48 89 d6), `xor eax, eax` (31 c0), `pop rbp` (5d) and `ret` (c3). The result is the content
of `eax` at `ret` as a signed 32-bit `int`. The first argument bounds the number of
instructions; every instruction consumes at least one byte. -/
def x64_run : Nat → Bytes → X64State → Except Error Int
  | 0, _, _ => .error .out_of_fuel
  | fuel + 1, code, s =>
    match code with
    | 0x55 :: rest => x64_run fuel rest { s with rsp := s.rsp - 8, stack := s.rbp :: s.stack }
    | 0x48 :: 0x89 :: 0xe5 :: rest => x64_run fuel rest { s with rbp := s.rsp }
    | 0x48 :: 0x89 :: 0xcf :: rest => x64_run fuel rest { s with rdi := s.rcx }
    | 0x48 :: 0x89 :: 0xd6 :: rest => x64_run fuel rest { s with rsi := s.rdx }
    | 0x31 :: 0xc0 :: rest => x64_run fuel rest { s with rax := 0 }
    | 0x5d :: rest =>
      match s.stack with
      | [] => .error .illegal_instruction
      | top :: stack => x64_run fuel rest { s with rbp := top, rsp := s.rsp + 8, stack := stack }
    | 0xc3 :: _ => .ok (static_cast_signed 32 (s.rax % 2 ^ 32))
    | _ => .error .illegal_instruction

/-- A call of the function whose machine code is `code`. The record pointers arrive in
`rdi`, `rsi` (System V) or `rcx`, `rdx` (Windows); no modelled instruction reads through
them, so the registers hold the places 1 and 2 standing for the two addresses. -/
def x64_call (plat : Platform) (code : Bytes) : ComparisonFunc :=
  fun _a _b =>
    let s : X64State :=
      if plat.windows then ⟨plat.rax_at_call, 1, 2, 0, 0, 0, 4096, []⟩
      else ⟨plat.rax_at_call, 0, 0, 2, 1, 0, 4096, []⟩
    x64_run (code.length + 1) code s

/-- `ComparisonGenerator::generate`, called while building for `plat`; the second component
is the value of `g_comparator` afterwards, given its value `g` before. -/
def ComparisonGenerator.generate (plat : Platform) (g : GlobalComparator)
    (keys : List KeySpec) (record_length : Nat) : ComparisonFunc × GlobalComparator :=
  if !ComparisonGenerator.is_available plat then
    (interpreted_compare_wrapper plat.endian (InterpretedComparator.wrap keys),
      InterpretedComparator.wrap keys)
  else
    match ComparisonGenerator.emit_all plat keys record_length with
    | .ok code => (x64_call plat ((code.memory.getD []).take code.size), g)
    | .error _ =>
      (interpreted_compare_wrapper plat.endian (InterpretedComparator.wrap keys),
        InterpretedComparator.wrap keys)

/-! ## Definitions: sort engine (`sort_engine.hpp`, `sort_engine.cpp`) -/

/-- A mapped region seen record by record: element `i` is the record at
`data + i * record_length`. -/
abbrev Region := List Bytes

/-- The record at `data + i * record_length`. -/
def record_at (data : Region) (i : Nat) : Bytes := data.getD i []

/-- The destination after `std::memcpy(dst, src, n)`. -/
def memcpy (dst src : Bytes) (n : Nat) : Bytes := fetch src n ++ dst.drop n

/-- `RecordQuickSort::swap_records(data + a * record_length_, data + b * record_length_)`. -/
def RecordQuickSort.swap_records (record_length_ : Nat) (data : Region) (a b : Nat) : Region :=
  if record_length_ ≤ 256 then
    let temp := memcpy (List.replicate 256 0) (record_at data a) record_length_
    let data := data.set a (memcpy (record_at data a) (record_at data b) record_length_)
    data.set b (memcpy (record_at data b) temp record_length_)
  else
    let temp_vec := memcpy (List.replicate record_length_ 0) (record_at data a) record_length_
    let data := data.set a (memcpy (record_at data a) (record_at data b) record_length_)
    data.set b (memcpy (record_at data b) temp_vec record_length_)

/-- The `for` loop of `RecordQuickSort::partition`, with `n` iterations left, at loop
variable `j` and with the current value `i`; the pivot is read through its pointer
`data + high * record_length_` at every comparison. -/
def RecordQuickSort.partition_loop (record_length_ : Nat) (compare_ : ComparisonFunc)
    (high : Int) : Nat → Region → Int → Int → Except Error (Region × Int)
  | 0, data, i, _ => .ok (data, i)
  | n + 1, data, i, j =>
    match compare_ (record_at data j.toNat) (record_at data high.toNat) with
    | .error e => .error e
    | .ok c =>
      if c < 0 then
        RecordQuickSort.partition_loop record_length_ compare_ high n
          (RecordQuickSort.swap_records record_length_ data (i + 1).toNat j.toNat) (i + 1) (j + 1)
      else
        RecordQuickSort.partition_loop record_length_ compare_ high n data i (j + 1)

/-- `RecordQuickSort::partition`: the region afterwards and the returned index. -/
def RecordQuickSort.partition (record_length_ : Nat) (compare_ : ComparisonFunc)
    (data : Region) (low high : Int) : Except Error (Region × Int) :=
  match RecordQuickSort.partition_loop record_length_ compare_ high (high - low).toNat data
      (low - 1) low with
  | .error e => .error e
  | .ok (data, i) =>
    .ok (RecordQuickSort.swap_records record_length_ data (i + 1).toNat high.toNat, i + 1)

/-- `RecordQuickSort::quicksort`; the first argument bounds the depth of the recursion. -/
def RecordQuickSort.quicksort (record_length_ : Nat) (compare_ : ComparisonFunc) :
    Nat → Region → Int → Int → Except Error Region
  | 0, data, low, high => if low < high then .error .out_of_fuel else .ok data
  | fuel + 1, data, low, high =>
    if low < high then
      match RecordQuickSort.partition record_length_ compare_ data low high with
      | .error e => .error e
      | .ok (data, pi) =>
        match RecordQuickSort.quicksort record_length_ compare_ fuel data low (pi - 1) with
        | .error e => .error e
        | .ok data => RecordQuickSort.quicksort record_length_ compare_ fuel data (pi + 1) high
    else .ok data

/-- `RecordQuickSort::sort`. The recursion depth of `quicksort` is bounded by the record
count, which is the budget handed to it. -/
def RecordQuickSort.sort (record_length_ : Nat) (compare_ : ComparisonFunc)
    (data : Region) (record_count : Nat) : Except Error Region :=
  if record_count ≤ 1 then .ok data
  else RecordQuickSort.quicksort record_length_ compare_ record_count data 0
    ((record_count : Int) - 1)

/-- `SortEngine::Config`. -/
structure SortEngine.Config where
  record_length : Nat
  thread_count : Nat
  keys : List KeySpec
  deriving DecidableEq, Repr

/-- `SortEngine::Chunk`; `start` is the index of the record the pointer `start` points at. -/
structure SortEngine.Chunk where
  start : Nat
  record_count : Nat
  deriving DecidableEq, Repr, Inhabited

/-- The members of a `SortEngine`. -/
structure SortEngine where
  config_ : SortEngine.Config
  compare_func_ : ComparisonFunc
  owns_func_ : Bool

/-- The constructor `SortEngine::SortEngine(const Config&)`; the engine is used while
`g_comparator` still holds what this constructor stored. -/
def SortEngine.create (plat : Platform) (g : GlobalComparator) (config : SortEngine.Config) :
    SortEngine :=
  if ComparisonGenerator.is_available plat then
    { config_ := config
      compare_func_ := (ComparisonGenerator.generate plat g config.keys config.record_length).1
      owns_func_ := true }
  else
    { config_ := config
      compare_func_ := interpreted_compare_wrapper plat.endian (InterpretedComparator.wrap config.keys)
      owns_func_ := false }

/-- The `while (offset < record_count)` loop of `SortEngine::sort` that builds `chunks`;
the first argument bounds the number of iterations. -/
def SortEngine.build_chunks (records_per_thread record_count : Nat) :
    Nat → Nat → List SortEngine.Chunk → Except Error (List SortEngine.Chunk)
  | 0, offset, chunks => if offset < record_count then .error .out_of_fuel else .ok chunks
  | fuel + 1, offset, chunks =>
    if offset < record_count then
      let chunk_size := min records_per_thread (record_count - offset)
      SortEngine.build_chunks records_per_thread record_count fuel (offset + chunk_size)
        (chunks ++ [⟨offset, chunk_size⟩])
    else .ok chunks

/-- The worker threads of `SortEngine::sort`, one per chunk, each running
`RecordQuickSort::sort(chunk.start, chunk.record_count)`, and the joins. The chunks are
disjoint, so the threads are run one after the other; an exception leaving a thread ends
the process. -/
def SortEngine.sort_chunks (record_length : Nat) (compare_func_ : ComparisonFunc) :
    List SortEngine.Chunk → Region → Except Error Region
  | [], data => .ok data
  | chunk :: rest, data =>
    match RecordQuickSort.sort record_length compare_func_ (data.drop chunk.start)
        chunk.record_count with
    | .error e => .error e
    | .ok sorted =>
      SortEngine.sort_chunks record_length compare_func_ rest (data.take chunk.start ++ sorted)

/-- The inner loop of `SortEngine::merge_chunks` (find the minimum among the chunk heads),
with `n` iterations left, at loop variable `i` and with the current `min_chunk`. -/
def SortEngine.find_min_chunk (compare_func_ : ComparisonFunc) (data : Region)
    (chunks : List SortEngine.Chunk) (indices : List Nat) : Nat → Nat → Int → Except Error Int
  | 0, _, min_chunk => .ok min_chunk
  | n + 1, i, min_chunk =>
    if indices.getD i 0 ≥ (chunks.getD i default).record_count then
      SortEngine.find_min_chunk compare_func_ data chunks indices n (i + 1) min_chunk
    else if min_chunk = -1 then
      SortEngine.find_min_chunk compare_func_ data chunks indices n (i + 1) i
    else
      let a := record_at data ((chunks.getD i default).start + indices.getD i 0)
      let b := record_at data ((chunks.getD min_chunk.toNat default).start
        + indices.getD min_chunk.toNat 0)
      match compare_func_ a b with
      | .error e => .error e
      | .ok c =>
        if c < 0 then
          SortEngine.find_min_chunk compare_func_ data chunks indices n (i + 1) i
        else
          SortEngine.find_min_chunk compare_func_ data chunks indices n (i + 1) min_chunk

/-- The outer loop of `SortEngine::merge_chunks`, with `n` iterations left, at loop variable
`out`; the results are `temp` seen record by record. Indexing `chunks` with `min_chunk = -1`
is undefined. -/
def SortEngine.merge_loop (record_length : Nat) (compare_func_ : ComparisonFunc) (data : Region)
    (chunks : List SortEngine.Chunk) : Nat → Nat → Region → List Nat → Except Error Region
  | 0, _, temp, _ => .ok temp
  | n + 1, out, temp, indices =>
    match SortEngine.find_min_chunk compare_func_ data chunks indices chunks.length 0 (-1) with
    | .error e => .error e
    | .ok min_chunk =>
      if min_chunk < 0 then .error .index_out_of_bounds
      else
        let src := record_at data ((chunks.getD min_chunk.toNat default).start
          + indices.getD min_chunk.toNat 0)
        SortEngine.merge_loop record_length compare_func_ data chunks n (out + 1)
          (temp.set out (memcpy (record_at temp out) src record_length))
          (indices.set min_chunk.toNat (indices.getD min_chunk.toNat 0 + 1))

/-- `SortEngine::merge_chunks`. -/
def SortEngine.merge_chunks (self : SortEngine) (data : Region)
    (chunks : List SortEngine.Chunk) : Except Error Region :=
  if chunks.length ≤ 1 then .ok data
  else
    let total_records := chunks.foldl (fun sum chunk => sum + chunk.record_count) 0
    let temp : Region :=
      List.replicate total_records (List.replicate self.config_.record_length 0)
    let indices : List Nat := List.replicate chunks.length 0
    match SortEngine.merge_loop self.config_.record_length self.compare_func_ data chunks
        total_records 0 temp indices with
    | .error e => .error e
    | .ok temp => .ok (temp ++ data.drop temp.length)

/-- `SortEngine::sort`. Dividing by a `thread_count` of 0 is undefined. -/
def SortEngine.sort (self : SortEngine) (data : Region) (record_count : Nat) :
    Except Error Region :=
  if record_count ≤ 1 then .ok data
  else if self.config_.thread_count = 0 then .error .division_by_zero
  else
    let records_per_thread := max 1000 (record_count / self.config_.thread_count)
    if self.config_.thread_count = 1 ∨ record_count < records_per_thread * 2 then
      RecordQuickSort.sort self.config_.record_length self.compare_func_ data record_count
    else
      match SortEngine.build_chunks records_per_thread record_count record_count 0 [] with
      | .error e => .error e
      | .ok chunks =>
        match SortEngine.sort_chunks self.config_.record_length self.compare_func_ chunks data with
        | .error e => .error e
        | .ok data => SortEngine.merge_chunks self data chunks


/-! ## Definitions used to state the properties of the comparator -/

/-- Byte `i` of the key `spec` in a record whose bytes are `data`, as a number in 0..255. -/
def key_byte (spec : KeySpec) (data : Bytes) (i : Nat) : Nat :=
  (peek data (spec.position - 1 + i)).val

/-- The unsigned value of the key bytes read in the byte order of the key: the sum of
`byte_i * 256 ^ (w - 1 - i)` for a big-endian key, of `byte_i * 256 ^ i` otherwise. -/
def unsigned_key_value (spec : KeySpec) (data : Bytes) : Nat :=
  if spec.type = .BigEndianInt then
    ∑ i in Finset.range spec.length, key_byte spec data i * 256 ^ (spec.length - 1 - i)
  else
    ∑ i in Finset.range spec.length, key_byte spec data i * 256 ^ i

/-- The two-complement signed value of the key bytes: `u` when `u < 2 ^ (8 w - 1)` and
`u - 2 ^ (8 w)` otherwise, for the unsigned value `u` of the `w` key bytes. -/
def signed_key_value (spec : KeySpec) (data : Bytes) : Int :=
  if unsigned_key_value spec data < 2 ^ (8 * spec.length - 1) then
    (unsigned_key_value spec data : Int)
  else (unsigned_key_value spec data : Int) - 2 ^ (8 * spec.length)

/-- The most significant bit of an integer key is set: its most significant byte, the last
one of a little-endian key and the first one of a big-endian key, is at least 128. -/
def key_msb_set (spec : KeySpec) (data : Bytes) : Prop :=
  128 ≤ key_byte spec data (if spec.type = .BigEndianInt then 0 else spec.length - 1)

instance (spec : KeySpec) (data : Bytes) : Decidable (key_msb_set spec data) := by
  unfold key_msb_set
  infer_instance

/-- The key is an integer key of width 2, 4 or 8 that lies inside a record of `length` bytes. -/
def KeySpec.integer_inside (spec : KeySpec) (length : Nat) : Prop :=
  (spec.type = .LittleEndianInt ∨ spec.type = .BigEndianInt)
  ∧ (spec.length = 2 ∨ spec.length = 4 ∨ spec.length = 8)
  ∧ 1 ≤ spec.position ∧ spec.position - 1 + spec.length ≤ length ∧ length < size_mod

instance (spec : KeySpec) (length : Nat) : Decidable (spec.integer_inside length) := by
  unfold KeySpec.integer_inside
  infer_instance

/-- The key is a Character key or an integer key of width 2, 4 or 8, and its bytes lie
inside the first `length` bytes of the record. -/
def KeySpec.inside (spec : KeySpec) (length : Nat) : Prop :=
  1 ≤ spec.position ∧ spec.position - 1 + spec.length ≤ length ∧ length < size_mod
  ∧ (spec.type = .Character
    ∨ ((spec.type = .LittleEndianInt ∨ spec.type = .BigEndianInt)
      ∧ (spec.length = 2 ∨ spec.length = 4 ∨ spec.length = 8)))

instance (spec : KeySpec) (length : Nat) : Decidable (spec.inside length) := by
  unfold KeySpec.inside
  infer_instance

/-- The value `cmp` takes for one key before the sort order is applied, as a function of the
bytes of the two records alone. -/
def field_value (key : KeySpec) (a b : Bytes) : Int :=
  if key.type = .Character then
    memcmp (a.drop (key.position - 1)) (b.drop (key.position - 1)) key.length
  else if signed_key_value key a < signed_key_value key b then -1
  else if signed_key_value key a > signed_key_value key b then 1
  else 0

/-- The field value of a key with its sort order applied: negated for a descending key. -/
def ordered_field_value (key : KeySpec) (a b : Bytes) : Int :=
  if key.order = .Descending then -field_value key a b else field_value key a b

/-- The lexicographic combination of the field values of a key list: the ordered value of the
first key whose value is not 0, and 0 when there is none. -/
def compare_value : List KeySpec → Bytes → Bytes → Int
  | [], _, _ => 0
  | key :: rest, a, b =>
    if ordered_field_value key a b ≠ 0 then ordered_field_value key a b
    else compare_value rest a b

/-- A number that orders records the way one key does: the big-endian value of the bytes of
a Character key, the signed value of an integer key; negated for a descending key. -/
def key_rank (key : KeySpec) (a : Bytes) : Int :=
  let v : Int :=
    if key.type = .Character then (load .big (fetch (a.drop (key.position - 1)) key.length) : Int)
    else signed_key_value key a
  if key.order = .Descending then -v else v


/-! ## Definitions used to state the properties of the sort engine -/

/-- Every record of the region has `record_length` bytes. -/
def Region.wf (record_length : Nat) (data : Region) : Prop :=
  ∀ r ∈ data, r.length = record_length

/-- The region with the records at indices `a` and `b` exchanged. -/
def swap_list (data : Region) (a b : Nat) : Region :=
  (data.set a (record_at data b)).set b (record_at data a)

/-- A comparison function that returns `f a b` and never throws. -/
def pure_compare (f : Bytes → Bytes → Int) : ComparisonFunc := fun a b => .ok (f a b)

/-- The chunks `cs` lie one after the other and cover the record indices `[s, e)`. -/
def Contig : Nat → Nat → List SortEngine.Chunk → Prop
  | s, e, [] => s = e
  | s, e, c :: cs => c.start = s ∧ Contig (s + c.record_count) e cs

/-- The records of chunk `c` that the merge has not copied yet when the index of the chunk
is `idx`. -/
def chunk_rest (data : Region) (c : SortEngine.Chunk) (idx : Nat) : List Bytes :=
  (data.drop (c.start + idx)).take (c.record_count - idx)

/-- Chunk `i` still has a record to merge: `indices[i] < chunks[i].record_count`. -/
def chunk_live (chunks : List SortEngine.Chunk) (indices : List Nat) (i : Nat) : Prop :=
  indices.getD i 0 < (chunks.getD i default).record_count

/-- The head record of chunk `i`: the record at `chunks[i].start + indices[i] * record_length`. -/
def chunk_head (data : Region) (chunks : List SortEngine.Chunk) (indices : List Nat)
    (i : Nat) : Bytes :=
  record_at data ((chunks.getD i default).start + indices.getD i 0)

instance (record_length : Nat) (data : Region) : Decidable (Region.wf record_length data) := by
  unfold Region.wf
  infer_instance

/-- The interpreted comparator can compare on the key: the key is a Character key or an
integer key of width 2, 4 or 8 inside a record of `record_length` bytes, and an integer key
ends within the first 1000000 bytes, the record length `InterpretedComparator::compare`
gives its views. -/
def KeySpec.comparable (spec : KeySpec) (record_length : Nat) : Prop :=
  spec.inside record_length
  ∧ (spec.type = .Character ∨ spec.position - 1 + spec.length ≤ 1000000)

instance (spec : KeySpec) (record_length : Nat) : Decidable (spec.comparable record_length) := by
  unfold KeySpec.comparable
  infer_instance


/-! ## Definitions: the path and the chunks of `SortEngine::sort` -/

/-- The part of `SortEngine::sort` up to the worker threads: `none` when the region is
handed to one quicksort (or returned at once), the vector `chunks` on the parallel path. -/
def SortEngine.plan (self : SortEngine) (record_count : Nat) :
    Except Error (Option (List SortEngine.Chunk)) :=
  if record_count ≤ 1 then .ok none
  else if self.config_.thread_count = 0 then .error .division_by_zero
  else
    let records_per_thread := max 1000 (record_count / self.config_.thread_count)
    if self.config_.thread_count = 1 ∨ record_count < records_per_thread * 2 then .ok none
    else
      match SortEngine.build_chunks records_per_thread record_count record_count 0 [] with
      | .error e => .error e
      | .ok chunks => .ok (some chunks)

/-- The chunk record count `C = min(max(1000, ceil(N/T)), N)` of the specification. -/
def spec_chunk_size (N T : Nat) : Nat := min (max 1000 ((N + T - 1) / T)) N

/-- The number of chunks `ceil(N/C)` of the specification. -/
def spec_chunk_count (N T : Nat) : Nat :=
  (N + spec_chunk_size N T - 1) / spec_chunk_size N T

/-! ## Definitions: argument parser (`argument_parser.hpp`, `argument_parser.cpp`) -/

/-- A `std::string` or C string: the list of its characters. -/
abbrev Str := List Char

/-- The exceptions of the argument parser: the two that `std::stoull` throws and one
constructor per `throw` site of `argument_parser.cpp`. -/
inductive ArgumentError where
  | stoull_invalid_argument
  | stoull_out_of_range
  | insufficient_arguments
  | unknown_parameter
  | missing_separator
  | missing_sort_specification
  | missing_record_length
  | key_position_zero
  | key_extends_beyond_record
  | numeric_key_length
  | sort_spec_field_count
  | key_type_not_single_character
  | sort_order_not_single_character
  | unknown_key_type
  | unknown_sort_order
  deriving DecidableEq, Repr

/-- The C function `isspace` in the C locale: space, and the characters 9 to 13. -/
def isspace (c : Char) : Bool := c.toNat = 32 || (9 ≤ c.toNat && c.toNat ≤ 13)

/-- A decimal digit. -/
def isdigit (c : Char) : Bool := 48 ≤ c.toNat && c.toNat ≤ 57

/-- The value of a run of decimal digits. -/
def digits_value (digits : Str) : Nat :=
  digits.foldl (fun acc c => 10 * acc + (c.toNat - 48)) 0

/-- The library function `std::stoull(str)` (base 10, result `unsigned long long` of 64
bits): leading white space is skipped, one sign is accepted, the longest run of digits is
read and what follows it is ignored; no digit is `std::invalid_argument`, a digit value
above `2 ^ 64 - 1` is `std::out_of_range`, and a minus sign negates in unsigned
arithmetic. -/
def stoull (str : Str) : Except ArgumentError Nat :=
  let s := str.dropWhile isspace
  let negative := s.head? = some '-'
  let s := if s.head? = some '-' ∨ s.head? = some '+' then s.tail else s
  let digits := s.takeWhile isdigit
  if digits = [] then .error .stoull_invalid_argument
  else if digits_value digits ≥ size_mod then .error .stoull_out_of_range
  else .ok (if negative then (size_mod - digits_value digits) % size_mod else digits_value digits)

/-- `ArgumentParser::Arguments`. -/
structure ArgumentParser.Arguments where
  input_file : Str
  output_file : Str
  keys : List KeySpec
  record_length : Nat
  thread_count : Nat
  deriving DecidableEq, Repr

/-- `ArgumentParser::parse_key_type`. -/
def ArgumentParser.parse_key_type (c : Char) : Except ArgumentError KeyType :=
  if c = 'c' then .ok .Character
  else if c = 'w' then .ok .LittleEndianInt
  else if c = 'W' then .ok .BigEndianInt
  else if c = 'f' then .ok .LittleEndianFloat
  else .error .unknown_key_type

/-- `ArgumentParser::parse_sort_order`. -/
def ArgumentParser.parse_sort_order (c : Char) : Except ArgumentError SortOrder :=
  if c = 'a' then .ok .Ascending
  else if c = 'd' then .ok .Descending
  else .error .unknown_sort_order

/-- The tokens that the loop `while (std::getline(ss, token, ','))` reads from a stream
holding `s`: the pieces between the commas, where a last piece that is empty is not read
(at the end of the stream `getline` extracts nothing and fails). -/
def getline_tokens : Str → List Str
  | [] => []
  | c :: cs =>
    if c = ',' then [] :: getline_tokens cs
    else
      match getline_tokens cs with
      | [] => [[c]]
      | t :: ts => (c :: t) :: ts

/-- A space or a tab, the characters of `" \t"`. -/
def is_blank (c : Char) : Bool := c.toNat = 32 || c.toNat = 9

/-- The two `erase` calls of `parse_sort_spec`: blanks are removed at both ends. -/
def trim_blanks (token : Str) : Str :=
  ((token.dropWhile is_blank).reverse.dropWhile is_blank).reverse

/-- The second loop of `ArgumentParser::parse_sort_spec`: four tokens make one key. -/
def ArgumentParser.parse_key_tuples : List Str → Except ArgumentError (List KeySpec)
  | t0 :: t1 :: t2 :: t3 :: rest =>
    match stoull t0 with
    | .error e => .error e
    | .ok position =>
      match stoull t1 with
      | .error e => .error e
      | .ok length =>
        if t2.length ≠ 1 then .error .key_type_not_single_character
        else
          match ArgumentParser.parse_key_type (t2.headD ' ') with
          | .error e => .error e
          | .ok type =>
            if t3.length ≠ 1 then .error .sort_order_not_single_character
            else
              match ArgumentParser.parse_sort_order (t3.headD ' ') with
              | .error e => .error e
              | .ok order =>
                match ArgumentParser.parse_key_tuples rest with
                | .error e => .error e
                | .ok keys => .ok (⟨position, length, type, order⟩ :: keys)
  | _ => .ok []

/-- `ArgumentParser::parse_sort_spec`. -/
def ArgumentParser.parse_sort_spec (spec : Str) : Except ArgumentError (List KeySpec) :=
  let tokens := (getline_tokens spec).map trim_blanks
  if tokens.length % 4 ≠ 0 then .error .sort_spec_field_count
  else ArgumentParser.parse_key_tuples tokens

/-- `ArgumentParser::extract_param`; `none` is `std::nullopt`. -/
def ArgumentParser.extract_param (arg param_name : Str) : Option Str :=
  let opening := param_name ++ ['(']
  if arg.length < opening.length + 2 then none
  else if arg.take opening.length ≠ opening then none
  else if arg.getLast? ≠ some ')' then none
  else some ((arg.drop opening.length).take (arg.length - opening.length - 1))

/-- The body of the loop of `ArgumentParser::parse` over the parameters after the separator:
one argument is read into `args`. -/
def ArgumentParser.parse_parameter (arg : Str) (args : ArgumentParser.Arguments) :
    Except ArgumentError ArgumentParser.Arguments :=
  match ArgumentParser.extract_param arg ['s', 'o', 'r', 't'] with
  | some value =>
    match ArgumentParser.parse_sort_spec value with
    | .error e => .error e
    | .ok keys => .ok { args with keys := keys }
  | none =>
    match ArgumentParser.extract_param arg ['r', 'e', 'c', 'o', 'r', 'd'] with
    | some value =>
      match stoull value with
      | .error e => .error e
      | .ok record_length => .ok { args with record_length := record_length }
    | none =>
      match ArgumentParser.extract_param arg
          ['t', 'h', 'r', 'e', 'a', 'd', '_', 'c', 'o', 'u', 'n', 't'] with
      | some value =>
        match stoull value with
        | .error e => .error e
        | .ok thread_count =>
          .ok { args with thread_count := if thread_count = 0 then 1 else thread_count }
      | none => .error .unknown_parameter

/-- The loop of `ArgumentParser::parse` over the parameters after the separator. -/
def ArgumentParser.parse_parameters :
    List Str → ArgumentParser.Arguments → Except ArgumentError ArgumentParser.Arguments
  | [], args => .ok args
  | arg :: rest, args =>
    match ArgumentParser.parse_parameter arg args with
    | .error e => .error e
    | .ok args => ArgumentParser.parse_parameters rest args

/-- The search of `ArgumentParser::parse` for the first argument equal to `"/"`, run on the
arguments from index 3 on: the arguments after it, or `none` when there is none. -/
def ArgumentParser.after_separator : List Str → Option (List Str)
  | [] => none
  | arg :: rest => if arg = ['/'] then some rest else ArgumentParser.after_separator rest

/-- The loop `for (const auto& key : args.keys)` of `ArgumentParser::parse` that validates
the key specifications against the record length. -/
def ArgumentParser.validate_keys : List KeySpec → Nat → Except ArgumentError Unit
  | [], _ => .ok ()
  | key :: rest, record_length =>
    if key.position = 0 then .error .key_position_zero
    else if (key.offset + key.length) % size_mod > record_length then
      .error .key_extends_beyond_record
    else if key.type ≠ .Character ∧ (key.length ≠ 2 ∧ key.length ≠ 4 ∧ key.length ≠ 8) then
      .error .numeric_key_length
    else ArgumentParser.validate_keys rest record_length

/-- The end of `ArgumentParser::parse`, from `// Validate required parameters` on. -/
def ArgumentParser.validate (args : ArgumentParser.Arguments) :
    Except ArgumentError ArgumentParser.Arguments :=
  if args.keys = [] then .error .missing_sort_specification
  else if args.record_length = 0 then .error .missing_record_length
  else
    match ArgumentParser.validate_keys args.keys args.record_length with
    | .error e => .error e
    | .ok _ => .ok args

/-- The start of `ArgumentParser::parse`: the two file names and the default thread count;
`hardware_concurrency` is what `std::thread::hardware_concurrency()` returns. -/
def ArgumentParser.defaults (hardware_concurrency : Nat) (argv : List Str) :
    ArgumentParser.Arguments :=
  { input_file := argv.getD 1 []
    output_file := argv.getD 2 []
    keys := []
    record_length := 0
    thread_count := if hardware_concurrency = 0 then 1 else hardware_concurrency }

/-- `ArgumentParser::parse(argc, argv)` with `argc = argv.length`. -/
def ArgumentParser.parse (hardware_concurrency : Nat) (argv : List Str) :
    Except ArgumentError ArgumentParser.Arguments :=
  if argv.length < 3 then .error .insufficient_arguments
  else
    match ArgumentParser.after_separator (argv.drop 3) with
    | none => .error .missing_separator
    | some parameters =>
      match ArgumentParser.parse_parameters parameters
          (ArgumentParser.defaults hardware_concurrency argv) with
      | .error e => .error e
      | .ok args => ArgumentParser.validate args

/-- The chunks of a region of `N` records cut every `C` records: chunk `i` starts at record
`i * C` and holds `min C (N - i * C)` records. -/
def chunk_list (C N : Nat) : List SortEngine.Chunk :=
  (List.range ((N + C - 1) / C)).map (fun i => ⟨i * C, min C (N - i * C)⟩)

/-- An argument of the form `name(...)`: it starts with `name(` and ends with `)`. -/
def parameter_named (name arg : Str) : Bool :=
  arg.take (name.length + 1) = name ++ ['('] && arg.getLast? = some ')'

/-- The text between the parentheses of an argument of the form `name(...)`. -/
def parameter_value (name arg : Str) : Str := (arg.drop (name.length + 1)).dropLast

/-- Two outcomes of the parser are the same: the same arguments, or an error in both. -/
def same_outcome :
    Except ArgumentError ArgumentParser.Arguments →
    Except ArgumentError ArgumentParser.Arguments → Prop
  | .ok a, .ok b => a = b
  | .error _, .error _ => True
  | _, _ => False

instance (x y : Except ArgumentError ArgumentParser.Arguments) : Decidable (same_outcome x y) := by
  unfold same_outcome
  split <;> infer_instance

/-! ## Definitions used to state the properties of the argument parser -/

/-- The character of the decimal digit `d`. -/
def digit_char (d : Nat) : Char := Char.ofNat (48 + d)

/-- The decimal digits of `n`, most significant first, with at most `fuel` digits. -/
def decimal_digits : Nat → Nat → Str
  | 0, _ => []
  | fuel + 1, n =>
    if n < 10 then [digit_char n]
    else decimal_digits fuel (n / 10) ++ [digit_char (n % 10)]

/-- The number `n` written in decimal, without leading zeros. -/
def decimal (n : Nat) : Str := decimal_digits (n + 1) n

/-- The character that stands for a key type in a sort specification. -/
def type_char : KeyType → Char
  | .Character => 'c'
  | .LittleEndianInt => 'w'
  | .BigEndianInt => 'W'
  | .LittleEndianFloat => 'f'

/-- The character that stands for a sort order in a sort specification. -/
def order_char : SortOrder → Char
  | .Ascending => 'a'
  | .Descending => 'd'

/-- The fields of a key list written out: for every key its position, its length, its type
character and its order character. -/
def render_tokens : List KeySpec → List Str
  | [] => []
  | k :: ks =>
    decimal k.position :: decimal k.length :: [type_char k.type] :: [order_char k.order]
      :: render_tokens ks

/-- The text `p` is the field `f` with spaces or tabs before and after it. -/
def blank_padded (f p : Str) : Prop :=
  ∃ l r : Str, (∀ c ∈ l, is_blank c = true) ∧ (∀ c ∈ r, is_blank c = true) ∧ p = l ++ f ++ r

/-- The texts joined with a comma between each two. -/
def join_commas : List Str → Str
  | [] => []
  | [t] => t
  | t :: ts => t ++ ',' :: join_commas ts

/-- The number of comma-separated fields of a text: one more than the number of its
commas. -/
def field_count (spec : Str) : Nat := spec.count ',' + 1

/-- The number of comma-separated fields of a text, where an empty field after the last
comma is not counted and the empty text has no field. -/
def field_count_before_end (spec : Str) : Nat :=
  if spec = [] ∨ spec.getLast? = some ',' then field_count spec - 1 else field_count spec

/-! ## Definitions: file operations (`file_operations.hpp`, `file_operations.cpp`) -/

/-- The exceptions of `FileOperations::validate_record_alignment` and of the
`get_file_size` it calls. -/
inductive FileError where
  | record_length_zero
  | cannot_stat_file
  | size_not_divisible
  deriving DecidableEq, Repr

/-- `FileOperations::validate_record_alignment`; `get_file_size` is what the call
`get_file_size(filepath)` yields, a size below `2^64` or its exception. -/
def FileOperations.validate_record_alignment (get_file_size : Except FileError Nat)
    (record_length : Nat) : Except FileError Nat :=
  if record_length = 0 then .error .record_length_zero
  else
    match get_file_size with
    | .error e => .error e
    | .ok file_size =>
      if file_size % record_length ≠ 0 then .error .size_not_divisible
      else .ok (file_size / record_length)

/-! ## Definitions used to state the properties of a sort on float keys -/

/-- The value of the float key `spec` in a record whose bytes are `data`: the binary32
value of its four bytes for a key of width 4, the binary64 value of its eight bytes
otherwise. -/
def float_key_value (host : Endian) (spec : KeySpec) (data : Bytes) : Double :=
  if spec.length = 4 then RecordView.read_le_float host (data.drop (spec.position - 1))
  else RecordView.read_le_double host (data.drop (spec.position - 1))

/-- The key is a float key of width 4 or 8 that lies inside a record of `length` bytes. -/
def KeySpec.float_inside (spec : KeySpec) (length : Nat) : Prop :=
  spec.type = .LittleEndianFloat ∧ (spec.length = 4 ∨ spec.length = 8)
  ∧ 1 ≤ spec.position ∧ spec.position - 1 + spec.length ≤ length ∧ length < size_mod

instance (spec : KeySpec) (length : Nat) : Decidable (spec.float_inside length) := by
  unfold KeySpec.float_inside
  infer_instance

/-- The reference comparator can sort on the key: the interpreted comparator can compare on
it as a Character or integer key, or it is a float key of width 4 or 8 inside the record. -/
def KeySpec.sortable (spec : KeySpec) (record_length : Nat) : Prop :=
  spec.comparable record_length ∨ spec.float_inside record_length

instance (spec : KeySpec) (record_length : Nat) : Decidable (spec.sortable record_length) := by
  unfold KeySpec.sortable
  infer_instance

/-- No float key of the list holds a NaN in the record whose bytes are `data`. -/
def nan_free (host : Endian) (keys : List KeySpec) (data : Bytes) : Prop :=
  ∀ k ∈ keys, k.type = .LittleEndianFloat → float_key_value host k data ≠ .nan

instance (host : Endian) (keys : List KeySpec) (data : Bytes) :
    Decidable (nan_free host keys data) := by
  unfold nan_free
  infer_instance

/-- The value `cmp` takes for one key of any type before the sort order is applied, as a
function of the bytes of the two records alone: for a float key the comparison of the two
float values, for the other keys `field_value`. -/
def full_field_value (host : Endian) (key : KeySpec) (a b : Bytes) : Int :=
  if key.type = .LittleEndianFloat then
    if (float_key_value host key a).lt (float_key_value host key b) then -1
    else if (float_key_value host key b).lt (float_key_value host key a) then 1
    else 0
  else field_value key a b

/-- The field value of a key of any type with its sort order applied. -/
def full_ordered_field_value (host : Endian) (key : KeySpec) (a b : Bytes) : Int :=
  if key.order = .Descending then -full_field_value host key a b
  else full_field_value host key a b

/-- The lexicographic combination of the field values of a key list with keys of any type. -/
def full_compare_value (host : Endian) : List KeySpec → Bytes → Bytes → Int
  | [], _, _ => 0
  | key :: rest, a, b =>
    if full_ordered_field_value host key a b ≠ 0 then full_ordered_field_value host key a b
    else full_compare_value host rest a b

/-- The record itself when none of its float keys holds a NaN, and the empty record (whose
float keys all read as 0) otherwise. -/
def nan_cleared (host : Endian) (keys : List KeySpec) (data : Bytes) : Bytes :=
  if nan_free host keys data then data else []

/-! ## Bytes and integers -/

theorem fetch_succ (p : Bytes) (n : Nat) : fetch p (n + 1) = peek p 0 :: fetch p.tail n := by
  cases p <;> simp [fetch, peek]

theorem fetch_length (p : Bytes) (n : Nat) : (fetch p n).length = n := by
  induction n generalizing p with
  | zero => cases p <;> simp [fetch]
  | succ n ih => rw [fetch_succ]; simp [ih]

theorem peek_tail (p : Bytes) (i : Nat) : peek p.tail i = peek p (i + 1) := by
  cases p <;> simp [peek]

theorem peek_drop (p : Bytes) (k i : Nat) : peek (p.drop k) i = peek p (k + i) := by
  simp [peek, List.getD_eq_getElem?_getD, List.getElem?_drop]

theorem fetch_eq_self (p : Bytes) : fetch p p.length = p := by
  induction p with
  | nil => simp [fetch]
  | cons b bs ih => simp [fetch, ih]


theorem load_little_fetch (p : Bytes) (n : Nat) :
    load .little (fetch p n) = ∑ i in Finset.range n, (peek p i).val * 256 ^ i := by
  induction n generalizing p with
  | zero => cases p <;> simp [fetch, load]
  | succ n ih =>
    rw [fetch_succ, Finset.sum_range_succ']
    have h := ih p.tail
    simp only [load, List.foldr_cons] at h ⊢
    rw [h, Finset.mul_sum]
    simp only [peek_tail, pow_succ, pow_zero, mul_one]
    rw [add_comm]
    congr 1
    apply Finset.sum_congr rfl
    intro i _
    ring

theorem foldl_big (bs : Bytes) (acc : Nat) :
    bs.foldl (fun acc b => 256 * acc + b.val) acc
      = acc * 256 ^ bs.length + bs.foldl (fun acc b => 256 * acc + b.val) 0 := by
  induction bs generalizing acc with
  | nil => simp
  | cons b bs ih =>
    simp only [List.foldl_cons, List.length_cons]
    rw [ih (256 * acc + b.val), ih (256 * 0 + b.val)]
    ring

theorem load_big_fetch (p : Bytes) (n : Nat) :
    load .big (fetch p n) = ∑ i in Finset.range n, (peek p i).val * 256 ^ (n - 1 - i) := by
  induction n generalizing p with
  | zero => cases p <;> simp [fetch, load]
  | succ n ih =>
    rw [fetch_succ, Finset.sum_range_succ']
    have h := ih p.tail
    simp only [load, List.foldl_cons] at h ⊢
    rw [foldl_big, h, fetch_length]
    simp only [peek_tail, mul_zero, zero_add, Nat.add_sub_cancel, Nat.sub_zero]
    rw [add_comm]
    congr 1
    apply Finset.sum_congr rfl
    intro i hi
    have : n - (i + 1) = n - 1 - i := by omega
    rw [this]

theorem bswap_load_little (bs : Bytes) :
    bswap bs.length (load .little bs) = load .big bs := by
  induction bs with
  | nil => simp [bswap, load]
  | cons b bs ih =>
    have hb := b.isLt
    simp only [load, List.length_cons, bswap, List.foldr_cons, List.foldl_cons] at ih ⊢
    rw [foldl_big]
    have h1 : (b.val + 256 * List.foldr (fun b acc => b.val + 256 * acc) 0 bs) % 256 = b.val := by
      omega
    have h2 : (b.val + 256 * List.foldr (fun b acc => b.val + 256 * acc) 0 bs) / 256
        = List.foldr (fun b acc => b.val + 256 * acc) 0 bs := by
      omega
    rw [h1, h2, ih]
    simp

theorem load_big_eq_little_reverse (bs : Bytes) : load .big bs = load .little bs.reverse := by
  simp only [load, List.foldr_reverse]
  congr 1
  funext acc b
  ring

theorem bswap_load_big (bs : Bytes) :
    bswap bs.length (load .big bs) = load .little bs := by
  have h := bswap_load_little bs.reverse
  rw [List.length_reverse, ← load_big_eq_little_reverse] at h
  rw [h, load_big_eq_little_reverse, List.reverse_reverse]

/-- Whatever the byte order of the machine, the little-endian readers return the
little-endian value of the bytes. -/
theorem read_le_eq (host : Endian) (p : Bytes) :
    RecordView.read_le16 host p = ∑ i in Finset.range 2, (peek p i).val * 256 ^ i
    ∧ RecordView.read_le32 host p = ∑ i in Finset.range 4, (peek p i).val * 256 ^ i
    ∧ RecordView.read_le64 host p = ∑ i in Finset.range 8, (peek p i).val * 256 ^ i := by
  have h2 := bswap_load_big (fetch p 2)
  have h4 := bswap_load_big (fetch p 4)
  have h8 := bswap_load_big (fetch p 8)
  rw [fetch_length] at h2 h4 h8
  cases host
  · simp [RecordView.read_le16, RecordView.read_le32, RecordView.read_le64, load_little_fetch]
  · simp only [RecordView.read_le16, RecordView.read_le32, RecordView.read_le64, if_true, h2, h4,
      h8, load_little_fetch]
    simp

/-- Whatever the byte order of the machine, the big-endian readers return the
big-endian value of the bytes. -/
theorem read_be_eq (host : Endian) (p : Bytes) :
    RecordView.read_be16 host p = ∑ i in Finset.range 2, (peek p i).val * 256 ^ (2 - 1 - i)
    ∧ RecordView.read_be32 host p = ∑ i in Finset.range 4, (peek p i).val * 256 ^ (4 - 1 - i)
    ∧ RecordView.read_be64 host p = ∑ i in Finset.range 8, (peek p i).val * 256 ^ (8 - 1 - i) := by
  have h2 := bswap_load_little (fetch p 2)
  have h4 := bswap_load_little (fetch p 4)
  have h8 := bswap_load_little (fetch p 8)
  rw [fetch_length] at h2 h4 h8
  cases host
  · simp only [RecordView.read_be16, RecordView.read_be32, RecordView.read_be64, if_true, h2, h4,
      h8, load_big_fetch]
    simp
  · simp [RecordView.read_be16, RecordView.read_be32, RecordView.read_be64, load_big_fetch]

theorem static_cast_signed_16 (u : Nat) (h : u < 2 ^ 16) :
    static_cast_signed 16 u = if u < 2 ^ 15 then (u : Int) else (u : Int) - 2 ^ 16 := by
  unfold static_cast_signed
  norm_num at h ⊢
  split <;> omega

theorem static_cast_signed_32 (u : Nat) (h : u < 2 ^ 32) :
    static_cast_signed 32 u = if u < 2 ^ 31 then (u : Int) else (u : Int) - 2 ^ 32 := by
  unfold static_cast_signed
  norm_num at h ⊢
  split <;> omega

theorem static_cast_signed_64 (u : Nat) (h : u < 2 ^ 64) :
    static_cast_signed 64 u = if u < 2 ^ 63 then (u : Int) else (u : Int) - 2 ^ 64 := by
  unfold static_cast_signed
  norm_num at h ⊢
  split <;> omega

theorem offset_eq (k : KeySpec) (h1 : 1 ≤ k.position) (h2 : k.position ≤ size_mod) :
    k.offset = k.position - 1 := by
  unfold KeySpec.offset size_mod at *
  omega



/-! ## The record model and the reference comparator -/

theorem bounds_check_passes (spec : KeySpec) (length : Nat) (h1 : 1 ≤ spec.position)
    (h2 : spec.position - 1 + spec.length ≤ length) (h3 : length < size_mod) :
    ¬ ((spec.offset + spec.length) % size_mod > length) := by
  unfold KeySpec.offset size_mod at *
  omega

theorem extract_key_integer (host : Endian) (v : RecordView) (spec : KeySpec)
    (h : spec.integer_inside v.length) :
    v.extract_key host spec = .ok (signed_key_value spec v.data)
    ∧ -(2 : Int) ^ (8 * spec.length - 1) ≤ signed_key_value spec v.data
    ∧ signed_key_value spec v.data < 2 ^ (8 * spec.length - 1) := by
  obtain ⟨hty, hw, hpos, hin, hlen⟩ := h
  have hoff : spec.offset = spec.position - 1 := by
    apply offset_eq _ hpos
    omega
  have hb := bounds_check_passes spec v.length hpos hin hlen
  have b0 := (peek v.data (spec.position - 1 + 0)).isLt
  have b1 := (peek v.data (spec.position - 1 + 1)).isLt
  have b2 := (peek v.data (spec.position - 1 + 2)).isLt
  have b3 := (peek v.data (spec.position - 1 + 3)).isLt
  have b4 := (peek v.data (spec.position - 1 + 4)).isLt
  have b5 := (peek v.data (spec.position - 1 + 5)).isLt
  have b6 := (peek v.data (spec.position - 1 + 6)).isLt
  have b7 := (peek v.data (spec.position - 1 + 7)).isLt
  obtain ⟨l2, l4, l8⟩ := read_le_eq host (v.data.drop (spec.position - 1))
  obtain ⟨g2, g4, g8⟩ := read_be_eq host (v.data.drop (spec.position - 1))
  simp only [Finset.sum_range_succ, Finset.sum_range_zero, peek_drop] at l2 l4 l8 g2 g4 g8
  norm_num at l2 l4 l8 g2 g4 g8
  unfold RecordView.extract_key
  rw [if_neg hb, hoff]
  rcases hty with hty | hty <;> rcases hw with hw | hw | hw <;>
    simp only [hty, hw, signed_key_value, unsigned_key_value, key_byte, Finset.sum_range_succ,
      Finset.sum_range_zero, reduceCtorEq, if_false, if_true, l2, l4, l8, g2, g4, g8] <;>
    norm_num
  all_goals simp only [Nat.add_zero] at b0
  all_goals
    first
    | rw [static_cast_signed_16 _ (by norm_num; omega)]
    | rw [static_cast_signed_32 _ (by norm_num; omega)]
    | rw [static_cast_signed_64 _ (by norm_num; omega)]
  all_goals norm_num
  all_goals refine ⟨?_, ?_⟩ <;> split_ifs <;> omega



theorem compare_field_integer (host : Endian) (key : KeySpec) (a b : RecordView)
    (ha : key.integer_inside a.length) (hb : key.integer_inside b.length) :
    RecordComparator.compare_field host key a b = .ok (field_value key a.data b.data) := by
  have h1 := (extract_key_integer host a key ha).1
  have h2 := (extract_key_integer host b key hb).1
  have hty := ha.1
  unfold RecordComparator.compare_field field_value
  rcases hty with hty | hty <;> simp [hty, h1, h2]

theorem compare_field_character (host : Endian) (key : KeySpec) (a b : RecordView)
    (hty : key.type = .Character) (h1 : 1 ≤ key.position) (h2 : key.position ≤ size_mod) :
    RecordComparator.compare_field host key a b = .ok (field_value key a.data b.data) := by
  unfold RecordComparator.compare_field field_value
  simp [hty, offset_eq key h1 h2]

theorem compare_field_inside (host : Endian) (key : KeySpec) (a b : Bytes) (L : Nat)
    (h : key.inside L) :
    RecordComparator.compare_field host key ⟨a, L⟩ ⟨b, L⟩ = .ok (field_value key a b) := by
  obtain ⟨h1, h2, h3, h4⟩ := h
  rcases h4 with h4 | ⟨h4, h5⟩
  · exact compare_field_character host key _ _ h4 h1 (by omega)
  · exact compare_field_integer host key ⟨a, L⟩ ⟨b, L⟩ ⟨h4, h5, h1, h2, h3⟩ ⟨h4, h5, h1, h2, h3⟩

theorem compare_value_cons (key : KeySpec) (rest : List KeySpec) (a b : Bytes) :
    compare_value (key :: rest) a b
      = if ordered_field_value key a b ≠ 0 then ordered_field_value key a b
        else compare_value rest a b := rfl

theorem compare_of_fields (host : Endian) (keys : List KeySpec) (a b : RecordView)
    (h : ∀ k ∈ keys,
      RecordComparator.compare_field host k a b = .ok (field_value k a.data b.data)) :
    RecordComparator.compare host keys a b = .ok (compare_value keys a.data b.data) := by
  induction keys with
  | nil => rfl
  | cons key rest ih =>
    have hk := h key (List.mem_cons_self _ _)
    have ih := ih (fun k hk => h k (List.mem_cons_of_mem _ hk))
    unfold RecordComparator.compare
    rw [hk, compare_value_cons]
    unfold ordered_field_value
    by_cases hd : key.order = .Descending <;> by_cases hz : field_value key a.data b.data = 0 <;>
      simp [hd, hz, ih]

theorem compare_inside (host : Endian) (keys : List KeySpec) (a b : Bytes) (L : Nat)
    (h : ∀ k ∈ keys, k.inside L) :
    RecordComparator.compare host keys ⟨a, L⟩ ⟨b, L⟩ = .ok (compare_value keys a b) :=
  compare_of_fields host keys ⟨a, L⟩ ⟨b, L⟩
    (fun k hk => compare_field_inside host k a b L (h k hk))

theorem interpreted_compare_eq (host : Endian) (keys : List KeySpec) (R : Nat)
    (h : ∀ k ∈ keys, k.comparable R) :
    interpreted_compare_wrapper host (InterpretedComparator.wrap keys)
      = pure_compare (compare_value keys) := by
  funext a b
  unfold interpreted_compare_wrapper InterpretedComparator.wrap InterpretedComparator.compare
    pure_compare
  simp only
  apply compare_of_fields host keys ⟨a, 1000000⟩ ⟨b, 1000000⟩
  intro k hk
  obtain ⟨⟨h1, h2, h3, h4⟩, h5⟩ := h k hk
  rcases h4 with h4 | ⟨h4, h6⟩
  · exact compare_field_character host k _ _ h4 h1 (by omega)
  · have h7 : k.position - 1 + k.length ≤ 1000000 := by
      rcases h5 with h5 | h5
      · rcases h4 with h4 | h4 <;> rw [h4] at h5 <;> simp at h5
      · exact h5
    have hm : 1000000 < size_mod := by decide
    exact compare_field_integer host k ⟨a, 1000000⟩ ⟨b, 1000000⟩
      ⟨h4, h6, h1, h7, hm⟩ ⟨h4, h6, h1, h7, hm⟩

theorem memcmp_eq_zero (pa pb : Bytes) (n : Nat) (h : ∀ i, i < n → peek pa i = peek pb i) :
    memcmp pa pb n = 0 := by
  induction n generalizing pa pb with
  | zero => simp [memcmp]
  | succ n ih =>
    unfold memcmp
    rw [if_neg (by simpa using h 0 (by omega))]
    apply ih
    intro i hi
    rw [peek_tail, peek_tail]
    exact h (i + 1) (by omega)

theorem memcmp_first_difference (pa pb : Bytes) (n j : Nat) (hj : j < n)
    (h : ∀ i, i < j → peek pa i = peek pb i) (hne : peek pa j ≠ peek pb j) :
    memcmp pa pb n = ((peek pa j).val : Int) - ((peek pb j).val : Int) := by
  induction n generalizing pa pb j with
  | zero => omega
  | succ n ih =>
    unfold memcmp
    cases j with
    | zero => rw [if_pos hne]
    | succ j =>
      rw [if_neg (by simpa using h 0 (by omega))]
      rw [ih pa.tail pb.tail j (by omega)]
      · rw [peek_tail, peek_tail]
      · intro i hi
        rw [peek_tail, peek_tail]
        exact h (i + 1) (by omega)
      · rw [peek_tail, peek_tail]
        exact hne

theorem load_big_cons (b : Byte) (bs : Bytes) :
    load .big (b :: bs) = b.val * 256 ^ bs.length + load .big bs := by
  simp only [load, List.foldl_cons]
  rw [foldl_big]
  simp

theorem load_big_lt (bs : Bytes) : load .big bs < 256 ^ bs.length := by
  induction bs with
  | nil => simp [load]
  | cons b bs ih =>
    rw [load_big_cons, List.length_cons, pow_succ]
    have := b.isLt
    nlinarith

theorem memcmp_sign (pa pb : Bytes) (n : Nat) :
    (memcmp pa pb n < 0 ↔ load .big (fetch pa n) < load .big (fetch pb n))
    ∧ (memcmp pa pb n = 0 ↔ load .big (fetch pa n) = load .big (fetch pb n)) := by
  induction n generalizing pa pb with
  | zero => cases pa <;> cases pb <;> simp [memcmp, fetch, load]
  | succ n ih =>
    obtain ⟨ih1, ih2⟩ := ih pa.tail pb.tail
    have la := load_big_lt (fetch pa.tail n)
    have lb := load_big_lt (fetch pb.tail n)
    rw [fetch_length] at la lb
    unfold memcmp
    rw [fetch_succ, fetch_succ, load_big_cons, load_big_cons, fetch_length, fetch_length]
    have hpos : 0 < 256 ^ n := by positivity
    by_cases hne : peek pa 0 = peek pb 0
    · rw [if_neg (by simpa using hne), hne, ih1, ih2]
      constructor <;> constructor <;> intro h <;> omega
    · rw [if_pos hne]
      have hv : (peek pa 0).val ≠ (peek pb 0).val := fun h => hne (Fin.ext h)
      rcases Nat.lt_or_gt_of_ne hv with hlt | hgt
      · have : (peek pa 0).val * 256 ^ n + 256 ^ n ≤ (peek pb 0).val * 256 ^ n := by nlinarith
        constructor <;> constructor <;> intro h <;> omega
      · have : (peek pb 0).val * 256 ^ n + 256 ^ n ≤ (peek pa 0).val * 256 ^ n := by nlinarith
        constructor <;> constructor <;> intro h <;> omega

theorem field_value_rank (key : KeySpec) (a b : Bytes) :
    (ordered_field_value key a b < 0 ↔ key_rank key a < key_rank key b)
    ∧ (ordered_field_value key a b = 0 ↔ key_rank key a = key_rank key b) := by
  unfold ordered_field_value field_value key_rank
  by_cases hc : key.type = .Character
  · obtain ⟨h1, h2⟩ := memcmp_sign (a.drop (key.position - 1)) (b.drop (key.position - 1))
      key.length
    simp only [hc, if_true]
    split_ifs
    · constructor
      · constructor <;> intro h <;> omega
      · constructor <;> intro h <;> omega
    · constructor
      · constructor <;> intro h <;> omega
      · constructor <;> intro h <;> omega
  · simp only [hc, if_false]
    generalize signed_key_value key a = va
    generalize signed_key_value key b = vb
    split_ifs <;> constructor <;> constructor <;> intro h <;> first | omega | contradiction

/-- The lexicographic value is a total preorder on records in sign form: it is 0 on a record
and itself, it changes sign when its arguments are exchanged, and `≤ 0` is transitive. -/
theorem compare_value_preorder (keys : List KeySpec) :
    (∀ a, compare_value keys a a = 0)
    ∧ (∀ a b, (compare_value keys a b < 0 ↔ 0 < compare_value keys b a))
    ∧ (∀ a b c, compare_value keys a b ≤ 0 → compare_value keys b c ≤ 0
        → compare_value keys a c ≤ 0) := by
  induction keys with
  | nil => simp [compare_value]
  | cons key rest ih =>
    obtain ⟨ih1, ih2, ih3⟩ := ih
    refine ⟨?_, ?_, ?_⟩
    · intro a
      have h := (field_value_rank key a a).2
      rw [compare_value_cons, if_neg (by simpa using h.2 rfl)]
      exact ih1 a
    · intro a b
      obtain ⟨hab1, hab2⟩ := field_value_rank key a b
      obtain ⟨hba1, hba2⟩ := field_value_rank key b a
      have := ih2 a b
      rw [compare_value_cons, compare_value_cons]
      generalize ordered_field_value key a b = x at *
      generalize ordered_field_value key b a = y at *
      split_ifs <;> omega
    · intro a b c
      obtain ⟨hab1, hab2⟩ := field_value_rank key a b
      obtain ⟨hbc1, hbc2⟩ := field_value_rank key b c
      obtain ⟨hac1, hac2⟩ := field_value_rank key a c
      have := ih3 a b c
      rw [compare_value_cons, compare_value_cons, compare_value_cons]
      generalize ordered_field_value key a b = x at *
      generalize ordered_field_value key b c = y at *
      generalize ordered_field_value key a c = z at *
      split_ifs <;> omega



/-! ## Claims about the record model and the reference comparator -/

/-- C4: `RecordComparator::compare` is the lexicographic comparison over the key list. When
the key list is `before ++ key :: after`, every key of `before` has field comparison 0 and
`key` has a field comparison `c ≠ 0`, the result is `c`, negated when `key` is descending,
whatever the keys of `after` hold; when every key has field comparison 0 the result is 0.
On the records (1,9), (1,1), (2,5) of scenarios S2 and S3 the comparator orders
(1,1) < (1,9) < (2,5) for two ascending keys and (1,9) < (1,1) < (2,5) when the second key
is descending. -/
theorem compare_is_lexicographic (host : Endian) (keys : List KeySpec) (a b : RecordView) :
    (∀ (before after : List KeySpec) (key : KeySpec) (c : Int),
        keys = before ++ key :: after →
        (∀ k ∈ before, RecordComparator.compare_field host k a b = .ok 0) →
        RecordComparator.compare_field host key a b = .ok c → c ≠ 0 →
        RecordComparator.compare host keys a b
          = .ok (if key.order = .Descending then -c else c))
    ∧ ((∀ k ∈ keys, RecordComparator.compare_field host k a b = .ok 0) →
        RecordComparator.compare host keys a b = .ok 0)
    ∧ RecordComparator.compare host
        [⟨1, 4, .LittleEndianInt, .Ascending⟩, ⟨5, 4, .LittleEndianInt, .Ascending⟩]
        ⟨[1, 0, 0, 0, 1, 0, 0, 0, 0, 0, 0, 0, 0, 0, 0, 0], 16⟩
        ⟨[1, 0, 0, 0, 9, 0, 0, 0, 0, 0, 0, 0, 0, 0, 0, 0], 16⟩ = .ok (-1)
    ∧ RecordComparator.compare host
        [⟨1, 4, .LittleEndianInt, .Ascending⟩, ⟨5, 4, .LittleEndianInt, .Ascending⟩]
        ⟨[1, 0, 0, 0, 9, 0, 0, 0, 0, 0, 0, 0, 0, 0, 0, 0], 16⟩
        ⟨[2, 0, 0, 0, 5, 0, 0, 0, 0, 0, 0, 0, 0, 0, 0, 0], 16⟩ = .ok (-1)
    ∧ RecordComparator.compare host
        [⟨1, 4, .LittleEndianInt, .Ascending⟩, ⟨5, 4, .LittleEndianInt, .Descending⟩]
        ⟨[1, 0, 0, 0, 9, 0, 0, 0, 0, 0, 0, 0, 0, 0, 0, 0], 16⟩
        ⟨[1, 0, 0, 0, 1, 0, 0, 0, 0, 0, 0, 0, 0, 0, 0, 0], 16⟩ = .ok (-1)
    ∧ RecordComparator.compare host
        [⟨1, 4, .LittleEndianInt, .Ascending⟩, ⟨5, 4, .LittleEndianInt, .Descending⟩]
        ⟨[1, 0, 0, 0, 1, 0, 0, 0, 0, 0, 0, 0, 0, 0, 0, 0], 16⟩
        ⟨[2, 0, 0, 0, 5, 0, 0, 0, 0, 0, 0, 0, 0, 0, 0, 0], 16⟩ = .ok (-1) := by
  refine ⟨?_, ?_, ?_, ?_, ?_, ?_⟩
  · intro before
    induction before generalizing keys with
    | nil =>
      intro after key c hk _ hkey hc
      subst hk
      simp only [List.nil_append]
      unfold RecordComparator.compare
      rw [hkey]
      by_cases hd : key.order = .Descending <;> simp [hd, hc]
    | cons k before ih =>
      intro after key c hk hbefore hkey hc
      subst hk
      simp only [List.cons_append]
      unfold RecordComparator.compare
      rw [hbefore k (List.mem_cons_self _ _)]
      simp only [neg_zero, ite_self, ne_eq, not_true_eq_false, if_false]
      exact ih _ after key c rfl (fun k' hk' => hbefore k' (List.mem_cons_of_mem _ hk')) hkey hc
  · intro h
    induction keys with
    | nil => rfl
    | cons k rest ih =>
      unfold RecordComparator.compare
      rw [h k (List.mem_cons_self _ _)]
      simp only [neg_zero, ite_self, ne_eq, not_true_eq_false, if_false]
      exact ih (fun k' hk' => h k' (List.mem_cons_of_mem _ hk'))
  all_goals cases host <;> rfl

/-- Witness for C4 on scenario S3: the first key compares equal, the descending second key
decides. -/
theorem compare_is_lexicographic_witness :
    RecordComparator.compare .little
        [⟨1, 4, .LittleEndianInt, .Ascending⟩, ⟨5, 4, .LittleEndianInt, .Descending⟩]
        ⟨[1, 0, 0, 0, 9, 0, 0, 0, 0, 0, 0, 0, 0, 0, 0, 0], 16⟩
        ⟨[1, 0, 0, 0, 1, 0, 0, 0, 0, 0, 0, 0, 0, 0, 0, 0], 16⟩
      = .ok (if SortOrder.Descending = .Descending then -1 else 1) :=
  (compare_is_lexicographic .little _ _ _).1 [⟨1, 4, .LittleEndianInt, .Ascending⟩] []
    ⟨5, 4, .LittleEndianInt, .Descending⟩ 1 rfl (by decide) (by decide) (by decide)

/-- C5: for an integer key of width 2, 4 or 8 inside the record, `RecordView::extract_key`
returns the two-complement signed value of the key bytes read in the byte order of the key,
which lies in `[-2^(8w-1), 2^(8w-1))`; the big-endian field 00 00 00 01 decodes to 1 and
00 00 01 00 to 256. -/
theorem extract_key_twos_complement (host : Endian) (v : RecordView) (spec : KeySpec)
    (h : spec.integer_inside v.length) :
    v.extract_key host spec = .ok (signed_key_value spec v.data)
    ∧ -(2 : Int) ^ (8 * spec.length - 1) ≤ signed_key_value spec v.data
    ∧ signed_key_value spec v.data < 2 ^ (8 * spec.length - 1)
    ∧ (⟨[0, 0, 0, 1], 4⟩ : RecordView).extract_key host ⟨1, 4, .BigEndianInt, .Ascending⟩
        = .ok 1
    ∧ (⟨[0, 0, 1, 0], 4⟩ : RecordView).extract_key host ⟨1, 4, .BigEndianInt, .Ascending⟩
        = .ok 256 := by
  obtain ⟨h1, h2, h3⟩ := extract_key_integer host v spec h
  refine ⟨h1, h2, h3, ?_, ?_⟩ <;> cases host <;> rfl

/-- Witness for C5: an 8-byte little-endian key at position 2 of a 9-byte record. -/
theorem extract_key_twos_complement_witness :
    (⟨[7, 1, 0, 0, 0, 0, 0, 0, 128], 9⟩ : RecordView).extract_key .big
        ⟨2, 8, .LittleEndianInt, .Ascending⟩
      = .ok (signed_key_value ⟨2, 8, .LittleEndianInt, .Ascending⟩ [7, 1, 0, 0, 0, 0, 0, 0, 128]) :=
  (extract_key_twos_complement .big ⟨[7, 1, 0, 0, 0, 0, 0, 0, 128], 9⟩
    ⟨2, 8, .LittleEndianInt, .Ascending⟩
    ⟨by decide, by decide, by decide, by decide, by decide⟩).1

theorem msb_decides_sign (spec : KeySpec) (data : Bytes)
    (hty : spec.type = .LittleEndianInt ∨ spec.type = .BigEndianInt)
    (hw : spec.length = 2 ∨ spec.length = 4 ∨ spec.length = 8) :
    (key_msb_set spec data → signed_key_value spec data < 0)
    ∧ (¬ key_msb_set spec data → 0 ≤ signed_key_value spec data) := by
  have b0 := (peek data (spec.position - 1 + 0)).isLt
  have b1 := (peek data (spec.position - 1 + 1)).isLt
  have b2 := (peek data (spec.position - 1 + 2)).isLt
  have b3 := (peek data (spec.position - 1 + 3)).isLt
  have b4 := (peek data (spec.position - 1 + 4)).isLt
  have b5 := (peek data (spec.position - 1 + 5)).isLt
  have b6 := (peek data (spec.position - 1 + 6)).isLt
  have b7 := (peek data (spec.position - 1 + 7)).isLt
  simp only [Nat.add_zero] at b0
  rcases hty with hty | hty <;> rcases hw with hw | hw | hw <;>
    simp only [hty, hw, signed_key_value, unsigned_key_value, key_byte, key_msb_set,
      Finset.sum_range_succ, Finset.sum_range_zero, reduceCtorEq, if_false, if_true] <;>
    norm_num <;>
    constructor <;> intro hm <;> split_ifs <;> omega

/-- C6: for an ascending integer key of width 2, 4 or 8 inside both records, when the most
significant bit of the key of `a` is set and that of `b` is clear, the comparator with this
key first returns a negative value: a negative key sorts before a non-negative one. -/
theorem negative_key_sorts_first (host : Endian) (key : KeySpec) (rest : List KeySpec)
    (a b : RecordView) (hasc : key.order = .Ascending)
    (ha : key.integer_inside a.length) (hb : key.integer_inside b.length)
    (hma : key_msb_set key a.data) (hmb : ¬ key_msb_set key b.data) :
    ∃ c, RecordComparator.compare host (key :: rest) a b = .ok c ∧ c < 0 := by
  have hf := compare_field_integer host key a b ha hb
  have hna := (msb_decides_sign key a.data ha.1 ha.2.1).1 hma
  have hnb := (msb_decides_sign key b.data ha.1 ha.2.1).2 hmb
  have hty : ¬ key.type = .Character := by
    rcases ha.1 with h | h <;> simp [h]
  have hv : field_value key a.data b.data = -1 := by
    unfold field_value
    rw [if_neg hty, if_pos (by omega)]
  refine ⟨-1, ?_, by omega⟩
  unfold RecordComparator.compare
  rw [hf, hv]
  simp [hasc]

/-- Witness for C6: the 4-byte little-endian field FF FF FF FF against 01 00 00 00. -/
theorem negative_key_sorts_first_witness :
    ∃ c, RecordComparator.compare .little [⟨1, 4, .LittleEndianInt, .Ascending⟩]
      ⟨[255, 255, 255, 255], 4⟩ ⟨[1, 0, 0, 0], 4⟩ = .ok c ∧ c < 0 :=
  negative_key_sorts_first .little ⟨1, 4, .LittleEndianInt, .Ascending⟩ []
    ⟨[255, 255, 255, 255], 4⟩ ⟨[1, 0, 0, 0], 4⟩ rfl
    ⟨by decide, by decide, by decide, by decide, by decide⟩
    ⟨by decide, by decide, by decide, by decide, by decide⟩
    (by decide) (by decide)

/-- C7: for an ascending Character key of length `L` at position `p`, the comparator returns
0 when the records agree on all `L` key bytes, and otherwise a value with the sign of
`a[j] - b[j]`, bytes taken as numbers in 0..255, at the smallest index `j` of the key where
the records differ; every one of the `L` bytes takes part. -/
theorem character_key_compare (host : Endian) (key : KeySpec) (a b : RecordView)
    (hty : key.type = .Character) (hasc : key.order = .Ascending)
    (h1 : 1 ≤ key.position) (h2 : key.position < size_mod) :
    ((∀ i, i < key.length → key_byte key a.data i = key_byte key b.data i) →
      RecordComparator.compare host [key] a b = .ok 0)
    ∧ (∀ j, j < key.length →
        (∀ i, i < j → key_byte key a.data i = key_byte key b.data i) →
        key_byte key a.data j ≠ key_byte key b.data j →
        ∃ c, RecordComparator.compare host [key] a b = .ok c
          ∧ Int.sign c = Int.sign ((key_byte key a.data j : Int) - (key_byte key b.data j : Int))) := by
  have hf := compare_field_character host key a b hty h1 (by omega)
  have hcmp : RecordComparator.compare host [key] a b
      = .ok (memcmp (a.data.drop (key.position - 1)) (b.data.drop (key.position - 1))
          key.length) := by
    unfold RecordComparator.compare
    rw [hf]
    unfold field_value
    simp only [hty, hasc, if_true, reduceCtorEq, if_false]
    split
    · rfl
    · rename_i hz
      simp only [ne_eq, not_not] at hz
      simp [RecordComparator.compare, hz]
  constructor
  · intro h
    rw [hcmp, memcmp_eq_zero]
    intro i hi
    have := h i hi
    unfold key_byte at this
    rw [peek_drop, peek_drop]
    exact Fin.ext this
  · intro j hj h hne
    refine ⟨_, hcmp, ?_⟩
    rw [memcmp_first_difference _ _ key.length j hj]
    · simp only [key_byte, peek_drop]
    · intro i hi
      have := h i hi
      unfold key_byte at this
      rw [peek_drop, peek_drop]
      exact Fin.ext this
    · intro heq
      apply hne
      unfold key_byte
      rw [peek_drop, peek_drop] at heq
      rw [heq]

/-- Witness for C7: two records that agree on the first byte of a 2-byte key and differ in
the second. -/
theorem character_key_compare_witness :
    ∃ c, RecordComparator.compare .little [⟨2, 2, .Character, .Ascending⟩]
        ⟨[9, 200, 3], 3⟩ ⟨[0, 200, 5], 3⟩ = .ok c
      ∧ Int.sign c
        = Int.sign ((key_byte ⟨2, 2, .Character, .Ascending⟩ [9, 200, 3] 1 : Int)
            - (key_byte ⟨2, 2, .Character, .Ascending⟩ [0, 200, 5] 1 : Int)) :=
  (character_key_compare .little ⟨2, 2, .Character, .Ascending⟩ ⟨[9, 200, 3], 3⟩
    ⟨[0, 200, 5], 3⟩ rfl rfl (by decide) (by decide)).2 1 (by decide)
    (by decide) (by decide)



/-! ## Records, `memcpy` and `swap_records` -/

theorem fetch_append_left (x y : Bytes) : fetch (x ++ y) x.length = x := by
  induction x with
  | nil => cases y <;> simp [fetch]
  | cons b bs ih => simp [fetch, ih]

theorem memcpy_full (dst src : Bytes) (n : Nat) (hs : src.length = n) (hd : dst.length ≤ n) :
    memcpy dst src n = src := by
  unfold memcpy
  subst hs
  rw [fetch_eq_self, List.drop_eq_nil_of_le hd, List.append_nil]

theorem memcpy_through_buffer (dst buffer x : Bytes) (n : Nat) (hx : x.length = n)
    (hd : dst.length ≤ n) : memcpy dst (memcpy buffer x n) n = x := by
  unfold memcpy
  subst hx
  rw [fetch_eq_self, fetch_append_left, List.drop_eq_nil_of_le hd, List.append_nil]

theorem record_at_lt (data : Region) (i : Nat) (h : i < data.length) :
    record_at data i = data[i] := by
  simp [record_at, List.getD_eq_getElem?_getD, List.getElem?_eq_getElem h]

theorem record_at_mem (data : Region) (i : Nat) (h : i < data.length) :
    record_at data i ∈ data := by
  rw [record_at_lt data i h]
  exact List.getElem_mem h

theorem record_at_length (R : Nat) (data : Region) (hwf : Region.wf R data) (i : Nat)
    (h : i < data.length) : (record_at data i).length = R :=
  hwf _ (record_at_mem data i h)

theorem record_at_set (data : Region) (i k : Nat) (x : Bytes) (h : i < data.length) :
    record_at (data.set i x) k = if k = i then x else record_at data k := by
  unfold record_at
  simp only [List.getD_eq_getElem?_getD, List.getElem?_set]
  by_cases hk : k = i
  · subst hk
    simp [h]
  · have : ¬ i = k := fun h => hk h.symm
    simp [hk, this]

theorem swap_records_eq (R : Nat) (data : Region) (a b : Nat) (hwf : Region.wf R data)
    (ha : a < data.length) (hb : b < data.length) :
    RecordQuickSort.swap_records R data a b = swap_list data a b := by
  have la := record_at_length R data hwf a ha
  have lb := record_at_length R data hwf b hb
  have e1 : memcpy (record_at data a) (record_at data b) R = record_at data b :=
    memcpy_full _ _ _ lb (by omega)
  have hlen : (record_at (data.set a (record_at data b)) b).length ≤ R := by
    rw [record_at_set _ _ _ _ ha]
    split <;> omega
  unfold RecordQuickSort.swap_records swap_list
  simp only [e1]
  split
  · rw [memcpy_through_buffer _ _ _ _ la hlen]
  · rw [memcpy_through_buffer _ _ _ _ la hlen]

theorem swap_list_length (data : Region) (a b : Nat) :
    (swap_list data a b).length = data.length := by
  simp [swap_list]

theorem record_at_swap (data : Region) (a b k : Nat) (ha : a < data.length)
    (hb : b < data.length) :
    record_at (swap_list data a b) k
      = if k = b then record_at data a else if k = a then record_at data b
        else record_at data k := by
  unfold swap_list
  rw [record_at_set _ _ _ _ (by simpa using hb), record_at_set _ _ _ _ ha]

theorem set_set_perm {α : Type} [DecidableEq α] (l : List α) (a b : Nat) (ha : a < l.length)
    (hb : b < l.length) : ((l.set a l[b]).set b l[a]).Perm l := by
  rw [List.perm_iff_count]
  intro x
  have h2 : b < (l.set a l[b]).length := by simpa using hb
  rw [List.count_set _ _ _ _ h2, List.count_set _ _ _ _ ha]
  have hb' : (l.set a l[b])[b] = l[b] := by
    rw [List.getElem_set]
    split <;> rfl
  rw [hb']
  simp only [beq_iff_eq]
  have hc : (if l[a] = x then 1 else 0) ≤ l.count x := by
    split
    · rename_i h
      rw [← h]
      exact List.count_pos_iff.mpr (List.getElem_mem ha)
    · omega
  omega

theorem swap_list_perm (data : Region) (a b : Nat) (ha : a < data.length)
    (hb : b < data.length) : (swap_list data a b).Perm data := by
  unfold swap_list
  rw [record_at_lt data a ha, record_at_lt data b hb]
  exact set_set_perm data a b ha hb

theorem wf_of_perm (R : Nat) (data data' : Region) (h : data'.Perm data)
    (hwf : Region.wf R data) : Region.wf R data' :=
  fun r hr => hwf r (h.subset hr)

/-! ## `RecordQuickSort::partition` -/

theorem partition_loop_spec (R : Nat) (f : Bytes → Bytes → Int) (lo hi : Nat) :
    ∀ (n : Nat) (data : Region) (i1 j : Nat),
      Region.wf R data → hi < data.length → lo ≤ i1 → i1 ≤ j → j + n = hi →
      (∀ k, lo ≤ k → k < i1 → f (record_at data k) (record_at data hi) < 0) →
      (∀ k, i1 ≤ k → k < j → ¬ f (record_at data k) (record_at data hi) < 0) →
      ∃ (data' : Region) (p : Nat),
        RecordQuickSort.partition_loop R (pure_compare f) (hi : Int) n data
            ((i1 : Int) - 1) (j : Int) = .ok (data', (p : Int) - 1)
        ∧ lo ≤ p ∧ p ≤ hi ∧ data'.Perm data
        ∧ (∀ k, k < lo ∨ hi ≤ k → record_at data' k = record_at data k)
        ∧ (∀ k, lo ≤ k → k < hi →
            ∃ k', lo ≤ k' ∧ k' < hi ∧ record_at data' k = record_at data k')
        ∧ (∀ k, lo ≤ k → k < p → f (record_at data' k) (record_at data hi) < 0)
        ∧ (∀ k, p ≤ k → k < hi → ¬ f (record_at data' k) (record_at data hi) < 0) := by
  intro n
  induction n with
  | zero =>
    intro data i1 j _ _ hlo hij hn hL hR
    have hj : j = hi := by omega
    subst hj
    exact ⟨data, i1, rfl, hlo, hij, List.Perm.refl _, fun _ _ => rfl,
      fun k h1 h2 => ⟨k, h1, h2, rfl⟩, hL, hR⟩
  | succ n ih =>
    intro data i1 j hwf hhi hlo hij hn hL hR
    have hjlt : j < hi := by omega
    have e1 : ((i1 : Int) - 1 + 1).toNat = i1 := by simp
    have e2 : ((i1 : Int) - 1 + 1) = ((i1 + 1 : Nat) : Int) - 1 := by push_cast; ring
    have e3 : (j : Int) + 1 = ((j + 1 : Nat) : Int) := by push_cast; ring
    unfold RecordQuickSort.partition_loop
    simp only [pure_compare, Int.toNat_ofNat]
    by_cases hc : f (record_at data j) (record_at data hi) < 0
    · rw [if_pos hc, e1, e2, e3, swap_records_eq R data i1 j hwf (by omega) (by omega)]
      have hperm := swap_list_perm data i1 j (by omega) (by omega)
      have hrec : ∀ k, record_at (swap_list data i1 j) k
          = if k = j then record_at data i1 else if k = i1 then record_at data j
            else record_at data k :=
        fun k => record_at_swap data i1 j k (by omega) (by omega)
      have hpiv : record_at (swap_list data i1 j) hi = record_at data hi := by
        rw [hrec, if_neg (by omega), if_neg (by omega)]
      obtain ⟨data', p, hres, hp1, hp2, hp3, hfr, hor, hl, hr⟩ :=
        ih (swap_list data i1 j) (i1 + 1) (j + 1) (wf_of_perm R _ _ hperm hwf)
          (by rw [swap_list_length]; exact hhi) (by omega) (by omega) (by omega)
          (by
            intro k hk1 hk2
            rw [hpiv, hrec]
            by_cases hkj : k = j
            · rw [if_pos hkj]
              have : i1 = j := by omega
              rw [this]
              exact hc
            · rw [if_neg hkj]
              by_cases hki : k = i1
              · rw [if_pos hki]
                exact hc
              · rw [if_neg hki]
                exact hL k hk1 (by omega))
          (by
            intro k hk1 hk2
            rw [hpiv, hrec]
            by_cases hkj : k = j
            · rw [if_pos hkj]
              exact hR i1 (le_refl _) (by omega)
            · rw [if_neg hkj, if_neg (by omega)]
              exact hR k (by omega) (by omega))
      refine ⟨data', p, hres, by omega, hp2, hp3.trans hperm, ?_, ?_, ?_, ?_⟩
      · intro k hk
        rw [hfr k hk, hrec, if_neg (by omega), if_neg (by omega)]
      · intro k hk1 hk2
        obtain ⟨k', h1, h2, h3⟩ := hor k hk1 hk2
        rw [h3, hrec]
        by_cases hkj : k' = j
        · exact ⟨i1, hlo, by omega, by rw [if_pos hkj]⟩
        · by_cases hki : k' = i1
          · exact ⟨j, by omega, hjlt, by rw [if_neg hkj, if_pos hki]⟩
          · exact ⟨k', h1, h2, by rw [if_neg hkj, if_neg hki]⟩
      · intro k hk1 hk2
        rw [← hpiv]
        exact hl k (by omega) hk2
      · intro k hk1 hk2
        rw [← hpiv]
        exact hr k hk1 hk2
    · rw [if_neg hc, e3]
      obtain ⟨data', p, hres, hp1, hp2, hp3, hfr, hor, hl, hr⟩ :=
        ih data i1 (j + 1) hwf hhi hlo (by omega) (by omega) hL
          (by
            intro k hk1 hk2
            by_cases hkj : k = j
            · rw [hkj]
              exact hc
            · exact hR k hk1 (by omega))
      exact ⟨data', p, hres, hp1, hp2, hp3, hfr, hor, hl, hr⟩

theorem partition_spec (R : Nat) (f : Bytes → Bytes → Int) (data : Region) (lo hi : Nat)
    (hwf : Region.wf R data) (hhi : hi < data.length) (hlh : lo ≤ hi) :
    ∃ (data' : Region) (p : Nat),
      RecordQuickSort.partition R (pure_compare f) data (lo : Int) (hi : Int)
        = .ok (data', (p : Int))
      ∧ lo ≤ p ∧ p ≤ hi ∧ data'.Perm data
      ∧ (∀ k, k < lo ∨ hi < k → record_at data' k = record_at data k)
      ∧ (∀ k, lo ≤ k → k ≤ hi →
          ∃ k', lo ≤ k' ∧ k' ≤ hi ∧ record_at data' k = record_at data k')
      ∧ record_at data' p = record_at data hi
      ∧ (∀ k, lo ≤ k → k < p → f (record_at data' k) (record_at data hi) < 0)
      ∧ (∀ k, p < k → k ≤ hi → ¬ f (record_at data' k) (record_at data hi) < 0) := by
  obtain ⟨d1, p, hres, hp1, hp2, hp3, hfr, hor, hl, hr⟩ :=
    partition_loop_spec R f lo hi (hi - lo) data lo lo hwf hhi (le_refl _) (le_refl _)
      (by omega) (fun k h1 h2 => by omega) (fun k h1 h2 => by omega)
  have hlen : d1.length = data.length := hp3.length_eq
  have hwf1 := wf_of_perm R _ _ hp3 hwf
  have e0 : ((hi : Int) - (lo : Int)).toNat = hi - lo := by omega
  have e1 : ((p : Int) - 1 + 1).toNat = p := by simp
  have e2 : ((p : Int) - 1 + 1) = (p : Int) := by ring
  have hrec : ∀ k, record_at (swap_list d1 p hi) k
      = if k = hi then record_at d1 p else if k = p then record_at d1 hi
        else record_at d1 k :=
    fun k => record_at_swap d1 p hi k (by omega) (by omega)
  refine ⟨swap_list d1 p hi, p, ?_, hp1, hp2, (swap_list_perm d1 p hi (by omega) (by omega)).trans hp3,
    ?_, ?_, ?_, ?_, ?_⟩
  · unfold RecordQuickSort.partition
    rw [e0, hres]
    simp only [e1, e2, Int.toNat_ofNat]
    rw [swap_records_eq R d1 p hi hwf1 (by omega) (by omega)]
  · intro k hk
    rw [hrec, if_neg (by omega), if_neg (by omega)]
    exact hfr k (by omega)
  · intro k hk1 hk2
    rw [hrec]
    have horp : ∀ q, lo ≤ q → q ≤ hi →
        ∃ k', lo ≤ k' ∧ k' ≤ hi ∧ record_at d1 q = record_at data k' := by
      intro q hq1 hq2
      by_cases hq : q = hi
      · exact ⟨hi, hlh, le_refl _, by rw [hq]; exact hfr hi (Or.inr (le_refl _))⟩
      · obtain ⟨k', h1, h2, h3⟩ := hor q hq1 (by omega)
        exact ⟨k', h1, by omega, h3⟩
    by_cases hkh : k = hi
    · rw [if_pos hkh]
      exact horp p hp1 hp2
    · rw [if_neg hkh]
      by_cases hkp : k = p
      · rw [if_pos hkp]
        exact horp hi hlh (le_refl _)
      · rw [if_neg hkp]
        exact horp k hk1 hk2
  · rw [hrec]
    by_cases hph : p = hi
    · rw [if_pos hph, hph]
      exact hfr hi (Or.inr (le_refl _))
    · rw [if_neg hph, if_pos rfl]
      exact hfr hi (Or.inr (le_refl _))
  · intro k hk1 hk2
    rw [hrec, if_neg (by omega), if_neg (by omega)]
    exact hl k hk1 hk2
  · intro k hk1 hk2
    rw [hrec]
    by_cases hkh : k = hi
    · rw [if_pos hkh]
      exact hr p (le_refl _) (by omega)
    · rw [if_neg hkh, if_neg (by omega)]
      exact hr k (by omega) (by omega)

/-! ## `RecordQuickSort::quicksort` and `RecordQuickSort::sort` -/

theorem quicksort_done (R : Nat) (cmp : ComparisonFunc) (fuel : Nat) (data : Region)
    (low high : Int) (h : ¬ low < high) :
    RecordQuickSort.quicksort R cmp fuel data low high = .ok data := by
  cases fuel <;> simp [RecordQuickSort.quicksort, h]

/-- `quicksort` on the index range `[lo, e)`, called as `quicksort(data, lo, e - 1)` with a
budget of at least `e - lo`: it returns, the result is a permutation that leaves the records
outside the range in place, every record of the range comes from the range, and the range is
sorted when the comparison function is a total preorder. -/
theorem quicksort_spec (R : Nat) (f : Bytes → Bytes → Int) :
    ∀ (fuel : Nat) (data : Region) (lo e : Nat),
      Region.wf R data → e ≤ data.length → e - lo ≤ fuel →
      ∃ out : Region,
        RecordQuickSort.quicksort R (pure_compare f) fuel data (lo : Int) ((e : Int) - 1) = .ok out
        ∧ out.Perm data
        ∧ (∀ k, k < lo ∨ e ≤ k → record_at out k = record_at data k)
        ∧ (∀ k, lo ≤ k → k < e → ∃ k', lo ≤ k' ∧ k' < e ∧ record_at out k = record_at data k')
        ∧ ((∀ a b, ¬ f a b < 0 → f b a ≤ 0) → (∀ a b c, f a b ≤ 0 → f b c ≤ 0 → f a c ≤ 0) →
            ∀ k1 k2, lo ≤ k1 → k1 < k2 → k2 < e →
              f (record_at out k1) (record_at out k2) ≤ 0) := by
  intro fuel
  induction fuel with
  | zero =>
    intro data lo e _ _ hf
    refine ⟨data, quicksort_done _ _ _ _ _ _ (by omega), List.Perm.refl _, fun _ _ => rfl,
      fun k h1 h2 => ⟨k, h1, h2, rfl⟩, ?_⟩
    intro _ _ k1 k2 h1 h2 h3
    omega
  | succ fuel ih =>
    intro data lo e hwf he hf
    by_cases hsmall : e ≤ lo + 1
    · refine ⟨data, quicksort_done _ _ _ _ _ _ (by omega), List.Perm.refl _, fun _ _ => rfl,
        fun k h1 h2 => ⟨k, h1, h2, rfl⟩, ?_⟩
      intro _ _ k1 k2 h1 h2 h3
      omega
    · have hlt : (lo : Int) < (e : Int) - 1 := by omega
      have ehi : (e : Int) - 1 = ((e - 1 : Nat) : Int) := by omega
      obtain ⟨d1, p, hpart, hp1, hp2, hperm1, hfr1, hor1, hpiv, hl1, hr1⟩ :=
        partition_spec R f data lo (e - 1) hwf (by omega) (by omega)
      have hwf1 := wf_of_perm R _ _ hperm1 hwf
      have hlen1 : d1.length = data.length := hperm1.length_eq
      obtain ⟨d2, hq2, hperm2, hfr2, hor2, hs2⟩ :=
        ih d1 lo p hwf1 (by omega) (by omega)
      have hwf2 := wf_of_perm R _ _ hperm2 hwf1
      have hlen2 : d2.length = d1.length := hperm2.length_eq
      obtain ⟨out, hq3, hperm3, hfr3, hor3, hs3⟩ :=
        ih d2 (p + 1) e hwf2 (by omega) (by omega)
      have ep : (p : Int) + 1 = ((p + 1 : Nat) : Int) := by push_cast; ring
      -- where the records of the result come from
      have hleft : ∀ k, lo ≤ k → k < p →
          ∃ k', lo ≤ k' ∧ k' < p ∧ record_at out k = record_at d1 k' := by
        intro k h1 h2
        obtain ⟨k', a1, a2, a3⟩ := hor2 k h1 h2
        exact ⟨k', a1, a2, by rw [hfr3 k (Or.inl (by omega)), a3]⟩
      have hmid : record_at out p = record_at d1 p := by
        rw [hfr3 p (Or.inl (by omega)), hfr2 p (Or.inr (le_refl _))]
      have hright : ∀ k, p < k → k < e →
          ∃ k', p < k' ∧ k' < e ∧ record_at out k = record_at d1 k' := by
        intro k h1 h2
        obtain ⟨k', a1, a2, a3⟩ := hor3 k (by omega) h2
        exact ⟨k', by omega, a2, by rw [a3, hfr2 k' (Or.inr (by omega))]⟩
      refine ⟨out, ?_, (hperm3.trans hperm2).trans hperm1, ?_, ?_, ?_⟩
      · unfold RecordQuickSort.quicksort
        rw [if_pos hlt, ehi, hpart]
        simp only
        rw [hq2, ep, ← ehi]
        exact hq3
      · intro k hk
        rw [hfr3 k (by omega), hfr2 k (by omega), hfr1 k (by omega)]
      · intro k h1 h2
        have horig : ∀ q, lo ≤ q → q < e →
            ∃ k', lo ≤ k' ∧ k' < e ∧ record_at d1 q = record_at data k' := by
          intro q hq1 hq2'
          obtain ⟨k', a1, a2, a3⟩ := hor1 q hq1 (by omega)
          exact ⟨k', a1, by omega, a3⟩
        rcases Nat.lt_trichotomy k p with hk | hk | hk
        · obtain ⟨k', a1, a2, a3⟩ := hleft k h1 hk
          rw [a3]
          exact horig k' a1 (by omega)
        · rw [hk, hmid]
          exact horig p hp1 (by omega)
        · obtain ⟨k', a1, a2, a3⟩ := hright k hk h2
          rw [a3]
          exact horig k' (by omega) a2
      · intro H1 H2 k1 k2 h1 h2 h3
        have hL : ∀ k, lo ≤ k → k < p → f (record_at out k) (record_at data (e - 1)) < 0 := by
          intro k a1 a2
          obtain ⟨k', b1, b2, b3⟩ := hleft k a1 a2
          rw [b3]
          exact hl1 k' b1 b2
        have hR : ∀ k, p < k → k < e → f (record_at data (e - 1)) (record_at out k) ≤ 0 := by
          intro k a1 a2
          obtain ⟨k', b1, b2, b3⟩ := hright k a1 a2
          rw [b3]
          exact H1 _ _ (hr1 k' b1 (by omega))
        have hM : record_at out p = record_at data (e - 1) := by rw [hmid, hpiv]
        rcases Nat.lt_trichotomy k2 p with hk2 | hk2 | hk2
        · rw [hfr3 k1 (Or.inl (by omega)), hfr3 k2 (Or.inl (by omega))]
          exact hs2 H1 H2 k1 k2 h1 h2 hk2
        · rw [hk2, hM]
          exact le_of_lt (hL k1 h1 (by omega))
        · rcases Nat.lt_trichotomy k1 p with hk1 | hk1 | hk1
          · exact H2 _ _ _ (le_of_lt (hL k1 h1 hk1)) (hR k2 hk2 h3)
          · rw [hk1, hM]
            exact hR k2 hk2 h3
          · exact hs3 H1 H2 k1 k2 (by omega) h2 h3

/-- `RecordQuickSort::sort` on the first `n` records of a region. -/
theorem quicksort_sort_spec (R : Nat) (f : Bytes → Bytes → Int) (data : Region) (n : Nat)
    (hwf : Region.wf R data) (hn : n ≤ data.length) :
    ∃ out : Region,
      RecordQuickSort.sort R (pure_compare f) data n = .ok out
      ∧ out.Perm data
      ∧ (∀ k, n ≤ k → record_at out k = record_at data k)
      ∧ (∀ k, k < n → ∃ k', k' < n ∧ record_at out k = record_at data k')
      ∧ ((∀ a b, ¬ f a b < 0 → f b a ≤ 0) → (∀ a b c, f a b ≤ 0 → f b c ≤ 0 → f a c ≤ 0) →
          ∀ k1 k2, k1 < k2 → k2 < n → f (record_at out k1) (record_at out k2) ≤ 0) := by
  unfold RecordQuickSort.sort
  by_cases h1 : n ≤ 1
  · rw [if_pos h1]
    refine ⟨data, rfl, List.Perm.refl _, fun _ _ => rfl, fun k h => ⟨k, h, rfl⟩, ?_⟩
    intro _ _ k1 k2 a1 a2
    omega
  · rw [if_neg h1]
    obtain ⟨out, h, hperm, hfr, hor, hs⟩ := quicksort_spec R f n data 0 n hwf hn (by omega)
    refine ⟨out, by simpa using h, hperm, fun k hk => hfr k (Or.inr hk), ?_, ?_⟩
    · intro k hk
      obtain ⟨k', _, a2, a3⟩ := hor k (by omega) hk
      exact ⟨k', a2, a3⟩
    · intro H1 H2 k1 k2 a1 a2
      exact hs H1 H2 k1 k2 (by omega) a1 a2

/-! ## Chunks -/

theorem contig_le : ∀ (cs : List SortEngine.Chunk) (s e : Nat), Contig s e cs → s ≤ e := by
  intro cs
  induction cs with
  | nil => intro s e h; exact le_of_eq h
  | cons c cs ih =>
    intro s e h
    have := ih _ _ h.2
    omega

theorem contig_snoc : ∀ (cs : List SortEngine.Chunk) (s m : Nat) (c : SortEngine.Chunk),
    Contig s m cs → c.start = m → Contig s (m + c.record_count) (cs ++ [c]) := by
  intro cs
  induction cs with
  | nil =>
    intro s m c h hc
    have : s = m := h
    subst this
    exact ⟨hc, rfl⟩
  | cons x xs ih =>
    intro s m c h hc
    exact ⟨h.1, ih _ _ _ h.2 hc⟩

theorem contig_mem : ∀ (cs : List SortEngine.Chunk) (s e : Nat), Contig s e cs →
    ∀ c ∈ cs, s ≤ c.start ∧ c.start + c.record_count ≤ e := by
  intro cs
  induction cs with
  | nil => intro s e _ c hc; simp at hc
  | cons x xs ih =>
    intro s e h c hc
    have hle := contig_le _ _ _ h.2
    rcases List.mem_cons.mp hc with rfl | hc
    · have := h.1
      omega
    · have := ih _ _ h.2 c hc
      omega

theorem build_chunks_spec (rpt N : Nat) (hr : 1 ≤ rpt) :
    ∀ (fuel offset : Nat) (acc : List SortEngine.Chunk),
      offset ≤ N → N - offset ≤ fuel → Contig 0 offset acc →
      ∃ cs, SortEngine.build_chunks rpt N fuel offset acc = .ok cs ∧ Contig 0 N cs := by
  intro fuel
  induction fuel with
  | zero =>
    intro offset acc h1 h2 h3
    have : offset = N := by omega
    subst this
    exact ⟨acc, by simp [SortEngine.build_chunks], h3⟩
  | succ fuel ih =>
    intro offset acc h1 h2 h3
    unfold SortEngine.build_chunks
    by_cases hlt : offset < N
    · rw [if_pos hlt]
      have hmin : 1 ≤ min rpt (N - offset) := by omega
      exact ih _ _ (by omega) (by omega)
        (contig_snoc acc 0 offset ⟨offset, min rpt (N - offset)⟩ h3 rfl)
    · rw [if_neg hlt]
      have : offset = N := by omega
      subst this
      exact ⟨acc, rfl, h3⟩

theorem record_at_append_right (xs ys : Region) (k : Nat) (h : xs.length ≤ k) :
    record_at (xs ++ ys) k = record_at ys (k - xs.length) := by
  simp [record_at, List.getD_eq_getElem?_getD, List.getElem?_append_right h]

theorem record_at_append_left (xs ys : Region) (k : Nat) (h : k < xs.length) :
    record_at (xs ++ ys) k = record_at xs k := by
  simp [record_at, List.getD_eq_getElem?_getD, List.getElem?_append_left h]

theorem record_at_drop (data : Region) (s k : Nat) :
    record_at (data.drop s) k = record_at data (s + k) := by
  simp [record_at, List.getD_eq_getElem?_getD, List.getElem?_drop]

theorem record_at_take (data : Region) (s k : Nat) (h : k < s) :
    record_at (data.take s) k = record_at data k := by
  simp [record_at, List.getD_eq_getElem?_getD, List.getElem?_take, h]

/-- The worker threads: every chunk is sorted in place, the result is a permutation, and the
records below the first chunk stay where they are. -/
theorem sort_chunks_spec (R : Nat) (f : Bytes → Bytes → Int) :
    ∀ (chunks : List SortEngine.Chunk) (data : Region) (s : Nat),
      Region.wf R data → Contig s data.length chunks →
      ∃ out : Region,
        SortEngine.sort_chunks R (pure_compare f) chunks data = .ok out
        ∧ out.Perm data
        ∧ (∀ k, k < s → record_at out k = record_at data k)
        ∧ ((∀ a b, ¬ f a b < 0 → f b a ≤ 0) → (∀ a b c, f a b ≤ 0 → f b c ≤ 0 → f a c ≤ 0) →
            ∀ c ∈ chunks, ∀ k1 k2, c.start ≤ k1 → k1 < k2 → k2 < c.start + c.record_count →
              f (record_at out k1) (record_at out k2) ≤ 0) := by
  intro chunks
  induction chunks with
  | nil =>
    intro data s _ _
    exact ⟨data, rfl, List.Perm.refl _, fun _ _ => rfl, fun _ _ c hc => by simp at hc⟩
  | cons c rest ih =>
    intro data s hwf hc
    obtain ⟨hcs, hrest⟩ := hc
    have hle := contig_le _ _ _ hrest
    have hwfd : Region.wf R (data.drop c.start) := fun r hr => hwf r (List.mem_of_mem_drop hr)
    obtain ⟨sv, hsv, hperm, hfr, _, hsorted⟩ :=
      quicksort_sort_spec R f (data.drop c.start) c.record_count hwfd
        (by rw [List.length_drop]; omega)
    have hlen_sv : sv.length = data.length - c.start := by
      rw [hperm.length_eq, List.length_drop]
    have hperm1 : (data.take c.start ++ sv).Perm data := by
      have := List.Perm.append_left (data.take c.start) hperm
      rwa [List.take_append_drop] at this
    have hlen1 : (data.take c.start ++ sv).length = data.length := hperm1.length_eq
    have htake : (data.take c.start).length = c.start := by
      rw [List.length_take]; omega
    obtain ⟨out, hout, hperm2, hfr2, hsorted2⟩ :=
      ih (data.take c.start ++ sv) (s + c.record_count) (wf_of_perm R _ _ hperm1 hwf)
        (by rw [hlen1]; exact hrest)
    refine ⟨out, ?_, hperm2.trans hperm1, ?_, ?_⟩
    · unfold SortEngine.sort_chunks
      rw [hsv]
      exact hout
    · intro k hk
      rw [hfr2 k (by omega), record_at_append_left _ _ _ (by omega),
        record_at_take _ _ _ (by omega)]
    · intro H1 H2 c' hc' k1 k2 h1 h2 h3
      rcases List.mem_cons.mp hc' with rfl | hc'
      · rw [hfr2 k1 (by omega), hfr2 k2 (by omega),
          record_at_append_right _ _ _ (by omega), record_at_append_right _ _ _ (by omega), htake]
        exact hsorted H1 H2 (k1 - c'.start) (k2 - c'.start) (by omega) (by omega)
      · exact hsorted2 H1 H2 c' hc' k1 k2 h1 h2 h3

/-! ## `SortEngine::merge_chunks` -/

theorem flatten_set_perm {α : Type} : ∀ (l : List (List α)) (m : Nat) (h : α) (t : List α),
    l[m]? = some (h :: t) → (h :: (l.set m t).flatten).Perm l.flatten := by
  intro l
  induction l with
  | nil => intro m h t hm; simp at hm
  | cons x xs ih =>
    intro m h t hm
    cases m with
    | zero =>
      simp only [List.getElem?_cons_zero, Option.some.injEq] at hm
      subst hm
      simp
    | succ m =>
      simp only [List.getElem?_cons_succ] at hm
      simp only [List.set_cons_succ, List.flatten_cons]
      exact (List.perm_middle.symm).trans (List.Perm.append_left x (ih m h t hm))

theorem getD_set {α : Type} (l : List α) (m i : Nat) (x d : α) (hm : m < l.length) :
    (l.set m x).getD i d = if i = m then x else l.getD i d := by
  simp only [List.getD_eq_getElem?_getD, List.getElem?_set]
  by_cases h : i = m
  · subst h
    simp [hm]
  · have : ¬ m = i := fun e => h e.symm
    simp [h, this]

theorem take_set_succ {α : Type} (l : List α) (k : Nat) (x : α) (h : k < l.length) :
    (l.set k x).take (k + 1) = l.take k ++ [x] := by
  rw [List.take_succ, List.getElem?_set, if_pos rfl, List.set_take,
    List.set_eq_of_length_le (by simp)]
  simp [h]

theorem exists_nonempty_of_flatten {α : Type} : ∀ (l : List (List α)), l.flatten ≠ [] →
    ∃ i, i < l.length ∧ l.getD i [] ≠ [] := by
  intro l
  induction l with
  | nil => intro h; simp at h
  | cons x xs ih =>
    intro h
    by_cases hx : x = []
    · subst hx
      obtain ⟨i, h1, h2⟩ := ih (by simpa using h)
      exact ⟨i + 1, by simpa using h1, by simpa using h2⟩
    · exact ⟨0, by simp, by simpa using hx⟩

theorem chunk_rest_cons (data : Region) (c : SortEngine.Chunk) (idx : Nat)
    (h1 : idx < c.record_count) (h2 : c.start + c.record_count ≤ data.length) :
    chunk_rest data c idx = record_at data (c.start + idx) :: chunk_rest data c (idx + 1) := by
  unfold chunk_rest
  have hlt : c.start + idx < data.length := by omega
  rw [List.drop_eq_getElem_cons hlt]
  have : c.record_count - idx = (c.record_count - (idx + 1)) + 1 := by omega
  rw [this, List.take_succ_cons, record_at_lt data _ hlt]
  rfl

theorem chunk_rest_nil (data : Region) (c : SortEngine.Chunk) (idx : Nat)
    (h1 : ¬ idx < c.record_count) : chunk_rest data c idx = [] := by
  unfold chunk_rest
  have : c.record_count - idx = 0 := by omega
  rw [this, List.take_zero]

/-- The inner loop of the merge: it returns `-1` only when no chunk has a record left, and
otherwise the index of a chunk with a record left whose head is a minimum among the heads
when the comparison function is a total preorder. -/
theorem find_min_chunk_spec (f : Bytes → Bytes → Int) (data : Region)
    (chunks : List SortEngine.Chunk) (indices : List Nat) :
    ∀ (n i : Nat) (mc : Int), n + i = chunks.length →
      (mc = -1 ∨ ∃ m : Nat, mc = (m : Int) ∧ m < i ∧ chunk_live chunks indices m) →
      ∃ r : Int,
        SortEngine.find_min_chunk (pure_compare f) data chunks indices n i mc = .ok r
        ∧ ((mc = -1 ∧ ∀ i', i ≤ i' → i' < chunks.length → ¬ chunk_live chunks indices i')
            → r = -1)
        ∧ (¬ (mc = -1 ∧ ∀ i', i ≤ i' → i' < chunks.length → ¬ chunk_live chunks indices i')
            → ∃ m : Nat, r = (m : Int) ∧ m < chunks.length ∧ chunk_live chunks indices m)
        ∧ ((∀ a b, ¬ f a b < 0 → f b a ≤ 0) → (∀ a b c, f a b ≤ 0 → f b c ≤ 0 → f a c ≤ 0) →
            (mc = -1 → ∀ i', i' < i → ¬ chunk_live chunks indices i') →
            (∀ m : Nat, mc = (m : Int) → ∀ i', i' < i → chunk_live chunks indices i' →
              f (chunk_head data chunks indices m) (chunk_head data chunks indices i') ≤ 0) →
            ∀ m : Nat, r = (m : Int) → ∀ i', i' < chunks.length → chunk_live chunks indices i' →
              f (chunk_head data chunks indices m) (chunk_head data chunks indices i') ≤ 0) := by
  intro n
  induction n with
  | zero =>
    intro i mc hn hmc
    have hi : i = chunks.length := by omega
    subst hi
    refine ⟨mc, rfl, fun h => h.1, ?_, ?_⟩
    · intro h
      rcases hmc with h1 | ⟨m, h1, h2, h3⟩
      · exact absurd ⟨h1, fun i' a b => by omega⟩ h
      · exact ⟨m, h1, h2, h3⟩
    · intro _ _ _ h m hm i' hi' hl
      exact h m hm i' hi' hl
  | succ n ih =>
    intro i mc hn hmc
    unfold SortEngine.find_min_chunk
    by_cases hlive : chunk_live chunks indices i
    · have hnot : ¬ (indices.getD i 0 ≥ (chunks.getD i default).record_count) := by
        unfold chunk_live at hlive
        omega
      rw [if_neg hnot]
      by_cases hm1 : mc = -1
      · rw [if_pos hm1]
        obtain ⟨r, hr, _, h2, h3⟩ := ih (i + 1) (i : Int) (by omega)
          (Or.inr ⟨i, rfl, by omega, hlive⟩)
        refine ⟨r, hr, ?_, ?_, ?_⟩
        · intro h
          exact absurd hlive (h.2 i (le_refl _) (by omega))
        · intro _
          exact h2 (fun h => by have := h.1; omega)
        · intro H1 H2 hnone hmin m hm i' hi' hl
          refine h3 H1 H2 (fun h => by omega) ?_ m hm i' hi' hl
          intro m' hm' j hj hjl
          have : m' = i := by omega
          subst this
          by_cases hji : j = m'
          · subst hji
            by_cases hlt : f (chunk_head data chunks indices j) (chunk_head data chunks indices j) < 0
            · exact le_of_lt hlt
            · exact H1 _ _ hlt
          · exact absurd hjl (hnone hm1 j (by omega))
      · rw [if_neg hm1]
        obtain ⟨m0, hm0, hm0i, hm0l⟩ : ∃ m : Nat, mc = (m : Int) ∧ m < i
            ∧ chunk_live chunks indices m := by
          rcases hmc with h | h
          · exact absurd h hm1
          · exact h
        subst hm0
        simp only [pure_compare, Int.toNat_ofNat]
        have hrefl : ∀ a, f a a ≤ 0 ∨ ¬ ((∀ a b, ¬ f a b < 0 → f b a ≤ 0)) := by
          intro a
          by_cases H1 : ∀ a b, ¬ f a b < 0 → f b a ≤ 0
          · left
            by_cases hlt : f a a < 0
            · exact le_of_lt hlt
            · exact H1 _ _ hlt
          · right
            exact H1
        by_cases hc : f (record_at data ((chunks.getD i default).start + indices.getD i 0))
            (record_at data ((chunks.getD m0 default).start + indices.getD m0 0)) < 0
        · rw [if_pos hc]
          obtain ⟨r, hr, _, h2, h3⟩ := ih (i + 1) (i : Int) (by omega)
            (Or.inr ⟨i, rfl, by omega, hlive⟩)
          refine ⟨r, hr, ?_, ?_, ?_⟩
          · intro h
            exact absurd h.1 hm1
          · intro _
            exact h2 (fun h => by have := h.1; omega)
          · intro H1 H2 hnone hmin m hm i' hi' hl
            refine h3 H1 H2 (fun h => by omega) ?_ m hm i' hi' hl
            intro m' hm' j hj hjl
            have : m' = i := by omega
            subst this
            by_cases hji : j = m'
            · subst hji
              rcases hrefl (chunk_head data chunks indices j) with h | h
              · exact h
              · exact absurd H1 h
            · exact H2 _ _ _ (le_of_lt hc) (hmin m0 rfl j (by omega) hjl)
        · rw [if_neg hc]
          obtain ⟨r, hr, _, h2, h3⟩ := ih (i + 1) (m0 : Int) (by omega)
            (Or.inr ⟨m0, rfl, by omega, hm0l⟩)
          refine ⟨r, hr, ?_, ?_, ?_⟩
          · intro h
            exact absurd h.1 hm1
          · intro _
            exact h2 (fun h => by have := h.1; omega)
          · intro H1 H2 hnone hmin m hm i' hi' hl
            refine h3 H1 H2 (fun h => by omega) ?_ m hm i' hi' hl
            intro m' hm' j hj hjl
            have : m' = m0 := by omega
            subst this
            by_cases hji : j = i
            · subst hji
              exact H1 _ _ hc
            · exact hmin m' rfl j (by omega) hjl
    · have hge : indices.getD i 0 ≥ (chunks.getD i default).record_count := by
        unfold chunk_live at hlive
        omega
      rw [if_pos hge]
      obtain ⟨r, hr, h1, h2, h3⟩ := ih (i + 1) mc (by omega)
        (by
          rcases hmc with h | ⟨m, a, b, c⟩
          · exact Or.inl h
          · exact Or.inr ⟨m, a, by omega, c⟩)
      refine ⟨r, hr, ?_, ?_, ?_⟩
      · intro h
        exact h1 ⟨h.1, fun i' a b => h.2 i' (by omega) b⟩
      · intro h
        apply h2
        intro h'
        apply h
        refine ⟨h'.1, fun i' a b => ?_⟩
        by_cases hii : i' = i
        · subst hii
          exact hlive
        · exact h'.2 i' (by omega) b
      · intro H1 H2 hnone hmin m hm i' hi' hl
        refine h3 H1 H2 ?_ ?_ m hm i' hi' hl
        · intro h j hj
          by_cases hji : j = i
          · subst hji
            exact hlive
          · exact hnone h j (by omega)
        · intro m' hm' j hj hjl
          by_cases hji : j = i
          · subst hji
            exact absurd hjl hlive
          · exact hmin m' hm' j (by omega) hjl

theorem merge_step_order (f : Bytes → Bytes → Int)
    (H2 : ∀ a b c, f a b ≤ 0 → f b c ≤ 0 → f a c ≤ 0)
    (W : List Bytes) (rems : List (List Bytes)) (m : Nat) (h : Bytes) (t : List Bytes)
    (hm : rems[m]? = some (h :: t))
    (hmin : ∀ r ∈ rems, ∀ y, r.head? = some y → f h y ≤ 0)
    (hW : W.Pairwise (fun a b => f a b ≤ 0))
    (hWr : ∀ x ∈ W, ∀ y ∈ rems.flatten, f x y ≤ 0)
    (hr : ∀ r ∈ rems, r.Pairwise (fun a b => f a b ≤ 0)) :
    (W ++ [h]).Pairwise (fun a b => f a b ≤ 0)
    ∧ (∀ x ∈ W ++ [h], ∀ y ∈ (rems.set m t).flatten, f x y ≤ 0)
    ∧ (∀ r ∈ rems.set m t, r.Pairwise (fun a b => f a b ≤ 0)) := by
  have hmem : h :: t ∈ rems := List.getElem?_mem hm
  have hperm := flatten_set_perm rems m h t hm
  have hh : h ∈ rems.flatten := hperm.subset (List.mem_cons_self _ _)
  have hsub : ∀ y, y ∈ (rems.set m t).flatten → y ∈ rems.flatten :=
    fun y hy => hperm.subset (List.mem_cons_of_mem _ hy)
  have hall : ∀ y ∈ rems.flatten, f h y ≤ 0 := by
    intro y hy
    obtain ⟨r, hr1, hr2⟩ := List.mem_flatten.mp hy
    cases r with
    | nil => simp at hr2
    | cons y0 ys =>
      have h0 := hmin _ hr1 y0 rfl
      rcases List.mem_cons.mp hr2 with rfl | hy'
      · exact h0
      · have := List.rel_of_pairwise_cons (hr _ hr1) hy'
        exact H2 _ _ _ h0 this
  refine ⟨?_, ?_, ?_⟩
  · rw [List.pairwise_append]
    refine ⟨hW, List.pairwise_singleton _ _, ?_⟩
    intro a ha b hb
    rw [List.mem_singleton] at hb
    subst hb
    exact hWr a ha _ hh
  · intro x hx y hy
    rcases List.mem_append.mp hx with hx | hx
    · exact hWr x hx y (hsub y hy)
    · rw [List.mem_singleton] at hx
      subst hx
      exact hall y (hsub y hy)
  · intro r hr'
    rcases List.mem_or_eq_of_mem_set hr' with h1 | h1
    · exact hr r h1
    · subst h1
      exact (List.pairwise_cons.mp (hr _ hmem)).2

/-- The outer loop of the merge returns a permutation of the region, sorted when the
chunks are sorted and the comparison function is a total preorder. -/
theorem merge_loop_spec (R : Nat) (f : Bytes → Bytes → Int) (data : Region)
    (chunks : List SortEngine.Chunk) (hwf : Region.wf R data)
    (hcont : Contig 0 data.length chunks) :
    ∀ (n out : Nat) (temp : Region) (indices : List Nat) (rems : List (List Bytes)),
      n + out = data.length → temp.length = data.length →
      (∀ k, out ≤ k → (record_at temp k).length ≤ R) →
      indices.length = chunks.length → rems.length = chunks.length →
      (∀ i, i < chunks.length →
        rems.getD i [] = chunk_rest data (chunks.getD i default) (indices.getD i 0)) →
      (temp.take out ++ rems.flatten).Perm data →
      ∃ temp' : Region,
        SortEngine.merge_loop R (pure_compare f) data chunks n out temp indices = .ok temp'
        ∧ temp'.Perm data
        ∧ ((∀ a b, ¬ f a b < 0 → f b a ≤ 0) → (∀ a b c, f a b ≤ 0 → f b c ≤ 0 → f a c ≤ 0) →
            (temp.take out).Pairwise (fun a b => f a b ≤ 0) →
            (∀ x ∈ temp.take out, ∀ y ∈ rems.flatten, f x y ≤ 0) →
            (∀ r ∈ rems, r.Pairwise (fun a b => f a b ≤ 0)) →
            temp'.Pairwise (fun a b => f a b ≤ 0)) := by
  intro n
  induction n with
  | zero =>
    intro out temp indices rems hn hlen _ _ _ _ hperm
    have hout : out = temp.length := by omega
    have htake : temp.take out = temp := by rw [hout, List.take_length]
    rw [htake] at hperm
    have hnil : rems.flatten = [] := by
      have := hperm.length_eq
      rw [List.length_append] at this
      exact List.eq_nil_of_length_eq_zero (by omega)
    rw [hnil, List.append_nil] at hperm
    refine ⟨temp, rfl, hperm, ?_⟩
    intro _ _ hW _ _
    rwa [htake] at hW
  | succ n ih =>
    intro out temp indices rems hn hlen htemp hil hrl hrel hperm
    have houtlt : out < temp.length := by omega
    have htl : (temp.take out).length = out := by rw [List.length_take]; omega
    have hne : rems.flatten ≠ [] := by
      intro h
      have := hperm.length_eq
      rw [h, List.append_nil, htl] at this
      omega
    obtain ⟨i0, hi0, hi0ne⟩ := exists_nonempty_of_flatten rems hne
    have hlive_of : ∀ i, i < chunks.length → rems.getD i [] ≠ [] →
        chunk_live chunks indices i := by
      intro i hi hne'
      by_contra hnl
      rw [hrel i hi, chunk_rest_nil data _ _ hnl] at hne'
      exact hne' rfl
    have hbound : ∀ i, i < chunks.length →
        (chunks.getD i default).start + (chunks.getD i default).record_count ≤ data.length := by
      intro i hi
      have hmem : chunks.getD i default ∈ chunks := by
        rw [List.getD_eq_getElem?_getD, List.getElem?_eq_getElem hi]
        exact List.getElem_mem hi
      exact (contig_mem chunks 0 data.length hcont _ hmem).2
    obtain ⟨r, hr, _, hr2, hr3⟩ := find_min_chunk_spec f data chunks indices chunks.length 0 (-1)
      (by omega) (Or.inl rfl)
    obtain ⟨m, hrm, hmlt, hmlive⟩ := hr2 (by
      intro h
      exact h.2 i0 (by omega) (by omega) (hlive_of i0 (by omega) hi0ne))
    subst hrm
    have hbm := hbound m hmlt
    have hidx : indices.getD m 0 < (chunks.getD m default).record_count := hmlive
    have hsrc_lt : (chunks.getD m default).start + indices.getD m 0 < data.length := by omega
    have hsrc_len : (record_at data ((chunks.getD m default).start + indices.getD m 0)).length
        = R := record_at_length R data hwf _ hsrc_lt
    have hcpy : memcpy (record_at temp out)
        (record_at data ((chunks.getD m default).start + indices.getD m 0)) R
        = record_at data ((chunks.getD m default).start + indices.getD m 0) :=
      memcpy_full _ _ _ hsrc_len (htemp out (le_refl _))
    have hrm' : rems[m]? = some (record_at data ((chunks.getD m default).start + indices.getD m 0)
        :: chunk_rest data (chunks.getD m default) (indices.getD m 0 + 1)) := by
      have h1 := hrel m hmlt
      rw [chunk_rest_cons data _ _ hidx hbm, List.getD_eq_getElem?_getD,
        List.getElem?_eq_getElem (by omega)] at h1
      rw [List.getElem?_eq_getElem (by omega)]
      simpa using h1
    set src := record_at data ((chunks.getD m default).start + indices.getD m 0) with hsrc
    set rest := chunk_rest data (chunks.getD m default) (indices.getD m 0 + 1) with hrest
    have htake' : (temp.set out src).take (out + 1) = temp.take out ++ [src] :=
      take_set_succ temp out src houtlt
    obtain ⟨temp', hres, hperm', horder⟩ :=
      ih (out + 1) (temp.set out src) (indices.set m (indices.getD m 0 + 1)) (rems.set m rest)
        (by omega) (by simpa using hlen)
        (by
          intro k hk
          rw [record_at_set _ _ _ _ houtlt, if_neg (by omega)]
          exact htemp k (by omega))
        (by simpa using hil) (by simpa using hrl)
        (by
          intro i hi
          rw [getD_set rems m i rest [] (by omega), getD_set indices m i _ 0 (by omega)]
          by_cases him : i = m
          · subst him
            rw [if_pos rfl, if_pos rfl]
          · rw [if_neg him, if_neg him]
            exact hrel i hi)
        (by
          rw [htake', List.append_assoc]
          refine List.Perm.trans ?_ hperm
          apply List.Perm.append_left
          simpa using flatten_set_perm rems m src rest hrm')
    refine ⟨temp', ?_, hperm', ?_⟩
    · unfold SortEngine.merge_loop
      rw [hr]
      simp only [Int.toNat_ofNat]
      rw [if_neg (by omega), hcpy]
      exact hres
    · intro H1 H2 hW hWr hrp
      have hmin : ∀ r ∈ rems, ∀ y, r.head? = some y → f src y ≤ 0 := by
        intro r' hr' y hy
        obtain ⟨i, hi, hir⟩ := List.getElem_of_mem hr'
        have hi' : i < chunks.length := by omega
        have hgd : rems.getD i [] = r' := by
          rw [List.getD_eq_getElem?_getD, List.getElem?_eq_getElem hi, hir]
          rfl
        have hne' : rems.getD i [] ≠ [] := by
          rw [hgd]
          intro h
          rw [h] at hy
          simp at hy
        have hli := hlive_of i hi' hne'
        have hhead : y = chunk_head data chunks indices i := by
          have h1 := hrel i hi'
          rw [hgd, chunk_rest_cons data _ _ hli (hbound i hi')] at h1
          rw [h1] at hy
          simp only [List.head?_cons, Option.some.injEq] at hy
          rw [← hy]
          rfl
        rw [hhead]
        exact hr3 H1 H2 (fun _ i' hi'' => by omega) (fun m' hm' => by omega) m rfl i hi' hli
      obtain ⟨a1, a2, a3⟩ := merge_step_order f H2 (temp.take out) rems m src rest hrm'
        hmin hW hWr hrp
      exact horder H1 H2 (by rw [htake']; exact a1) (by rw [htake']; exact a2) a3

theorem flatten_chunks (data : Region) : ∀ (cs : List SortEngine.Chunk) (s : Nat),
    Contig s data.length cs →
    (cs.map (fun c => chunk_rest data c 0)).flatten = data.drop s := by
  intro cs
  induction cs with
  | nil =>
    intro s h
    have : s = data.length := h
    subst this
    simp
  | cons c cs ih =>
    intro s h
    obtain ⟨h1, h2⟩ := h
    rw [List.map_cons, List.flatten_cons, ih _ h2]
    unfold chunk_rest
    rw [h1]
    simp only [Nat.add_zero, Nat.sub_zero]
    rw [← List.drop_drop, List.take_append_drop]

theorem total_records (cs : List SortEngine.Chunk) : ∀ (s e a : Nat), Contig s e cs →
    cs.foldl (fun sum chunk => sum + chunk.record_count) a = a + (e - s) := by
  induction cs with
  | nil =>
    intro s e a h
    have : s = e := h
    subst this
    simp
  | cons c cs ih =>
    intro s e a h
    obtain ⟨h1, h2⟩ := h
    have hle := contig_le _ _ _ h2
    rw [List.foldl_cons, ih _ _ _ h2]
    omega

theorem segment_pairwise (f : Bytes → Bytes → Int) (data : Region) (s c : Nat)
    (h : ∀ k1 k2, s ≤ k1 → k1 < k2 → k2 < s + c →
      f (record_at data k1) (record_at data k2) ≤ 0) :
    ((data.drop s).take c).Pairwise (fun a b => f a b ≤ 0) := by
  rw [List.pairwise_iff_getElem]
  intro i j hi hj hij
  have hjc : j < c := by
    rw [List.length_take] at hj
    omega
  have e : ∀ k (hk : k < ((data.drop s).take c).length), k < c →
      ((data.drop s).take c)[k] = record_at data (s + k) := by
    intro k hk hkc
    rw [← record_at_lt _ _ hk, record_at_take _ _ _ hkc, record_at_drop]
  rw [e i hi (by omega), e j hj hjc]
  exact h _ _ (by omega) (by omega) (by omega)

theorem record_at_replicate_length (n R k : Nat) :
    (record_at (List.replicate n (List.replicate R (0 : Byte))) k).length ≤ R := by
  unfold record_at
  rw [List.getD_eq_getElem?_getD, List.getElem?_replicate]
  split <;> simp

/-- `SortEngine::merge_chunks` on chunks that cover the region: it returns a permutation of
the region, sorted when every chunk is sorted and the comparison function is a total
preorder. -/
theorem merge_chunks_spec (self : SortEngine) (f : Bytes → Bytes → Int) (data : Region)
    (chunks : List SortEngine.Chunk) (hcmp : self.compare_func_ = pure_compare f)
    (hwf : Region.wf self.config_.record_length data) (hcont : Contig 0 data.length chunks) :
    ∃ out : Region,
      SortEngine.merge_chunks self data chunks = .ok out
      ∧ out.Perm data
      ∧ ((∀ a b, ¬ f a b < 0 → f b a ≤ 0) → (∀ a b c, f a b ≤ 0 → f b c ≤ 0 → f a c ≤ 0) →
          (∀ c ∈ chunks, ∀ k1 k2, c.start ≤ k1 → k1 < k2 → k2 < c.start + c.record_count →
            f (record_at data k1) (record_at data k2) ≤ 0) →
          out.Pairwise (fun a b => f a b ≤ 0)) := by
  have hrems : ∀ c ∈ chunks,
      (∀ k1 k2, c.start ≤ k1 → k1 < k2 → k2 < c.start + c.record_count →
        f (record_at data k1) (record_at data k2) ≤ 0) →
      (chunk_rest data c 0).Pairwise (fun a b => f a b ≤ 0) := by
    intro c _ h
    unfold chunk_rest
    simp only [Nat.add_zero, Nat.sub_zero]
    exact segment_pairwise f data _ _ h
  have hflat := flatten_chunks data chunks 0 hcont
  rw [List.drop_zero] at hflat
  unfold SortEngine.merge_chunks
  by_cases hsmall : chunks.length ≤ 1
  · rw [if_pos hsmall]
    refine ⟨data, rfl, List.Perm.refl _, ?_⟩
    intro _ _ hs
    match chunks, hsmall, hflat, hs with
    | [], _, hflat, _ =>
      simp only [List.map_nil, List.flatten_nil] at hflat
      rw [← hflat]
      exact List.Pairwise.nil
    | [c], _, hflat, hs =>
      simp only [List.map_cons, List.map_nil, List.flatten_cons, List.flatten_nil,
        List.append_nil] at hflat
      rw [← hflat]
      exact hrems c (List.mem_singleton_self c) (hs c (List.mem_singleton_self c))
  · rw [if_neg hsmall, hcmp, total_records chunks 0 data.length 0 hcont]
    simp only [Nat.zero_add, Nat.sub_zero]
    obtain ⟨temp', hres, hperm, horder⟩ :=
      merge_loop_spec self.config_.record_length f data chunks hwf hcont data.length 0
        (List.replicate data.length (List.replicate self.config_.record_length 0))
        (List.replicate chunks.length 0) (chunks.map (fun c => chunk_rest data c 0))
        (by omega) (by simp)
        (fun k _ => record_at_replicate_length _ _ _)
        (by simp) (by simp)
        (by
          intro i hi
          simp only [List.getD_eq_getElem?_getD, List.getElem?_map, List.getElem?_replicate,
            List.getElem?_eq_getElem hi, if_pos hi]
          rfl)
        (by
          rw [List.take_zero, List.nil_append, hflat])
    rw [hres]
    have hlen : temp'.length = data.length := hperm.length_eq
    refine ⟨temp' ++ data.drop temp'.length, rfl, ?_, ?_⟩
    · rw [hlen, List.drop_length, List.append_nil]
      exact hperm
    · intro H1 H2 hs
      rw [hlen, List.drop_length, List.append_nil]
      refine horder H1 H2 (by simp) (by simp) ?_
      intro r hr
      obtain ⟨c, hc, rfl⟩ := List.mem_map.mp hr
      exact hrems c hc (hs c hc)

/-- `SortEngine::sort` with a comparison function that never throws and at least one worker:
it returns a permutation of the region, which is sorted when the comparison function is a
total preorder. -/
theorem sort_spec (self : SortEngine) (f : Bytes → Bytes → Int) (data : Region) (N : Nat)
    (hcmp : self.compare_func_ = pure_compare f)
    (hwf : Region.wf self.config_.record_length data) (hN : data.length = N)
    (hT : 1 ≤ self.config_.thread_count) :
    ∃ out : Region,
      SortEngine.sort self data N = .ok out
      ∧ out.Perm data
      ∧ ((∀ a b, ¬ f a b < 0 → f b a ≤ 0) → (∀ a b c, f a b ≤ 0 → f b c ≤ 0 → f a c ≤ 0) →
          out.Pairwise (fun a b => f a b ≤ 0)) := by
  unfold SortEngine.sort
  by_cases h1 : N ≤ 1
  · rw [if_pos h1]
    refine ⟨data, rfl, List.Perm.refl _, ?_⟩
    intro _ _
    match data, hN, h1 with
    | [], _, _ => exact List.Pairwise.nil
    | [x], _, _ => exact List.pairwise_singleton _ _
    | x :: y :: rest, hN, h1 =>
      simp only [List.length_cons] at hN
      omega
  · rw [if_neg h1, if_neg (by omega)]
    simp only
    split
    · obtain ⟨out, hres, hperm, _, _, hs⟩ :=
        quicksort_sort_spec self.config_.record_length f data N hwf (by omega)
      rw [hcmp, hres]
      refine ⟨out, rfl, hperm, ?_⟩
      intro H1 H2
      have := segment_pairwise f out 0 N (fun k1 k2 _ a b => hs H1 H2 k1 k2 a (by omega))
      rw [List.drop_zero, List.take_of_length_le (by rw [hperm.length_eq]; omega)] at this
      exact this
    · obtain ⟨chunks, hch, hcont⟩ :=
        build_chunks_spec (max 1000 (N / self.config_.thread_count)) N (by omega) N 0 []
          (by omega) (by omega) rfl
      rw [hch]
      simp only
      obtain ⟨d1, hd1, hperm1, _, hs1⟩ :=
        sort_chunks_spec self.config_.record_length f chunks data 0 hwf (by rw [hN]; exact hcont)
      rw [hcmp, hd1]
      simp only
      obtain ⟨out, hout, hperm2, hs2⟩ :=
        merge_chunks_spec self f d1 chunks hcmp (wf_of_perm _ _ _ hperm1 hwf)
          (by rw [hperm1.length_eq, hN]; exact hcont)
      exact ⟨out, hout, hperm2.trans hperm1, fun H1 H2 => hs2 H1 H2 (hs1 H1 H2)⟩

/-! ## The code generator -/

theorem emit_keys_eq (code : ComparisonGenerator.CodeBuffer) (R : Nat) (keys : List KeySpec) :
    ComparisonGenerator.emit_keys code R keys = .ok code := by
  induction keys with
  | nil => rfl
  | cons k rest ih =>
    unfold ComparisonGenerator.emit_keys ComparisonGenerator.emit_key_comparison
    exact ih

theorem write_at_length (m : Bytes) (k : Nat) (bytes : Bytes) (h : k + bytes.length ≤ m.length) :
    (write_at m k bytes).length = m.length := by
  unfold write_at
  simp only [List.length_append, List.length_take, List.length_drop]
  omega

theorem take_write_at (m : Bytes) (k : Nat) (bytes : Bytes) (h : k + bytes.length ≤ m.length) :
    (write_at m k bytes).take (k + bytes.length) = m.take k ++ bytes := by
  unfold write_at
  have : (m.take k ++ bytes).length = k + bytes.length := by
    simp only [List.length_append, List.length_take]
    omega
  rw [← this, List.take_left']
  rfl

theorem emit_bytes_first (plat : Platform) (bytes : Bytes)
    (h : plat.allocation_succeeds = true) (hl : bytes.length < 4096) :
    ComparisonGenerator.emit_bytes plat ⟨none, 0, 0⟩ bytes
      = .ok ⟨some (write_at (List.replicate 4096 0) 0 bytes), 0 + bytes.length, 4096⟩ := by
  unfold ComparisonGenerator.emit_bytes ComparisonGenerator.ensure_capacity
  simp only [if_pos hl, h, if_true, Option.map]

theorem emit_bytes_next (plat : Platform) (m : Bytes) (size : Nat) (bytes : Bytes)
    (hl : size + bytes.length ≤ 4096) :
    ComparisonGenerator.emit_bytes plat ⟨some m, size, 4096⟩ bytes
      = .ok ⟨some (write_at m size bytes), size + bytes.length, 4096⟩ := by
  unfold ComparisonGenerator.emit_bytes ComparisonGenerator.ensure_capacity
  have h1 : ¬ (4096 = 0) := by omega
  have h2 : ¬ (size + bytes.length > 4096) := by omega
  simp only [h1, h2, if_false, Option.map]

/-- The machine code `ComparisonGenerator::generate` hands out when the buffer is allocated
and made executable: the prologue, `xor eax, eax` and the epilogue, whatever the keys. -/
theorem emit_all_code (plat : Platform) (keys : List KeySpec) (R : Nat)
    (ha : plat.allocation_succeeds = true) (hp : plat.protection_succeeds = true) :
    ∃ code, ComparisonGenerator.emit_all plat keys R = .ok code
      ∧ (code.memory.getD []).take code.size
        = if plat.windows then [0x48, 0x89, 0xcf, 0x48, 0x89, 0xd6, 0x31, 0xc0, 0xc3]
          else [0x55, 0x48, 0x89, 0xe5, 0x31, 0xc0, 0x5d, 0xc3] := by
  have hrep : (List.replicate 4096 (0 : Byte)).length = 4096 := List.length_replicate _ _
  have key : ∀ (p x e : Bytes), p.length + x.length + e.length ≤ 4096 →
      (write_at (write_at (write_at (List.replicate 4096 0) 0 p) (0 + p.length) x)
        (0 + p.length + x.length) e).take (0 + p.length + x.length + e.length)
        = p ++ x ++ e := by
    intro p x e hl
    have l1 : (write_at (List.replicate 4096 0) 0 p).length = 4096 := by
      rw [write_at_length _ _ _ (by rw [hrep]; omega), hrep]
    have l2 : (write_at (write_at (List.replicate 4096 0) 0 p) (0 + p.length) x).length
        = 4096 := by
      rw [write_at_length _ _ _ (by rw [l1]; omega), l1]
    rw [take_write_at _ _ _ (by rw [l2]; omega), take_write_at _ _ _ (by rw [l1]; omega),
      take_write_at _ _ _ (by rw [hrep]; omega)]
    simp
  unfold ComparisonGenerator.emit_all ComparisonGenerator.emit_prologue
    ComparisonGenerator.emit_epilogue ComparisonGenerator.make_executable
  by_cases hw : plat.windows = true
  · simp only [hw, if_true, hp]
    rw [emit_bytes_first plat _ ha (by decide)]
    simp only [emit_keys_eq]
    rw [emit_bytes_next plat _ _ _ (by decide)]
    simp only
    rw [emit_bytes_next plat _ _ _ (by decide)]
    refine ⟨_, rfl, ?_⟩
    simp only [Option.getD_some]
    exact key [0x48, 0x89, 0xcf, 0x48, 0x89, 0xd6] [0x31, 0xc0] [0xc3] (by decide)
  · simp only [hw, if_false, hp, if_true, Bool.false_eq_true]
    rw [emit_bytes_first plat _ ha (by decide)]
    simp only [emit_keys_eq]
    rw [emit_bytes_next plat _ _ _ (by decide)]
    simp only
    rw [emit_bytes_next plat _ _ _ (by decide)]
    refine ⟨_, rfl, ?_⟩
    simp only [Option.getD_some]
    exact key [0x55, 0x48, 0x89, 0xe5] [0x31, 0xc0] [0x5d, 0xc3] (by decide)

/-- The generated function returns 0 whatever the records hold. -/
theorem generated_function_zero (plat : Platform) (g : GlobalComparator) (keys : List KeySpec)
    (R : Nat) (hx : plat.x86_64 = true) (ha : plat.allocation_succeeds = true)
    (hp : plat.protection_succeeds = true) (a b : Bytes) :
    (ComparisonGenerator.generate plat g keys R).1 a b = .ok 0 := by
  obtain ⟨code, h1, h2⟩ := emit_all_code plat keys R ha hp
  unfold ComparisonGenerator.generate ComparisonGenerator.is_available
  rw [hx, h1]
  simp only [Bool.not_true, Bool.false_eq_true, if_false]
  rw [h2]
  unfold x64_call
  by_cases hw : plat.windows = true
  · simp [hw, x64_run, static_cast_signed]
  · simp [hw, x64_run, static_cast_signed]

/-! ## The sort engine with the reference comparator -/

theorem create_fallback (plat : Platform) (g : GlobalComparator) (config : SortEngine.Config)
    (hfb : plat.x86_64 = false) :
    (SortEngine.create plat g config).compare_func_
        = interpreted_compare_wrapper plat.endian (InterpretedComparator.wrap config.keys)
    ∧ (SortEngine.create plat g config).config_ = config := by
  unfold SortEngine.create ComparisonGenerator.is_available
  rw [hfb]
  exact ⟨rfl, rfl⟩

theorem compare_value_total (keys : List KeySpec) :
    (∀ a b, ¬ compare_value keys a b < 0 → compare_value keys b a ≤ 0)
    ∧ (∀ a b c, compare_value keys a b ≤ 0 → compare_value keys b c ≤ 0
        → compare_value keys a c ≤ 0) := by
  obtain ⟨_, h2, h3⟩ := compare_value_preorder keys
  refine ⟨?_, h3⟩
  intro a b h
  have := h2 a b
  omega

/-- On the fallback path, for keys the interpreted comparator can compare on and at least
one worker, `SortEngine::sort` returns a permutation of the region in which every record
compares `≤ 0` against every later one. -/
theorem reference_sort_spec (plat : Platform) (g : GlobalComparator) (R T : Nat)
    (K : List KeySpec) (data : Region) (N : Nat) (hfb : plat.x86_64 = false)
    (hK : ∀ k ∈ K, k.comparable R) (hwf : Region.wf R data) (hN : data.length = N)
    (hT : 1 ≤ T) :
    ∃ out : Region,
      (SortEngine.create plat g ⟨R, T, K⟩).sort data N = .ok out
      ∧ out.Perm data
      ∧ out.Pairwise (fun a b => compare_value K a b ≤ 0) := by
  obtain ⟨h1, h2⟩ := create_fallback plat g ⟨R, T, K⟩ hfb
  have hcmp : (SortEngine.create plat g ⟨R, T, K⟩).compare_func_
      = pure_compare (compare_value K) := by
    rw [h1]
    exact interpreted_compare_eq plat.endian K R hK
  obtain ⟨out, hout, hperm, hs⟩ :=
    sort_spec (SortEngine.create plat g ⟨R, T, K⟩) (compare_value K) data N hcmp
      (by rw [h2]; exact hwf) hN (by rw [h2]; exact hT)
  obtain ⟨H1, H2⟩ := compare_value_total K
  exact ⟨out, hout, hperm, hs H1 H2⟩

/-- On the fallback path, for keys the interpreted comparator can compare on, the region
after `SortEngine::sort` is a permutation of the region before and every adjacent pair of
records compares `≤ 0` under `RecordComparator::compare` on views of the record length. -/
theorem reference_sort_adjacent (plat : Platform) (g : GlobalComparator) (R T : Nat)
    (K : List KeySpec) (data : Region) (N : Nat) (hfb : plat.x86_64 = false)
    (hK : ∀ k ∈ K, k.comparable R) (hwf : Region.wf R data) (hN : data.length = N)
    (hT : 1 ≤ T) :
    ∃ out : Region,
      (SortEngine.create plat g ⟨R, T, K⟩).sort data N = .ok out
      ∧ out.Perm data
      ∧ ∀ i, i + 1 < N →
          ∃ c, RecordComparator.compare plat.endian K ⟨record_at out i, R⟩
              ⟨record_at out (i + 1), R⟩ = .ok c ∧ c ≤ 0 := by
  obtain ⟨out, hout, hperm, hs⟩ := reference_sort_spec plat g R T K data N hfb hK hwf hN hT
  refine ⟨out, hout, hperm, ?_⟩
  intro i hi
  have hlen : out.length = N := by rw [hperm.length_eq, hN]
  refine ⟨_, compare_inside plat.endian K _ _ R (fun k hk => (hK k hk).1), ?_⟩
  rw [record_at_lt out i (by omega), record_at_lt out (i + 1) (by omega)]
  exact (List.pairwise_iff_getElem.mp hs) i (i + 1) (by omega) (by omega) (by omega)

/-! ## Claims about the sort engine -/

/-- C1 (failing input): a record length of 1000002 with the little-endian integer key at
position 1000001 of width 2, which lies inside the record, and a region of two records. On
the fallback path the interpreted comparator views every record as 1000000 bytes long, so
the bounds check of `extract_key` rejects the key at the first comparison and
`SortEngine::sort` ends with the exception instead of returning a sorted region. -/
theorem reference_sort_raises_beyond_1000000 :
    (⟨1000001, 2, .LittleEndianInt, .Ascending⟩ : KeySpec).inside 1000002
    ∧ Region.wf 1000002 [List.replicate 1000002 0, List.replicate 1000002 0]
    ∧ (SortEngine.create ⟨false, false, .little, true, true, 0⟩ none
          ⟨1000002, 1, [⟨1000001, 2, .LittleEndianInt, .Ascending⟩]⟩).sort
        [List.replicate 1000002 0, List.replicate 1000002 0] 2
      = .error .key_beyond_record := by
  refine ⟨by decide, ?_, by rfl⟩
  intro r hr
  simp only [List.mem_cons, List.mem_singleton, List.not_mem_nil, or_false, or_self] at hr
  rw [hr, List.length_replicate]

/-- C2: for every comparison function that returns a value (consistent order or not), every
record length, every worker count `T ≥ 1` and every region of `N` records of that length,
`SortEngine::sort` returns and the region afterwards is a permutation of the region before:
the same multiset of records, each still of the record length. -/
theorem sort_is_permutation (R T : Nat) (keys : List KeySpec) (owns : Bool)
    (f : Bytes → Bytes → Int) (data : Region) (N : Nat)
    (hwf : Region.wf R data) (hN : data.length = N) (hT : 1 ≤ T) :
    ∃ out : Region,
      SortEngine.sort ⟨⟨R, T, keys⟩, pure_compare f, owns⟩ data N = .ok out
      ∧ out.Perm data ∧ Region.wf R out := by
  obtain ⟨out, h1, h2, _⟩ :=
    sort_spec ⟨⟨R, T, keys⟩, pure_compare f, owns⟩ f data N rfl hwf hN hT
  exact ⟨out, h1, h2, wf_of_perm R _ _ h2 hwf⟩

/-- Witness for C2: three one-byte records and a comparison function that always answers
"less". -/
theorem sort_is_permutation_witness :
    ∃ out : Region,
      SortEngine.sort ⟨⟨1, 1, []⟩, pure_compare (fun _ _ => -1), false⟩ [[3], [1], [2]] 3
        = .ok out
      ∧ out.Perm [[3], [1], [2]] ∧ Region.wf 1 out :=
  sort_is_permutation 1 1 [] false (fun _ _ => -1) [[3], [1], [2]] 3 (by decide) rfl
    (by decide)

/-- C3 (failing input): on an x86-64 target where the buffer is allocated and made
executable, the function returned by `ComparisonGenerator::generate` returns 0 for every key
list, record length and pair of records, because `emit_key_comparison` emits nothing; for
the one-byte Character key and the records 00 and 01 the reference comparator returns -1. -/
theorem generated_comparator_returns_zero :
    (∀ (windows : Bool) (rax : Nat) (g : GlobalComparator) (keys : List KeySpec) (R : Nat)
        (a b : Bytes),
      (ComparisonGenerator.generate ⟨true, windows, .little, true, true, rax⟩ g keys R).1 a b
        = .ok 0)
    ∧ RecordComparator.compare .little [⟨1, 1, .Character, .Ascending⟩] ⟨[0], 1⟩ ⟨[1], 1⟩
        = .ok (-1) := by
  refine ⟨?_, by rfl⟩
  intro windows rax g keys R a b
  exact generated_function_zero ⟨true, windows, .little, true, true, rax⟩ g keys R rfl rfl rfl
    a b

/-- C10: for every engine (any record length, key list and comparison function, any worker
count including 0) `SortEngine::sort` with `N = 0` or `N = 1` returns the region unchanged;
this holds for a comparison function that always throws and for `T = 0`, so neither the
comparison function nor the chunk-size division is evaluated. -/
theorem sort_small_unchanged (self : SortEngine) (data : Region) (N : Nat) (h : N ≤ 1) :
    self.sort data N = .ok data := by
  unfold SortEngine.sort
  rw [if_pos h]

/-- Witness for C10: one record, zero workers and a comparison function that always
throws. -/
theorem sort_small_unchanged_witness :
    SortEngine.sort ⟨⟨4, 0, []⟩, fun _ _ => .error .illegal_instruction, false⟩
      [[1, 2, 3, 4]] 1 = .ok [[1, 2, 3, 4]] :=
  sort_small_unchanged _ _ 1 (by decide)

/-! ## Records that compare equal: what a comparison function that never answers "less" does -/

theorem partition_loop_no_swap (R : Nat) (f : Bytes → Bytes → Int) (data : Region) (hi : Nat)
    (hno : ∀ a ∈ data, ∀ b ∈ data, ¬ f a b < 0) (hhi : hi < data.length) :
    ∀ (n j : Nat) (i : Int), j + n ≤ hi →
      RecordQuickSort.partition_loop R (pure_compare f) (hi : Int) n data i (j : Int)
        = .ok (data, i) := by
  intro n
  induction n with
  | zero => intro j i _; rfl
  | succ n ih =>
    intro j i hj
    unfold RecordQuickSort.partition_loop
    simp only [pure_compare, Int.toNat_ofNat]
    rw [if_neg (hno _ (record_at_mem data j (by omega)) _ (record_at_mem data hi hhi))]
    have e : (j : Int) + 1 = ((j + 1 : Nat) : Int) := by push_cast; ring
    rw [e]
    exact ih (j + 1) i (by omega)

/-- When no record of the region compares "less" than another, `quicksort` on a range of at
least two records moves the last record of the range to its front. -/
theorem quicksort_moves_last_first (R : Nat) (f : Bytes → Bytes → Int) (data : Region)
    (fuel lo e : Nat) (hwf : Region.wf R data) (hno : ∀ a ∈ data, ∀ b ∈ data, ¬ f a b < 0)
    (he : e ≤ data.length) (hfuel : e - lo ≤ fuel) (h2 : lo + 1 < e) :
    ∃ out : Region,
      RecordQuickSort.quicksort R (pure_compare f) fuel data (lo : Int) ((e : Int) - 1) = .ok out
      ∧ out.Perm data ∧ record_at out lo = record_at data (e - 1) := by
  obtain ⟨fuel', rfl⟩ : ∃ k, fuel = k + 1 := ⟨fuel - 1, by omega⟩
  have ehi : (e : Int) - 1 = ((e - 1 : Nat) : Int) := by omega
  have hloop := partition_loop_no_swap R f data (e - 1) hno (by omega) (e - 1 - lo) lo
    ((lo : Int) - 1) (by omega)
  have hpart : RecordQuickSort.partition R (pure_compare f) data (lo : Int) ((e - 1 : Nat) : Int)
      = .ok (swap_list data lo (e - 1), (lo : Int)) := by
    unfold RecordQuickSort.partition
    have e0 : (((e - 1 : Nat) : Int) - (lo : Int)).toNat = e - 1 - lo := by omega
    rw [e0, hloop]
    simp only [sub_add_cancel, Int.toNat_ofNat]
    rw [swap_records_eq R data lo (e - 1) hwf (by omega) (by omega)]
  have hperm1 := swap_list_perm data lo (e - 1) (by omega) (by omega)
  obtain ⟨out, hq, hperm, hfr, _, _⟩ :=
    quicksort_spec R f fuel' (swap_list data lo (e - 1)) (lo + 1) e
      (wf_of_perm R _ _ hperm1 hwf) (by rw [swap_list_length]; exact he) (by omega)
  refine ⟨out, ?_, hperm.trans hperm1, ?_⟩
  · unfold RecordQuickSort.quicksort
    rw [if_pos (by omega), ehi, hpart]
    simp only
    rw [quicksort_done _ _ _ _ _ _ (by omega)]
    simp only
    have ep : (lo : Int) + 1 = ((lo + 1 : Nat) : Int) := by push_cast; ring
    rw [ep, ← ehi]
    exact hq
  · rw [hfr lo (Or.inl (by omega)), record_at_swap data lo (e - 1) lo (by omega) (by omega),
      if_neg (by omega), if_pos rfl]

theorem sort_moves_last_first (R : Nat) (f : Bytes → Bytes → Int) (data : Region) (n : Nat)
    (hwf : Region.wf R data) (hno : ∀ a ∈ data, ∀ b ∈ data, ¬ f a b < 0)
    (hn : n ≤ data.length) (h2 : 2 ≤ n) :
    ∃ out : Region,
      RecordQuickSort.sort R (pure_compare f) data n = .ok out
      ∧ out.Perm data ∧ record_at out 0 = record_at data (n - 1) := by
  obtain ⟨out, h, hperm, hfirst⟩ :=
    quicksort_moves_last_first R f data n 0 n hwf hno hn (by omega) (by omega)
  refine ⟨out, ?_, hperm, hfirst⟩
  unfold RecordQuickSort.sort
  rw [if_neg (by omega)]
  simpa using h

theorem record_at_set_ne (data : Region) (i k : Nat) (x : Bytes) (h : k ≠ i) :
    record_at (data.set i x) k = record_at data k := by
  unfold record_at
  simp only [List.getD_eq_getElem?_getD, List.getElem?_set]
  have : ¬ i = k := fun e => h e.symm
  simp [this]

/-- The outer loop of the merge never rewrites a record of `temp` below `out`. -/
theorem merge_loop_frame (R : Nat) (cmp : ComparisonFunc) (data : Region)
    (chunks : List SortEngine.Chunk) :
    ∀ (n out : Nat) (temp : Region) (indices : List Nat) (temp' : Region),
      SortEngine.merge_loop R cmp data chunks n out temp indices = .ok temp' →
      ∀ k, k < out → record_at temp' k = record_at temp k := by
  intro n
  induction n with
  | zero =>
    intro out temp indices temp' h k _
    have : temp' = temp := by
      simp only [SortEngine.merge_loop, Except.ok.injEq] at h
      exact h.symm
    rw [this]
  | succ n ih =>
    intro out temp indices temp' h k hk
    unfold SortEngine.merge_loop at h
    split at h
    · exact absurd h (by simp)
    · split at h
      · exact absurd h (by simp)
      · rw [ih _ _ _ _ h k (by omega), record_at_set_ne _ _ _ _ (by omega)]

theorem one_thread_first_record (self : SortEngine) (f : Bytes → Bytes → Int) (data : Region)
    (N : Nat) (hcmp : self.compare_func_ = pure_compare f)
    (hT : self.config_.thread_count = 1) (hwf : Region.wf self.config_.record_length data)
    (hN : data.length = N) (h2 : 2 ≤ N) (hno : ∀ a ∈ data, ∀ b ∈ data, ¬ f a b < 0) :
    ∃ out : Region, self.sort data N = .ok out
      ∧ record_at out 0 = record_at data (N - 1) := by
  obtain ⟨out, h, _, hfirst⟩ :=
    sort_moves_last_first self.config_.record_length f data N hwf hno (by omega) h2
  refine ⟨out, ?_, hfirst⟩
  unfold SortEngine.sort
  rw [if_neg (by omega), if_neg (by omega)]
  simp only [hT, true_or, if_true]
  rw [hcmp]
  exact h

theorem find_min_two (f : Bytes → Bytes → Int) (d : Region)
    (h : ¬ f (record_at d 1000) (record_at d 0) < 0) :
    SortEngine.find_min_chunk (pure_compare f) d [⟨0, 1000⟩, ⟨1000, 1000⟩] [0, 0] 2 0 (-1)
      = .ok 0 := by
  simp [SortEngine.find_min_chunk, pure_compare, h]

/-- With two workers and 2000 records that never compare "less", the merged region starts
with the record that was last in the first chunk. -/
theorem two_chunks_first_record (self : SortEngine) (f : Bytes → Bytes → Int) (data : Region)
    (hcmp : self.compare_func_ = pure_compare f)
    (hT : self.config_.thread_count = 2) (hwf : Region.wf self.config_.record_length data)
    (hN : data.length = 2000) (hno : ∀ a ∈ data, ∀ b ∈ data, ¬ f a b < 0) :
    ∃ out : Region, self.sort data 2000 = .ok out
      ∧ record_at out 0 = record_at data 999 := by
  -- the worker threads
  obtain ⟨sv0, hs0, hp0, hf0⟩ :=
    sort_moves_last_first self.config_.record_length f data 1000 hwf hno (by omega) (by omega)
  have hwf0 := wf_of_perm _ _ _ hp0 hwf
  have hwfd : Region.wf self.config_.record_length (sv0.drop 1000) :=
    fun r hr => hwf0 r (List.mem_of_mem_drop hr)
  have hl0 : sv0.length = 2000 := by rw [hp0.length_eq, hN]
  obtain ⟨sv1, hs1, hp1, _⟩ :=
    quicksort_sort_spec self.config_.record_length f (sv0.drop 1000) 1000 hwfd
      (by rw [List.length_drop]; omega)
  have hperm1 : (sv0.take 1000 ++ sv1).Perm data := by
    have := List.Perm.append_left (sv0.take 1000) hp1
    rw [List.take_append_drop] at this
    exact this.trans hp0
  have hwf1 := wf_of_perm _ _ _ hperm1 hwf
  have hl1 : (sv0.take 1000 ++ sv1).length = 2000 := by rw [hperm1.length_eq, hN]
  have hfirst1 : record_at (sv0.take 1000 ++ sv1) 0 = record_at data 999 := by
    rw [record_at_append_left _ _ _ (by rw [List.length_take]; omega),
      record_at_take _ _ _ (by omega), hf0]
  have hchunks : SortEngine.sort_chunks self.config_.record_length (pure_compare f)
      [⟨0, 1000⟩, ⟨1000, 1000⟩] data = .ok (sv0.take 1000 ++ sv1) := by
    unfold SortEngine.sort_chunks
    simp only [List.drop_zero, List.take_zero, List.nil_append]
    rw [hs0]
    simp only
    unfold SortEngine.sort_chunks
    simp only
    rw [hs1]
    rfl
  -- the merge
  obtain ⟨out, hout, _, _⟩ :=
    merge_chunks_spec self f (sv0.take 1000 ++ sv1) [⟨0, 1000⟩, ⟨1000, 1000⟩] hcmp hwf1
      (by rw [hl1]; exact ⟨rfl, rfl, rfl⟩)
  have hno1 : ¬ f (record_at (sv0.take 1000 ++ sv1) 1000) (record_at (sv0.take 1000 ++ sv1) 0)
      < 0 :=
    hno _ (hperm1.subset (record_at_mem _ _ (by omega))) _
      (hperm1.subset (record_at_mem _ _ (by omega)))
  have hout0 : record_at out 0 = record_at (sv0.take 1000 ++ sv1) 0 := by
    have hm := hout
    unfold SortEngine.merge_chunks at hm
    rw [if_neg (by decide)] at hm
    simp only [List.foldl_cons, List.foldl_nil, List.length_cons, List.length_nil] at hm
    split at hm
    · exact absurd hm (by simp)
    · rename_i temp' hloop
      simp only [Except.ok.injEq] at hm
      have e : (0 + 1000 + 1000 : Nat) = 1999 + 1 := rfl
      rw [hcmp, e] at hloop
      unfold SortEngine.merge_loop at hloop
      have hfm : SortEngine.find_min_chunk (pure_compare f) (sv0.take 1000 ++ sv1)
          [⟨0, 1000⟩, ⟨1000, 1000⟩] (List.replicate (0 + 1 + 1) 0)
          ([⟨0, 1000⟩, ⟨1000, 1000⟩] : List SortEngine.Chunk).length 0 (-1) = .ok 0 :=
        find_min_two f _ hno1
      rw [hfm] at hloop
      simp only at hloop
      rw [if_neg (by omega)] at hloop
      have hfr := merge_loop_frame _ _ _ _ _ _ _ _ _ hloop 0 (by omega)
      rw [record_at_set _ _ _ _ (by rw [List.length_replicate]; omega), if_pos rfl] at hfr
      have hcpy : ∀ t : Bytes, t.length ≤ self.config_.record_length →
          memcpy t (record_at (sv0.take 1000 ++ sv1) 0) self.config_.record_length
            = record_at (sv0.take 1000 ++ sv1) 0 :=
        fun t ht => memcpy_full _ _ _
          (record_at_length _ _ hwf1 0 (by omega)) ht
      have hfr' : record_at temp' 0 = record_at (sv0.take 1000 ++ sv1) 0 := by
        rw [hfr]
        exact hcpy _ (record_at_replicate_length _ _ _)
      rw [← hm]
      cases temp' with
      | nil => rfl
      | cons x xs =>
        rw [record_at_append_left _ _ _ (by simp), hfr']
  refine ⟨out, ?_, by rw [hout0, hfirst1]⟩
  unfold SortEngine.sort
  rw [if_neg (by omega), if_neg (by omega)]
  simp only [hT]
  have hr : max 1000 (2000 / 2) = 1000 := by decide
  rw [hr, if_neg (by decide)]
  have hb : SortEngine.build_chunks 1000 2000 2000 0 []
      = .ok [⟨0, 1000⟩, ⟨1000, 1000⟩] := by rfl
  rw [hb]
  simp only
  rw [hcmp, hchunks]
  exact hout

theorem pairwise_of_adjacent (f : Bytes → Bytes → Int) (data : Region)
    (H2 : ∀ a b c, f a b ≤ 0 → f b c ≤ 0 → f a c ≤ 0)
    (hadj : ∀ i, i + 1 < data.length → f (record_at data i) (record_at data (i + 1)) ≤ 0) :
    data.Pairwise (fun a b => f a b ≤ 0) := by
  have hgap : ∀ d i, i + d + 1 < data.length →
      f (record_at data i) (record_at data (i + d + 1)) ≤ 0 := by
    intro d
    induction d with
    | zero => intro i hi; exact hadj i hi
    | succ d ih =>
      intro i hi
      exact H2 _ _ _ (ih i (by omega)) (hadj (i + d + 1) (by omega))
  rw [List.pairwise_iff_getElem]
  intro i j hi hj hij
  have := hgap (j - i - 1) i (by omega)
  rw [record_at_lt data i hi, record_at_lt data _ (by omega)] at this
  have e : i + (j - i - 1) + 1 = j := by omega
  simp only [e] at this
  exact this

/-- Two sorted permutations of a region in which records that compare equal are identical
are the same list. -/
theorem sorted_permutation_unique (K : List KeySpec) (data out1 out2 : Region)
    (hties : ∀ a ∈ data, ∀ b ∈ data, compare_value K a b = 0 → a = b)
    (hp1 : out1.Perm data) (hp2 : out2.Perm data)
    (hs1 : out1.Pairwise (fun a b => compare_value K a b ≤ 0))
    (hs2 : out2.Pairwise (fun a b => compare_value K a b ≤ 0)) : out1 = out2 := by
  obtain ⟨_, hsign, _⟩ := compare_value_preorder K
  refine List.Perm.eq_of_sorted ?_ hs1 hs2 (hp1.trans hp2.symm)
  intro a b ha hb hab hba
  apply hties a (hp1.subset ha) b (hp2.subset hb)
  have := hsign a b
  omega


/-! ## The path and the chunks of `SortEngine::sort` -/

/-- `SortEngine::sort` is its plan followed by the quicksort on the whole region or by the
worker threads and the merge. -/
theorem sort_eq_plan (self : SortEngine) (data : Region) (N : Nat) :
    self.sort data N
      = match self.plan N with
        | .error e => .error e
        | .ok none =>
          RecordQuickSort.sort self.config_.record_length self.compare_func_ data N
        | .ok (some chunks) =>
          match SortEngine.sort_chunks self.config_.record_length self.compare_func_ chunks
              data with
          | .error e => .error e
          | .ok data => SortEngine.merge_chunks self data chunks := by
  unfold SortEngine.sort SortEngine.plan
  by_cases h1 : N ≤ 1
  · simp only [if_pos h1]
    unfold RecordQuickSort.sort
    rw [if_pos h1]
  · simp only [if_neg h1]
    by_cases h0 : self.config_.thread_count = 0
    · simp only [if_pos h0]
    · simp only [if_neg h0]
      split
      · rfl
      · cases SortEngine.build_chunks (max 1000 (N / self.config_.thread_count)) N N 0 [] <;> rfl

theorem ceil_le_iff (C N k : Nat) (hC : 1 ≤ C) : (N + C - 1) / C ≤ k ↔ N ≤ k * C := by
  constructor
  · intro h
    by_contra hlt
    have h1 : k + 1 ≤ (N + C - 1) / C := by
      rw [Nat.le_div_iff_mul_le (by omega)]
      have : (k + 1) * C = k * C + C := Nat.succ_mul k C
      omega
    omega
  · intro h
    by_contra hlt
    have h1 : k + 1 ≤ (N + C - 1) / C := by omega
    rw [Nat.le_div_iff_mul_le (by omega)] at h1
    have : (k + 1) * C = k * C + C := Nat.succ_mul k C
    omega

/-- The chunk loop cuts the region every `records_per_thread` records. -/
theorem build_chunks_exact (C N : Nat) (hC : 1 ≤ C) :
    ∀ (fuel k : Nat), k ≤ (N + C - 1) / C → N - min (k * C) N ≤ fuel →
      SortEngine.build_chunks C N fuel (min (k * C) N)
          ((List.range k).map (fun i => (⟨i * C, min C (N - i * C)⟩ : SortEngine.Chunk)))
        = .ok (chunk_list C N) := by
  intro fuel
  induction fuel with
  | zero =>
    intro k hk hf
    have hge : N ≤ k * C := by
      by_contra h
      have : min (k * C) N = k * C := by omega
      omega
    have hkm : k = (N + C - 1) / C := by
      have := (ceil_le_iff C N k hC).mpr hge
      omega
    unfold SortEngine.build_chunks
    rw [if_neg (by omega)]
    unfold chunk_list
    rw [← hkm]
  | succ fuel ih =>
    intro k hk hf
    unfold SortEngine.build_chunks
    by_cases hlt : min (k * C) N < N
    · rw [if_pos hlt]
      have hk1 : k * C < N := by omega
      have hmin : min (k * C) N = k * C := by omega
      have hkm : k + 1 ≤ (N + C - 1) / C := by
        by_contra h
        have := (ceil_le_iff C N k hC).mp (by omega)
        omega
      have hs : (k + 1) * C = k * C + C := Nat.succ_mul k C
      have hoff : min (k * C) N + min C (N - min (k * C) N) = min ((k + 1) * C) N := by
        rw [hmin, hs]
        omega
      simp only
      rw [hoff, hmin]
      have hacc : (List.range k).map
            (fun i => (⟨i * C, min C (N - i * C)⟩ : SortEngine.Chunk))
            ++ [⟨k * C, min C (N - k * C)⟩]
          = (List.range (k + 1)).map
            (fun i => (⟨i * C, min C (N - i * C)⟩ : SortEngine.Chunk)) := by
        rw [List.range_succ, List.map_append]
        rfl
      rw [hacc]
      exact ih (k + 1) hkm (by rw [hs] at *; omega)
    · rw [if_neg hlt]
      have hge : N ≤ k * C := by omega
      have hkm : k = (N + C - 1) / C := by
        have := (ceil_le_iff C N k hC).mpr hge
        omega
      unfold chunk_list
      rw [← hkm]

theorem chunk_list_getD (C N i : Nat) (hi : i < (N + C - 1) / C) :
    (chunk_list C N).getD i default = ⟨i * C, min C (N - i * C)⟩ := by
  unfold chunk_list
  rw [List.getD_eq_getElem?_getD, List.getElem?_map, List.getElem?_range hi]
  rfl

theorem chunk_list_length (C N : Nat) : (chunk_list C N).length = (N + C - 1) / C := by
  unfold chunk_list
  rw [List.length_map, List.length_range]

/-- The plan of `SortEngine::sort` for at least two workers, with
`C = max(1000, floor(N/T))`: no chunks below `2 C` records, the chunks cut every `C` records
from `2 C` records on. -/
theorem plan_eq (self : SortEngine) (N : Nat) (hT : 2 ≤ self.config_.thread_count) :
    self.plan N
      = if N < max 1000 (N / self.config_.thread_count) * 2 then .ok none
        else .ok (some (chunk_list (max 1000 (N / self.config_.thread_count)) N)) := by
  unfold SortEngine.plan
  by_cases h1 : N ≤ 1
  · rw [if_pos h1, if_pos (by omega)]
  · rw [if_neg h1, if_neg (by omega)]
    simp only
    by_cases h2 : N < max 1000 (N / self.config_.thread_count) * 2
    · rw [if_pos (Or.inr h2), if_pos h2]
    · rw [if_neg (by omega), if_neg h2]
      have h := build_chunks_exact (max 1000 (N / self.config_.thread_count)) N
        (le_trans (by decide) (le_max_left 1000 _)) N 0 (Nat.zero_le _) (by simp)
      simp only [Nat.zero_mul, Nat.zero_le, min_eq_left, List.range_zero, List.map_nil] at h
      rw [h]

/-! ## Claims about stability, chunks and worker counts -/

/-- C11: the sort is not stable. With the one-byte Character key at position 1 and records
of 2 bytes, the records 01 00 and 01 01 compare equal under the reference comparator and
differ in the byte outside the key, and `SortEngine::sort` on the region of these two
records (one worker, fallback path) returns them in the opposite order. -/
theorem sort_is_not_stable :
    ∃ (K : List KeySpec) (R : Nat) (a b : Bytes),
      (∀ k ∈ K, k.inside R) ∧ a.length = R ∧ b.length = R ∧ a ≠ b
      ∧ RecordComparator.compare .little K ⟨a, R⟩ ⟨b, R⟩ = .ok 0
      ∧ (SortEngine.create ⟨false, false, .little, true, true, 0⟩ none ⟨R, 1, K⟩).sort
          [a, b] 2 = .ok [b, a] :=
  ⟨[⟨1, 1, .Character, .Ascending⟩], 2, [1, 0], [1, 1], by decide, rfl, rfl, by decide,
    by decide, by decide⟩

/-- C12 (counterexample): for `N = 1500` records and `T = 2` workers the specification gives
`C = 1000` and 2 chunks, while `SortEngine::sort` builds no chunks: 1500 is less than twice
`records_per_thread = 1000`, so the whole region goes to one quicksort. -/
theorem small_region_not_split :
    spec_chunk_size 1500 2 = 1000 ∧ spec_chunk_count 1500 2 = 2
    ∧ (SortEngine.create ⟨false, false, .little, true, true, 0⟩ none
        ⟨16, 2, [⟨1, 4, .LittleEndianInt, .Ascending⟩]⟩).plan 1500 = .ok none := by
  decide

/-- C12 (amended): for `N ≥ 1` records and `T ≥ 2` workers such that rounding `N / T` up or
down gives the same `max(1000, N / T)`, with `C = min(max(1000, ceil(N/T)), N)`: when `N` is
at least twice `max(1000, floor(N/T))`, `SortEngine::sort` splits the region into exactly
`ceil(N/C)` contiguous chunks, chunk `i` starting at record `i * C`, each holding `C` records
except the last, which holds between 1 and `C` records and ends the region; otherwise it
builds no chunks and one quicksort sorts the whole region (`sort_eq_plan`). -/
theorem chunks_of_split_region (self : SortEngine) (N : Nat) (hN : 1 ≤ N)
    (hT : 2 ≤ self.config_.thread_count)
    (hround : max 1000 ((N + self.config_.thread_count - 1) / self.config_.thread_count)
      = max 1000 (N / self.config_.thread_count)) :
    (N < 2 * max 1000 (N / self.config_.thread_count) → self.plan N = .ok none)
    ∧ (2 * max 1000 (N / self.config_.thread_count) ≤ N →
        ∃ chunks : List SortEngine.Chunk,
          self.plan N = .ok (some chunks)
          ∧ chunks.length = spec_chunk_count N self.config_.thread_count
          ∧ (∀ i, i < chunks.length →
              (chunks.getD i default).start = i * spec_chunk_size N self.config_.thread_count)
          ∧ (∀ i, i + 1 < chunks.length →
              (chunks.getD i default).record_count
                = spec_chunk_size N self.config_.thread_count)
          ∧ (∀ i, i + 1 = chunks.length →
              1 ≤ (chunks.getD i default).record_count
              ∧ (chunks.getD i default).record_count
                ≤ spec_chunk_size N self.config_.thread_count
              ∧ (chunks.getD i default).start + (chunks.getD i default).record_count = N)) := by
  have hplan := plan_eq self N hT
  constructor
  · intro h
    rw [hplan, if_pos (by omega)]
  · intro h
    have hsize : spec_chunk_size N self.config_.thread_count
        = max 1000 (N / self.config_.thread_count) := by
      unfold spec_chunk_size
      rw [hround]
      omega
    have hcount : spec_chunk_count N self.config_.thread_count
        = (N + max 1000 (N / self.config_.thread_count) - 1)
          / max 1000 (N / self.config_.thread_count) := by
      unfold spec_chunk_count
      rw [hsize]
    rw [hsize, hcount]
    generalize max 1000 (N / self.config_.thread_count) = C at *
    have hC : 1 ≤ C := by omega
    refine ⟨chunk_list C N, by rw [hplan, if_neg (by omega)], chunk_list_length C N, ?_, ?_, ?_⟩
    · intro i hi
      rw [chunk_list_length] at hi
      rw [chunk_list_getD C N i hi]
    · intro i hi
      rw [chunk_list_length] at hi
      rw [chunk_list_getD C N i (by omega)]
      have h1 : ¬ N ≤ (i + 1) * C := fun hle => by
        have := (ceil_le_iff C N (i + 1) hC).mpr hle
        omega
      have hs : (i + 1) * C = i * C + C := Nat.succ_mul i C
      simp only
      omega
    · intro i hi
      rw [chunk_list_length] at hi
      rw [chunk_list_getD C N i (by omega)]
      have h1 : ¬ N ≤ i * C := fun hle => by
        have := (ceil_le_iff C N i hC).mpr hle
        omega
      have h2 : N ≤ (i + 1) * C := (ceil_le_iff C N (i + 1) hC).mp (by omega)
      have hs : (i + 1) * C = i * C + C := Nat.succ_mul i C
      simp only
      omega

/-- Witness for C12 (amended): 2500 records and 2 workers make the chunks 1250 and 1250. -/
theorem chunks_of_split_region_witness :
    ∃ chunks : List SortEngine.Chunk,
      (SortEngine.create ⟨false, false, .little, true, true, 0⟩ none
        ⟨16, 2, [⟨1, 4, .LittleEndianInt, .Ascending⟩]⟩).plan 2500 = .ok (some chunks)
      ∧ chunks.length = spec_chunk_count 2500 2
      ∧ (∀ i, i < chunks.length →
          (chunks.getD i default).start = i * spec_chunk_size 2500 2)
      ∧ (∀ i, i + 1 < chunks.length →
          (chunks.getD i default).record_count = spec_chunk_size 2500 2)
      ∧ (∀ i, i + 1 = chunks.length →
          1 ≤ (chunks.getD i default).record_count
          ∧ (chunks.getD i default).record_count ≤ spec_chunk_size 2500 2
          ∧ (chunks.getD i default).start + (chunks.getD i default).record_count = 2500) :=
  (chunks_of_split_region
    (SortEngine.create ⟨false, false, .little, true, true, 0⟩ none
      ⟨16, 2, [⟨1, 4, .LittleEndianInt, .Ascending⟩]⟩) 2500 (by decide) (by decide)
    (by decide)).2 (by decide)

/-- C13 (failing input): 4001 records and `T = 2` workers. `records_per_thread` is
`4001 / 2 = 2000`, rounded down, so the chunk loop builds the three chunks of 2000, 2000 and
1 records and `SortEngine::sort` starts three worker threads, one more than `T`. -/
theorem more_chunks_than_workers :
    (SortEngine.create ⟨false, false, .little, true, true, 0⟩ none
        ⟨16, 2, [⟨1, 4, .LittleEndianInt, .Ascending⟩]⟩).plan 4001
      = .ok (some [⟨0, 2000⟩, ⟨2000, 2000⟩, ⟨4000, 1⟩]) := by
  decide

/-- C14 (failing input): a worker count of 0 and a region of two records. The chunk-size
computation divides the record count by the worker count before the worker count is
looked at, so `SortEngine::sort` fails on the division. With a worker count of 1 the plan
is the non-threaded path for every record count. -/
theorem zero_workers_divide_by_zero :
    (SortEngine.create ⟨false, false, .little, true, true, 0⟩ none
        ⟨2, 0, [⟨1, 1, .Character, .Ascending⟩]⟩).sort [[2, 0], [1, 0]] 2
      = .error .division_by_zero
    ∧ ∀ N : Nat, (SortEngine.create ⟨false, false, .little, true, true, 0⟩ none
        ⟨2, 1, [⟨1, 1, .Character, .Ascending⟩]⟩).plan N = .ok none := by
  refine ⟨by decide, ?_⟩
  intro N
  unfold SortEngine.plan
  split
  · rfl
  · rfl

/-! ## Argument parser: the checks of `ArgumentParser::parse` -/

theorem validate_keys_ok :
    ∀ (keys : List KeySpec) (R : Nat), ArgumentParser.validate_keys keys R = .ok () →
      ∀ k ∈ keys, k.position ≠ 0 ∧ (k.offset + k.length) % size_mod ≤ R
        ∧ (k.type = .Character ∨ k.length = 2 ∨ k.length = 4 ∨ k.length = 8)
  | [], _, _, k, hk => by simp at hk
  | key :: rest, R, h, k, hk => by
    unfold ArgumentParser.validate_keys at h
    split_ifs at h with h1 h2 h3
    rcases List.mem_cons.mp hk with rfl | hk
    · refine ⟨h1, by omega, ?_⟩
      by_cases ht : k.type = .Character
      · exact Or.inl ht
      · right
        by_contra hne
        exact h3 ⟨ht, by omega⟩
    · exact validate_keys_ok rest R h k hk

theorem validate_keys_numeric :
    ∀ (keys : List KeySpec) (R : Nat),
      ArgumentParser.validate_keys keys R = .error .numeric_key_length →
      ∃ k ∈ keys, k.type ≠ .Character ∧ k.length ≠ 2 ∧ k.length ≠ 4 ∧ k.length ≠ 8
  | [], _, h => by simp [ArgumentParser.validate_keys] at h
  | key :: rest, R, h => by
    unfold ArgumentParser.validate_keys at h
    split_ifs at h with h1 h2 h3
    · exact absurd h (by simp)
    · exact absurd h (by simp)
    · exact ⟨key, List.mem_cons_self _ _, h3⟩
    · obtain ⟨k, hk, hbad⟩ := validate_keys_numeric rest R h
      exact ⟨k, List.mem_cons_of_mem _ hk, hbad⟩

theorem validate_ok (args args' : ArgumentParser.Arguments)
    (h : ArgumentParser.validate args = .ok args') :
    args' = args ∧ args.keys ≠ [] ∧ args.record_length ≠ 0
      ∧ ArgumentParser.validate_keys args.keys args.record_length = .ok () := by
  unfold ArgumentParser.validate at h
  split_ifs at h with h1 h2
  split at h
  · exact absurd h (by simp)
  · rename_i u hu
    injection h with h
    exact ⟨h.symm, h1, h2, hu⟩

theorem parse_ok (hc : Nat) (argv : List Str) (args : ArgumentParser.Arguments)
    (h : ArgumentParser.parse hc argv = .ok args) :
    3 ≤ argv.length ∧ ∃ parameters,
      ArgumentParser.after_separator (argv.drop 3) = some parameters
      ∧ ArgumentParser.parse_parameters parameters (ArgumentParser.defaults hc argv) = .ok args
      ∧ ArgumentParser.validate args = .ok args := by
  unfold ArgumentParser.parse at h
  split_ifs at h with h1
  split at h
  · exact absurd h (by simp)
  · rename_i parameters hsep
    split at h
    · exact absurd h (by simp)
    · rename_i a ha
      have := (validate_ok a args h).1
      subst this
      exact ⟨by omega, parameters, hsep, ha, h⟩

theorem parse_ok_keys (hc : Nat) (argv : List Str) (args : ArgumentParser.Arguments)
    (h : ArgumentParser.parse hc argv = .ok args) :
    args.keys ≠ [] ∧ args.record_length ≠ 0
    ∧ ∀ k ∈ args.keys, k.position ≠ 0 ∧ (k.offset + k.length) % size_mod ≤ args.record_length
        ∧ (k.type = .Character ∨ k.length = 2 ∨ k.length = 4 ∨ k.length = 8) := by
  obtain ⟨_, parameters, _, _, hv⟩ := parse_ok hc argv args h
  obtain ⟨_, h1, h2, h3⟩ := validate_ok args args hv
  exact ⟨h1, h2, validate_keys_ok _ _ h3⟩

/-! ## Argument parser: the parameter loop -/

theorem extract_param_named (arg name v : Str)
    (h : ArgumentParser.extract_param arg name = some v) :
    parameter_named name arg = true ∧ v = parameter_value name arg := by
  unfold ArgumentParser.extract_param at h
  simp only [List.length_append, List.length_singleton] at h
  split_ifs at h with h1 h2 h3
  injection h with h
  refine ⟨?_, ?_⟩
  · unfold parameter_named
    simp only [Bool.and_eq_true, decide_eq_true_eq]
    exact ⟨not_not.mp h2, not_not.mp h3⟩
  · unfold parameter_value
    rw [← h, List.dropLast_eq_take, List.length_drop]

theorem extract_param_not_named (arg name : Str) (h : parameter_named name arg = false) :
    ArgumentParser.extract_param arg name = none := by
  cases hv : ArgumentParser.extract_param arg name with
  | none => rfl
  | some v =>
    have := (extract_param_named arg name v hv).1
    rw [h] at this
    exact absurd this (by simp)

theorem after_separator_none :
    ∀ l : List Str, ['/'] ∉ l → ArgumentParser.after_separator l = none
  | [], _ => rfl
  | arg :: rest, h => by
    unfold ArgumentParser.after_separator
    rw [if_neg (fun e : arg = ['/'] => h (e ▸ List.mem_cons_self _ _))]
    exact after_separator_none rest (fun hm => h (List.mem_cons_of_mem _ hm))

theorem after_separator_append :
    ∀ (l params : List Str), ['/'] ∉ l →
      ArgumentParser.after_separator (l ++ ['/'] :: params) = some params
  | [], params, _ => by simp [ArgumentParser.after_separator]
  | arg :: rest, params, h => by
    rw [List.cons_append]
    unfold ArgumentParser.after_separator
    rw [if_neg (fun e : arg = ['/'] => h (e ▸ List.mem_cons_self _ _))]
    exact after_separator_append rest params (fun hm => h (List.mem_cons_of_mem _ hm))

/-- On an argument vector with the separator after `front`, `ArgumentParser::parse` runs the
parameter loop on the arguments behind the separator and then the validation. -/
theorem parse_split (hc : Nat) (front params : List Str) (h3 : 3 ≤ front.length)
    (hsep : ['/'] ∉ front.drop 3) :
    ArgumentParser.parse hc (front ++ ['/'] :: params)
      = match ArgumentParser.parse_parameters params
            (ArgumentParser.defaults hc (front ++ ['/'] :: params)) with
        | .error e => .error e
        | .ok args => ArgumentParser.validate args := by
  unfold ArgumentParser.parse
  rw [if_neg (by rw [List.length_append]; omega), List.drop_append_of_le_length h3,
    after_separator_append _ _ hsep]

theorem parse_parameter_keys (x : Str) (a a1 : ArgumentParser.Arguments)
    (h : ArgumentParser.parse_parameter x a = .ok a1) :
    a1.keys = a.keys
    ∨ ∃ v, ArgumentParser.extract_param x ['s', 'o', 'r', 't'] = some v
        ∧ ArgumentParser.parse_sort_spec v = .ok a1.keys := by
  unfold ArgumentParser.parse_parameter at h
  split at h
  · rename_i v hv
    split at h
    · exact absurd h (by simp)
    · rename_i keys hk
      injection h with h
      subst h
      exact Or.inr ⟨v, hv, hk⟩
  · left
    split at h
    · split at h
      · exact absurd h (by simp)
      · injection h with h
        subst h
        rfl
    · split at h
      · split at h
        · exact absurd h (by simp)
        · injection h with h
          subst h
          rfl
      · exact absurd h (by simp)

theorem parse_parameter_record_length (x : Str) (a a1 : ArgumentParser.Arguments)
    (h : ArgumentParser.parse_parameter x a = .ok a1) :
    a1.record_length = a.record_length
    ∨ ∃ v, ArgumentParser.extract_param x ['r', 'e', 'c', 'o', 'r', 'd'] = some v
        ∧ stoull v = .ok a1.record_length := by
  unfold ArgumentParser.parse_parameter at h
  split at h
  · left
    split at h
    · exact absurd h (by simp)
    · injection h with h
      subst h
      rfl
  · split at h
    · rename_i v hv
      split at h
      · exact absurd h (by simp)
      · rename_i r hr
        injection h with h
        subst h
        exact Or.inr ⟨v, hv, hr⟩
    · left
      split at h
      · split at h
        · exact absurd h (by simp)
        · injection h with h
          subst h
          rfl
      · exact absurd h (by simp)

theorem parse_parameters_keys :
    ∀ (params : List Str) (a a1 : ArgumentParser.Arguments),
      ArgumentParser.parse_parameters params a = .ok a1 →
      a1.keys = a.keys
      ∨ ∃ p ∈ params, ∃ v, ArgumentParser.extract_param p ['s', 'o', 'r', 't'] = some v
          ∧ ArgumentParser.parse_sort_spec v = .ok a1.keys
  | [], a, a1, h => by
    unfold ArgumentParser.parse_parameters at h
    injection h with h
    exact Or.inl (h ▸ rfl)
  | x :: rest, a, a1, h => by
    unfold ArgumentParser.parse_parameters at h
    split at h
    · exact absurd h (by simp)
    · rename_i a2 h2
      rcases parse_parameters_keys rest a2 a1 h with hk | ⟨p, hp, v, hv, hk⟩
      · rcases parse_parameter_keys x a a2 h2 with hk2 | ⟨v, hv, hk2⟩
        · exact Or.inl (hk.trans hk2)
        · exact Or.inr ⟨x, List.mem_cons_self _ _, v, hv, hk ▸ hk2⟩
      · exact Or.inr ⟨p, List.mem_cons_of_mem _ hp, v, hv, hk⟩

theorem parse_parameters_record_length :
    ∀ (params : List Str) (a a1 : ArgumentParser.Arguments),
      ArgumentParser.parse_parameters params a = .ok a1 →
      a1.record_length = a.record_length
      ∨ ∃ p ∈ params, ∃ v, ArgumentParser.extract_param p ['r', 'e', 'c', 'o', 'r', 'd'] = some v
          ∧ stoull v = .ok a1.record_length
  | [], a, a1, h => by
    unfold ArgumentParser.parse_parameters at h
    injection h with h
    exact Or.inl (h ▸ rfl)
  | x :: rest, a, a1, h => by
    unfold ArgumentParser.parse_parameters at h
    split at h
    · exact absurd h (by simp)
    · rename_i a2 h2
      rcases parse_parameters_record_length rest a2 a1 h with hk | ⟨p, hp, v, hv, hk⟩
      · rcases parse_parameter_record_length x a a2 h2 with hk2 | ⟨v, hv, hk2⟩
        · exact Or.inl (hk.trans hk2)
        · exact Or.inr ⟨x, List.mem_cons_self _ _, v, hv, hk ▸ hk2⟩
      · exact Or.inr ⟨p, List.mem_cons_of_mem _ hp, v, hv, hk⟩

theorem parse_parameters_unknown :
    ∀ (params : List Str) (a : ArgumentParser.Arguments) (p : Str), p ∈ params →
      ArgumentParser.extract_param p ['s', 'o', 'r', 't'] = none →
      ArgumentParser.extract_param p ['r', 'e', 'c', 'o', 'r', 'd'] = none →
      ArgumentParser.extract_param p
        ['t', 'h', 'r', 'e', 'a', 'd', '_', 'c', 'o', 'u', 'n', 't'] = none →
      ∃ e, ArgumentParser.parse_parameters params a = .error e
  | [], _, _, hp, _, _, _ => by simp at hp
  | x :: rest, a, p, hp, hs, hr, ht => by
    unfold ArgumentParser.parse_parameters
    rcases List.mem_cons.mp hp with rfl | hp
    · have : ArgumentParser.parse_parameter p a = .error .unknown_parameter := by
        unfold ArgumentParser.parse_parameter
        rw [hs, hr, ht]
      rw [this]
      exact ⟨_, rfl⟩
    · cases hx : ArgumentParser.parse_parameter x a with
      | error e => exact ⟨e, rfl⟩
      | ok a2 => exact parse_parameters_unknown rest a2 p hp hs hr ht

/-! ## Argument parser: the order of the parameters -/

theorem same_outcome_refl (x : Except ArgumentError ArgumentParser.Arguments) :
    same_outcome x x := by
  cases x <;> simp [same_outcome]

theorem same_outcome_trans (x y z : Except ArgumentError ArgumentParser.Arguments)
    (h1 : same_outcome x y) (h2 : same_outcome y z) : same_outcome x z := by
  cases x <;> cases y <;> cases z <;> simp_all [same_outcome]

theorem same_outcome_validate (x y : Except ArgumentError ArgumentParser.Arguments) :
    same_outcome x y →
    same_outcome
      (match x with
        | .error e => .error e
        | .ok args => ArgumentParser.validate args)
      (match y with
        | .error e => .error e
        | .ok args => ArgumentParser.validate args) := by
  intro h
  rcases x with e | a <;> rcases y with e2 | b
  · trivial
  · exact h.elim
  · exact h.elim
  · have hab : a = b := h
    subst hab
    exact same_outcome_refl _

theorem parse_parameters_swap (x y : Str) (l : List Str) (a : ArgumentParser.Arguments)
    (hs : ¬ (parameter_named ['s', 'o', 'r', 't'] x = true
      ∧ parameter_named ['s', 'o', 'r', 't'] y = true))
    (hr : ¬ (parameter_named ['r', 'e', 'c', 'o', 'r', 'd'] x = true
      ∧ parameter_named ['r', 'e', 'c', 'o', 'r', 'd'] y = true))
    (ht : ¬ (parameter_named ['t', 'h', 'r', 'e', 'a', 'd', '_', 'c', 'o', 'u', 'n', 't'] x = true
      ∧ parameter_named ['t', 'h', 'r', 'e', 'a', 'd', '_', 'c', 'o', 'u', 'n', 't'] y = true)) :
    same_outcome (ArgumentParser.parse_parameters (y :: x :: l) a)
      (ArgumentParser.parse_parameters (x :: y :: l) a) := by
  have hs' : ∀ v w, ArgumentParser.extract_param x ['s', 'o', 'r', 't'] = some v →
      ArgumentParser.extract_param y ['s', 'o', 'r', 't'] = some w → False :=
    fun v w hv hw => hs ⟨(extract_param_named _ _ _ hv).1, (extract_param_named _ _ _ hw).1⟩
  have hr' : ∀ v w, ArgumentParser.extract_param x ['r', 'e', 'c', 'o', 'r', 'd'] = some v →
      ArgumentParser.extract_param y ['r', 'e', 'c', 'o', 'r', 'd'] = some w → False :=
    fun v w hv hw => hr ⟨(extract_param_named _ _ _ hv).1, (extract_param_named _ _ _ hw).1⟩
  have ht' : ∀ v w, ArgumentParser.extract_param x
        ['t', 'h', 'r', 'e', 'a', 'd', '_', 'c', 'o', 'u', 'n', 't'] = some v →
      ArgumentParser.extract_param y
        ['t', 'h', 'r', 'e', 'a', 'd', '_', 'c', 'o', 'u', 'n', 't'] = some w → False :=
    fun v w hv hw => ht ⟨(extract_param_named _ _ _ hv).1, (extract_param_named _ _ _ hw).1⟩
  simp only [ArgumentParser.parse_parameters, ArgumentParser.parse_parameter]
  generalize ArgumentParser.extract_param x ['s', 'o', 'r', 't'] = sx at hs'
  generalize ArgumentParser.extract_param y ['s', 'o', 'r', 't'] = sy at hs'
  generalize ArgumentParser.extract_param x ['r', 'e', 'c', 'o', 'r', 'd'] = rx at hr'
  generalize ArgumentParser.extract_param y ['r', 'e', 'c', 'o', 'r', 'd'] = ry at hr'
  generalize ArgumentParser.extract_param x
    ['t', 'h', 'r', 'e', 'a', 'd', '_', 'c', 'o', 'u', 'n', 't'] = tx at ht'
  generalize ArgumentParser.extract_param y
    ['t', 'h', 'r', 'e', 'a', 'd', '_', 'c', 'o', 'u', 'n', 't'] = ty at ht'
  rcases sx with _ | sx <;> rcases sy with _ | sy
  · rcases rx with _ | rx <;> rcases ry with _ | ry
    · rcases tx with _ | tx <;> rcases ty with _ | ty
      · exact trivial
      · cases h0 : stoull ty <;> simp only [h0] <;>
          first | exact same_outcome_refl _ | exact trivial
      · cases h0 : stoull tx <;> simp only [h0] <;>
          first | exact same_outcome_refl _ | exact trivial
      · exact (ht' tx ty rfl rfl).elim
    · rcases tx with _ | tx
      · cases h0 : stoull ry <;> simp only [h0] <;>
          first | exact same_outcome_refl _ | exact trivial
      · cases h0 : stoull ry <;> cases h1 : stoull tx <;> simp only [h0, h1] <;>
          first | exact same_outcome_refl _ | exact trivial
    · rcases ty with _ | ty
      · cases h0 : stoull rx <;> simp only [h0] <;>
          first | exact same_outcome_refl _ | exact trivial
      · cases h0 : stoull rx <;> cases h1 : stoull ty <;> simp only [h0, h1] <;>
          first | exact same_outcome_refl _ | exact trivial
    · exact (hr' rx ry rfl rfl).elim
  · rcases rx with _ | rx
    · rcases tx with _ | tx
      · cases h0 : ArgumentParser.parse_sort_spec sy <;> simp only [h0] <;>
          first | exact same_outcome_refl _ | exact trivial
      · cases h0 : ArgumentParser.parse_sort_spec sy <;> cases h1 : stoull tx <;> simp only [h0, h1] <;>
          first | exact same_outcome_refl _ | exact trivial
    · cases h0 : ArgumentParser.parse_sort_spec sy <;> cases h1 : stoull rx <;> simp only [h0, h1] <;>
        first | exact same_outcome_refl _ | exact trivial
  · rcases ry with _ | ry
    · rcases ty with _ | ty
      · cases h0 : ArgumentParser.parse_sort_spec sx <;> simp only [h0] <;>
          first | exact same_outcome_refl _ | exact trivial
      · cases h0 : ArgumentParser.parse_sort_spec sx <;> cases h1 : stoull ty <;> simp only [h0, h1] <;>
          first | exact same_outcome_refl _ | exact trivial
    · cases h0 : ArgumentParser.parse_sort_spec sx <;> cases h1 : stoull ry <;> simp only [h0, h1] <;>
        first | exact same_outcome_refl _ | exact trivial
  · exact (hs' sx sy rfl rfl).elim

theorem countP_pair_le_one {α : Type} (p : α → Bool) (x y : α) (l : List α)
    (h : List.countP p (y :: x :: l) ≤ 1) : ¬ (p x = true ∧ p y = true) := by
  rintro ⟨hx, hy⟩
  rw [List.countP_cons_of_pos _ _ hy, List.countP_cons_of_pos _ _ hx] at h
  omega

theorem countP_tail_le_one {α : Type} (p : α → Bool) (x : α) (l : List α)
    (h : List.countP p (x :: l) ≤ 1) : List.countP p l ≤ 1 := by
  rw [List.countP_cons] at h
  omega

theorem parse_parameters_perm {l₁ l₂ : List Str} (h : l₁.Perm l₂) :
    List.countP (parameter_named ['s', 'o', 'r', 't']) l₁ ≤ 1 →
    List.countP (parameter_named ['r', 'e', 'c', 'o', 'r', 'd']) l₁ ≤ 1 →
    List.countP (parameter_named ['t', 'h', 'r', 'e', 'a', 'd', '_', 'c', 'o', 'u', 'n', 't']) l₁
      ≤ 1 →
    ∀ a, same_outcome (ArgumentParser.parse_parameters l₁ a)
      (ArgumentParser.parse_parameters l₂ a) := by
  induction h with
  | nil => exact fun _ _ _ a => same_outcome_refl _
  | cons x _ ih =>
    intro hs hr ht a
    unfold ArgumentParser.parse_parameters
    cases hx : ArgumentParser.parse_parameter x a with
    | error e => exact trivial
    | ok a1 =>
      exact ih (countP_tail_le_one _ _ _ hs) (countP_tail_le_one _ _ _ hr)
        (countP_tail_le_one _ _ _ ht) a1
  | swap x y l =>
    intro hs hr ht a
    exact parse_parameters_swap x y l a (countP_pair_le_one _ _ _ _ hs)
      (countP_pair_le_one _ _ _ _ hr) (countP_pair_le_one _ _ _ _ ht)
  | trans h1 _ ih1 ih2 =>
    intro hs hr ht a
    exact same_outcome_trans _ _ _ (ih1 hs hr ht a)
      (ih2 (h1.countP_eq _ ▸ hs) (h1.countP_eq _ ▸ hr) (h1.countP_eq _ ▸ ht) a)

theorem parse_key_tuples_not_numeric :
    ∀ tokens : List Str,
      ArgumentParser.parse_key_tuples tokens ≠ .error .numeric_key_length
  | [] => by simp [ArgumentParser.parse_key_tuples]
  | [_] => by simp [ArgumentParser.parse_key_tuples]
  | [_, _] => by simp [ArgumentParser.parse_key_tuples]
  | [_, _, _] => by simp [ArgumentParser.parse_key_tuples]
  | t0 :: t1 :: t2 :: t3 :: rest => by
    have ih := parse_key_tuples_not_numeric rest
    have hst : ∀ s, stoull s ≠ .error .numeric_key_length := by
      intro s
      unfold stoull
      simp only
      split_ifs <;> simp
    have hkt : ∀ c, ArgumentParser.parse_key_type c ≠ .error .numeric_key_length := by
      intro c
      unfold ArgumentParser.parse_key_type
      split_ifs <;> simp
    have hso : ∀ c, ArgumentParser.parse_sort_order c ≠ .error .numeric_key_length := by
      intro c
      unfold ArgumentParser.parse_sort_order
      split_ifs <;> simp
    intro h
    unfold ArgumentParser.parse_key_tuples at h
    cases hh0 : stoull t0 with
    | error e =>
      rw [hh0] at h
      simp only at h
      injection h with h
      subst h
      exact hst t0 hh0
    | ok position =>
      rw [hh0] at h
      simp only at h
      cases hh1 : stoull t1 with
      | error e =>
        rw [hh1] at h
        simp only at h
        injection h with h
        subst h
        exact hst t1 hh1
      | ok length =>
        rw [hh1] at h
        simp only at h
        by_cases hl2 : t2.length ≠ 1
        · rw [if_pos hl2] at h
          exact absurd h (by simp)
        · rw [if_neg hl2] at h
          cases hh2 : ArgumentParser.parse_key_type (t2.headD ' ') with
          | error e =>
            rw [hh2] at h
            simp only at h
            injection h with h
            subst h
            exact hkt _ hh2
          | ok type =>
            rw [hh2] at h
            simp only at h
            by_cases hl3 : t3.length ≠ 1
            · rw [if_pos hl3] at h
              exact absurd h (by simp)
            · rw [if_neg hl3] at h
              cases hh3 : ArgumentParser.parse_sort_order (t3.headD ' ') with
              | error e =>
                rw [hh3] at h
                simp only at h
                injection h with h
                subst h
                exact hso _ hh3
              | ok order =>
                rw [hh3] at h
                simp only at h
                cases hh4 : ArgumentParser.parse_key_tuples rest with
                | error e =>
                  rw [hh4] at h
                  simp only at h
                  injection h with h
                  subst h
                  exact ih hh4
                | ok keys =>
                  rw [hh4] at h
                  simp only at h
                  exact absurd h (by simp)

theorem parse_parameters_not_numeric :
    ∀ (params : List Str) (a : ArgumentParser.Arguments),
      ArgumentParser.parse_parameters params a ≠ .error .numeric_key_length
  | [], a => by simp [ArgumentParser.parse_parameters]
  | x :: rest, a => by
    have hst : ∀ s, stoull s ≠ .error .numeric_key_length := by
      intro s
      unfold stoull
      simp only
      split_ifs <;> simp
    have hspec : ∀ v, ArgumentParser.parse_sort_spec v ≠ .error .numeric_key_length := by
      intro v
      unfold ArgumentParser.parse_sort_spec
      simp only
      split_ifs
      · simp
      · exact parse_key_tuples_not_numeric _
    intro h
    unfold ArgumentParser.parse_parameters at h
    cases hx : ArgumentParser.parse_parameter x a with
    | ok a1 =>
      rw [hx] at h
      exact parse_parameters_not_numeric rest a1 h
    | error e =>
      rw [hx] at h
      simp only at h
      injection h with h
      subst h
      unfold ArgumentParser.parse_parameter at hx
      split at hx
      · split at hx
        · rename_i e he
          injection hx with hx
          exact hspec _ (hx ▸ he)
        · exact absurd hx (by simp)
      · split at hx
        · split at hx
          · rename_i e he
            injection hx with hx
            exact hst _ (hx ▸ he)
          · exact absurd hx (by simp)
        · split at hx
          · split at hx
            · rename_i e he
              injection hx with hx
              exact hst _ (hx ▸ he)
            · exact absurd hx (by simp)
          · exact absurd hx (by simp)

theorem parse_numeric_error (hc : Nat) (argv : List Str)
    (h : ArgumentParser.parse hc argv = .error .numeric_key_length) :
    ∃ params args, ArgumentParser.after_separator (argv.drop 3) = some params
      ∧ ArgumentParser.parse_parameters params (ArgumentParser.defaults hc argv) = .ok args
      ∧ ∃ k ∈ args.keys, k.type ≠ .Character ∧ k.length ≠ 2 ∧ k.length ≠ 4 ∧ k.length ≠ 8 := by
  unfold ArgumentParser.parse at h
  split_ifs at h with h1
  · exact absurd h (by simp)
  · split at h
    · exact absurd h (by simp)
    · rename_i params hsep
      split at h
      · rename_i e he
        injection h with h
        exact absurd (h ▸ he) (parse_parameters_not_numeric _ _)
      · rename_i args ha
        refine ⟨params, args, hsep, ha, ?_⟩
        unfold ArgumentParser.validate at h
        split_ifs at h with h2 h3
        · exact absurd h (by simp)
        · exact absurd h (by simp)
        · split at h
          · rename_i e he
            injection h with h
            exact validate_keys_numeric _ _ (h ▸ he)
          · exact absurd h (by simp)

theorem validate_rejects (args : ArgumentParser.Arguments) (k : KeySpec) (hk : k ∈ args.keys)
    (hbad : k.type ≠ .Character ∧ k.length ≠ 2 ∧ k.length ≠ 4 ∧ k.length ≠ 8) :
    ∃ e, ArgumentParser.validate args = .error e := by
  cases hv : ArgumentParser.validate args with
  | error e => exact ⟨e, rfl⟩
  | ok args' =>
    obtain ⟨_, _, _, h3⟩ := validate_ok args args' hv
    have := (validate_keys_ok _ _ h3 k hk).2.2
    rcases this with h | h | h | h
    · exact absurd h hbad.1
    · exact absurd h hbad.2.1
    · exact absurd h hbad.2.2.1
    · exact absurd h hbad.2.2.2

/-- With the parameters `params` behind the separator, `ArgumentParser::parse` is the
parameter loop followed by the validation. -/
theorem parse_after_separator (hc : Nat) (argv params : List Str)
    (hsep : ArgumentParser.after_separator (argv.drop 3) = some params) :
    ArgumentParser.parse hc argv = .error .insufficient_arguments
    ∨ ArgumentParser.parse hc argv
      = match ArgumentParser.parse_parameters params (ArgumentParser.defaults hc argv) with
        | .error e => .error e
        | .ok args => ArgumentParser.validate args := by
  unfold ArgumentParser.parse
  split_ifs
  · exact Or.inl rfl
  · right
    rw [hsep]

/-- When no `sort(...)` parameter yields a key, the parse raises an error. -/
theorem parse_without_keys (hc : Nat) (argv params : List Str)
    (hsep : ArgumentParser.after_separator (argv.drop 3) = some params)
    (hnone : ∀ p ∈ params, parameter_named ['s', 'o', 'r', 't'] p = true →
      ∀ keys, ArgumentParser.parse_sort_spec (parameter_value ['s', 'o', 'r', 't'] p) = .ok keys →
        keys = []) :
    ∃ e, ArgumentParser.parse hc argv = .error e := by
  rcases parse_after_separator hc argv params hsep with h | h
  · exact ⟨_, h⟩
  · rw [h]
    cases hp : ArgumentParser.parse_parameters params (ArgumentParser.defaults hc argv) with
    | error e => exact ⟨e, rfl⟩
    | ok args =>
      have hkeys : args.keys = [] := by
        rcases parse_parameters_keys _ _ _ hp with hk | ⟨p, hpm, v, hv, hk⟩
        · exact hk
        · obtain ⟨hn, hval⟩ := extract_param_named _ _ _ hv
          exact hnone p hpm hn _ (hval ▸ hk)
      simp only
      unfold ArgumentParser.validate
      rw [if_pos hkeys]
      exact ⟨_, rfl⟩

/-- When no `record(...)` parameter yields a non-zero value, the parse raises an error. -/
theorem parse_without_record_length (hc : Nat) (argv params : List Str)
    (hsep : ArgumentParser.after_separator (argv.drop 3) = some params)
    (hnone : ∀ p ∈ params, parameter_named ['r', 'e', 'c', 'o', 'r', 'd'] p = true →
      ∀ r, stoull (parameter_value ['r', 'e', 'c', 'o', 'r', 'd'] p) = .ok r → r = 0) :
    ∃ e, ArgumentParser.parse hc argv = .error e := by
  rcases parse_after_separator hc argv params hsep with h | h
  · exact ⟨_, h⟩
  · rw [h]
    cases hp : ArgumentParser.parse_parameters params (ArgumentParser.defaults hc argv) with
    | error e => exact ⟨e, rfl⟩
    | ok args =>
      have hlen : args.record_length = 0 := by
        rcases parse_parameters_record_length _ _ _ hp with hk | ⟨p, hpm, v, hv, hk⟩
        · exact hk
        · obtain ⟨hn, hval⟩ := extract_param_named _ _ _ hv
          exact hnone p hpm hn _ (hval ▸ hk)
      simp only
      unfold ArgumentParser.validate
      split_ifs
      · exact ⟨_, rfl⟩
      · exact ⟨_, rfl⟩

/-! ## Claims about the argument parser -/

/-- C15 (failing input): the arguments `in out / sort(2,18446744073709551615,c,a) record(10)`.
`ArgumentParser::parse` returns normally with the key of position 2 and length `2^64 - 1`
and the record length 10: the sum `key.offset() + key.length` is computed in `size_t`, wraps
to 0 and passes the range check, although `position - 1 + length` is `2^64`, more than 10. -/
theorem key_range_check_wraps :
    ArgumentParser.parse 8 ["binsort".toList, "in".toList, "out".toList, "/".toList,
        "sort(2,18446744073709551615,c,a)".toList, "record(10)".toList]
      = .ok ⟨"in".toList, "out".toList,
          [⟨2, 18446744073709551615, .Character, .Ascending⟩], 10, 8⟩
    ∧ (KeySpec.offset ⟨2, 18446744073709551615, .Character, .Ascending⟩
        + 18446744073709551615) % size_mod = 0
    ∧ ¬ (2 - 1 + 18446744073709551615 ≤ 10) := by
  decide

/-- C16 (failing input): the arguments `in out / sort(1,2,f,a) record(4)`.
`ArgumentParser::parse` returns normally with a float key of length 2, since the length
check admits 2, 4 and 8 for every type other than Character, and
`RecordView::extract_float_key` raises `Invalid float length` on that key. -/
theorem float_key_of_length_two_admitted :
    ArgumentParser.parse 8 ["binsort".toList, "in".toList, "out".toList, "/".toList,
        "sort(1,2,f,a)".toList, "record(4)".toList]
      = .ok ⟨"in".toList, "out".toList, [⟨1, 2, .LittleEndianFloat, .Ascending⟩], 4, 8⟩
    ∧ ∀ (host : Endian) (data : Bytes),
        RecordView.extract_float_key host ⟨data, 4⟩ ⟨1, 2, .LittleEndianFloat, .Ascending⟩
          = .error .invalid_float_length :=
  ⟨by decide, fun _ _ => rfl⟩

/-- C17: `ArgumentParser::parse` and the length of integer keys. When the parse returns
normally, every returned integer key (type `w` or `W`) has length 2, 4 or 8 and
`RecordView::extract_key` does not raise `Invalid integer length` on it, whatever the
record. When every `sort(...)` parameter behind the separator has a specification with an
integer key of another length, the parse raises an error. The numeric-length error is
raised only when the keys read by the parameter loop hold a key that is not a Character
key and whose length is not 2, 4 or 8, so never for a Character key. -/
theorem integer_key_length_checked (hc : Nat) (argv : List Str) :
    (∀ args, ArgumentParser.parse hc argv = .ok args →
      ∀ k ∈ args.keys, k.type = .LittleEndianInt ∨ k.type = .BigEndianInt →
        (k.length = 2 ∨ k.length = 4 ∨ k.length = 8)
        ∧ ∀ (host : Endian) (view : RecordView),
            view.extract_key host k ≠ .error .invalid_integer_length)
    ∧ (∀ params, ArgumentParser.after_separator (argv.drop 3) = some params →
        (∀ p ∈ params, parameter_named ['s', 'o', 'r', 't'] p = true →
          ∀ keys,
            ArgumentParser.parse_sort_spec (parameter_value ['s', 'o', 'r', 't'] p) = .ok keys →
            ∃ k ∈ keys, (k.type = .LittleEndianInt ∨ k.type = .BigEndianInt)
              ∧ k.length ≠ 2 ∧ k.length ≠ 4 ∧ k.length ≠ 8) →
        ∃ e, ArgumentParser.parse hc argv = .error e)
    ∧ (ArgumentParser.parse hc argv = .error .numeric_key_length →
        ∃ params args, ArgumentParser.after_separator (argv.drop 3) = some params
          ∧ ArgumentParser.parse_parameters params (ArgumentParser.defaults hc argv) = .ok args
          ∧ ∃ k ∈ args.keys, k.type ≠ .Character
              ∧ k.length ≠ 2 ∧ k.length ≠ 4 ∧ k.length ≠ 8) := by
  refine ⟨?_, ?_, parse_numeric_error hc argv⟩
  · intro args h k hk ht
    have hlen : k.length = 2 ∨ k.length = 4 ∨ k.length = 8 := by
      rcases ((parse_ok_keys hc argv args h).2.2 k hk).2.2 with hc | hl
      · rcases ht with ht | ht <;> rw [hc] at ht <;> exact absurd ht (by decide)
      · exact hl
    refine ⟨hlen, ?_⟩
    intro host view
    unfold RecordView.extract_key
    simp only
    by_cases hb : (k.offset + k.length) % size_mod > view.length
    · rw [if_pos hb]
      simp
    · rw [if_neg hb]
      rcases ht with ht | ht <;> rw [ht] <;> simp only <;>
        rcases hlen with hl | hl | hl <;> simp [hl]
  · intro params hsep hbad
    rcases parse_after_separator hc argv params hsep with h | h
    · exact ⟨_, h⟩
    · rw [h]
      cases hp : ArgumentParser.parse_parameters params (ArgumentParser.defaults hc argv) with
      | error e => exact ⟨e, rfl⟩
      | ok args =>
        simp only
        rcases parse_parameters_keys _ _ _ hp with hk | ⟨p, hpm, v, hv, hk⟩
        · have hkeys : args.keys = [] := hk
          unfold ArgumentParser.validate
          rw [if_pos hkeys]
          exact ⟨_, rfl⟩
        · obtain ⟨hn, hval⟩ := extract_param_named _ _ _ hv
          obtain ⟨k, hkm, ht, hl⟩ := hbad p hpm hn _ (hval ▸ hk)
          refine validate_rejects args k hkm ⟨?_, hl⟩
          rcases ht with ht | ht <;> rw [ht] <;> decide

/-- Witness for C17: `sort(1,4,w,a) record(8)` is parsed and its integer key has length 4;
`sort(1,3,w,a) record(8)` raises an error. -/
theorem integer_key_length_checked_witness :
    ((4 = 2 ∨ 4 = 4 ∨ 4 = 8)
      ∧ ∀ (host : Endian) (view : RecordView),
          view.extract_key host ⟨1, 4, .LittleEndianInt, .Ascending⟩
            ≠ .error .invalid_integer_length)
    ∧ ∃ e, ArgumentParser.parse 8 ["binsort".toList, "in".toList, "out".toList, "/".toList,
        "sort(1,3,w,a)".toList, "record(8)".toList] = .error e :=
  ⟨(integer_key_length_checked 8 ["binsort".toList, "in".toList, "out".toList, "/".toList,
        "sort(1,4,w,a)".toList, "record(8)".toList]).1
      ⟨"in".toList, "out".toList, [⟨1, 4, .LittleEndianInt, .Ascending⟩], 8, 8⟩ (by decide)
      ⟨1, 4, .LittleEndianInt, .Ascending⟩ (by decide) (Or.inl rfl),
    (integer_key_length_checked 8 ["binsort".toList, "in".toList, "out".toList, "/".toList,
        "sort(1,3,w,a)".toList, "record(8)".toList]).2.1
      ["sort(1,3,w,a)".toList, "record(8)".toList] (by decide) (by
        intro p hp hn keys hk
        rcases List.mem_cons.mp hp with rfl | hp
        · have hspec : ArgumentParser.parse_sort_spec
              (parameter_value ['s', 'o', 'r', 't'] "sort(1,3,w,a)".toList)
              = .ok [⟨1, 3, .LittleEndianInt, .Ascending⟩] := by decide
          rw [hspec] at hk
          injection hk with hk
          subst hk
          exact ⟨_, List.mem_cons_self _ _, Or.inl rfl, by decide, by decide, by decide⟩
        · rcases List.mem_cons.mp hp with rfl | hp
          · exact absurd hn (by decide)
          · simp at hp)⟩

/-- C18 (counterexample): the arguments `in out / sort(1,0,c,a) record(4)` are parsed
without an error and the returned Character key has length 0. -/
theorem character_key_of_length_zero_admitted :
    ArgumentParser.parse 8 ["binsort".toList, "in".toList, "out".toList, "/".toList,
        "sort(1,0,c,a)".toList, "record(4)".toList]
      = .ok ⟨"in".toList, "out".toList, [⟨1, 0, .Character, .Ascending⟩], 4, 8⟩ := by
  decide

/-- C18 (amended): every key other than a Character key in a successfully parsed
`Arguments` has length at least 1 (its length is 2, 4 or 8), so `ArgumentParser::parse`
raises an error for every sort specification in which such a key tuple has `len = 0`;
a Character key with `len = 0` is admitted. -/
theorem numeric_key_length_positive (hc : Nat) (argv : List Str)
    (args : ArgumentParser.Arguments) (h : ArgumentParser.parse hc argv = .ok args) :
    ∀ k ∈ args.keys, k.type ≠ .Character →
      1 ≤ k.length ∧ (k.length = 2 ∨ k.length = 4 ∨ k.length = 8) := by
  intro k hk ht
  rcases ((parse_ok_keys hc argv args h).2.2 k hk).2.2 with hc | hl
  · exact absurd hc ht
  · exact ⟨by omega, hl⟩

/-- Witness for C18 (amended): the big-endian key of `sort(3,2,W,d) record(8)`. -/
theorem numeric_key_length_positive_witness :
    ArgumentParser.parse 8 ["binsort".toList, "in".toList, "out".toList, "/".toList,
        "sort(3,2,W,d)".toList, "record(8)".toList]
      = .ok ⟨"in".toList, "out".toList, [⟨3, 2, .BigEndianInt, .Descending⟩], 8, 8⟩
    ∧ 1 ≤ 2 ∧ (2 = 2 ∨ 2 = 4 ∨ 2 = 8) :=
  ⟨by decide,
    numeric_key_length_positive 8 ["binsort".toList, "in".toList, "out".toList, "/".toList,
        "sort(3,2,W,d)".toList, "record(8)".toList]
      ⟨"in".toList, "out".toList, [⟨3, 2, .BigEndianInt, .Descending⟩], 8, 8⟩ (by decide)
      ⟨3, 2, .BigEndianInt, .Descending⟩ (by decide) (by decide)⟩

/-- C19: `ArgumentParser::parse` raises an error when the argument vector has fewer than
three entries (fewer than two file arguments), when no argument from index 3 on is `/`,
and, with `params` the arguments behind the separator, when some parameter is not of the
form `sort(...)`, `record(...)` or `thread_count(...)`, when no `sort(...)` parameter
yields a key, and when no `record(...)` parameter yields a non-zero value. -/
theorem parse_rejects_malformed (hc : Nat) (argv : List Str) :
    (argv.length < 3 → ∃ e, ArgumentParser.parse hc argv = .error e)
    ∧ (['/'] ∉ argv.drop 3 → ∃ e, ArgumentParser.parse hc argv = .error e)
    ∧ (∀ params, ArgumentParser.after_separator (argv.drop 3) = some params →
        ((∃ p ∈ params, parameter_named ['s', 'o', 'r', 't'] p = false
            ∧ parameter_named ['r', 'e', 'c', 'o', 'r', 'd'] p = false
            ∧ parameter_named ['t', 'h', 'r', 'e', 'a', 'd', '_', 'c', 'o', 'u', 'n', 't'] p
              = false) →
          ∃ e, ArgumentParser.parse hc argv = .error e)
        ∧ ((∀ p ∈ params, parameter_named ['s', 'o', 'r', 't'] p = true →
            ∀ keys,
              ArgumentParser.parse_sort_spec (parameter_value ['s', 'o', 'r', 't'] p)
                = .ok keys → keys = []) →
          ∃ e, ArgumentParser.parse hc argv = .error e)
        ∧ ((∀ p ∈ params, parameter_named ['r', 'e', 'c', 'o', 'r', 'd'] p = true →
            ∀ r, stoull (parameter_value ['r', 'e', 'c', 'o', 'r', 'd'] p) = .ok r → r = 0) →
          ∃ e, ArgumentParser.parse hc argv = .error e)) := by
  refine ⟨?_, ?_, ?_⟩
  · intro h
    unfold ArgumentParser.parse
    rw [if_pos h]
    exact ⟨_, rfl⟩
  · intro h
    unfold ArgumentParser.parse
    rw [after_separator_none _ h]
    split_ifs
    · exact ⟨_, rfl⟩
    · exact ⟨_, rfl⟩
  · intro params hsep
    refine ⟨?_, parse_without_keys hc argv params hsep,
      parse_without_record_length hc argv params hsep⟩
    rintro ⟨p, hp, hs, hr, ht⟩
    rcases parse_after_separator hc argv params hsep with h | h
    · exact ⟨_, h⟩
    · rw [h]
      obtain ⟨e, he⟩ := parse_parameters_unknown params (ArgumentParser.defaults hc argv) p hp
        (extract_param_not_named _ _ hs) (extract_param_not_named _ _ hr)
        (extract_param_not_named _ _ ht)
      rw [he]
      exact ⟨e, rfl⟩

/-- Witness for C19: one file argument only; no separator; a parameter `verbose`. -/
theorem parse_rejects_malformed_witness :
    (∃ e, ArgumentParser.parse 8 ["binsort".toList, "in".toList] = .error e)
    ∧ (∃ e, ArgumentParser.parse 8 ["binsort".toList, "in".toList, "out".toList,
        "sort(1,4,w,a)".toList, "record(8)".toList] = .error e)
    ∧ (∃ e, ArgumentParser.parse 8 ["binsort".toList, "in".toList, "out".toList, "/".toList,
        "sort(1,4,w,a)".toList, "record(8)".toList, "verbose".toList] = .error e) :=
  ⟨(parse_rejects_malformed 8 ["binsort".toList, "in".toList]).1 (by decide),
    (parse_rejects_malformed 8 ["binsort".toList, "in".toList, "out".toList,
        "sort(1,4,w,a)".toList, "record(8)".toList]).2.1 (by decide),
    ((parse_rejects_malformed 8 ["binsort".toList, "in".toList, "out".toList, "/".toList,
        "sort(1,4,w,a)".toList, "record(8)".toList, "verbose".toList]).2.2
      ["sort(1,4,w,a)".toList, "record(8)".toList, "verbose".toList] (by decide)).1
      (by decide)⟩

/-- C20: the parameters behind the separator may come in any order. For an argument vector
`front ++ "/" :: params` whose first separator is the one shown and whose parameters hold
at most one `sort(...)`, at most one `record(...)` and at most one `thread_count(...)` (in
particular exactly one `sort(...)`, exactly one `record(...)` and at most one
`thread_count(...)`), `ArgumentParser::parse` gives the same outcome, the same `Arguments` or
an error in both cases, for every permutation `params2` of the parameters. -/
theorem parameters_in_any_order (hc : Nat) (front params params2 : List Str)
    (h3 : 3 ≤ front.length) (hsep : ['/'] ∉ front.drop 3) (hperm : params.Perm params2)
    (hs : List.countP (parameter_named ['s', 'o', 'r', 't']) params ≤ 1)
    (hr : List.countP (parameter_named ['r', 'e', 'c', 'o', 'r', 'd']) params ≤ 1)
    (ht : List.countP
      (parameter_named ['t', 'h', 'r', 'e', 'a', 'd', '_', 'c', 'o', 'u', 'n', 't']) params ≤ 1) :
    same_outcome (ArgumentParser.parse hc (front ++ ['/'] :: params))
      (ArgumentParser.parse hc (front ++ ['/'] :: params2)) := by
  rw [parse_split hc front params h3 hsep, parse_split hc front params2 h3 hsep]
  have hd : ArgumentParser.defaults hc (front ++ ['/'] :: params2)
      = ArgumentParser.defaults hc (front ++ ['/'] :: params) := by
    unfold ArgumentParser.defaults
    rw [List.getD_append _ _ _ 1 (by omega), List.getD_append _ _ _ 2 (by omega),
      List.getD_append _ _ _ 1 (by omega), List.getD_append _ _ _ 2 (by omega)]
  rw [hd]
  exact same_outcome_validate _ _ (parse_parameters_perm hperm hs hr ht _)

/-- Witness for C20: `sort(1,4,w,a) record(8)` and `record(8) sort(1,4,w,a)`. -/
theorem parameters_in_any_order_witness :
    same_outcome
      (ArgumentParser.parse 8 ["binsort".toList, "in".toList, "out".toList, "/".toList,
        "sort(1,4,w,a)".toList, "record(8)".toList])
      (ArgumentParser.parse 8 ["binsort".toList, "in".toList, "out".toList, "/".toList,
        "record(8)".toList, "sort(1,4,w,a)".toList]) :=
  parameters_in_any_order 8 ["binsort".toList, "in".toList, "out".toList]
    ["sort(1,4,w,a)".toList, "record(8)".toList] ["record(8)".toList, "sort(1,4,w,a)".toList]
    (by decide) (by decide) (List.Perm.swap _ _ _) (by decide) (by decide) (by decide)

/-! ## Argument parser: key tuples -/

theorem parse_key_tuples_token_length :
    ∀ (n : Nat) (tokens : List Str) (i : Nat), tokens.length ≤ n → tokens.length % 4 = 0 →
      i < tokens.length → (i % 4 = 2 ∨ i % 4 = 3) → (tokens.getD i []).length ≠ 1 →
      ∃ e, ArgumentParser.parse_key_tuples tokens = .error e
  | 0, tokens, i, hn, _, hi, _, _ => by omega
  | n + 1, [], i, _, _, hi, _, _ => by simp at hi
  | n + 1, [_], i, _, h4, _, _, _ => by simp at h4
  | n + 1, [_, _], i, _, h4, _, _, _ => by simp at h4
  | n + 1, [_, _, _], i, _, h4, _, _, _ => by simp at h4
  | n + 1, t0 :: t1 :: t2 :: t3 :: rest, i, hn, h4, hi, hi4, hlen => by
    unfold ArgumentParser.parse_key_tuples
    cases h0 : stoull t0 with
    | error e => exact ⟨e, rfl⟩
    | ok position =>
      cases h1 : stoull t1 with
      | error e => exact ⟨e, rfl⟩
      | ok length =>
        simp only
        by_cases hl2 : t2.length ≠ 1
        · rw [if_pos hl2]
          exact ⟨_, rfl⟩
        · rw [if_neg hl2]
          cases h2 : ArgumentParser.parse_key_type (t2.headD ' ') with
          | error e => exact ⟨e, rfl⟩
          | ok type =>
            simp only
            by_cases hl3 : t3.length ≠ 1
            · rw [if_pos hl3]
              exact ⟨_, rfl⟩
            · rw [if_neg hl3]
              cases h3 : ArgumentParser.parse_sort_order (t3.headD ' ') with
              | error e => exact ⟨e, rfl⟩
              | ok order =>
                simp only
                have hi' : 4 ≤ i := by
                  by_contra hlt
                  have : i = 2 ∨ i = 3 := by omega
                  rcases this with rfl | rfl
                  · exact hl2 hlen
                  · exact hl3 hlen
                simp only [List.length_cons] at hn h4 hi
                obtain ⟨e, he⟩ := parse_key_tuples_token_length n rest (i - 4) (by omega)
                  (by omega) (by omega) (by omega) (by
                    have : (t0 :: t1 :: t2 :: t3 :: rest).getD i [] = rest.getD (i - 4) [] := by
                      obtain ⟨j, rfl⟩ : ∃ j, i = j + 4 := ⟨i - 4, by omega⟩
                      simp
                    rw [← this]
                    exact hlen)
                rw [he]
                exact ⟨e, rfl⟩

/-! ## Argument parser: writing a key list out and reading it back -/

theorem digit_char_facts :
    ∀ d, d < 10 → isdigit (digit_char d) = true ∧ (digit_char d).toNat - 48 = d := by
  decide

theorem digits_value_append (ds : Str) (c : Char) :
    digits_value (ds ++ [c]) = 10 * digits_value ds + (c.toNat - 48) := by
  unfold digits_value
  rw [List.foldl_append]
  rfl

theorem decimal_digits_spec :
    ∀ (fuel n : Nat), n < 10 ^ fuel → 1 ≤ fuel →
      decimal_digits fuel n ≠ [] ∧ (∀ c ∈ decimal_digits fuel n, isdigit c = true)
        ∧ digits_value (decimal_digits fuel n) = n
  | 0, _, _, h1 => by omega
  | fuel + 1, n, hn, _ => by
    unfold decimal_digits
    by_cases h10 : n < 10
    · rw [if_pos h10]
      obtain ⟨hd, hv⟩ := digit_char_facts n h10
      refine ⟨by simp, ?_, ?_⟩
      · intro c hc
        rw [List.mem_singleton.mp hc]
        exact hd
      · have := digits_value_append [] (digit_char n)
        simp only [List.nil_append] at this
        rw [this, hv]
        simp [digits_value]
    · rw [if_neg h10]
      have hfuel : 1 ≤ fuel := by
        by_contra h0
        have : fuel = 0 := by omega
        subst this
        simp at hn
        omega
      have hlt : n / 10 < 10 ^ fuel := by
        rw [Nat.div_lt_iff_lt_mul (by decide)]
        rw [pow_succ] at hn
        exact hn
      obtain ⟨_, hall, hval⟩ := decimal_digits_spec fuel (n / 10) hlt hfuel
      obtain ⟨hd, hv⟩ := digit_char_facts (n % 10) (Nat.mod_lt _ (by decide))
      refine ⟨by simp, ?_, ?_⟩
      · intro c hc
        rcases List.mem_append.mp hc with hc | hc
        · exact hall c hc
        · rw [List.mem_singleton.mp hc]
          exact hd
      · rw [digits_value_append, hval, hv]
        omega

theorem decimal_spec (n : Nat) :
    decimal n ≠ [] ∧ (∀ c ∈ decimal n, isdigit c = true) ∧ digits_value (decimal n) = n := by
  unfold decimal
  refine decimal_digits_spec (n + 1) n ?_ (by omega)
  calc n < 10 ^ n := Nat.lt_pow_self (by decide) n
    _ ≤ 10 ^ (n + 1) := Nat.pow_le_pow_right (by decide) (by omega)

theorem isdigit_plain (c : Char) (h : isdigit c = true) :
    isspace c = false ∧ is_blank c = false ∧ c ≠ ',' ∧ c ≠ '-' ∧ c ≠ '+' := by
  unfold isdigit at h
  simp only [Bool.and_eq_true, decide_eq_true_eq] at h
  refine ⟨?_, ?_, ?_, ?_, ?_⟩
  · unfold isspace
    simp only [Bool.or_eq_false_iff, Bool.and_eq_false_iff, decide_eq_false_iff_not]
    omega
  · unfold is_blank
    simp only [Bool.or_eq_false_iff, decide_eq_false_iff_not]
    omega
  · rintro rfl
    have : (',' : Char).toNat = 44 := by decide
    omega
  · rintro rfl
    have : ('-' : Char).toNat = 45 := by decide
    omega
  · rintro rfl
    have : ('+' : Char).toNat = 43 := by decide
    omega

theorem stoull_digits (ds : Str) (hne : ds ≠ []) (hall : ∀ c ∈ ds, isdigit c = true)
    (hlt : digits_value ds < size_mod) : stoull ds = .ok (digits_value ds) := by
  obtain ⟨c, cs, rfl⟩ := List.exists_cons_of_ne_nil hne
  obtain ⟨hs, _, _, hm, hp⟩ := isdigit_plain c (hall c (List.mem_cons_self _ _))
  have htake : (c :: cs).takeWhile isdigit = c :: cs :=
    List.takeWhile_eq_self_iff.mpr hall
  unfold stoull
  have hdrop : (c :: cs).dropWhile isspace = c :: cs := by
    rw [List.dropWhile_cons, hs]
    simp
  simp only [hdrop, List.head?_cons, Option.some.injEq, hm, hp, or_self, if_false, htake]
  rw [if_neg (by simp), if_neg (by omega)]

theorem dropWhile_append_blank (p : Char → Bool) :
    ∀ (l rest : Str), (∀ c ∈ l, p c = true) → (∀ c, rest.head? = some c → p c = false) →
      (l ++ rest).dropWhile p = rest
  | [], rest, _, hrest => by
    cases rest with
    | nil => rfl
    | cons c cs =>
      rw [List.nil_append, List.dropWhile_cons, hrest c rfl]
      simp
  | c :: l, rest, hl, hrest => by
    rw [List.cons_append, List.dropWhile_cons, hl c (List.mem_cons_self _ _)]
    simp only [if_true]
    exact dropWhile_append_blank p l rest (fun c hc => hl c (List.mem_cons_of_mem _ hc)) hrest

theorem trim_blanks_padded (f p : Str) (hp : blank_padded f p) (hne : f ≠ [])
    (hf : ∀ c ∈ f, is_blank c = false) : trim_blanks p = f := by
  obtain ⟨l, r, hl, hr, rfl⟩ := hp
  unfold trim_blanks
  rw [List.append_assoc, dropWhile_append_blank is_blank l (f ++ r) hl (by
    intro c hc
    obtain ⟨a, fs, rfl⟩ := List.exists_cons_of_ne_nil hne
    simp only [List.cons_append, List.head?_cons, Option.some.injEq] at hc
    exact hc ▸ hf a (List.mem_cons_self _ _))]
  rw [List.reverse_append, dropWhile_append_blank is_blank r.reverse f.reverse
    (fun c hc => hr c (List.mem_reverse.mp hc)) (by
      intro c hc
      have : c ∈ f.reverse := List.mem_of_mem_head? hc
      exact hf c (List.mem_reverse.mp this))]
  exact List.reverse_reverse f

theorem getline_tokens_comma :
    ∀ (t s : Str), ',' ∉ t → getline_tokens (t ++ ',' :: s) = t :: getline_tokens s
  | [], s, _ => by simp [getline_tokens]
  | c :: t, s, h => by
    have hc : c ≠ ',' := fun e => h (e ▸ List.mem_cons_self _ _)
    rw [List.cons_append, getline_tokens, if_neg hc,
      getline_tokens_comma t s (fun hm => h (List.mem_cons_of_mem _ hm))]

theorem getline_tokens_single :
    ∀ (t : Str), ',' ∉ t → t ≠ [] → getline_tokens t = [t]
  | [], _, hne => absurd rfl hne
  | [c], h, _ => by
    have hc : c ≠ ',' := fun e => h (e ▸ List.mem_cons_self _ _)
    rw [getline_tokens, if_neg hc]
    rfl
  | c :: d :: t, h, _ => by
    have hc : c ≠ ',' := fun e => h (e ▸ List.mem_cons_self _ _)
    rw [getline_tokens, if_neg hc,
      getline_tokens_single (d :: t) (fun hm => h (List.mem_cons_of_mem _ hm)) (by simp)]

theorem getline_tokens_join :
    ∀ (toks : List Str), (∀ t ∈ toks, ',' ∉ t ∧ t ≠ []) →
      getline_tokens (join_commas toks) = toks
  | [], _ => rfl
  | [t], h => by
    rw [join_commas]
    exact getline_tokens_single t (h t (List.mem_cons_self _ _)).1
      (h t (List.mem_cons_self _ _)).2
  | t :: u :: ts, h => by
    have e : join_commas (t :: u :: ts) = t ++ ',' :: join_commas (u :: ts) := rfl
    rw [e, getline_tokens_comma t _ (h t (List.mem_cons_self _ _)).1,
      getline_tokens_join (u :: ts) (fun x hx => h x (List.mem_cons_of_mem _ hx))]

/-- Every written field is non-empty and holds no blank and no comma. -/
theorem render_tokens_plain :
    ∀ (keys : List KeySpec), ∀ f ∈ render_tokens keys,
      f ≠ [] ∧ ∀ c ∈ f, is_blank c = false ∧ c ≠ ','
  | [], f, hf => by simp [render_tokens] at hf
  | k :: ks, f, hf => by
    have hdec : ∀ n, decimal n ≠ [] ∧ ∀ c ∈ decimal n, is_blank c = false ∧ c ≠ ',' := by
      intro n
      obtain ⟨h1, h2, _⟩ := decimal_spec n
      exact ⟨h1, fun c hc => ⟨(isdigit_plain c (h2 c hc)).2.1, (isdigit_plain c (h2 c hc)).2.2.1⟩⟩
    unfold render_tokens at hf
    rcases List.mem_cons.mp hf with rfl | hf
    · exact hdec _
    rcases List.mem_cons.mp hf with rfl | hf
    · exact hdec _
    rcases List.mem_cons.mp hf with rfl | hf
    · refine ⟨by simp, ?_⟩
      intro c hc
      rw [List.mem_singleton.mp hc]
      cases k.type <;> decide
    rcases List.mem_cons.mp hf with rfl | hf
    · refine ⟨by simp, ?_⟩
      intro c hc
      rw [List.mem_singleton.mp hc]
      cases k.order <;> decide
    · exact render_tokens_plain ks f hf

theorem padded_tokens :
    ∀ (fields padded : List Str), List.Forall₂ blank_padded fields padded →
      (∀ f ∈ fields, f ≠ [] ∧ ∀ c ∈ f, is_blank c = false ∧ c ≠ ',') →
      padded.map trim_blanks = fields ∧ ∀ p ∈ padded, ',' ∉ p ∧ p ≠ []
  | _, _, .nil, _ => ⟨rfl, fun p hp => by simp at hp⟩
  | f :: fields, p :: padded, .cons hp hrest, hplain => by
    obtain ⟨ih1, ih2⟩ := padded_tokens fields padded hrest
      (fun f hf => hplain f (List.mem_cons_of_mem _ hf))
    obtain ⟨hne, hf⟩ := hplain f (List.mem_cons_self _ _)
    refine ⟨?_, ?_⟩
    · rw [List.map_cons, ih1, trim_blanks_padded f p hp hne (fun c hc => (hf c hc).1)]
    · intro q hq
      rcases List.mem_cons.mp hq with rfl | hq
      · obtain ⟨l, r, hl, hr, rfl⟩ := hp
        refine ⟨?_, by simp [hne]⟩
        intro hmem
        have hcomma : is_blank ',' = false := by decide
        rcases List.mem_append.mp hmem with hm | hm
        · rcases List.mem_append.mp hm with hm | hm
          · rw [hl _ hm] at hcomma
            exact absurd hcomma (by simp)
          · exact (hf _ hm).2 rfl
        · rw [hr _ hm] at hcomma
          exact absurd hcomma (by simp)
      · exact ih2 q hq

theorem parse_key_tuples_render :
    ∀ (keys : List KeySpec), (∀ k ∈ keys, k.position < size_mod ∧ k.length < size_mod) →
      ArgumentParser.parse_key_tuples (render_tokens keys) = .ok keys
  | [], _ => rfl
  | k :: ks, h => by
    have hst : ∀ n, n < size_mod → stoull (decimal n) = .ok n := by
      intro n hn
      obtain ⟨h1, h2, h3⟩ := decimal_spec n
      have := stoull_digits (decimal n) h1 h2 (by rw [h3]; exact hn)
      rw [h3] at this
      exact this
    obtain ⟨hp, hl⟩ := h k (List.mem_cons_self _ _)
    have htype : ArgumentParser.parse_key_type (type_char k.type) = .ok k.type := by
      cases k.type <;> decide
    have horder : ArgumentParser.parse_sort_order (order_char k.order) = .ok k.order := by
      cases k.order <;> decide
    unfold render_tokens ArgumentParser.parse_key_tuples
    rw [hst _ hp, hst _ hl]
    simp only [List.length_singleton, ne_eq, not_true_eq_false, if_false, List.headD_cons,
      htype, horder, parse_key_tuples_render ks (fun x hx => h x (List.mem_cons_of_mem _ hx))]

theorem render_tokens_length :
    ∀ (keys : List KeySpec), (render_tokens keys).length = 4 * keys.length
  | [] => rfl
  | k :: ks => by
    unfold render_tokens
    simp only [List.length_cons, render_tokens_length ks]
    omega

theorem getline_tokens_count :
    ∀ (s : Str), s ≠ [] → s.getLast? ≠ some ',' →
      (getline_tokens s).length = s.count ',' + 1
  | [], h, _ => absurd rfl h
  | [c], _, hl => by
    have hc : c ≠ ',' := fun e => hl (by rw [e]; rfl)
    rw [getline_tokens, if_neg hc]
    simp [getline_tokens, List.count_cons, hc]
  | c :: d :: s, _, hl => by
    have ih := getline_tokens_count (d :: s) (by simp) (by
      rw [List.getLast?_cons_cons] at hl
      exact hl)
    rw [getline_tokens]
    by_cases hc : c = ','
    · rw [if_pos hc, List.length_cons, ih, hc]
      simp [List.count_cons]
    · rw [if_neg hc]
      have hcount : (c :: d :: s).count ',' = (d :: s).count ',' := by
        rw [List.count_cons_of_ne (fun e => hc e.symm)]
      rw [hcount, ← ih]
      cases hg : getline_tokens (d :: s) with
      | nil =>
        rw [hg] at ih
        simp at ih
      | cons t ts => rfl

theorem getline_tokens_ne_nil : ∀ (s : Str), s ≠ [] → getline_tokens s ≠ []
  | [], h => absurd rfl h
  | c :: cs, _ => by
    rw [getline_tokens]
    by_cases hc : c = ','
    · rw [if_pos hc]
      simp
    · rw [if_neg hc]
      cases getline_tokens cs <;> simp

theorem getline_tokens_fields :
    ∀ (s : Str), (getline_tokens s).length = field_count_before_end s
  | [] => by simp [getline_tokens, field_count_before_end, field_count]
  | [c] => by
    by_cases hc : c = ','
    · subst hc
      simp [getline_tokens, field_count_before_end, field_count]
    · have hl : [c].getLast? ≠ some ',' := by simpa using hc
      rw [getline_tokens_count [c] (by simp) hl]
      simp [field_count_before_end, field_count, hc]
  | c :: d :: s => by
    have ih := getline_tokens_fields (d :: s)
    have hne := getline_tokens_ne_nil (d :: s) (by simp)
    have hlast : (c :: d :: s).getLast? = (d :: s).getLast? := List.getLast?_cons_cons
    have hfc : field_count_before_end (c :: d :: s)
        = field_count_before_end (d :: s) + (if c = ',' then 1 else 0) := by
      unfold field_count_before_end field_count
      rw [hlast]
      simp only [List.cons_ne_nil, reduceCtorEq, false_or]
      by_cases hc : c = ','
      · subst hc
        simp only [List.count_cons_self, if_true]
        split_ifs <;> omega
      · rw [List.count_cons_of_ne (fun e => hc e.symm), if_neg hc]
        rfl
    rw [hfc, ← ih, getline_tokens]
    by_cases hc : c = ','
    · rw [if_pos hc, if_pos hc, List.length_cons]
    · rw [if_neg hc, if_neg hc]
      cases hg : getline_tokens (d :: s) with
      | nil => exact absurd hg hne
      | cons t ts => rfl

/-! ## Argument parser: the thread count -/

theorem parameter_named_head (c0 : Char) (name p : Str)
    (h : parameter_named (c0 :: name) p = true) : p.head? = some c0 := by
  unfold parameter_named at h
  simp only [Bool.and_eq_true, decide_eq_true_eq] at h
  cases p with
  | nil => simp at h
  | cons c cs =>
    have h1 := h.1
    simp only [List.length_cons, List.take_succ_cons, List.cons_append, List.cons.injEq] at h1
    rw [List.head?_cons, h1.1]

theorem thread_count_not_other (p : Str)
    (h : parameter_named ['t', 'h', 'r', 'e', 'a', 'd', '_', 'c', 'o', 'u', 'n', 't'] p = true) :
    ArgumentParser.extract_param p ['s', 'o', 'r', 't'] = none
    ∧ ArgumentParser.extract_param p ['r', 'e', 'c', 'o', 'r', 'd'] = none := by
  have ht := parameter_named_head _ _ _ h
  constructor
  · cases hv : ArgumentParser.extract_param p ['s', 'o', 'r', 't'] with
    | none => rfl
    | some v =>
      have hs := parameter_named_head _ _ _ (extract_param_named _ _ _ hv).1
      rw [ht] at hs
      exact absurd hs (by decide)
  · cases hv : ArgumentParser.extract_param p ['r', 'e', 'c', 'o', 'r', 'd'] with
    | none => rfl
    | some v =>
      have hs := parameter_named_head _ _ _ (extract_param_named _ _ _ hv).1
      rw [ht] at hs
      exact absurd hs (by decide)

theorem parse_parameter_thread_count (x : Str) (a a1 : ArgumentParser.Arguments)
    (h : ArgumentParser.parse_parameter x a = .ok a1) :
    (a1.thread_count = a.thread_count
      ∧ (ArgumentParser.extract_param x ['s', 'o', 'r', 't'] ≠ none
        ∨ ArgumentParser.extract_param x ['r', 'e', 'c', 'o', 'r', 'd'] ≠ none))
    ∨ ∃ v t, ArgumentParser.extract_param x
          ['t', 'h', 'r', 'e', 'a', 'd', '_', 'c', 'o', 'u', 'n', 't'] = some v
        ∧ stoull v = .ok t ∧ a1.thread_count = if t = 0 then 1 else t := by
  unfold ArgumentParser.parse_parameter at h
  split at h
  · rename_i v hv
    left
    split at h
    · exact absurd h (by simp)
    · injection h with h
      subst h
      exact ⟨rfl, Or.inl (by rw [hv]; simp)⟩
  · split at h
    · rename_i v hv
      left
      split at h
      · exact absurd h (by simp)
      · injection h with h
        subst h
        exact ⟨rfl, Or.inr (by rw [hv]; simp)⟩
    · split at h
      · rename_i v hv
        split at h
        · exact absurd h (by simp)
        · rename_i t ht
          injection h with h
          subst h
          exact Or.inr ⟨v, t, hv, ht, rfl⟩
      · exact absurd h (by simp)

theorem parse_parameters_thread_count :
    ∀ (params : List Str) (a a1 : ArgumentParser.Arguments),
      ArgumentParser.parse_parameters params a = .ok a1 →
      (a1.thread_count = a.thread_count
        ∧ ∀ p ∈ params, ArgumentParser.extract_param p ['s', 'o', 'r', 't'] ≠ none
            ∨ ArgumentParser.extract_param p ['r', 'e', 'c', 'o', 'r', 'd'] ≠ none)
      ∨ ∃ p ∈ params, ∃ v t, ArgumentParser.extract_param p
            ['t', 'h', 'r', 'e', 'a', 'd', '_', 'c', 'o', 'u', 'n', 't'] = some v
          ∧ stoull v = .ok t ∧ a1.thread_count = if t = 0 then 1 else t
  | [], a, a1, h => by
    unfold ArgumentParser.parse_parameters at h
    injection h with h
    exact Or.inl ⟨h ▸ rfl, fun p hp => by simp at hp⟩
  | x :: rest, a, a1, h => by
    unfold ArgumentParser.parse_parameters at h
    split at h
    · exact absurd h (by simp)
    · rename_i a2 h2
      rcases parse_parameters_thread_count rest a2 a1 h with ⟨hk, hall⟩ | ⟨p, hp, v, t, hv, ht, hk⟩
      · rcases parse_parameter_thread_count x a a2 h2 with ⟨hk2, hx⟩ | ⟨v, t, hv, ht, hk2⟩
        · left
          refine ⟨hk.trans hk2, ?_⟩
          intro p hp
          rcases List.mem_cons.mp hp with rfl | hp
          · exact hx
          · exact hall p hp
        · exact Or.inr ⟨x, List.mem_cons_self _ _, v, t, hv, ht, hk.trans hk2⟩
      · exact Or.inr ⟨p, List.mem_cons_of_mem _ hp, v, t, hv, ht, hk⟩

/-! ## Claims about the sort specification, the thread count and the record alignment -/

/-- C21: the type character maps `c`, `w`, `W`, `f` to Character, LittleEndianInt,
BigEndianInt, LittleEndianFloat and the order character maps `a`, `d` to Ascending,
Descending; `parse_key_type` and `parse_sort_order` raise an error for every other
character; and `parse_sort_spec` raises an error when a type token or an order token (the
third or fourth of a group of four, after trimming) is not exactly one character long. -/
theorem key_type_and_order_characters :
    ArgumentParser.parse_key_type 'c' = .ok .Character
    ∧ ArgumentParser.parse_key_type 'w' = .ok .LittleEndianInt
    ∧ ArgumentParser.parse_key_type 'W' = .ok .BigEndianInt
    ∧ ArgumentParser.parse_key_type 'f' = .ok .LittleEndianFloat
    ∧ (∀ c : Char, c ≠ 'c' → c ≠ 'w' → c ≠ 'W' → c ≠ 'f' →
        ArgumentParser.parse_key_type c = .error .unknown_key_type)
    ∧ ArgumentParser.parse_sort_order 'a' = .ok .Ascending
    ∧ ArgumentParser.parse_sort_order 'd' = .ok .Descending
    ∧ (∀ c : Char, c ≠ 'a' → c ≠ 'd' →
        ArgumentParser.parse_sort_order c = .error .unknown_sort_order)
    ∧ (∀ (spec : Str) (i : Nat), i < ((getline_tokens spec).map trim_blanks).length →
        (i % 4 = 2 ∨ i % 4 = 3) →
        ((((getline_tokens spec).map trim_blanks).getD i []).length ≠ 1) →
        ∃ e, ArgumentParser.parse_sort_spec spec = .error e) := by
  refine ⟨rfl, rfl, rfl, rfl, ?_, rfl, rfl, ?_, ?_⟩
  · intro c h1 h2 h3 h4
    unfold ArgumentParser.parse_key_type
    rw [if_neg h1, if_neg h2, if_neg h3, if_neg h4]
  · intro c h1 h2
    unfold ArgumentParser.parse_sort_order
    rw [if_neg h1, if_neg h2]
  · intro spec i hi hi4 hlen
    unfold ArgumentParser.parse_sort_spec
    simp only
    by_cases h4 : ((getline_tokens spec).map trim_blanks).length % 4 ≠ 0
    · rw [if_pos h4]
      exact ⟨_, rfl⟩
    · rw [if_neg h4]
      exact parse_key_tuples_token_length _ _ i (le_refl _) (by omega) hi hi4 hlen

/-- Witness for C21: the type token `ww` of `1,4,ww,a` makes `parse_sort_spec` raise. -/
theorem key_type_and_order_characters_witness :
    ∃ e, ArgumentParser.parse_sort_spec "1,4,ww,a".toList = .error e :=
  key_type_and_order_characters.2.2.2.2.2.2.2.2 "1,4,ww,a".toList 2 (by decide)
    (Or.inl (by decide)) (by decide)

/-- C22 (counterexample): the text `1,4,w,a,` has four commas, so five comma-separated
fields (the last one empty), and 5 is not a multiple of 4; yet
`ArgumentParser::parse_sort_spec` raises no error on it and returns one key. The loop
`while (std::getline(ss, token, ','))` reads nothing after the last comma. -/
theorem sort_spec_trailing_comma_accepted :
    field_count "1,4,w,a,".toList = 5
    ∧ field_count "1,4,w,a,".toList % 4 ≠ 0
    ∧ ArgumentParser.parse_sort_spec "1,4,w,a,".toList
        = .ok [⟨1, 4, .LittleEndianInt, .Ascending⟩] := by
  decide

/-- C22 (amended): round trip of the key specification. For every list of keys with
positions and lengths below `2^64`, the text made of the fields position, length, type
character and order character of each key (numbers in decimal, each field with any spaces
or tabs before and after it), all joined with commas, is read back by
`ArgumentParser::parse_sort_spec` as exactly that list of keys in the same order. And
`parse_sort_spec` raises an error whenever the number of comma-separated fields, not
counting an empty field after the last comma nor the one field of the empty text, is not a
multiple of 4. -/
theorem sort_spec_round_trip :
    (∀ (keys : List KeySpec) (padded : List Str),
      (∀ k ∈ keys, k.position < size_mod ∧ k.length < size_mod) →
      List.Forall₂ blank_padded (render_tokens keys) padded →
      ArgumentParser.parse_sort_spec (join_commas padded) = .ok keys)
    ∧ (∀ spec : Str, field_count_before_end spec % 4 ≠ 0 →
        ArgumentParser.parse_sort_spec spec = .error .sort_spec_field_count) := by
  refine ⟨?_, ?_⟩
  · intro keys padded hlt hpad
    obtain ⟨hmap, hplain⟩ := padded_tokens _ _ hpad (render_tokens_plain keys)
    unfold ArgumentParser.parse_sort_spec
    simp only
    rw [getline_tokens_join padded hplain, hmap, render_tokens_length,
      if_neg (by omega)]
    exact parse_key_tuples_render keys hlt
  · intro spec h
    unfold ArgumentParser.parse_sort_spec
    simp only [List.length_map]
    rw [getline_tokens_fields, if_pos h]

/-- Witness for C22: two keys written as `1, 4,w ,a,5,2,W,d` are read back, and the text
`1,4,w,a,5,` of five counted fields raises the error. -/
theorem sort_spec_round_trip_witness :
    ArgumentParser.parse_sort_spec "1, 4,w ,a,5,2,W,d".toList
      = .ok [⟨1, 4, .LittleEndianInt, .Ascending⟩, ⟨5, 2, .BigEndianInt, .Descending⟩]
    ∧ ArgumentParser.parse_sort_spec "1,4,w,a,5,".toList = .error .sort_spec_field_count :=
  ⟨sort_spec_round_trip.1
    [⟨1, 4, .LittleEndianInt, .Ascending⟩, ⟨5, 2, .BigEndianInt, .Descending⟩]
    ["1".toList, " 4".toList, "w ".toList, "a".toList, "5".toList, "2".toList, "W".toList,
      "d".toList]
    (by decide)
    (.cons ⟨[], [], by simp, by simp, rfl⟩
      (.cons ⟨[' '], [], by decide, by simp, rfl⟩
        (.cons ⟨[], [' '], by simp, by decide, rfl⟩
          (.cons ⟨[], [], by simp, by simp, rfl⟩
            (.cons ⟨[], [], by simp, by simp, rfl⟩
              (.cons ⟨[], [], by simp, by simp, rfl⟩
                (.cons ⟨[], [], by simp, by simp, rfl⟩
                  (.cons ⟨[], [], by simp, by simp, rfl⟩ .nil)))))))),
   sort_spec_round_trip.2 "1,4,w,a,5,".toList (by decide)⟩

/-- C23: when `ArgumentParser::parse` returns normally, the returned thread count is at
least 1. With `params` the arguments behind the separator: when no parameter has the form
`thread_count(...)` it is the hardware concurrency, or 1 when that is 0; when some
parameter has that form it is the value `T` of a parameter `thread_count(T)`, or 1 when
that value is 0. -/
theorem thread_count_positive (hc : Nat) (argv : List Str) (args : ArgumentParser.Arguments)
    (h : ArgumentParser.parse hc argv = .ok args) :
    1 ≤ args.thread_count
    ∧ ∃ params, ArgumentParser.after_separator (argv.drop 3) = some params
      ∧ ((∀ p ∈ params,
            parameter_named ['t', 'h', 'r', 'e', 'a', 'd', '_', 'c', 'o', 'u', 'n', 't'] p = false) →
          args.thread_count = if hc = 0 then 1 else hc)
      ∧ ((∃ p ∈ params,
            parameter_named ['t', 'h', 'r', 'e', 'a', 'd', '_', 'c', 'o', 'u', 'n', 't'] p = true) →
          ∃ p ∈ params,
            parameter_named ['t', 'h', 'r', 'e', 'a', 'd', '_', 'c', 'o', 'u', 'n', 't'] p = true
            ∧ ∃ t, stoull (parameter_value
                  ['t', 'h', 'r', 'e', 'a', 'd', '_', 'c', 'o', 'u', 'n', 't'] p) = .ok t
              ∧ args.thread_count = if t = 0 then 1 else t) := by
  obtain ⟨_, params, hsep, hp, _⟩ := parse_ok hc argv args h
  have hcases := parse_parameters_thread_count params _ args hp
  have hdef : (ArgumentParser.defaults hc argv).thread_count = if hc = 0 then 1 else hc := rfl
  refine ⟨?_, params, hsep, ?_, ?_⟩
  · rcases hcases with ⟨hk, _⟩ | ⟨p, _, v, t, _, _, hk⟩
    · rw [hk, hdef]
      split_ifs <;> omega
    · rw [hk]
      split_ifs <;> omega
  · intro hnone
    rcases hcases with ⟨hk, _⟩ | ⟨p, hpm, v, t, hv, _, _⟩
    · rw [hk, hdef]
    · have := (extract_param_named _ _ _ hv).1
      rw [hnone p hpm] at this
      exact absurd this (by simp)
  · rintro ⟨q, hq, hnamed⟩
    rcases hcases with ⟨_, hall⟩ | ⟨p, hpm, v, t, hv, ht, hk⟩
    · obtain ⟨h1, h2⟩ := thread_count_not_other q hnamed
      rcases hall q hq with hx | hx
      · exact absurd h1 hx
      · exact absurd h2 hx
    · obtain ⟨hn, hval⟩ := extract_param_named _ _ _ hv
      exact ⟨p, hpm, hn, t, hval ▸ ht, hk⟩

/-- Witness for C23: `thread_count(0)` gives the thread count 1. -/
theorem thread_count_positive_witness :
    ArgumentParser.parse 8 ["binsort".toList, "in".toList, "out".toList, "/".toList,
        "sort(1,4,w,a)".toList, "record(8)".toList, "thread_count(0)".toList]
      = .ok ⟨"in".toList, "out".toList, [⟨1, 4, .LittleEndianInt, .Ascending⟩], 8, 1⟩
    ∧ 1 ≤ 1 :=
  ⟨by decide,
    (thread_count_positive 8 ["binsort".toList, "in".toList, "out".toList, "/".toList,
        "sort(1,4,w,a)".toList, "record(8)".toList, "thread_count(0)".toList]
      ⟨"in".toList, "out".toList, [⟨1, 4, .LittleEndianInt, .Ascending⟩], 8, 1⟩
      (by decide)).1⟩

/-- C24: `FileOperations::validate_record_alignment` for a file of `S` bytes and the record
length `R`: an error when `R = 0` (before the file is looked at); for `R > 0` an error when
`S` is not divisible by `R`, and otherwise the record count `N` with `N * R = S`, which is
0 for an empty file. -/
theorem validate_record_alignment_spec (S R : Nat) :
    (∀ get_file_size, FileOperations.validate_record_alignment get_file_size 0
        = .error .record_length_zero)
    ∧ (0 < R → S % R ≠ 0 →
        FileOperations.validate_record_alignment (.ok S) R = .error .size_not_divisible)
    ∧ (0 < R → S % R = 0 →
        ∃ N, FileOperations.validate_record_alignment (.ok S) R = .ok N ∧ N * R = S)
    ∧ (0 < R → FileOperations.validate_record_alignment (.ok 0) R = .ok 0) := by
  refine ⟨fun _ => rfl, ?_, ?_, ?_⟩
  · intro hR hS
    unfold FileOperations.validate_record_alignment
    rw [if_neg (by omega)]
    simp only
    rw [if_pos hS]
  · intro hR hS
    unfold FileOperations.validate_record_alignment
    rw [if_neg (by omega)]
    simp only
    rw [if_neg (by omega)]
    exact ⟨_, rfl, Nat.div_mul_cancel (Nat.dvd_of_mod_eq_zero hS)⟩
  · intro hR
    unfold FileOperations.validate_record_alignment
    rw [if_neg (by omega)]
    simp

/-- Witness for C24: 24 bytes in records of 8 are 3 records; 25 bytes are rejected. -/
theorem validate_record_alignment_spec_witness :
    FileOperations.validate_record_alignment (.ok 25) 8 = .error .size_not_divisible
    ∧ ∃ N, FileOperations.validate_record_alignment (.ok 24) 8 = .ok N ∧ N * 8 = 24 :=
  ⟨(validate_record_alignment_spec 25 8).2.1 (by decide) (by decide),
    (validate_record_alignment_spec 24 8).2.2.1 (by decide) (by decide)⟩

/-! ## Claims about the record length, the interpreted comparator and the chunks -/

/-- C25 (counterexample): an engine with the record length 0 and a region of one record.
`SortEngine::sort` returns normally, at once, with the region as it was: neither the
constructor nor `sort` looks at the record length. -/
theorem sort_accepts_record_length_zero :
    (SortEngine.create ⟨false, false, .little, true, true, 0⟩ none
        ⟨0, 1, [⟨1, 1, .Character, .Ascending⟩]⟩).sort [[]] 1 = .ok [[]]
    ∧ (SortEngine.create ⟨false, false, .little, true, true, 0⟩ none
        ⟨0, 4, [⟨1, 1, .Character, .Ascending⟩]⟩).sort [] 0 = .ok [] := by
  decide

/-- C25 (amended): a record length of 0 is reported before the engine runs.
`ArgumentParser::parse` returns normally only with a record length of at least 1, and
`FileOperations::validate_record_alignment` raises an error for the record length 0.
`SortEngine::sort` itself does not test the record length: for every engine, also one with
the record length 0, and every record count `N ≤ 1` it returns normally and leaves the region
unchanged. -/
theorem record_length_zero_reported_before_sort :
    (∀ (hc : Nat) (argv : List Str) (args : ArgumentParser.Arguments),
      ArgumentParser.parse hc argv = .ok args → 1 ≤ args.record_length)
    ∧ (∀ get_file_size, ∃ e,
        FileOperations.validate_record_alignment get_file_size 0 = .error e)
    ∧ (∀ (self : SortEngine) (data : Region) (N : Nat), N ≤ 1 → self.sort data N = .ok data) := by
  refine ⟨?_, fun _ => ⟨_, rfl⟩, ?_⟩
  · intro hc argv args h
    have := (parse_ok_keys hc argv args h).2.1
    omega
  · intro self data N hN
    unfold SortEngine.sort
    rw [if_pos hN]

/-- Witness for C25 (amended): `record(8)` is parsed with the record length 8, and a region
of one record is returned as it is by an engine with the record length 0. -/
theorem record_length_zero_reported_before_sort_witness :
    1 ≤ 8
    ∧ (SortEngine.create ⟨false, false, .little, true, true, 0⟩ none
        ⟨0, 1, [⟨1, 1, .Character, .Ascending⟩]⟩).sort [[]] 1 = .ok [[]] :=
  ⟨record_length_zero_reported_before_sort.1 8
      ["binsort".toList, "in".toList, "out".toList, "/".toList, "sort(1,4,w,a)".toList,
        "record(8)".toList]
      ⟨"in".toList, "out".toList, [⟨1, 4, .LittleEndianInt, .Ascending⟩], 8, 8⟩ (by decide),
    record_length_zero_reported_before_sort.2.2 _ [[]] 1 (by decide)⟩

/-- C26 (failing input): `wrap` is called for the ascending key list `K = [(1,1,c,a)]` and
then for the descending key list `K2 = [(1,1,c,d)]`. Both calls return the same function
pointer `interpreted_compare_wrapper`, which reads the global `g_comparator`, and the
second call has replaced its value: on the records 01 and 02 the function obtained from
`wrap(K)` now returns 1, the result for `K2`, while `RecordComparator(K).compare` returns
-1. After a later `wrap(K2)` the function compares by `K2`, for all key lists and records. -/
theorem wrapped_comparator_follows_last_wrap :
    interpreted_compare_wrapper .little
        (InterpretedComparator.wrap [⟨1, 1, .Character, .Descending⟩]) [1] [2] = .ok 1
    ∧ RecordComparator.compare .little [⟨1, 1, .Character, .Ascending⟩] ⟨[1], 1⟩ ⟨[2], 1⟩
        = .ok (-1)
    ∧ ∀ (host : Endian) (K2 : List KeySpec) (a b : Bytes),
        interpreted_compare_wrapper host (InterpretedComparator.wrap K2) a b
          = RecordComparator.compare host K2 ⟨a, 1000000⟩ ⟨b, 1000000⟩ :=
  ⟨by decide, by decide, fun _ _ _ _ => rfl⟩

theorem interpreted_compare_beyond_view (host : Endian) (key : KeySpec) (a b : Bytes)
    (ht : key.type = .LittleEndianInt ∨ key.type = .BigEndianInt)
    (hb : (key.offset + key.length) % size_mod > 1000000) :
    InterpretedComparator.compare host [key] a b = .error .key_beyond_record := by
  unfold InterpretedComparator.compare RecordComparator.compare
    RecordComparator.compare_field
  have h1 : key.type ≠ .Character := by
    rcases ht with ht | ht <;> rw [ht] <;> decide
  have h2 : key.type ≠ .LittleEndianFloat := by
    rcases ht with ht | ht <;> rw [ht] <;> decide
  rw [if_neg h1, if_neg h2]
  unfold RecordView.extract_key
  simp only
  rw [if_pos hb]

/-- C27 (failing input): the record length 1000002 and the little-endian integer key at
position 1000001 of length 2, for which `position - 1 + length` is 1000002, within the
record. `InterpretedComparator::compare` views both records as 1000000 bytes long, so the
bounds check of `RecordView::extract_key` rejects the key: the comparison raises the error
for every pair of records, on either host byte order. -/
theorem interpreted_compare_raises_beyond_1000000 :
    (1 ≤ 1000001 ∧ 1000001 - 1 + 2 ≤ 1000002)
    ∧ ∀ (host : Endian) (a b : Bytes),
        InterpretedComparator.compare host [⟨1000001, 2, .LittleEndianInt, .Ascending⟩] a b
          = .error .key_beyond_record := by
  refine ⟨by decide, ?_⟩
  intro host a b
  refine interpreted_compare_beyond_view host _ a b (Or.inl rfl) ?_
  unfold KeySpec.offset size_mod
  norm_num

theorem chunk_list_contig (C N : Nat) (hC : 1 ≤ C) : Contig 0 N (chunk_list C N) := by
  obtain ⟨cs, hcs, hcont⟩ := build_chunks_spec C N hC N 0 [] (Nat.zero_le _) (by omega) rfl
  have h := build_chunks_exact C N hC N 0 (Nat.zero_le _) (by simp)
  simp only [Nat.zero_mul, Nat.zero_le, min_eq_left, List.range_zero, List.map_nil] at h
  rw [h] at hcs
  injection hcs with hcs
  rw [hcs]
  exact hcont

theorem plan_some (self : SortEngine) (N : Nat) (chunks : List SortEngine.Chunk)
    (h : self.plan N = .ok (some chunks)) :
    2 ≤ self.config_.thread_count
    ∧ max 1000 (N / self.config_.thread_count) * 2 ≤ N
    ∧ chunks = chunk_list (max 1000 (N / self.config_.thread_count)) N := by
  have hT : 2 ≤ self.config_.thread_count := by
    unfold SortEngine.plan at h
    by_cases h1 : N ≤ 1
    · rw [if_pos h1] at h
      exact absurd h (by simp)
    · rw [if_neg h1] at h
      by_cases h0 : self.config_.thread_count = 0
      · rw [if_pos h0] at h
        exact absurd h (by simp)
      · rw [if_neg h0] at h
        by_cases ht : self.config_.thread_count = 1
        · simp only at h
          rw [if_pos (Or.inl ht)] at h
          exact absurd h (by simp)
        · omega
  rw [plan_eq self N hT] at h
  by_cases h2 : N < max 1000 (N / self.config_.thread_count) * 2
  · rw [if_pos h2] at h
    exact absurd h (by simp)
  · rw [if_neg h2] at h
    injection h with h
    injection h with h
    exact ⟨hT, by omega, h.symm⟩

/-- C28: on the parallel path of `SortEngine::sort` the chunks built by the partition loop
are a partition of the record indices `[0, N)`. With `records_per_thread =
max(1000, N / T)`: there are at least two chunks; the first starts at record 0 and each next
one starts where the one before it ends; every chunk holds at least one record and at most
`records_per_thread`, and every chunk but the last holds exactly `records_per_thread`; the
record counts sum to `N`; and every record index below `N` lies in exactly one chunk. -/
theorem chunks_partition_region (self : SortEngine) (N : Nat)
    (chunks : List SortEngine.Chunk) (h : self.plan N = .ok (some chunks)) :
    2 ≤ chunks.length
    ∧ (chunks.getD 0 default).start = 0
    ∧ (∀ i, i + 1 < chunks.length →
        (chunks.getD (i + 1) default).start
          = (chunks.getD i default).start + (chunks.getD i default).record_count)
    ∧ (∀ i, i < chunks.length →
        1 ≤ (chunks.getD i default).record_count
        ∧ (chunks.getD i default).record_count ≤ max 1000 (N / self.config_.thread_count))
    ∧ (∀ i, i + 1 < chunks.length →
        (chunks.getD i default).record_count = max 1000 (N / self.config_.thread_count))
    ∧ chunks.foldl (fun sum chunk => sum + chunk.record_count) 0 = N
    ∧ (∀ k, k < N → ∃! i, i < chunks.length
        ∧ (chunks.getD i default).start ≤ k
        ∧ k < (chunks.getD i default).start + (chunks.getD i default).record_count) := by
  obtain ⟨_, h2, rfl⟩ := plan_some self N chunks h
  have hC : 1 ≤ max 1000 (N / self.config_.thread_count) :=
    le_trans (by decide) (le_max_left 1000 _)
  generalize max 1000 (N / self.config_.thread_count) = C at *
  have hlen := chunk_list_length C N
  have hget := chunk_list_getD C N
  have hceil := ceil_le_iff C N
  have hsucc : ∀ i, (i + 1) * C = i * C + C := fun i => Nat.succ_mul i C
  have hL : 2 ≤ (N + C - 1) / C := by
    by_contra hlt
    have := (hceil 1 hC).mp (by omega)
    omega
  rw [hlen]
  refine ⟨hL, ?_, ?_, ?_, ?_, ?_, ?_⟩
  · rw [hget 0 (by omega)]
    simp
  · intro i hi
    rw [hget (i + 1) hi, hget i (by omega)]
    have h1 : ¬ N ≤ (i + 1) * C := fun hle => by
      have := (hceil (i + 1) hC).mpr hle
      omega
    have := hsucc i
    simp only
    omega
  · intro i hi
    rw [hget i hi]
    have h1 : ¬ N ≤ i * C := fun hle => by
      have := (hceil i hC).mpr hle
      omega
    simp only
    omega
  · intro i hi
    rw [hget i (by omega)]
    have h1 : ¬ N ≤ (i + 1) * C := fun hle => by
      have := (hceil (i + 1) hC).mpr hle
      omega
    have := hsucc i
    simp only
    omega
  · have := total_records (chunk_list C N) 0 N 0 (chunk_list_contig C N hC)
    omega
  · intro k hk
    have hdiv : k / C * C ≤ k := Nat.div_mul_le_self k C
    have hlt : k < (k / C + 1) * C :=
      (Nat.div_lt_iff_lt_mul (by omega)).mp (Nat.lt_succ_self _)
    have hiL : k / C < (N + C - 1) / C := by
      by_contra hge
      have := (hceil (k / C) hC).mp (by omega)
      omega
    have := hsucc (k / C)
    refine ⟨k / C, ⟨hiL, ?_, ?_⟩, ?_⟩
    · rw [hget _ hiL]
      exact hdiv
    · rw [hget _ hiL]
      simp only
      omega
    · rintro j ⟨hj, hj1, hj2⟩
      rw [hget j hj] at hj1 hj2
      simp only at hj1 hj2
      have := hsucc j
      exact (Nat.div_eq_of_lt_le hj1 (by omega)).symm

/-- Witness for C28: 2500 records and 2 workers give the chunks of 1250 and 1250 records,
whose record counts sum to 2500. -/
theorem chunks_partition_region_witness :
    2 ≤ List.length ([⟨0, 1250⟩, ⟨1250, 1250⟩] : List SortEngine.Chunk)
    ∧ List.foldl (fun sum chunk => sum + chunk.record_count) 0
        ([⟨0, 1250⟩, ⟨1250, 1250⟩] : List SortEngine.Chunk) = 2500 :=
  ⟨(chunks_partition_region
      (SortEngine.create ⟨false, false, .little, true, true, 0⟩ none
        ⟨16, 2, [⟨1, 4, .LittleEndianInt, .Ascending⟩]⟩) 2500
      [⟨0, 1250⟩, ⟨1250, 1250⟩] (by decide)).1,
    (chunks_partition_region
      (SortEngine.create ⟨false, false, .little, true, true, 0⟩ none
        ⟨16, 2, [⟨1, 4, .LittleEndianInt, .Ascending⟩]⟩) 2500
      [⟨0, 1250⟩, ⟨1250, 1250⟩] (by decide)).2.2.2.2.2.1⟩

/-! ## The merge step of `SortEngine::merge_chunks` -/

/-- The chunk found by the inner loop of the merge is not beaten by a later chunk: no
chunk inspected after it has a head that compares less than its head. -/
theorem find_min_chunk_later (f : Bytes → Bytes → Int) (data : Region)
    (chunks : List SortEngine.Chunk) (indices : List Nat) :
    ∀ (n i : Nat) (mc : Int) (r : Nat),
      SortEngine.find_min_chunk (pure_compare f) data chunks indices n i mc = .ok (r : Int) →
      (∀ m : Nat, mc = (m : Int) → m < i ∧ ∀ i', m < i' → i' < i →
        chunk_live chunks indices i' →
        ¬ f (chunk_head data chunks indices i') (chunk_head data chunks indices m) < 0) →
      ∀ i', r < i' → i' < i + n → chunk_live chunks indices i' →
        ¬ f (chunk_head data chunks indices i') (chunk_head data chunks indices r) < 0 := by
  intro n
  induction n with
  | zero =>
    intro i mc r h hinv i' hr hi' hl
    unfold SortEngine.find_min_chunk at h
    injection h with h
    exact (hinv r h).2 i' hr (by omega) hl
  | succ n ih =>
    intro i mc r h hinv i' hr hi' hl
    unfold SortEngine.find_min_chunk at h
    by_cases hlive : chunk_live chunks indices i
    · have hnot : ¬ (indices.getD i 0 ≥ (chunks.getD i default).record_count) := by
        unfold chunk_live at hlive
        omega
      rw [if_neg hnot] at h
      by_cases hm1 : mc = -1
      · rw [if_pos hm1] at h
        refine ih (i + 1) (i : Int) r h ?_ i' hr (by omega) hl
        intro m hm
        have : m = i := by omega
        subst this
        exact ⟨by omega, fun j h1 h2 => by omega⟩
      · rw [if_neg hm1] at h
        simp only [pure_compare] at h
        by_cases hc : f (record_at data ((chunks.getD i default).start + indices.getD i 0))
            (record_at data ((chunks.getD mc.toNat default).start
              + indices.getD mc.toNat 0)) < 0
        · rw [if_pos hc] at h
          refine ih (i + 1) (i : Int) r h ?_ i' hr (by omega) hl
          intro m hm
          have : m = i := by omega
          subst this
          exact ⟨by omega, fun j h1 h2 => by omega⟩
        · rw [if_neg hc] at h
          refine ih (i + 1) mc r h ?_ i' hr (by omega) hl
          intro m hm
          obtain ⟨hmi, hold⟩ := hinv m hm
          refine ⟨by omega, ?_⟩
          intro j h1 h2 hjl
          by_cases hji : j = i
          · subst hji
            subst hm
            simp only [Int.toNat_ofNat] at hc
            exact hc
          · exact hold j h1 (by omega) hjl
    · have hge : indices.getD i 0 ≥ (chunks.getD i default).record_count := by
        unfold chunk_live at hlive
        omega
      rw [if_pos hge] at h
      refine ih (i + 1) mc r h ?_ i' hr (by omega) hl
      intro m hm
      obtain ⟨hmi, hold⟩ := hinv m hm
      refine ⟨by omega, ?_⟩
      intro j h1 h2 hjl
      by_cases hji : j = i
      · subst hji
        exact absurd hjl hlive
      · exact hold j h1 (by omega) hjl

/-- For a comparator that is a total preorder, the chunk found by the inner loop of the
merge has a head strictly less than the head of every live chunk before it. -/
theorem find_min_chunk_earlier (f : Bytes → Bytes → Int) (data : Region)
    (chunks : List SortEngine.Chunk) (indices : List Nat)
    (HA : ∀ a b, f a b < 0 → 0 < f b a) (H1 : ∀ a b, ¬ f a b < 0 → f b a ≤ 0)
    (H2 : ∀ a b c, f a b ≤ 0 → f b c ≤ 0 → f a c ≤ 0) :
    ∀ (n i : Nat) (mc : Int) (r : Nat),
      SortEngine.find_min_chunk (pure_compare f) data chunks indices n i mc = .ok (r : Int) →
      (mc = -1 ∨ ∃ m : Nat, mc = (m : Int)) →
      (mc = -1 → ∀ i', i' < i → ¬ chunk_live chunks indices i') →
      (∀ m : Nat, mc = (m : Int) → m < i
        ∧ (∀ i', i' < m → chunk_live chunks indices i' →
            f (chunk_head data chunks indices m) (chunk_head data chunks indices i') < 0)
        ∧ (∀ i', i' < i → chunk_live chunks indices i' →
            f (chunk_head data chunks indices m) (chunk_head data chunks indices i') ≤ 0)) →
      ∀ i', i' < r → chunk_live chunks indices i' →
        f (chunk_head data chunks indices r) (chunk_head data chunks indices i') < 0 := by
  have hrefl : ∀ a, f a a ≤ 0 := by
    intro a
    by_cases hlt : f a a < 0
    · exact le_of_lt hlt
    · exact H1 _ _ hlt
  intro n
  induction n with
  | zero =>
    intro i mc r h _ _ hinv i' hr hl
    unfold SortEngine.find_min_chunk at h
    injection h with h
    exact (hinv r h).2.1 i' hr hl
  | succ n ih =>
    intro i mc r h hmc hnone hinv i' hr hl
    unfold SortEngine.find_min_chunk at h
    by_cases hlive : chunk_live chunks indices i
    · have hnot : ¬ (indices.getD i 0 ≥ (chunks.getD i default).record_count) := by
        unfold chunk_live at hlive
        omega
      rw [if_neg hnot] at h
      by_cases hm1 : mc = -1
      · rw [if_pos hm1] at h
        refine ih (i + 1) (i : Int) r h (Or.inr ⟨i, rfl⟩) (fun hh => by omega) ?_ i' hr hl
        intro m hm
        have : m = i := by omega
        subst this
        refine ⟨by omega, ?_, ?_⟩
        · intro j hj hjl
          exact absurd hjl (hnone hm1 j hj)
        · intro j hj hjl
          by_cases hji : j = m
          · subst hji
            exact hrefl _
          · exact absurd hjl (hnone hm1 j (by omega))
      · rw [if_neg hm1] at h
        simp only [pure_compare] at h
        obtain ⟨m0, hm0⟩ : ∃ m0 : Nat, mc = (m0 : Int) := by
          rcases hmc with hh | hh
          · exact absurd hh hm1
          · exact hh
        subst hm0
        simp only [Int.toNat_ofNat] at h
        obtain ⟨hm0i, hs, hmin⟩ := hinv m0 rfl
        by_cases hc : f (chunk_head data chunks indices i) (chunk_head data chunks indices m0) < 0
        · have hc' : f (record_at data ((chunks.getD i default).start + indices.getD i 0))
              (record_at data ((chunks.getD m0 default).start + indices.getD m0 0)) < 0 := hc
          rw [if_pos hc'] at h
          have hstrict : ∀ j, j < i → chunk_live chunks indices j →
              f (chunk_head data chunks indices i) (chunk_head data chunks indices j) < 0 := by
            intro j hj hjl
            by_contra hn
            have h1 := H1 _ _ hn
            have h2 := H2 _ _ _ (hmin j hj hjl) h1
            have h3 := HA _ _ hc
            omega
          refine ih (i + 1) (i : Int) r h (Or.inr ⟨i, rfl⟩) (fun hh => by omega) ?_ i' hr hl
          intro m hm
          have : m = i := by omega
          subst this
          refine ⟨by omega, hstrict, ?_⟩
          intro j hj hjl
          by_cases hji : j = m
          · subst hji
            exact hrefl _
          · exact le_of_lt (hstrict j (by omega) hjl)
        · have hc' : ¬ f (record_at data ((chunks.getD i default).start + indices.getD i 0))
              (record_at data ((chunks.getD m0 default).start + indices.getD m0 0)) < 0 := hc
          rw [if_neg hc'] at h
          refine ih (i + 1) (m0 : Int) r h (Or.inr ⟨m0, rfl⟩) (fun hh => by omega) ?_ i' hr hl
          intro m hm
          have : m = m0 := by omega
          subst this
          refine ⟨by omega, hs, ?_⟩
          intro j hj hjl
          by_cases hji : j = i
          · subst hji
            exact H1 _ _ hc
          · exact hmin j (by omega) hjl
    · have hge : indices.getD i 0 ≥ (chunks.getD i default).record_count := by
        unfold chunk_live at hlive
        omega
      rw [if_pos hge] at h
      refine ih (i + 1) mc r h hmc ?_ ?_ i' hr hl
      · intro hh j hj
        by_cases hji : j = i
        · subst hji
          exact hlive
        · exact hnone hh j (by omega)
      · intro m hm
        obtain ⟨hmi, hs, hmin⟩ := hinv m hm
        refine ⟨by omega, hs, ?_⟩
        intro j hj hjl
        by_cases hji : j = i
        · subst hji
          exact absurd hjl hlive
        · exact hmin j (by omega) hjl

/-- Within a chunk, records that are non-decreasing from each one to the next are
non-decreasing from each one to every later one. -/
theorem chunk_pairwise_of_adjacent (f : Bytes → Bytes → Int) (data : Region) (s e : Nat)
    (H2 : ∀ a b c, f a b ≤ 0 → f b c ≤ 0 → f a c ≤ 0)
    (hadj : ∀ k, s ≤ k → k + 1 < e → f (record_at data k) (record_at data (k + 1)) ≤ 0) :
    ∀ k1 k2, s ≤ k1 → k1 < k2 → k2 < e → f (record_at data k1) (record_at data k2) ≤ 0 := by
  have hgap : ∀ d k1, s ≤ k1 → k1 + d + 1 < e →
      f (record_at data k1) (record_at data (k1 + d + 1)) ≤ 0 := by
    intro d
    induction d with
    | zero =>
      intro k1 hs he
      exact hadj k1 hs he
    | succ d ih =>
      intro k1 hs he
      exact H2 _ _ _ (ih k1 hs (by omega)) (hadj (k1 + d + 1) (by omega) (by omega))
  intro k1 k2 hs hlt he
  obtain ⟨d, rfl⟩ : ∃ d, k2 = k1 + d + 1 := ⟨k2 - k1 - 1, by omega⟩
  exact hgap d k1 hs he

/-! ## Claims about the merge -/

/-- C29: one output step of `SortEngine::merge_chunks`, at chunk head indices `indices`
with some chunk not exhausted. The inner loop finds a chunk `m` that is not exhausted and
such that no chunk inspected after it has a head that compares `< 0` against the head of
`m`. For a comparator that is a total preorder, the head of `m` is a minimum among the heads
of all chunks that are not exhausted, and every such chunk with a lower index has a head
strictly greater than the head of `m`: ties go to the lowest chunk index. The step copies
the head of `m` to the output position and advances the head index of `m` by one; all other
head indices are unchanged. -/
theorem merge_step_takes_minimum (R : Nat) (f : Bytes → Bytes → Int) (data : Region)
    (chunks : List SortEngine.Chunk) (indices : List Nat) (n out : Nat) (temp : Region)
    (hidx : indices.length = chunks.length)
    (hlive : ∃ i, i < chunks.length ∧ chunk_live chunks indices i) :
    ∃ m : Nat, m < chunks.length ∧ chunk_live chunks indices m
      ∧ SortEngine.find_min_chunk (pure_compare f) data chunks indices chunks.length 0 (-1)
          = .ok (m : Int)
      ∧ (∀ i, m < i → i < chunks.length → chunk_live chunks indices i →
          ¬ f (chunk_head data chunks indices i) (chunk_head data chunks indices m) < 0)
      ∧ ((∀ a b, f a b < 0 → 0 < f b a) → (∀ a b, ¬ f a b < 0 → f b a ≤ 0) →
          (∀ a b c, f a b ≤ 0 → f b c ≤ 0 → f a c ≤ 0) →
          (∀ i, i < chunks.length → chunk_live chunks indices i →
            f (chunk_head data chunks indices m) (chunk_head data chunks indices i) ≤ 0)
          ∧ (∀ i, i < m → chunk_live chunks indices i →
            f (chunk_head data chunks indices m) (chunk_head data chunks indices i) < 0))
      ∧ SortEngine.merge_loop R (pure_compare f) data chunks (n + 1) out temp indices
          = SortEngine.merge_loop R (pure_compare f) data chunks n (out + 1)
              (temp.set out (memcpy (record_at temp out) (chunk_head data chunks indices m) R))
              (indices.set m (indices.getD m 0 + 1))
      ∧ (indices.set m (indices.getD m 0 + 1)).getD m 0 = indices.getD m 0 + 1
      ∧ ∀ i, i ≠ m → (indices.set m (indices.getD m 0 + 1)).getD i 0 = indices.getD i 0 := by
  obtain ⟨r, hr, _, hsome, hmin⟩ := find_min_chunk_spec f data chunks indices chunks.length 0
    (-1) (by omega) (Or.inl rfl)
  obtain ⟨m, rfl, hm, hml⟩ := hsome (by
    rintro ⟨_, hnone⟩
    obtain ⟨i, hi, hil⟩ := hlive
    exact hnone i (Nat.zero_le _) hi hil)
  refine ⟨m, hm, hml, hr, ?_, ?_, ?_, ?_, ?_⟩
  · intro i hmi hi hil
    exact find_min_chunk_later f data chunks indices chunks.length 0 (-1) m hr
      (fun m' hm' => by omega) i hmi (by omega) hil
  · intro HA H1 H2
    refine ⟨?_, ?_⟩
    · exact hmin H1 H2 (fun _ i' hi' => by omega) (fun m' hm' => by omega) m rfl
    · exact find_min_chunk_earlier f data chunks indices HA H1 H2 chunks.length 0 (-1) m hr
        (Or.inl rfl) (fun _ i' hi' => by omega) (fun m' hm' => by omega)
  · rw [SortEngine.merge_loop, hr]
    simp only
    rw [if_neg (by omega)]
    simp only [Int.toNat_ofNat]
    rfl
  · rw [getD_set indices m m _ 0 (by omega), if_pos rfl]
  · intro i hi
    rw [getD_set indices m i _ 0 (by omega), if_neg hi]

/-- Witness for C29: two chunks of one record each with equal heads; the step takes the
head of chunk 0. -/
theorem merge_step_takes_minimum_witness :
    ∃ m : Nat, m < 2 ∧ chunk_live [⟨0, 1⟩, ⟨1, 1⟩] [0, 0] m
      ∧ SortEngine.find_min_chunk
          (pure_compare (fun a b => ((peek a 0).val : Int) - ((peek b 0).val : Int)))
          [[5, 1], [5, 2]] [⟨0, 1⟩, ⟨1, 1⟩] [0, 0] 2 0 (-1) = .ok (m : Int)
      ∧ (List.set [0, 0] m (List.getD [0, 0] m 0 + 1)).getD m 0 = List.getD [0, 0] m 0 + 1 := by
  obtain ⟨m, h1, h2, h3, _, _, _, h4, _⟩ := merge_step_takes_minimum 2
    (fun a b => ((peek a 0).val : Int) - ((peek b 0).val : Int)) [[5, 1], [5, 2]]
    [⟨0, 1⟩, ⟨1, 1⟩] [0, 0] 1 0 [[0, 0], [0, 0]] rfl
    ⟨0, by decide, by unfold chunk_live; decide⟩
  exact ⟨m, h1, h2, h3, h4⟩

/-- C30: for a comparator that is a total preorder and contiguous chunks that cover the
region, each non-decreasing under the comparator, `SortEngine::merge_chunks` leaves the
region non-decreasing under the comparator and holding a permutation of its records, the
records of all chunks; for zero or one chunk it leaves the region unchanged, whatever the
comparator and the region. -/
theorem merge_chunks_sorts (self : SortEngine) (f : Bytes → Bytes → Int) (data : Region)
    (chunks : List SortEngine.Chunk) (hcmp : self.compare_func_ = pure_compare f)
    (H1 : ∀ a b, ¬ f a b < 0 → f b a ≤ 0)
    (H2 : ∀ a b c, f a b ≤ 0 → f b c ≤ 0 → f a c ≤ 0)
    (hwf : Region.wf self.config_.record_length data)
    (hcont : Contig 0 data.length chunks)
    (hsorted : ∀ c ∈ chunks, ∀ k, c.start ≤ k → k + 1 < c.start + c.record_count →
      f (record_at data k) (record_at data (k + 1)) ≤ 0) :
    (∃ out : Region, SortEngine.merge_chunks self data chunks = .ok out
      ∧ out.Perm data ∧ out.Pairwise (fun a b => f a b ≤ 0))
    ∧ (∀ (other : SortEngine) (region : Region) (few : List SortEngine.Chunk),
        few.length ≤ 1 → SortEngine.merge_chunks other region few = .ok region) := by
  refine ⟨?_, ?_⟩
  · obtain ⟨out, hout, hperm, hs⟩ := merge_chunks_spec self f data chunks hcmp hwf hcont
    exact ⟨out, hout, hperm, hs H1 H2 (fun c hc =>
      chunk_pairwise_of_adjacent f data c.start (c.start + c.record_count) H2 (hsorted c hc))⟩
  · intro other region few hfew
    unfold SortEngine.merge_chunks
    rw [if_pos hfew]

/-- Witness for C30: the chunks 1, 3 and 2, 4 (first bytes) are merged. -/
theorem merge_chunks_sorts_witness :
    ∃ out : Region,
      SortEngine.merge_chunks
          ⟨⟨2, 2, []⟩, pure_compare (fun a b => ((peek a 0).val : Int) - ((peek b 0).val : Int)),
            false⟩
          [[1, 0], [3, 0], [2, 0], [4, 0]] [⟨0, 2⟩, ⟨2, 2⟩] = .ok out
      ∧ out.Perm [[1, 0], [3, 0], [2, 0], [4, 0]]
      ∧ out.Pairwise (fun a b => ((peek a 0).val : Int) - ((peek b 0).val : Int) ≤ 0) :=
  (merge_chunks_sorts
    ⟨⟨2, 2, []⟩, pure_compare (fun a b => ((peek a 0).val : Int) - ((peek b 0).val : Int)),
      false⟩
    (fun a b => ((peek a 0).val : Int) - ((peek b 0).val : Int))
    [[1, 0], [3, 0], [2, 0], [4, 0]] [⟨0, 2⟩, ⟨2, 2⟩] rfl
    (fun a b h => by
      simp only at h ⊢
      omega)
    (fun a b c h1 h2 => by
      simp only at h1 h2 ⊢
      omega)
    (by decide) ⟨rfl, rfl, rfl⟩
    (by
      intro c hc k h1 h2
      simp only [List.mem_cons, List.mem_singleton, List.not_mem_nil, or_false] at hc
      rcases hc with rfl | rfl
      · have hk : k = 0 := by
          simp only at h1 h2
          omega
        subst hk
        decide
      · have hk : k = 2 := by
          simp only at h1 h2
          omega
        subst hk
        decide)).1

/-! ## The partition step and the termination of the quicksort -/

theorem getElem?_of_record_at (data data' : Region) (k : Nat)
    (hlen : data'.length = data.length) (h : record_at data' k = record_at data k) :
    data'[k]? = data[k]? := by
  by_cases hk : k < data.length
  · rw [record_at_lt data k hk, record_at_lt data' k (by omega)] at h
    rw [List.getElem?_eq_getElem hk, List.getElem?_eq_getElem (by omega : k < data'.length), h]
  · rw [List.getElem?_eq_none (by omega), List.getElem?_eq_none (by omega)]

/-- Two regions that are permutations of each other and agree outside the index range
`[lo, e)` hold permutations of each other inside the range. -/
theorem perm_middle (data data' : Region) (lo e : Nat) (hperm : data'.Perm data)
    (hout : ∀ k, k < lo ∨ e ≤ k → record_at data' k = record_at data k) (hle : lo ≤ e) :
    ((data'.drop lo).take (e - lo)).Perm ((data.drop lo).take (e - lo)) := by
  have hlen : data'.length = data.length := hperm.length_eq
  have hget : ∀ k, k < lo ∨ e ≤ k → data'[k]? = data[k]? :=
    fun k hk => getElem?_of_record_at data data' k hlen (hout k hk)
  have htake : data'.take lo = data.take lo := by
    apply List.ext_getElem?
    intro i
    rw [List.getElem?_take, List.getElem?_take]
    split_ifs with hi
    · exact hget i (Or.inl hi)
    · rfl
  have hdrop : data'.drop e = data.drop e := by
    apply List.ext_getElem?
    intro i
    rw [List.getElem?_drop, List.getElem?_drop]
    exact hget (e + i) (Or.inr (by omega))
  have hsplit : ∀ l : Region, l = l.take lo ++ ((l.drop lo).take (e - lo) ++ l.drop e) := by
    intro l
    have h1 : (l.drop lo).drop (e - lo) = l.drop e := by
      rw [List.drop_drop]
      congr 1
      omega
    rw [← h1, List.take_append_drop, List.take_append_drop]
  rw [hsplit data, hsplit data', htake, hdrop] at hperm
  exact (List.perm_append_right_iff _).mp ((List.perm_append_left_iff _).mp hperm)

/-- The loop of `partition` returns for every comparison function that returns, with the
index `i` raised by at most the number of iterations. -/
theorem partition_loop_index (R : Nat) (f : Bytes → Bytes → Int) (high : Int) :
    ∀ (n : Nat) (data : Region) (i j : Int),
      ∃ (data' : Region) (i' : Int),
        RecordQuickSort.partition_loop R (pure_compare f) high n data i j = .ok (data', i')
        ∧ i ≤ i' ∧ i' ≤ i + n := by
  intro n
  induction n with
  | zero =>
    intro data i j
    exact ⟨data, i, rfl, le_refl _, by simp⟩
  | succ n ih =>
    intro data i j
    unfold RecordQuickSort.partition_loop
    simp only [pure_compare]
    split_ifs
    · obtain ⟨data', i', h, h1, h2⟩ := ih
        (RecordQuickSort.swap_records R data (i + 1).toNat j.toNat) (i + 1) (j + 1)
      exact ⟨data', i', h, by omega, by push_cast; omega⟩
    · obtain ⟨data', i', h, h1, h2⟩ := ih data i (j + 1)
      exact ⟨data', i', h, h1, by push_cast; omega⟩

/-- `partition` returns an index within `[low, high]` for every comparison function that
returns and every region. -/
theorem partition_index (R : Nat) (f : Bytes → Bytes → Int) (data : Region) (low high : Int)
    (h : low ≤ high) :
    ∃ (data' : Region) (p : Int),
      RecordQuickSort.partition R (pure_compare f) data low high = .ok (data', p)
      ∧ low ≤ p ∧ p ≤ high := by
  obtain ⟨data', i', hl, h1, h2⟩ := partition_loop_index R f high (high - low).toNat data
    (low - 1) low
  unfold RecordQuickSort.partition
  rw [hl]
  refine ⟨_, _, rfl, by omega, ?_⟩
  have : ((high - low).toNat : Int) = high - low := Int.toNat_of_nonneg (by omega)
  omega

/-- Enough fuel: `quicksort` on a range of at most `fuel` records returns. -/
theorem quicksort_total (R : Nat) (f : Bytes → Bytes → Int) :
    ∀ (fuel : Nat) (data : Region) (low high : Int), high - low < (fuel : Int) →
      ∃ out : Region,
        RecordQuickSort.quicksort R (pure_compare f) fuel data low high = .ok out := by
  intro fuel
  induction fuel with
  | zero =>
    intro data low high h
    exact ⟨data, quicksort_done R _ 0 data low high (by simp at h; omega)⟩
  | succ fuel ih =>
    intro data low high h
    by_cases hlt : low < high
    · unfold RecordQuickSort.quicksort
      rw [if_pos hlt]
      obtain ⟨data', p, hp, h1, h2⟩ := partition_index R f data low high (le_of_lt hlt)
      rw [hp]
      simp only
      obtain ⟨left, hleft⟩ := ih data' low (p - 1) (by push_cast at h; omega)
      rw [hleft]
      simp only
      exact ih left (p + 1) high (by push_cast at h; omega)
    · exact ⟨data, quicksort_done R _ _ data low high hlt⟩

/-! ## Claims about the partition step and the termination of the quicksort -/

/-- C31: the postcondition of `RecordQuickSort::partition`. For every comparison function
that returns a value, every region of records of `R` bytes and all `low < high` below the
number of records, `partition(data, low, high)` returns an index `p` with
`low ≤ p ≤ high`; afterwards the record at `p` is the pivot, the record that was at `high`;
every record at an index in `[low, p)` compares `< 0` against the pivot and every record at
an index in `(p, high]` compares `≥ 0` against it; the records in `[low, high]` are a
permutation of the ones before the call; and every record outside `[low, high]` is
unchanged. -/
theorem partition_postcondition (R : Nat) (f : Bytes → Bytes → Int) (data : Region)
    (low high : Nat) (hwf : Region.wf R data) (hlow : low < high)
    (hhigh : high < data.length) :
    ∃ (data' : Region) (p : Nat),
      RecordQuickSort.partition R (pure_compare f) data (low : Int) (high : Int)
        = .ok (data', (p : Int))
      ∧ low ≤ p ∧ p ≤ high
      ∧ record_at data' p = record_at data high
      ∧ (∀ k, low ≤ k → k < p → f (record_at data' k) (record_at data high) < 0)
      ∧ (∀ k, p < k → k ≤ high → 0 ≤ f (record_at data' k) (record_at data high))
      ∧ ((data'.drop low).take (high + 1 - low)).Perm ((data.drop low).take (high + 1 - low))
      ∧ (∀ k, k < low ∨ high < k → record_at data' k = record_at data k)
      ∧ data'.length = data.length := by
  obtain ⟨data', p, hp, h1, h2, hperm, hout, _, hpiv, hlt, hge⟩ :=
    partition_spec R f data low high hwf hhigh (le_of_lt hlow)
  refine ⟨data', p, hp, h1, h2, hpiv, hlt, ?_, ?_, hout, hperm.length_eq⟩
  · intro k hk1 hk2
    have := hge k hk1 hk2
    omega
  · exact perm_middle data data' low (high + 1) hperm
      (fun k hk => hout k (by omega)) (by omega)

/-- Witness for C31: the region 3, 1, 2 (first bytes) partitioned around the pivot 2. -/
theorem partition_postcondition_witness :
    ∃ (data' : Region) (p : Nat),
      RecordQuickSort.partition 1 (pure_compare (fun a b => ((peek a 0).val : Int)
          - ((peek b 0).val : Int))) [[3], [1], [2]] (0 : Nat) (2 : Nat) = .ok (data', (p : Int))
      ∧ 0 ≤ p ∧ p ≤ 2 ∧ record_at data' p = record_at [[3], [1], [2]] 2 := by
  obtain ⟨data', p, h, h1, h2, h3, _⟩ := partition_postcondition 1
    (fun a b => ((peek a 0).val : Int) - ((peek b 0).val : Int)) [[3], [1], [2]] 0 2
    (by decide) (by decide) (by decide)
  exact ⟨data', p, h, h1, h2, h3⟩

/-- C35: `RecordQuickSort::sort` terminates: for every record count `N`, every region and
every comparison function that returns a value, consistent or not, the sort returns (the
recursion budget `N` of the model is never exhausted). The reason: for `low < high`
`partition` returns `p` with `low ≤ p ≤ high`, so the ranges `[low, p - 1]` and
`[p + 1, high]` of the two recursive calls are strictly shorter than `[low, high]`, and a
call on a range of at most `fuel` records needs a recursion depth of at most `fuel`. -/
theorem quicksort_terminates (R : Nat) (f : Bytes → Bytes → Int) :
    (∀ (data : Region) (N : Nat), ∃ out : Region,
      RecordQuickSort.sort R (pure_compare f) data N = .ok out)
    ∧ (∀ (data : Region) (low high : Int), low < high →
        ∃ (data' : Region) (p : Int),
          RecordQuickSort.partition R (pure_compare f) data low high = .ok (data', p)
          ∧ low ≤ p ∧ p ≤ high
          ∧ (p - 1) - low < high - low ∧ high - (p + 1) < high - low)
    ∧ (∀ (fuel : Nat) (data : Region) (low high : Int), high - low < (fuel : Int) →
        ∃ out : Region,
          RecordQuickSort.quicksort R (pure_compare f) fuel data low high = .ok out) := by
  refine ⟨?_, ?_, quicksort_total R f⟩
  · intro data N
    unfold RecordQuickSort.sort
    split_ifs
    · exact ⟨data, rfl⟩
    · exact quicksort_total R f N data 0 ((N : Int) - 1) (by omega)
  · intro data low high h
    obtain ⟨data', p, hp, h1, h2⟩ := partition_index R f data low high (le_of_lt h)
    exact ⟨data', p, hp, h1, h2, by omega, by omega⟩

/-- Witness for C35: the sort of three records returns under the constant comparator -1. -/
theorem quicksort_terminates_witness :
    ∃ out : Region,
      RecordQuickSort.sort 1 (pure_compare (fun _ _ => -1)) [[3], [1], [2]] 3 = .ok out :=
  (quicksort_terminates 1 (fun _ _ => -1)).1 [[3], [1], [2]] 3

/-! ## Claims about the bounds check and the generated code -/

/-- C32 (failing input): a view of 10 bytes and the Character key at position 2 of length
`2^64 - 1`, whose byte range `[1, 2^64)` is not contained in `[0, 10)`. The bounds check of
`RecordView::extract_key` adds `offset() + length` in `size_t`; the sum wraps to 0, the
check passes and the key is read: no `out_of_range` is raised. The same happens for the key
at position 0 of length 1, whose `offset()` wraps to `2^64 - 1`. -/
theorem bounds_check_wraps :
    ¬ (2 - 1 + 18446744073709551615 ≤ 10)
    ∧ (⟨[1, 2, 3, 4, 5, 6, 7, 8, 9, 10], 10⟩ : RecordView).extract_key .little
        ⟨2, 18446744073709551615, .Character, .Ascending⟩ = .ok 2
    ∧ (∃ value, (⟨[1, 2, 3, 4, 5, 6, 7, 8, 9, 10], 10⟩ : RecordView).extract_key .little
        ⟨0, 1, .Character, .Ascending⟩ = .ok value) := by
  refine ⟨by decide, by decide, ?_⟩
  have hb : ¬ (((⟨0, 1, .Character, .Ascending⟩ : KeySpec).offset + 1) % size_mod > 10) := by
    unfold KeySpec.offset size_mod
    norm_num
  unfold RecordView.extract_key
  simp only
  rw [if_neg hb]
  exact ⟨_, rfl⟩

theorem emit_all_independent (plat : Platform) (keys keys2 : List KeySpec) (R R2 : Nat) :
    ComparisonGenerator.emit_all plat keys R = ComparisonGenerator.emit_all plat keys2 R2 := by
  unfold ComparisonGenerator.emit_all
  simp only [emit_keys_eq]

theorem emit_all_size (plat : Platform) (keys : List KeySpec) (R : Nat)
    (ha : plat.allocation_succeeds = true) (hp : plat.protection_succeeds = true) :
    ∃ code, ComparisonGenerator.emit_all plat keys R = .ok code
      ∧ code.size = if plat.windows then 9 else 8 := by
  unfold ComparisonGenerator.emit_all ComparisonGenerator.emit_prologue
    ComparisonGenerator.emit_epilogue ComparisonGenerator.make_executable
  by_cases hw : plat.windows = true
  · simp only [hw, if_true, hp]
    rw [emit_bytes_first plat _ ha (by decide)]
    simp only [emit_keys_eq]
    rw [emit_bytes_next plat _ _ _ (by decide)]
    simp only
    rw [emit_bytes_next plat _ _ _ (by decide)]
    exact ⟨_, rfl, rfl⟩
  · simp only [hw, if_false, hp, if_true, Bool.false_eq_true]
    rw [emit_bytes_first plat _ ha (by decide)]
    simp only [emit_keys_eq]
    rw [emit_bytes_next plat _ _ _ (by decide)]
    simp only
    rw [emit_bytes_next plat _ _ _ (by decide)]
    exact ⟨_, rfl, rfl⟩

/-- C34: the code that `ComparisonGenerator::generate` emits does not depend on its
arguments. `emit_key_comparison` leaves the buffer as it is, so the emission is the same for
all key lists and record lengths; when the buffer can be allocated and made executable the
emitted bytes are the prologue, `31 C0` and the epilogue, which is
`55 48 89 E5 31 C0 5D C3`, 8 bytes, on the non-Windows target (and
`48 89 CF 48 89 D6 31 C0 C3`, 9 bytes, on Windows), for every key list. -/
theorem generated_code_is_fixed (plat : Platform) :
    (∀ (code : ComparisonGenerator.CodeBuffer) (spec : KeySpec) (R : Nat),
      ComparisonGenerator.emit_key_comparison code spec R = .ok code)
    ∧ (∀ (keys keys2 : List KeySpec) (R R2 : Nat),
        ComparisonGenerator.emit_all plat keys R = ComparisonGenerator.emit_all plat keys2 R2)
    ∧ (plat.allocation_succeeds = true → plat.protection_succeeds = true →
        ∀ (keys : List KeySpec) (R : Nat),
          ∃ code, ComparisonGenerator.emit_all plat keys R = .ok code
            ∧ code.size = (if plat.windows then 9 else 8)
            ∧ (code.memory.getD []).take code.size
              = if plat.windows then [0x48, 0x89, 0xcf, 0x48, 0x89, 0xd6, 0x31, 0xc0, 0xc3]
                else [0x55, 0x48, 0x89, 0xe5, 0x31, 0xc0, 0x5d, 0xc3]) := by
  refine ⟨fun _ _ _ => rfl, emit_all_independent plat, ?_⟩
  intro ha hp keys R
  obtain ⟨code, h1, h2⟩ := emit_all_code plat keys R ha hp
  obtain ⟨code2, h3, h4⟩ := emit_all_size plat keys R ha hp
  rw [h1] at h3
  injection h3 with h3
  subst h3
  exact ⟨code, h1, h4, h2⟩

/-- Witness for C34: the non-Windows x86-64 target and the key list of one integer key. -/
theorem generated_code_is_fixed_witness :
    ∃ code, ComparisonGenerator.emit_all ⟨true, false, .little, true, true, 0⟩
        [⟨1, 4, .LittleEndianInt, .Ascending⟩] 16 = .ok code
      ∧ code.size = 8
      ∧ (code.memory.getD []).take code.size = [0x55, 0x48, 0x89, 0xe5, 0x31, 0xc0, 0x5d, 0xc3] :=
  (generated_code_is_fixed ⟨true, false, .little, true, true, 0⟩).2.2 rfl rfl
    [⟨1, 4, .LittleEndianInt, .Ascending⟩] 16

/-! ## The comparator as a function of the key bytes -/

theorem fetch_eq_iff : ∀ (n : Nat) (p q : Bytes),
    fetch p n = fetch q n ↔ ∀ i, i < n → peek p i = peek q i := by
  intro n
  induction n with
  | zero =>
    intro p q
    constructor
    · intro _ i hi
      omega
    · intro _
      cases p <;> cases q <;> rfl
  | succ n ih =>
    intro p q
    rw [fetch_succ, fetch_succ, List.cons.injEq, ih]
    constructor
    · rintro ⟨h0, ht⟩ i hi
      cases i with
      | zero => exact h0
      | succ i =>
        have := ht i (by omega)
        rw [peek_tail, peek_tail] at this
        exact this
    · intro h
      refine ⟨h 0 (by omega), ?_⟩
      intro i hi
      rw [peek_tail, peek_tail]
      exact h (i + 1) (by omega)

theorem memcmp_congr : ∀ (n : Nat) (pa pa2 pb pb2 : Bytes),
    (∀ i, i < n → peek pa i = peek pa2 i) → (∀ i, i < n → peek pb i = peek pb2 i) →
    memcmp pa pb n = memcmp pa2 pb2 n := by
  intro n
  induction n with
  | zero =>
    intro pa pa2 pb pb2 _ _
    unfold memcmp
    rfl
  | succ n ih =>
    intro pa pa2 pb pb2 ha hb
    unfold memcmp
    rw [ha 0 (by omega), hb 0 (by omega),
      ih pa.tail pa2.tail pb.tail pb2.tail
        (fun i hi => by rw [peek_tail, peek_tail]; exact ha (i + 1) (by omega))
        (fun i hi => by rw [peek_tail, peek_tail]; exact hb (i + 1) (by omega))]

theorem load_big_inj : ∀ (xs ys : Bytes), xs.length = ys.length →
    load .big xs = load .big ys → xs = ys
  | [], [], _, _ => rfl
  | [], _ :: _, hl, _ => by simp at hl
  | _ :: _, [], hl, _ => by simp at hl
  | x :: xs, y :: ys, hl, h => by
    have hlen : xs.length = ys.length := by simpa using hl
    rw [load_big_cons, load_big_cons, hlen] at h
    have hx := load_big_lt xs
    have hy := load_big_lt ys
    rw [hlen] at hx
    have hxy : x.val = y.val := by
      rcases Nat.lt_trichotomy x.val y.val with hlt | heq | hgt
      · have : (x.val + 1) * 256 ^ ys.length ≤ y.val * 256 ^ ys.length :=
          Nat.mul_le_mul_right _ hlt
        rw [Nat.add_mul, Nat.one_mul] at this
        omega
      · exact heq
      · have : (y.val + 1) * 256 ^ ys.length ≤ x.val * 256 ^ ys.length :=
          Nat.mul_le_mul_right _ hgt
        rw [Nat.add_mul, Nat.one_mul] at this
        omega
    rw [hxy] at h
    rw [Fin.ext hxy, load_big_inj xs ys hlen (by omega)]

theorem load_little_eq_big_reverse (xs : Bytes) : load .little xs = load .big xs.reverse := by
  rw [load_big_eq_little_reverse, List.reverse_reverse]

theorem load_little_inj (xs ys : Bytes) (hl : xs.length = ys.length)
    (h : load .little xs = load .little ys) : xs = ys := by
  rw [load_little_eq_big_reverse, load_little_eq_big_reverse] at h
  have := load_big_inj xs.reverse ys.reverse (by simp [hl]) h
  exact List.reverse_injective this

theorem unsigned_key_value_load (k : KeySpec) (a : Bytes) :
    unsigned_key_value k a
      = load (if k.type = .BigEndianInt then .big else .little)
          (fetch (a.drop (k.position - 1)) k.length) := by
  unfold unsigned_key_value key_byte
  split_ifs
  · rw [load_big_fetch]
    exact Finset.sum_congr rfl (fun i _ => by rw [peek_drop])
  · rw [load_little_fetch]
    exact Finset.sum_congr rfl (fun i _ => by rw [peek_drop])

theorem unsigned_key_value_lt (k : KeySpec) (a : Bytes) :
    unsigned_key_value k a < 2 ^ (8 * k.length) := by
  have hpow : (256 : Nat) ^ k.length = 2 ^ (8 * k.length) := by
    rw [pow_mul]
    norm_num
  rw [unsigned_key_value_load, ← hpow]
  split_ifs
  · have := load_big_lt (fetch (a.drop (k.position - 1)) k.length)
    rw [fetch_length] at this
    exact this
  · rw [load_little_eq_big_reverse]
    have := load_big_lt (fetch (a.drop (k.position - 1)) k.length).reverse
    rw [List.length_reverse, fetch_length] at this
    exact this

theorem key_bytes_of_fetch (k : KeySpec) (a b : Bytes) :
    fetch (a.drop (k.position - 1)) k.length = fetch (b.drop (k.position - 1)) k.length
      ↔ ∀ i, i < k.length → key_byte k a i = key_byte k b i := by
  rw [fetch_eq_iff]
  unfold key_byte
  constructor
  · intro h i hi
    have := h i hi
    rw [peek_drop, peek_drop] at this
    rw [this]
  · intro h i hi
    rw [peek_drop, peek_drop]
    exact Fin.ext (h i hi)

theorem unsigned_key_value_inj (k : KeySpec) (a b : Bytes) :
    unsigned_key_value k a = unsigned_key_value k b
      ↔ ∀ i, i < k.length → key_byte k a i = key_byte k b i := by
  rw [← key_bytes_of_fetch, unsigned_key_value_load, unsigned_key_value_load]
  constructor
  · intro h
    split_ifs at h
    · exact load_big_inj _ _ (by rw [fetch_length, fetch_length]) h
    · exact load_little_inj _ _ (by rw [fetch_length, fetch_length]) h
  · intro h
    rw [h]

theorem signed_key_value_inj (k : KeySpec) (a b : Bytes) :
    signed_key_value k a = signed_key_value k b
      ↔ unsigned_key_value k a = unsigned_key_value k b := by
  constructor
  · intro h
    unfold signed_key_value at h
    have ha := unsigned_key_value_lt k a
    have hb := unsigned_key_value_lt k b
    have hP : ((2 : Int) ^ (8 * k.length)) = ((2 ^ (8 * k.length) : Nat) : Int) := by
      push_cast
      rfl
    rw [hP] at h
    generalize unsigned_key_value k a = ua at *
    generalize unsigned_key_value k b = ub at *
    generalize 2 ^ (8 * k.length) = P at *
    split_ifs at h <;> omega
  · intro h
    unfold signed_key_value
    rw [h]

/-- Two records have the same rank under a key exactly when they hold the same key bytes. -/
theorem key_rank_eq_iff (k : KeySpec) (a b : Bytes) :
    key_rank k a = key_rank k b ↔ ∀ i, i < k.length → key_byte k a i = key_byte k b i := by
  have hval : (if k.type = .Character then
        (load .big (fetch (a.drop (k.position - 1)) k.length) : Int)
      else signed_key_value k a)
      = (if k.type = .Character then
        (load .big (fetch (b.drop (k.position - 1)) k.length) : Int)
      else signed_key_value k b)
      ↔ ∀ i, i < k.length → key_byte k a i = key_byte k b i := by
    split_ifs
    · rw [← key_bytes_of_fetch]
      constructor
      · intro h
        exact load_big_inj _ _ (by rw [fetch_length, fetch_length]) (by exact_mod_cast h)
      · intro h
        rw [h]
    · rw [signed_key_value_inj, unsigned_key_value_inj]
  have hneg : ∀ (d : Prop) [Decidable d] (va vb : Int),
      ((if d then -va else va) = (if d then -vb else vb)) ↔ va = vb := by
    intro d _ va vb
    split_ifs
    · exact neg_inj
    · exact Iff.rfl
  unfold key_rank
  simp only
  exact (hneg _ _ _).trans hval

theorem compare_value_eq_zero (a b : Bytes) : ∀ (keys : List KeySpec),
    compare_value keys a b = 0 ↔ ∀ k ∈ keys, ordered_field_value k a b = 0
  | [] => by simp [compare_value]
  | key :: rest => by
    rw [compare_value_cons, List.forall_mem_cons, ← compare_value_eq_zero a b rest]
    by_cases h : ordered_field_value key a b = 0
    · rw [if_neg (by simpa using h)]
      exact ⟨fun hr => ⟨h, hr⟩, fun hr => hr.2⟩
    · rw [if_pos h]
      exact ⟨fun hr => absurd hr h, fun hr => absurd hr.1 h⟩

theorem extract_key_congr (host : Endian) (L : Nat) (k : KeySpec) (a a2 : Bytes)
    (ht : k.type = .LittleEndianInt ∨ k.type = .BigEndianInt)
    (h1 : 1 ≤ k.position) (h2 : k.position ≤ size_mod)
    (hagree : ∀ i, i < k.length → key_byte k a i = key_byte k a2 i) :
    RecordView.extract_key host ⟨a, L⟩ k = RecordView.extract_key host ⟨a2, L⟩ k := by
  have hf := (key_bytes_of_fetch k a a2).mpr hagree
  unfold RecordView.extract_key
  simp only
  rw [offset_eq k h1 h2]
  by_cases hb : (k.position - 1 + k.length) % size_mod > L
  · rw [if_pos hb, if_pos hb]
  · rw [if_neg hb, if_neg hb]
    have hread : ∀ (n : Nat), k.length = n →
        fetch (a.drop (k.position - 1)) n = fetch (a2.drop (k.position - 1)) n := by
      intro n hn
      rw [← hn]
      exact hf
    have hle : RecordView.read_le16 host (a.drop (k.position - 1))
          = RecordView.read_le16 host (a2.drop (k.position - 1)) ∨ k.length ≠ 2 := by
      by_cases hl : k.length = 2
      · left
        unfold RecordView.read_le16
        rw [hread 2 hl]
      · exact Or.inr hl
    have hle4 : RecordView.read_le32 host (a.drop (k.position - 1))
          = RecordView.read_le32 host (a2.drop (k.position - 1)) ∨ k.length ≠ 4 := by
      by_cases hl : k.length = 4
      · left
        unfold RecordView.read_le32
        rw [hread 4 hl]
      · exact Or.inr hl
    have hle8 : RecordView.read_le64 host (a.drop (k.position - 1))
          = RecordView.read_le64 host (a2.drop (k.position - 1)) ∨ k.length ≠ 8 := by
      by_cases hl : k.length = 8
      · left
        unfold RecordView.read_le64
        rw [hread 8 hl]
      · exact Or.inr hl
    have hbe : RecordView.read_be16 host (a.drop (k.position - 1))
          = RecordView.read_be16 host (a2.drop (k.position - 1)) ∨ k.length ≠ 2 := by
      by_cases hl : k.length = 2
      · left
        unfold RecordView.read_be16
        rw [hread 2 hl]
      · exact Or.inr hl
    have hbe4 : RecordView.read_be32 host (a.drop (k.position - 1))
          = RecordView.read_be32 host (a2.drop (k.position - 1)) ∨ k.length ≠ 4 := by
      by_cases hl : k.length = 4
      · left
        unfold RecordView.read_be32
        rw [hread 4 hl]
      · exact Or.inr hl
    have hbe8 : RecordView.read_be64 host (a.drop (k.position - 1))
          = RecordView.read_be64 host (a2.drop (k.position - 1)) ∨ k.length ≠ 8 := by
      by_cases hl : k.length = 8
      · left
        unfold RecordView.read_be64
        rw [hread 8 hl]
      · exact Or.inr hl
    rcases ht with ht | ht
    · rw [ht]
      simp only
      by_cases hl2 : k.length = 2
      · rw [if_pos hl2, if_pos hl2, hle.resolve_right (not_not.mpr hl2)]
      · rw [if_neg hl2, if_neg hl2]
        by_cases hl4 : k.length = 4
        · rw [if_pos hl4, if_pos hl4, hle4.resolve_right (not_not.mpr hl4)]
        · rw [if_neg hl4, if_neg hl4]
          by_cases hl8 : k.length = 8
          · rw [if_pos hl8, if_pos hl8, hle8.resolve_right (not_not.mpr hl8)]
          · rw [if_neg hl8, if_neg hl8]
    · rw [ht]
      simp only
      by_cases hl2 : k.length = 2
      · rw [if_pos hl2, if_pos hl2, hbe.resolve_right (not_not.mpr hl2)]
      · rw [if_neg hl2, if_neg hl2]
        by_cases hl4 : k.length = 4
        · rw [if_pos hl4, if_pos hl4, hbe4.resolve_right (not_not.mpr hl4)]
        · rw [if_neg hl4, if_neg hl4]
          by_cases hl8 : k.length = 8
          · rw [if_pos hl8, if_pos hl8, hbe8.resolve_right (not_not.mpr hl8)]
          · rw [if_neg hl8, if_neg hl8]

theorem compare_field_congr (host : Endian) (L : Nat) (k : KeySpec) (a a2 b b2 : Bytes)
    (ht : k.type ≠ .LittleEndianFloat) (h1 : 1 ≤ k.position) (h2 : k.position ≤ size_mod)
    (ha : ∀ i, i < k.length → key_byte k a i = key_byte k a2 i)
    (hb : ∀ i, i < k.length → key_byte k b i = key_byte k b2 i) :
    RecordComparator.compare_field host k ⟨a, L⟩ ⟨b, L⟩
      = RecordComparator.compare_field host k ⟨a2, L⟩ ⟨b2, L⟩ := by
  unfold RecordComparator.compare_field
  by_cases hc : k.type = .Character
  · rw [if_pos hc, if_pos hc]
    simp only
    rw [offset_eq k h1 h2]
    have hpa := (fetch_eq_iff k.length _ _).mp ((key_bytes_of_fetch k a a2).mpr ha)
    have hpb := (fetch_eq_iff k.length _ _).mp ((key_bytes_of_fetch k b b2).mpr hb)
    rw [memcmp_congr k.length _ _ _ _ hpa hpb]
  · rw [if_neg hc, if_neg hc, if_neg ht, if_neg ht]
    have hint : k.type = .LittleEndianInt ∨ k.type = .BigEndianInt := by
      cases hk : k.type
      · exact absurd hk hc
      · exact Or.inl rfl
      · exact Or.inr rfl
      · exact absurd hk ht
    rw [extract_key_congr host L k a a2 hint h1 h2 ha,
      extract_key_congr host L k b b2 hint h1 h2 hb]

/-! ## Claims about the comparator as an order -/

/-- C33: for every key list of Character keys and integer keys lying inside the record,
`RecordComparator::compare` is a total preorder on records: it returns a value for every
pair; `compare(a, a) = 0`; the sign of `compare(a, b)` is the opposite of the sign of
`compare(b, a)`; and `compare(a, b) ≤ 0` together with `compare(b, c) ≤ 0` implies
`compare(a, c) ≤ 0`. -/
theorem compare_is_total_preorder (host : Endian) (K : List KeySpec) (R : Nat)
    (hK : ∀ k ∈ K, k.inside R) (a b c : Bytes) :
    RecordComparator.compare host K ⟨a, R⟩ ⟨a, R⟩ = .ok 0
    ∧ ∃ ab ba bc ac : Int,
        RecordComparator.compare host K ⟨a, R⟩ ⟨b, R⟩ = .ok ab
        ∧ RecordComparator.compare host K ⟨b, R⟩ ⟨a, R⟩ = .ok ba
        ∧ RecordComparator.compare host K ⟨b, R⟩ ⟨c, R⟩ = .ok bc
        ∧ RecordComparator.compare host K ⟨a, R⟩ ⟨c, R⟩ = .ok ac
        ∧ Int.sign ab = - Int.sign ba
        ∧ (ab ≤ 0 → bc ≤ 0 → ac ≤ 0) := by
  obtain ⟨h1, h2, h3⟩ := compare_value_preorder K
  refine ⟨?_, compare_value K a b, compare_value K b a, compare_value K b c,
    compare_value K a c, compare_inside host K a b R hK, compare_inside host K b a R hK,
    compare_inside host K b c R hK, compare_inside host K a c R hK, ?_, h3 a b c⟩
  · rw [compare_inside host K a a R hK, h1 a]
  · have hab := h2 a b
    have hba := h2 b a
    rcases lt_trichotomy (compare_value K a b) 0 with hlt | heq | hgt
    · rw [Int.sign_eq_neg_one_of_neg hlt, Int.sign_eq_one_of_pos (hab.mp hlt)]
    · have hz : compare_value K b a = 0 := by omega
      rw [heq, hz]
      rfl
    · rw [Int.sign_eq_one_of_pos hgt, Int.sign_eq_neg_one_of_neg (hba.mpr hgt)]
      rfl

/-- Witness for C33: a descending big-endian key and a Character key on records of 4 bytes. -/
theorem compare_is_total_preorder_witness :
    RecordComparator.compare .little
        [⟨1, 2, .BigEndianInt, .Descending⟩, ⟨3, 2, .Character, .Ascending⟩]
        ⟨[0, 1, 7, 7], 4⟩ ⟨[0, 1, 7, 7], 4⟩ = .ok 0 :=
  (compare_is_total_preorder .little
    [⟨1, 2, .BigEndianInt, .Descending⟩, ⟨3, 2, .Character, .Ascending⟩] 4 (by decide)
    [0, 1, 7, 7] [0, 2, 7, 7] [0, 3, 7, 7]).1

/-- C36: `RecordComparator::compare` depends only on the key bytes. For every key list of
Character and integer keys (of any length, with positions from 1 on), every view length and
all records `a`, `a2`, `b`, `b2` such that `a` and `a2` agree on every byte in the byte
range of every key, and likewise `b` and `b2`, the comparison of `a` with `b` and the
comparison of `a2` with `b2` have the same outcome, value or error. -/
theorem compare_depends_on_key_bytes (host : Endian) (L : Nat) (a a2 b b2 : Bytes) :
    ∀ (K : List KeySpec),
      (∀ k ∈ K, k.type ≠ .LittleEndianFloat ∧ 1 ≤ k.position ∧ k.position ≤ size_mod) →
      (∀ k ∈ K, ∀ i, i < k.length → key_byte k a i = key_byte k a2 i) →
      (∀ k ∈ K, ∀ i, i < k.length → key_byte k b i = key_byte k b2 i) →
      RecordComparator.compare host K ⟨a, L⟩ ⟨b, L⟩
        = RecordComparator.compare host K ⟨a2, L⟩ ⟨b2, L⟩
  | [], _, _, _ => rfl
  | key :: rest, hK, ha, hb => by
    obtain ⟨ht, h1, h2⟩ := hK key (List.mem_cons_self _ _)
    unfold RecordComparator.compare
    rw [compare_field_congr host L key a a2 b b2 ht h1 h2 (ha key (List.mem_cons_self _ _))
        (hb key (List.mem_cons_self _ _)),
      compare_depends_on_key_bytes host L a a2 b b2 rest
        (fun k hk => hK k (List.mem_cons_of_mem _ hk))
        (fun k hk => ha k (List.mem_cons_of_mem _ hk))
        (fun k hk => hb k (List.mem_cons_of_mem _ hk))]

/-- Witness for C36: records that differ in the third and fourth byte only, outside the key
at position 1 of length 2. -/
theorem compare_depends_on_key_bytes_witness :
    RecordComparator.compare .little [⟨1, 2, .LittleEndianInt, .Ascending⟩]
        ⟨[5, 0, 1, 1], 4⟩ ⟨[6, 0, 2, 2], 4⟩
      = RecordComparator.compare .little [⟨1, 2, .LittleEndianInt, .Ascending⟩]
        ⟨[5, 0, 9, 9], 4⟩ ⟨[6, 0, 8, 8], 4⟩ :=
  compare_depends_on_key_bytes .little 4 [5, 0, 1, 1] [5, 0, 9, 9] [6, 0, 2, 2] [6, 0, 8, 8]
    [⟨1, 2, .LittleEndianInt, .Ascending⟩] (by decide) (by decide) (by decide)

/-- C37: for every key list of Character keys and integer keys of width 2, 4 or 8 lying
inside the record and all records `a`, `b`, `RecordComparator::compare(a, b)` is 0 if and
only if `a` and `b` hold the same bytes in the byte range of every key. -/
theorem compare_zero_iff_key_bytes_equal (host : Endian) (K : List KeySpec) (R : Nat)
    (hK : ∀ k ∈ K, k.inside R) (a b : Bytes) :
    RecordComparator.compare host K ⟨a, R⟩ ⟨b, R⟩ = .ok 0
      ↔ ∀ k ∈ K, ∀ i, i < k.length → key_byte k a i = key_byte k b i := by
  rw [compare_inside host K a b R hK]
  have hz : (Except.ok (compare_value K a b) : Except Error Int) = .ok 0
      ↔ compare_value K a b = 0 := by
    constructor
    · intro h
      injection h
    · intro h
      rw [h]
  rw [hz, compare_value_eq_zero]
  constructor
  · intro h k hk
    exact (key_rank_eq_iff k a b).mp ((field_value_rank k a b).2.mp (h k hk))
  · intro h k hk
    exact (field_value_rank k a b).2.mpr ((key_rank_eq_iff k a b).mpr (h k hk))

/-- Witness for C37: equal key bytes at position 2 of width 2, different bytes elsewhere. -/
theorem compare_zero_iff_key_bytes_equal_witness :
    RecordComparator.compare .big [⟨2, 2, .BigEndianInt, .Ascending⟩]
        ⟨[1, 7, 8, 3], 4⟩ ⟨[2, 7, 8, 4], 4⟩ = .ok 0 :=
  (compare_zero_iff_key_bytes_equal .big [⟨2, 2, .BigEndianInt, .Ascending⟩] 4 (by decide)
    [1, 7, 8, 3] [2, 7, 8, 4]).mpr (by decide)

/-! ## The reference comparator on float keys -/

theorem double_lt_irrefl (a : Double) : a.lt a = false := by
  cases a with
  | nan => rfl
  | inf n => cases n <;> rfl
  | finite q => simp [Double.lt]

theorem double_lt_asymm (a b : Double) (h : a.lt b = true) : b.lt a = false := by
  cases a with
  | nan => simp [Double.lt] at h
  | inf na =>
    cases b with
    | nan => simp [Double.lt] at h
    | inf nb => cases na <;> cases nb <;> simp [Double.lt] at h ⊢
    | finite q => cases na <;> simp [Double.lt] at h ⊢
  | finite p =>
    cases b with
    | nan => simp [Double.lt] at h
    | inf nb => cases nb <;> simp [Double.lt] at h ⊢
    | finite q =>
      simp only [Double.lt, decide_eq_true_eq, decide_eq_false_iff_not] at h ⊢
      exact not_lt.mpr (le_of_lt h)

/-- On values that are not NaN, "not greater" is transitive. -/
theorem double_not_lt_trans (a b c : Double) (ha : a ≠ .nan) (hb : b ≠ .nan) (hc : c ≠ .nan)
    (h1 : b.lt a = false) (h2 : c.lt b = false) : c.lt a = false := by
  cases a with
  | nan => exact absurd rfl ha
  | inf na =>
    cases b with
    | nan => exact absurd rfl hb
    | inf nb =>
      cases c with
      | nan => exact absurd rfl hc
      | inf nc => cases na <;> cases nb <;> cases nc <;> simp [Double.lt] at h1 h2 ⊢
      | finite r => cases na <;> cases nb <;> simp [Double.lt] at h1 h2 ⊢
    | finite q =>
      cases c with
      | nan => exact absurd rfl hc
      | inf nc => cases na <;> cases nc <;> simp [Double.lt] at h1 h2 ⊢
      | finite r => cases na <;> simp [Double.lt] at h1 h2 ⊢
  | finite p =>
    cases b with
    | nan => exact absurd rfl hb
    | inf nb =>
      cases c with
      | nan => exact absurd rfl hc
      | inf nc => cases nb <;> cases nc <;> simp [Double.lt] at h1 h2 ⊢
      | finite r => cases nb <;> simp [Double.lt] at h1 h2 ⊢
    | finite q =>
      cases c with
      | nan => exact absurd rfl hc
      | inf nc => cases nc <;> simp [Double.lt] at h1 h2 ⊢
      | finite r =>
        simp only [Double.lt, decide_eq_false_iff_not, not_lt] at h1 h2 ⊢
        exact le_trans h1 h2

theorem extract_float_key_eq (host : Endian) (key : KeySpec) (a : Bytes) (L : Nat)
    (hty : key.type = .LittleEndianFloat) (hlen : key.length = 4 ∨ key.length = 8)
    (h1 : 1 ≤ key.position) (h2 : key.position ≤ size_mod) :
    RecordView.extract_float_key host ⟨a, L⟩ key = .ok (float_key_value host key a) := by
  unfold RecordView.extract_float_key float_key_value
  simp only [hty, ne_eq, not_true_eq_false, if_false, offset_eq key h1 h2]
  rcases hlen with h | h
  · rw [if_pos h, if_pos h]
  · have h4 : key.length ≠ 4 := by omega
    rw [if_neg h4, if_pos h, if_neg h4]

theorem compare_field_float (host : Endian) (key : KeySpec) (a b : Bytes) (L : Nat)
    (hty : key.type = .LittleEndianFloat) (hlen : key.length = 4 ∨ key.length = 8)
    (h1 : 1 ≤ key.position) (h2 : key.position ≤ size_mod) :
    RecordComparator.compare_field host key ⟨a, L⟩ ⟨b, L⟩
      = .ok (full_field_value host key a b) := by
  unfold RecordComparator.compare_field full_field_value
  rw [extract_float_key_eq host key a L hty hlen h1 h2,
    extract_float_key_eq host key b L hty hlen h1 h2]
  simp [hty]

theorem full_field_value_of_not_float (host : Endian) (key : KeySpec) (a b : Bytes)
    (hty : key.type ≠ .LittleEndianFloat) :
    full_field_value host key a b = field_value key a b := by
  unfold full_field_value
  rw [if_neg hty]

theorem full_compare_value_cons (host : Endian) (key : KeySpec) (rest : List KeySpec)
    (a b : Bytes) :
    full_compare_value host (key :: rest) a b
      = if full_ordered_field_value host key a b ≠ 0 then full_ordered_field_value host key a b
        else full_compare_value host rest a b := rfl

theorem compare_of_full_fields (host : Endian) (keys : List KeySpec) (a b : RecordView)
    (h : ∀ k ∈ keys,
      RecordComparator.compare_field host k a b = .ok (full_field_value host k a.data b.data)) :
    RecordComparator.compare host keys a b
      = .ok (full_compare_value host keys a.data b.data) := by
  induction keys with
  | nil => rfl
  | cons key rest ih =>
    have hk := h key (List.mem_cons_self _ _)
    have ih := ih (fun k hk => h k (List.mem_cons_of_mem _ hk))
    unfold RecordComparator.compare
    rw [hk, full_compare_value_cons]
    unfold full_ordered_field_value
    by_cases hd : key.order = .Descending <;>
      by_cases hz : full_field_value host key a.data b.data = 0 <;>
      simp [hd, hz, ih]

theorem not_float_of_inside (key : KeySpec) (L : Nat) (h : key.inside L) :
    key.type ≠ .LittleEndianFloat := by
  obtain ⟨_, _, _, h4⟩ := h
  intro hf
  rw [hf] at h4
  simp at h4

/-- On views of the record length, `RecordComparator::compare` on keys it can sort on
returns the lexicographic value of the bytes and never throws. -/
theorem compare_sortable (host : Endian) (keys : List KeySpec) (a b : Bytes) (R : Nat)
    (h : ∀ k ∈ keys, k.sortable R) :
    RecordComparator.compare host keys ⟨a, R⟩ ⟨b, R⟩
      = .ok (full_compare_value host keys a b) := by
  apply compare_of_full_fields host keys ⟨a, R⟩ ⟨b, R⟩
  intro k hk
  rcases h k hk with hc | ⟨hty, hlen, h1, h2, h3⟩
  · rw [full_field_value_of_not_float host k a b (not_float_of_inside k R hc.1)]
    exact compare_field_inside host k a b R hc.1
  · exact compare_field_float host k a b R hty hlen h1 (by omega)

/-- The function behind `interpreted_compare_wrapper` for keys the reference comparator can
sort on: the lexicographic value of the bytes, never an exception. -/
theorem interpreted_compare_full (host : Endian) (keys : List KeySpec) (R : Nat)
    (h : ∀ k ∈ keys, k.sortable R) :
    interpreted_compare_wrapper host (InterpretedComparator.wrap keys)
      = pure_compare (full_compare_value host keys) := by
  funext a b
  unfold interpreted_compare_wrapper InterpretedComparator.wrap InterpretedComparator.compare
    pure_compare
  simp only
  apply compare_of_full_fields host keys ⟨a, 1000000⟩ ⟨b, 1000000⟩
  intro k hk
  rcases h k hk with hc | ⟨hty, hlen, h1, h2, h3⟩
  · rw [full_field_value_of_not_float host k a b (not_float_of_inside k R hc.1)]
    obtain ⟨⟨h1, h2, h3, h4⟩, h5⟩ := hc
    rcases h4 with h4 | ⟨h4, h6⟩
    · exact compare_field_character host k _ _ h4 h1 (by omega)
    · have h7 : k.position - 1 + k.length ≤ 1000000 := by
        rcases h5 with h5 | h5
        · rcases h4 with h4 | h4 <;> rw [h4] at h5 <;> simp at h5
        · exact h5
      have hm : 1000000 < size_mod := by decide
      exact compare_field_integer host k ⟨a, 1000000⟩ ⟨b, 1000000⟩
        ⟨h4, h6, h1, h7, hm⟩ ⟨h4, h6, h1, h7, hm⟩
  · exact compare_field_float host k a b 1000000 hty hlen h1 (by omega)

theorem ordered_field_value_single (key : KeySpec) (a b : Bytes) :
    compare_value [key] a b = ordered_field_value key a b := by
  simp only [compare_value]
  split_ifs with h
  · rfl
  · exact (not_not.mp h).symm

/-- The ordered value of one key of any type is a total preorder in sign form on the records
in which the key, when it is a float key, holds no NaN. -/
theorem full_field_preorder (host : Endian) (key : KeySpec) :
    (∀ a, full_ordered_field_value host key a a = 0)
    ∧ (∀ a b, (full_ordered_field_value host key a b < 0
        ↔ 0 < full_ordered_field_value host key b a))
    ∧ (∀ a b c, nan_free host [key] a → nan_free host [key] b → nan_free host [key] c →
        full_ordered_field_value host key a b ≤ 0 → full_ordered_field_value host key b c ≤ 0
        → full_ordered_field_value host key a c ≤ 0) := by
  by_cases hty : key.type = .LittleEndianFloat
  · have hval : ∀ a b, full_field_value host key a b
        = if (float_key_value host key a).lt (float_key_value host key b) then -1
          else if (float_key_value host key b).lt (float_key_value host key a) then 1
          else 0 := by
      intro a b
      unfold full_field_value
      rw [if_pos hty]
    have hle : ∀ a b, (full_field_value host key a b ≤ 0
        ↔ (float_key_value host key b).lt (float_key_value host key a) = false) := by
      intro a b
      rw [hval]
      have := double_lt_asymm (float_key_value host key a) (float_key_value host key b)
      cases h1 : (float_key_value host key a).lt (float_key_value host key b) <;>
        cases h2 : (float_key_value host key b).lt (float_key_value host key a) <;>
        simp_all
    have hlt : ∀ a b, (full_field_value host key a b < 0
        ↔ (float_key_value host key a).lt (float_key_value host key b) = true) := by
      intro a b
      rw [hval]
      cases h1 : (float_key_value host key a).lt (float_key_value host key b) <;>
        cases h2 : (float_key_value host key b).lt (float_key_value host key a) <;>
        simp
    have hgt : ∀ a b, (0 < full_field_value host key a b
        ↔ (float_key_value host key b).lt (float_key_value host key a) = true) := by
      intro a b
      rw [hval]
      have := double_lt_asymm (float_key_value host key a) (float_key_value host key b)
      cases h1 : (float_key_value host key a).lt (float_key_value host key b) <;>
        cases h2 : (float_key_value host key b).lt (float_key_value host key a) <;>
        simp_all
    have hge : ∀ a b, (0 ≤ full_field_value host key a b
        ↔ (float_key_value host key a).lt (float_key_value host key b) = false) := by
      intro a b
      rw [hval]
      cases h1 : (float_key_value host key a).lt (float_key_value host key b) <;>
        cases h2 : (float_key_value host key b).lt (float_key_value host key a) <;>
        simp
    have hnan : ∀ a, nan_free host [key] a → float_key_value host key a ≠ .nan :=
      fun a h => h key (List.mem_singleton_self key) hty
    refine ⟨?_, ?_, ?_⟩
    · intro a
      unfold full_ordered_field_value
      rw [hval, double_lt_irrefl]
      simp
    · intro a b
      unfold full_ordered_field_value
      by_cases hd : key.order = .Descending
      · rw [if_pos hd, if_pos hd]
        have h1 := hgt a b
        have h2 := hlt b a
        constructor <;> intro h
        · have := h1.mp (by omega)
          have := h2.mpr this
          omega
        · have := h2.mp (by omega)
          have := h1.mpr this
          omega
      · rw [if_neg hd, if_neg hd]
        exact (hlt a b).trans (hgt b a).symm
    · intro a b c ha hb hc
      unfold full_ordered_field_value
      by_cases hd : key.order = .Descending
      · rw [if_pos hd, if_pos hd, if_pos hd]
        intro h1 h2
        have h1' := (hge a b).mp (by omega)
        have h2' := (hge b c).mp (by omega)
        have := (hge a c).mpr
          (double_not_lt_trans _ _ _ (hnan c hc) (hnan b hb) (hnan a ha) h2' h1')
        omega
      · rw [if_neg hd, if_neg hd, if_neg hd]
        intro h1 h2
        exact (hle a c).mpr
          (double_not_lt_trans _ _ _ (hnan a ha) (hnan b hb) (hnan c hc)
            ((hle a b).mp h1) ((hle b c).mp h2))
  · have hval : ∀ a b, full_ordered_field_value host key a b = compare_value [key] a b := by
      intro a b
      rw [ordered_field_value_single]
      unfold full_ordered_field_value ordered_field_value
      rw [full_field_value_of_not_float host key a b hty]
    obtain ⟨h1, h2, h3⟩ := compare_value_preorder [key]
    refine ⟨?_, ?_, ?_⟩
    · intro a
      rw [hval]
      exact h1 a
    · intro a b
      rw [hval, hval]
      exact h2 a b
    · intro a b c _ _ _
      rw [hval, hval, hval]
      exact h3 a b c

theorem nan_free_cons (host : Endian) (key : KeySpec) (rest : List KeySpec) (a : Bytes)
    (h : nan_free host (key :: rest) a) : nan_free host [key] a ∧ nan_free host rest a := by
  constructor
  · intro k hk
    rw [List.mem_singleton.mp hk]
    exact h key (List.mem_cons_self _ _)
  · intro k hk
    exact h k (List.mem_cons_of_mem _ hk)

/-- The lexicographic value on keys of any type is a total preorder in sign form on the
records in which no float key holds a NaN. -/
theorem full_compare_value_preorder (host : Endian) (keys : List KeySpec) :
    (∀ a, full_compare_value host keys a a = 0)
    ∧ (∀ a b, (full_compare_value host keys a b < 0 ↔ 0 < full_compare_value host keys b a))
    ∧ (∀ a b c, nan_free host keys a → nan_free host keys b → nan_free host keys c →
        full_compare_value host keys a b ≤ 0 → full_compare_value host keys b c ≤ 0
        → full_compare_value host keys a c ≤ 0) := by
  induction keys with
  | nil => simp [full_compare_value]
  | cons key rest ih =>
    obtain ⟨ih1, ih2, ih3⟩ := ih
    obtain ⟨k1, k2, k3⟩ := full_field_preorder host key
    refine ⟨?_, ?_, ?_⟩
    · intro a
      rw [full_compare_value_cons, if_neg (by simpa using k1 a)]
      exact ih1 a
    · intro a b
      have s1 := k2 a b
      have s2 := k2 b a
      have := ih2 a b
      rw [full_compare_value_cons, full_compare_value_cons]
      generalize full_ordered_field_value host key a b = x at *
      generalize full_ordered_field_value host key b a = y at *
      split_ifs <;> omega
    · intro a b c ha hb hc
      obtain ⟨ha1, ha2⟩ := nan_free_cons host key rest a ha
      obtain ⟨hb1, hb2⟩ := nan_free_cons host key rest b hb
      obtain ⟨hc1, hc2⟩ := nan_free_cons host key rest c hc
      have s1 := k2 a b
      have s2 := k2 b a
      have s3 := k2 b c
      have s4 := k2 c b
      have s5 := k2 a c
      have s6 := k2 c a
      have t1 := k3 a b c ha1 hb1 hc1
      have t2 := k3 b c a hb1 hc1 ha1
      have t3 := k3 c a b hc1 ha1 hb1
      have t4 := k3 c b a hc1 hb1 ha1
      have t5 := k3 b a c hb1 ha1 hc1
      have t6 := k3 a c b ha1 hc1 hb1
      have := ih3 a b c ha2 hb2 hc2
      rw [full_compare_value_cons, full_compare_value_cons, full_compare_value_cons]
      generalize full_ordered_field_value host key a b = x at *
      generalize full_ordered_field_value host key b c = y at *
      generalize full_ordered_field_value host key a c = z at *
      generalize full_ordered_field_value host key b a = x' at *
      generalize full_ordered_field_value host key c b = y' at *
      generalize full_ordered_field_value host key c a = z' at *
      split_ifs <;> omega

theorem float_key_value_nil (host : Endian) (key : KeySpec) :
    float_key_value host key [] ≠ .nan := by
  unfold float_key_value
  rw [List.drop_nil]
  cases host <;> split_ifs <;> decide

theorem nan_free_nil (host : Endian) (keys : List KeySpec) : nan_free host keys [] :=
  fun k _ _ => float_key_value_nil host k

theorem nan_free_cleared (host : Endian) (keys : List KeySpec) (a : Bytes) :
    nan_free host keys (nan_cleared host keys a) := by
  unfold nan_cleared
  split_ifs with h
  · exact h
  · exact nan_free_nil host keys

theorem nan_cleared_of_free (host : Endian) (keys : List KeySpec) (a : Bytes)
    (h : nan_free host keys a) : nan_cleared host keys a = a := by
  unfold nan_cleared
  rw [if_pos h]

/-- The lexicographic value taken after clearing the records that hold a NaN is a total
preorder on all records, and is the lexicographic value itself on records without NaN. -/
theorem cleared_compare_total (host : Endian) (keys : List KeySpec) :
    (∀ a b, ¬ full_compare_value host keys (nan_cleared host keys a) (nan_cleared host keys b) < 0
      → full_compare_value host keys (nan_cleared host keys b) (nan_cleared host keys a) ≤ 0)
    ∧ (∀ a b c,
        full_compare_value host keys (nan_cleared host keys a) (nan_cleared host keys b) ≤ 0 →
        full_compare_value host keys (nan_cleared host keys b) (nan_cleared host keys c) ≤ 0 →
        full_compare_value host keys (nan_cleared host keys a) (nan_cleared host keys c) ≤ 0)
    ∧ (∀ a b, nan_free host keys a → nan_free host keys b →
        full_compare_value host keys a b
          = full_compare_value host keys (nan_cleared host keys a) (nan_cleared host keys b)) := by
  obtain ⟨_, h2, h3⟩ := full_compare_value_preorder host keys
  refine ⟨?_, ?_, ?_⟩
  · intro a b h
    have := h2 (nan_cleared host keys a) (nan_cleared host keys b)
    have := h2 (nan_cleared host keys b) (nan_cleared host keys a)
    omega
  · intro a b c
    exact h3 _ _ _ (nan_free_cleared host keys a) (nan_free_cleared host keys b)
      (nan_free_cleared host keys c)
  · intro a b ha hb
    rw [nan_cleared_of_free host keys a ha, nan_cleared_of_free host keys b hb]

/-! ## Two comparison functions that agree on the records of the region -/

theorem record_at_all (P : Bytes → Prop) (data : Region) (h0 : P [])
    (h : ∀ r ∈ data, P r) (k : Nat) : P (record_at data k) := by
  by_cases hk : k < data.length
  · exact h _ (record_at_mem data k hk)
  · unfold record_at
    rw [List.getD_eq_default _ _ (by omega)]
    exact h0

theorem partition_loop_congr (R : Nat) (f f' : Bytes → Bytes → Int) (P : Bytes → Prop)
    (h0 : P []) (hff : ∀ a b, P a → P b → f a b = f' a b) (hi : Nat) :
    ∀ (n : Nat) (data : Region) (i1 j : Nat),
      Region.wf R data → hi < data.length → i1 ≤ j → j + n = hi → (∀ r ∈ data, P r) →
      RecordQuickSort.partition_loop R (pure_compare f) (hi : Int) n data
          ((i1 : Int) - 1) (j : Int)
        = RecordQuickSort.partition_loop R (pure_compare f') (hi : Int) n data
          ((i1 : Int) - 1) (j : Int) := by
  intro n
  induction n with
  | zero => intro data i1 j _ _ _ _ _; rfl
  | succ n ih =>
    intro data i1 j hwf hhi hij hn hP
    have e1 : ((i1 : Int) - 1 + 1).toNat = i1 := by simp
    have e2 : ((i1 : Int) - 1 + 1) = ((i1 + 1 : Nat) : Int) - 1 := by push_cast; ring
    have e3 : (j : Int) + 1 = ((j + 1 : Nat) : Int) := by push_cast; ring
    have hc : f (record_at data j) (record_at data hi)
        = f' (record_at data j) (record_at data hi) :=
      hff _ _ (record_at_all P data h0 hP j) (record_at_all P data h0 hP hi)
    unfold RecordQuickSort.partition_loop
    simp only [pure_compare, Int.toNat_ofNat]
    rw [hc]
    by_cases hlt : f' (record_at data j) (record_at data hi) < 0
    · rw [if_pos hlt, if_pos hlt, e1, e2, e3,
        swap_records_eq R data i1 j hwf (by omega) (by omega)]
      have hperm := swap_list_perm data i1 j (by omega) (by omega)
      exact ih (swap_list data i1 j) (i1 + 1) (j + 1) (wf_of_perm R _ _ hperm hwf)
        (by rw [swap_list_length]; exact hhi) (by omega) (by omega)
        (fun r hr => hP r (hperm.subset hr))
    · rw [if_neg hlt, if_neg hlt, e3]
      exact ih data i1 (j + 1) hwf hhi (by omega) (by omega) hP

theorem partition_congr (R : Nat) (f f' : Bytes → Bytes → Int) (P : Bytes → Prop)
    (h0 : P []) (hff : ∀ a b, P a → P b → f a b = f' a b) (data : Region) (lo hi : Nat)
    (hwf : Region.wf R data) (hhi : hi < data.length) (hlh : lo ≤ hi)
    (hP : ∀ r ∈ data, P r) :
    RecordQuickSort.partition R (pure_compare f) data (lo : Int) (hi : Int)
      = RecordQuickSort.partition R (pure_compare f') data (lo : Int) (hi : Int) := by
  unfold RecordQuickSort.partition
  have e0 : ((hi : Int) - (lo : Int)).toNat = hi - lo := by omega
  rw [e0, partition_loop_congr R f f' P h0 hff hi (hi - lo) data lo lo hwf hhi (le_refl _)
    (by omega) hP]

theorem quicksort_congr (R : Nat) (f f' : Bytes → Bytes → Int) (P : Bytes → Prop)
    (h0 : P []) (hff : ∀ a b, P a → P b → f a b = f' a b) :
    ∀ (fuel : Nat) (data : Region) (lo e : Nat),
      Region.wf R data → e ≤ data.length → e - lo ≤ fuel → (∀ r ∈ data, P r) →
      RecordQuickSort.quicksort R (pure_compare f) fuel data (lo : Int) ((e : Int) - 1)
        = RecordQuickSort.quicksort R (pure_compare f') fuel data (lo : Int) ((e : Int) - 1) := by
  intro fuel
  induction fuel with
  | zero => intro data lo e _ _ _ _; rfl
  | succ fuel ih =>
    intro data lo e hwf he hf hP
    by_cases hsmall : e ≤ lo + 1
    · rw [quicksort_done _ _ _ _ _ _ (by omega), quicksort_done _ _ _ _ _ _ (by omega)]
    · have hlt : (lo : Int) < (e : Int) - 1 := by omega
      have ehi : (e : Int) - 1 = ((e - 1 : Nat) : Int) := by omega
      obtain ⟨d1, p, hpart, hp1, hp2, hperm1, _⟩ :=
        partition_spec R f data lo (e - 1) hwf (by omega) (by omega)
      have hpart' := hpart
      rw [partition_congr R f f' P h0 hff data lo (e - 1) hwf (by omega) (by omega) hP]
        at hpart'
      have hwf1 := wf_of_perm R _ _ hperm1 hwf
      have hlen1 : d1.length = data.length := hperm1.length_eq
      have hP1 : ∀ r ∈ d1, P r := fun r hr => hP r (hperm1.subset hr)
      obtain ⟨d2, hq2, hperm2, _⟩ := quicksort_spec R f fuel d1 lo p hwf1 (by omega) (by omega)
      have hq2' := hq2
      rw [ih d1 lo p hwf1 (by omega) (by omega) hP1] at hq2'
      have hwf2 := wf_of_perm R _ _ hperm2 hwf1
      have hlen2 : d2.length = d1.length := hperm2.length_eq
      have hP2 : ∀ r ∈ d2, P r := fun r hr => hP1 r (hperm2.subset hr)
      have ep : (p : Int) + 1 = ((p + 1 : Nat) : Int) := by push_cast; ring
      have h3 := ih d2 (p + 1) e hwf2 (by omega) (by omega) hP2
      unfold RecordQuickSort.quicksort
      rw [if_pos hlt, if_pos hlt, ehi, hpart, hpart']
      simp only
      rw [hq2, hq2', ep, ← ehi]
      exact h3

theorem quicksort_sort_congr (R : Nat) (f f' : Bytes → Bytes → Int) (P : Bytes → Prop)
    (h0 : P []) (hff : ∀ a b, P a → P b → f a b = f' a b) (data : Region) (n : Nat)
    (hwf : Region.wf R data) (hn : n ≤ data.length) (hP : ∀ r ∈ data, P r) :
    RecordQuickSort.sort R (pure_compare f) data n
      = RecordQuickSort.sort R (pure_compare f') data n := by
  unfold RecordQuickSort.sort
  by_cases h1 : n ≤ 1
  · rw [if_pos h1, if_pos h1]
  · rw [if_neg h1, if_neg h1]
    have := quicksort_congr R f f' P h0 hff n data 0 n hwf hn (by omega) hP
    simpa using this

theorem sort_chunks_congr (R : Nat) (f f' : Bytes → Bytes → Int) (P : Bytes → Prop)
    (h0 : P []) (hff : ∀ a b, P a → P b → f a b = f' a b) :
    ∀ (chunks : List SortEngine.Chunk) (data : Region) (s : Nat),
      Region.wf R data → Contig s data.length chunks → (∀ r ∈ data, P r) →
      SortEngine.sort_chunks R (pure_compare f) chunks data
        = SortEngine.sort_chunks R (pure_compare f') chunks data := by
  intro chunks
  induction chunks with
  | nil => intro data s _ _ _; rfl
  | cons c rest ih =>
    intro data s hwf hc hP
    obtain ⟨hcs, hrest⟩ := hc
    have hle := contig_le _ _ _ hrest
    have hwfd : Region.wf R (data.drop c.start) := fun r hr => hwf r (List.mem_of_mem_drop hr)
    have hPd : ∀ r ∈ data.drop c.start, P r := fun r hr => hP r (List.mem_of_mem_drop hr)
    have hlen : c.record_count ≤ (data.drop c.start).length := by
      rw [List.length_drop]; omega
    obtain ⟨sv, hsv, hperm, _⟩ :=
      quicksort_sort_spec R f (data.drop c.start) c.record_count hwfd hlen
    have hsv' := hsv
    rw [quicksort_sort_congr R f f' P h0 hff _ _ hwfd hlen hPd] at hsv'
    have hperm1 : (data.take c.start ++ sv).Perm data := by
      have := List.Perm.append_left (data.take c.start) hperm
      rwa [List.take_append_drop] at this
    have hlen1 : (data.take c.start ++ sv).length = data.length := hperm1.length_eq
    have h3 := ih (data.take c.start ++ sv) (s + c.record_count) (wf_of_perm R _ _ hperm1 hwf)
      (by rw [hlen1]; exact hrest) (fun r hr => hP r (hperm1.subset hr))
    unfold SortEngine.sort_chunks
    rw [hsv, hsv']
    exact h3

theorem find_min_chunk_congr (f f' : Bytes → Bytes → Int) (P : Bytes → Prop)
    (h0 : P []) (hff : ∀ a b, P a → P b → f a b = f' a b) (data : Region)
    (chunks : List SortEngine.Chunk) (indices : List Nat) (hP : ∀ r ∈ data, P r) :
    ∀ (n i : Nat) (min_chunk : Int),
      SortEngine.find_min_chunk (pure_compare f) data chunks indices n i min_chunk
        = SortEngine.find_min_chunk (pure_compare f') data chunks indices n i min_chunk := by
  intro n
  induction n with
  | zero => intro i min_chunk; rfl
  | succ n ih =>
    intro i min_chunk
    have hc : ∀ x y, pure_compare f (record_at data x) (record_at data y)
        = pure_compare f' (record_at data x) (record_at data y) := by
      intro x y
      unfold pure_compare
      rw [hff _ _ (record_at_all P data h0 hP x) (record_at_all P data h0 hP y)]
    unfold SortEngine.find_min_chunk
    simp only [ih, hc]

theorem merge_loop_congr (R : Nat) (f f' : Bytes → Bytes → Int) (P : Bytes → Prop)
    (h0 : P []) (hff : ∀ a b, P a → P b → f a b = f' a b) (data : Region)
    (chunks : List SortEngine.Chunk) (hP : ∀ r ∈ data, P r) :
    ∀ (n out : Nat) (temp : Region) (indices : List Nat),
      SortEngine.merge_loop R (pure_compare f) data chunks n out temp indices
        = SortEngine.merge_loop R (pure_compare f') data chunks n out temp indices := by
  intro n
  induction n with
  | zero => intro out temp indices; rfl
  | succ n ih =>
    intro out temp indices
    unfold SortEngine.merge_loop
    simp only [ih, find_min_chunk_congr f f' P h0 hff data chunks indices hP]

/-- Two engines that differ in their comparison function only return the same from
`SortEngine::sort` on a region on whose records the two comparison functions agree. -/
theorem sort_congr (config : SortEngine.Config) (owns owns' : Bool)
    (f f' : Bytes → Bytes → Int) (P : Bytes → Prop)
    (h0 : P []) (hff : ∀ a b, P a → P b → f a b = f' a b) (data : Region) (N : Nat)
    (hwf : Region.wf config.record_length data) (hN : data.length = N)
    (hP : ∀ r ∈ data, P r) :
    SortEngine.sort ⟨config, pure_compare f, owns⟩ data N
      = SortEngine.sort ⟨config, pure_compare f', owns'⟩ data N := by
  unfold SortEngine.sort
  by_cases h1 : N ≤ 1
  · rw [if_pos h1, if_pos h1]
  · rw [if_neg h1, if_neg h1]
    by_cases hT : config.thread_count = 0
    · rw [if_pos hT, if_pos hT]
    · rw [if_neg hT, if_neg hT]
      simp only
      by_cases hpath : config.thread_count = 1 ∨ N < max 1000 (N / config.thread_count) * 2
      · rw [if_pos hpath, if_pos hpath]
        exact quicksort_sort_congr config.record_length f f' P h0 hff data N hwf (by omega) hP
      · rw [if_neg hpath, if_neg hpath]
        obtain ⟨chunks, hch, hcont⟩ :=
          build_chunks_spec (max 1000 (N / config.thread_count)) N (by omega) N 0 []
            (by omega) (by omega) rfl
        rw [hch]
        simp only
        obtain ⟨d1, hd1, hperm1, _⟩ :=
          sort_chunks_spec config.record_length f chunks data 0 hwf (by rw [hN]; exact hcont)
        have hd1' := hd1
        rw [sort_chunks_congr config.record_length f f' P h0 hff chunks data 0 hwf
          (by rw [hN]; exact hcont) hP] at hd1'
        rw [hd1, hd1']
        simp only
        unfold SortEngine.merge_chunks
        simp only [merge_loop_congr config.record_length f f' P h0 hff d1 chunks
          (fun r hr => hP r (hperm1.subset hr))]

/-! ## The sort engine with the reference comparator on keys of any type -/

theorem create_fallback_eq (plat : Platform) (g : GlobalComparator) (config : SortEngine.Config)
    (hfb : plat.x86_64 = false) :
    SortEngine.create plat g config
      = ⟨config, interpreted_compare_wrapper plat.endian
          (InterpretedComparator.wrap config.keys), false⟩ := by
  unfold SortEngine.create ComparisonGenerator.is_available
  rw [hfb]
  rfl

theorem create_full (plat : Platform) (g : GlobalComparator) (R T : Nat) (K : List KeySpec)
    (hfb : plat.x86_64 = false) (hK : ∀ k ∈ K, k.sortable R) :
    SortEngine.create plat g ⟨R, T, K⟩
      = ⟨⟨R, T, K⟩, pure_compare (full_compare_value plat.endian K), false⟩ := by
  rw [create_fallback_eq plat g ⟨R, T, K⟩ hfb]
  show (⟨⟨R, T, K⟩, interpreted_compare_wrapper plat.endian (InterpretedComparator.wrap K),
    false⟩ : SortEngine) = _
  rw [interpreted_compare_full plat.endian K R hK]

/-- On the fallback path, for keys the reference comparator can sort on, at least one worker
and a region in which no float key holds a NaN, `SortEngine::sort` returns a permutation of
the region in which every record compares `≤ 0` against every later one. -/
theorem reference_sort_full (plat : Platform) (g : GlobalComparator) (R T : Nat)
    (K : List KeySpec) (data : Region) (N : Nat) (hfb : plat.x86_64 = false)
    (hK : ∀ k ∈ K, k.sortable R) (hwf : Region.wf R data) (hN : data.length = N)
    (hT : 1 ≤ T) (hnan : ∀ r ∈ data, nan_free plat.endian K r) :
    ∃ out : Region,
      (SortEngine.create plat g ⟨R, T, K⟩).sort data N = .ok out
      ∧ out.Perm data
      ∧ out.Pairwise (fun a b => full_compare_value plat.endian K a b ≤ 0) := by
  obtain ⟨H1, H2, H3⟩ := cleared_compare_total plat.endian K
  rw [create_full plat g R T K hfb hK,
    sort_congr ⟨R, T, K⟩ false false (full_compare_value plat.endian K)
      (fun a b => full_compare_value plat.endian K (nan_cleared plat.endian K a)
        (nan_cleared plat.endian K b))
      (nan_free plat.endian K) (nan_free_nil plat.endian K) H3 data N hwf hN hnan]
  obtain ⟨out, hout, hperm, hs⟩ :=
    sort_spec ⟨⟨R, T, K⟩, pure_compare (fun a b => full_compare_value plat.endian K
        (nan_cleared plat.endian K a) (nan_cleared plat.endian K b)), false⟩
      (fun a b => full_compare_value plat.endian K (nan_cleared plat.endian K a)
        (nan_cleared plat.endian K b)) data N rfl hwf hN hT
  refine ⟨out, hout, hperm, (hs H1 H2).imp_of_mem ?_⟩
  intro a b ha hb h
  rw [H3 a b (hnan a (hperm.subset ha)) (hnan b (hperm.subset hb))]
  exact h

theorem nan_free_of_extract (host : Endian) (K : List KeySpec) (R : Nat) (r : Bytes)
    (hK : ∀ k ∈ K, k.sortable R)
    (h : ∀ k ∈ K, RecordView.extract_float_key host ⟨r, R⟩ k ≠ .ok .nan) :
    nan_free host K r := by
  intro k hk hty hv
  rcases hK k hk with hc | ⟨_, hlen, h1, h2, h3⟩
  · exact not_float_of_inside k R hc.1 hty
  · apply h k hk
    rw [extract_float_key_eq host k r R hty hlen h1 (by omega), hv]

/-- A region without NaN whose adjacent records compare `≤ 0` is sorted. -/
theorem sorted_of_adjacent_full (host : Endian) (K : List KeySpec) (data : Region)
    (hnan : ∀ r ∈ data, nan_free host K r)
    (hadj : ∀ i, i + 1 < data.length →
      full_compare_value host K (record_at data i) (record_at data (i + 1)) ≤ 0) :
    data.Pairwise (fun a b => full_compare_value host K a b ≤ 0) := by
  obtain ⟨_, H2, H3⟩ := cleared_compare_total host K
  have hp := pairwise_of_adjacent
    (fun a b => full_compare_value host K (nan_cleared host K a) (nan_cleared host K b))
    data H2 (by
      intro i hi
      have := hadj i hi
      rw [H3 _ _ (hnan _ (record_at_mem data i (by omega)))
        (hnan _ (record_at_mem data (i + 1) hi))] at this
      exact this)
  refine hp.imp_of_mem ?_
  intro a b ha hb h
  rw [H3 a b (hnan a ha) (hnan b hb)]
  exact h

/-- Two sorted permutations of a region in which records that compare equal are identical
are the same list, for keys of any type. -/
theorem sorted_full_unique (host : Endian) (K : List KeySpec) (data out1 out2 : Region)
    (hties : ∀ a ∈ data, ∀ b ∈ data, full_compare_value host K a b = 0 → a = b)
    (hp1 : out1.Perm data) (hp2 : out2.Perm data)
    (hs1 : out1.Pairwise (fun a b => full_compare_value host K a b ≤ 0))
    (hs2 : out2.Pairwise (fun a b => full_compare_value host K a b ≤ 0)) : out1 = out2 := by
  obtain ⟨_, hsign, _⟩ := full_compare_value_preorder host K
  refine List.Perm.eq_of_sorted ?_ hs1 hs2 (hp1.trans hp2.symm)
  intro a b ha hb hab hba
  apply hties a (hp1.subset ha) b (hp2.subset hb)
  have := hsign a b
  omega

theorem full_compare_value_zero (host : Endian) (a b : Bytes) : ∀ (keys : List KeySpec),
    full_compare_value host keys a b = 0 → ∀ k ∈ keys, full_ordered_field_value host k a b = 0
  | [] => by simp
  | key :: rest => by
    intro h
    rw [full_compare_value_cons] at h
    by_cases hz : full_ordered_field_value host key a b = 0
    · rw [if_neg (by simpa using hz)] at h
      intro k hk
      rcases List.mem_cons.mp hk with rfl | hk
      · exact hz
      · exact full_compare_value_zero host a b rest h k hk
    · rw [if_pos hz] at h
      exact absurd h hz

/-- When one of the keys is a Character key over the whole record, two records that compare
equal are byte-identical. -/
theorem whole_record_no_ties (host : Endian) (K : List KeySpec) (R : Nat) (o : SortOrder)
    (hK : ∀ k ∈ K, k.sortable R) (hmem : (⟨1, R, .Character, o⟩ : KeySpec) ∈ K)
    (a b : Bytes) (ha : a.length = R) (hb : b.length = R)
    (h : RecordComparator.compare host K ⟨a, R⟩ ⟨b, R⟩ = .ok 0) : a = b := by
  rw [compare_sortable host K a b R hK] at h
  simp only [Except.ok.injEq] at h
  have hz := full_compare_value_zero host a b K h _ hmem
  unfold full_ordered_field_value at hz
  rw [full_field_value_of_not_float host _ a b (by simp)] at hz
  have hm : memcmp a b R = 0 := by
    unfold field_value at hz
    simp only [if_true, Nat.sub_self, List.drop_zero] at hz
    split_ifs at hz <;> omega
  have hl := (memcmp_sign a b R).2.mp hm
  have hf := load_big_inj _ _ (by rw [fetch_length, fetch_length]) hl
  have e1 := fetch_eq_self a
  have e2 := fetch_eq_self b
  rw [ha] at e1
  rw [hb] at e2
  rw [← e1, ← e2, hf]

/-! ## The first record after a quicksort -/

/-- After `RecordQuickSort::sort` on the first `n ≥ 2` records, the first record is the
pivot of the first partition (the last of the `n` records) or a record that compares less
than it; it compares less when the `n` records are the whole region and one of them does. -/
theorem quicksort_first_record (R : Nat) (f : Bytes → Bytes → Int) (data : Region) (n : Nat)
    (hwf : Region.wf R data) (hn : n ≤ data.length) (h2 : 2 ≤ n) :
    ∃ out : Region,
      RecordQuickSort.sort R (pure_compare f) data n = .ok out
      ∧ out.Perm data
      ∧ (∀ k, n ≤ k → record_at out k = record_at data k)
      ∧ (∀ k, k < n → ∃ k', k' < n ∧ record_at out k = record_at data k')
      ∧ (record_at out 0 = record_at data (n - 1)
        ∨ f (record_at out 0) (record_at data (n - 1)) < 0)
      ∧ (n = data.length →
          (∃ k, k < n ∧ f (record_at data k) (record_at data (n - 1)) < 0) →
          f (record_at out 0) (record_at data (n - 1)) < 0) := by
  obtain ⟨out, hsort, hperm, hfr, hor, _⟩ := quicksort_sort_spec R f data n hwf hn
  refine ⟨out, hsort, hperm, hfr, hor, ?_⟩
  obtain ⟨m, hm⟩ : ∃ m, n = m + 1 := ⟨n - 1, by omega⟩
  have hlt : ((0 : Nat) : Int) < (n : Int) - 1 := by omega
  have ehi : (n : Int) - 1 = ((n - 1 : Nat) : Int) := by omega
  obtain ⟨d1, p, hpart, hp1, hp2, hperm1, hfr1, hor1, hpiv, hl1, hr1⟩ :=
    partition_spec R f data 0 (n - 1) hwf (by omega) (by omega)
  have hwf1 := wf_of_perm R _ _ hperm1 hwf
  have hlen1 : d1.length = data.length := hperm1.length_eq
  obtain ⟨d2, hq2, hperm2, hfr2, hor2, _⟩ :=
    quicksort_spec R f m d1 0 p hwf1 (by omega) (by omega)
  have hwf2 := wf_of_perm R _ _ hperm2 hwf1
  have hlen2 : d2.length = d1.length := hperm2.length_eq
  obtain ⟨o3, hq3, hperm3, hfr3, hor3, _⟩ :=
    quicksort_spec R f m d2 (p + 1) n hwf2 (by omega) (by omega)
  have ep : (p : Int) + 1 = ((p + 1 : Nat) : Int) := by push_cast; ring
  have hq : RecordQuickSort.quicksort R (pure_compare f) (m + 1) data ((0 : Nat) : Int)
      ((n : Int) - 1) = .ok o3 := by
    unfold RecordQuickSort.quicksort
    rw [if_pos hlt, ehi, hpart]
    simp only
    rw [hq2, ep, ← ehi]
    exact hq3
  have hsort' : RecordQuickSort.sort R (pure_compare f) data n = .ok o3 := by
    unfold RecordQuickSort.sort
    rw [if_neg (by omega)]
    have e : RecordQuickSort.quicksort R (pure_compare f) n data 0 ((n : Int) - 1)
        = RecordQuickSort.quicksort R (pure_compare f) (m + 1) data ((0 : Nat) : Int)
          ((n : Int) - 1) := by
      rw [← hm]
      rfl
    rw [e]
    exact hq
  have ho : o3 = out := by
    rw [hsort] at hsort'
    simp only [Except.ok.injEq] at hsort'
    exact hsort'.symm
  subst ho
  have h0 : record_at o3 0 = record_at d2 0 := hfr3 0 (Or.inl (by omega))
  refine ⟨?_, ?_⟩
  · by_cases hp : p = 0
    · left
      rw [h0, hfr2 0 (Or.inr (by omega)), ← hpiv, hp]
    · right
      obtain ⟨k', _, a2, a3⟩ := hor2 0 (le_refl 0) (by omega)
      rw [h0, a3]
      exact hl1 k' (by omega) a2
  · intro hall hex
    obtain ⟨k, hk, hkf⟩ := hex
    by_cases hp : p = 0
    · have hd0 : record_at d1 0 = record_at data (n - 1) := by rw [← hpiv, hp]
      rw [h0, hfr2 0 (Or.inr (by omega)), hd0]
      have hmem : record_at data k ∈ d1 :=
        hperm1.symm.subset (record_at_mem data k (by omega))
      obtain ⟨k2, hk2, hk2e⟩ := List.getElem_of_mem hmem
      have hrec : record_at d1 k2 = record_at data k := by
        rw [record_at_lt d1 k2 hk2, hk2e]
      by_cases hk0 : k2 = 0
      · rw [← hd0, ← hk0, hrec]
        rw [← hrec, hk0, hd0] at hkf
        rw [hrec.symm, hk0, hd0]
        exact hkf
      · exfalso
        apply hr1 k2 (by omega) (by omega)
        rw [hrec]
        exact hkf
    · obtain ⟨k', _, a2, a3⟩ := hor2 0 (le_refl 0) (by omega)
      rw [h0, a3]
      exact hl1 k' (by omega) a2

theorem one_thread_sort (self : SortEngine) (f : Bytes → Bytes → Int) (data : Region)
    (N : Nat) (hcmp : self.compare_func_ = pure_compare f)
    (hT : self.config_.thread_count = 1) (h2 : 2 ≤ N) :
    self.sort data N = RecordQuickSort.sort self.config_.record_length (pure_compare f) data N := by
  unfold SortEngine.sort
  rw [if_neg (by omega), if_neg (by omega)]
  simp only [hT, true_or, if_true]
  rw [hcmp]

theorem find_min_three (f : Bytes → Bytes → Int) (d : Region)
    (h1 : ¬ f (record_at d 1000) (record_at d 0) < 0)
    (h2 : f (record_at d 2000) (record_at d 0) < 0) :
    SortEngine.find_min_chunk (pure_compare f) d [⟨0, 1000⟩, ⟨1000, 1000⟩, ⟨2000, 1⟩] [0, 0, 0]
      3 0 (-1) = .ok 2 := by
  simp [SortEngine.find_min_chunk, pure_compare, h1, h2]

/-- With two workers and 2001 records, of which the first 2000 are the record `o` or, in
the first chunk, a record that is not less than `o`, and the last one is a record `x` that
compares less than `o`: the merged region starts with `x`. -/
theorem three_chunks_first_record (self : SortEngine) (f : Bytes → Bytes → Int) (data : Region)
    (o x : Bytes) (hcmp : self.compare_func_ = pure_compare f)
    (hT : self.config_.thread_count = 2) (hwf : Region.wf self.config_.record_length data)
    (hN : data.length = 2001) (h999 : record_at data 999 = o)
    (hA : ∀ k, k < 1000 → record_at data k = o ∨ ¬ f (record_at data k) o < 0)
    (hB : ∀ k, 1000 ≤ k → k < 2000 → record_at data k = o)
    (hx : record_at data 2000 = x) (hoo : ¬ f o o < 0) (hxo : f x o < 0) :
    ∃ out : Region, self.sort data 2001 = .ok out ∧ record_at out 0 = x := by
  -- the worker threads
  obtain ⟨sv0, hs0, hp0, hfr0, hor0, hfirst0, _⟩ :=
    quicksort_first_record self.config_.record_length f data 1000 hwf (by omega) (by omega)
  have hwf0 := wf_of_perm _ _ _ hp0 hwf
  have hwfd : Region.wf self.config_.record_length (sv0.drop 1000) :=
    fun r hr => hwf0 r (List.mem_of_mem_drop hr)
  have hl0 : sv0.length = 2001 := by rw [hp0.length_eq, hN]
  obtain ⟨sv1, hs1, hp1, hfr1, hor1, _⟩ :=
    quicksort_sort_spec self.config_.record_length f (sv0.drop 1000) 1000 hwfd
      (by rw [List.length_drop]; omega)
  have hlsv1 : sv1.length = 1001 := by rw [hp1.length_eq, List.length_drop]; omega
  have hperm1 : (sv0.take 1000 ++ sv1).Perm data := by
    have := List.Perm.append_left (sv0.take 1000) hp1
    rw [List.take_append_drop] at this
    exact this.trans hp0
  have hwf1 := wf_of_perm _ _ _ hperm1 hwf
  have hl1 : (sv0.take 1000 ++ sv1).length = 2001 := by rw [hperm1.length_eq, hN]
  have htake : (sv0.take 1000).length = 1000 := by rw [List.length_take]; omega
  -- the heads of the three chunks
  have hhead0 : record_at (sv0.take 1000 ++ sv1) 0 = o := by
    rw [record_at_append_left _ _ _ (by omega), record_at_take _ _ _ (by omega)]
    obtain ⟨k', hk', hke⟩ := hor0 0 (by omega)
    have e999 : (1000 - 1 : Nat) = 999 := rfl
    rw [e999, h999] at hfirst0
    rcases hfirst0 with h | h
    · exact h
    · rcases hA k' hk' with h' | h'
      · rw [hke, h']
      · rw [hke] at h
        exact absurd h h'
  have hhead1 : record_at (sv0.take 1000 ++ sv1) 1000 = o := by
    rw [record_at_append_right _ _ _ (by omega), htake]
    obtain ⟨k', hk', hke⟩ := hor1 0 (by omega)
    have e0 : (1000 - 1000 : Nat) = 0 := rfl
    rw [e0, hke, record_at_drop, hfr0 _ (by omega)]
    exact hB _ (by omega) (by omega)
  have hhead2 : record_at (sv0.take 1000 ++ sv1) 2000 = x := by
    rw [record_at_append_right _ _ _ (by omega), htake]
    have e0 : (2000 - 1000 : Nat) = 1000 := rfl
    rw [e0, hfr1 1000 (le_refl _), record_at_drop, hfr0 _ (by omega)]
    exact hx
  have hs2 : ∀ d : Region, RecordQuickSort.sort self.config_.record_length (pure_compare f) d 1
      = .ok d := by
    intro d
    unfold RecordQuickSort.sort
    rw [if_pos (le_refl 1)]
  have hchunks : SortEngine.sort_chunks self.config_.record_length (pure_compare f)
      [⟨0, 1000⟩, ⟨1000, 1000⟩, ⟨2000, 1⟩] data = .ok (sv0.take 1000 ++ sv1) := by
    unfold SortEngine.sort_chunks
    simp only [List.drop_zero, List.take_zero, List.nil_append]
    rw [hs0]
    simp only
    unfold SortEngine.sort_chunks
    simp only
    rw [hs1]
    simp only
    unfold SortEngine.sort_chunks
    simp only
    rw [hs2]
    simp only
    rw [List.take_append_drop]
    rfl
  -- the merge
  obtain ⟨out, hout, _, _⟩ :=
    merge_chunks_spec self f (sv0.take 1000 ++ sv1) [⟨0, 1000⟩, ⟨1000, 1000⟩, ⟨2000, 1⟩] hcmp hwf1
      (by rw [hl1]; exact ⟨rfl, rfl, rfl, rfl⟩)
  have hout0 : record_at out 0 = record_at (sv0.take 1000 ++ sv1) 2000 := by
    have hm := hout
    unfold SortEngine.merge_chunks at hm
    rw [if_neg (by decide)] at hm
    simp only [List.foldl_cons, List.foldl_nil, List.length_cons, List.length_nil] at hm
    split at hm
    · exact absurd hm (by simp)
    · rename_i temp' hloop
      simp only [Except.ok.injEq] at hm
      have e : (0 + 1000 + 1000 + 1 : Nat) = 2000 + 1 := rfl
      rw [hcmp, e] at hloop
      unfold SortEngine.merge_loop at hloop
      have hfm : SortEngine.find_min_chunk (pure_compare f) (sv0.take 1000 ++ sv1)
          [⟨0, 1000⟩, ⟨1000, 1000⟩, ⟨2000, 1⟩] (List.replicate (0 + 1 + 1 + 1) 0)
          ([⟨0, 1000⟩, ⟨1000, 1000⟩, ⟨2000, 1⟩] : List SortEngine.Chunk).length 0 (-1) = .ok 2 :=
        find_min_three f _ (by rw [hhead1, hhead0]; exact hoo) (by rw [hhead2, hhead0]; exact hxo)
      rw [hfm] at hloop
      simp only at hloop
      rw [if_neg (by omega)] at hloop
      have hfr := merge_loop_frame _ _ _ _ _ _ _ _ _ hloop 0 (by omega)
      rw [record_at_set _ _ _ _ (by rw [List.length_replicate]; omega), if_pos rfl] at hfr
      have hcpy : ∀ t : Bytes, t.length ≤ self.config_.record_length →
          memcpy t (record_at (sv0.take 1000 ++ sv1) 2000) self.config_.record_length
            = record_at (sv0.take 1000 ++ sv1) 2000 :=
        fun t ht => memcpy_full _ _ _
          (record_at_length _ _ hwf1 2000 (by omega)) ht
      have hfr' : record_at temp' 0 = record_at (sv0.take 1000 ++ sv1) 2000 := by
        rw [hfr]
        exact hcpy _ (record_at_replicate_length _ _ _)
      rw [← hm]
      cases temp' with
      | nil =>
        have hx0 : record_at (sv0.take 1000 ++ sv1) 2000 = [] := by rw [← hfr']; rfl
        have := record_at_length _ _ hwf1 2000 (by omega)
        have hz := record_at_length _ _ hwf1 0 (by omega)
        have hr0 : self.config_.record_length = 0 := by rw [← this, hx0]; rfl
        rw [hx0]
        have : (record_at (([] : Region) ++ List.drop ([] : Region).length (sv0.take 1000 ++ sv1)) 0).length
            = 0 := by
          simp only [List.nil_append, List.length_nil, List.drop_zero]
          rw [hz, hr0]
        exact List.length_eq_zero.mp this
      | cons y ys =>
        rw [record_at_append_left _ _ _ (by simp), hfr']
  refine ⟨out, ?_, by rw [hout0, hhead2]⟩
  unfold SortEngine.sort
  rw [if_neg (by omega), if_neg (by omega)]
  simp only [hT]
  have hr : max 1000 (2001 / 2) = 1000 := by decide
  rw [hr, if_neg (by decide)]
  have hb : SortEngine.build_chunks 1000 2001 2001 0 []
      = .ok [⟨0, 1000⟩, ⟨1000, 1000⟩, ⟨2000, 1⟩] := by rfl
  rw [hb]
  simp only
  rw [hcmp, hchunks]
  exact hout

/-! ## Claims about a region that is already sorted and about the worker count -/

/-- C8 (counterexample): two regions that are non-decreasing under the reference compare
and that `SortEngine::sort` on the fallback path with one worker does not leave as they
are. The first: the two records 01 00 and 01 01 with the one-byte Character key at
position 1; its only adjacent pair compares 0, and the two records come back exchanged. The
second: three records of 5 bytes with a float key of width 4 at position 1 and a one-byte
Character key at position 5, holding `(2.0, 0)`, `(NaN, 1)`, `(1.0, 2)`; the float key of
the second record is a NaN, both adjacent pairs compare `-1`, no two different records
compare equal, and the region comes back as `(NaN, 1)`, `(1.0, 2)`, `(2.0, 0)`. -/
theorem sorted_region_not_kept :
    (RecordComparator.compare .little [⟨1, 1, .Character, .Ascending⟩] ⟨[1, 0], 2⟩ ⟨[1, 1], 2⟩
        = .ok 0
      ∧ (SortEngine.create ⟨false, false, .little, true, true, 0⟩ none
            ⟨2, 1, [⟨1, 1, .Character, .Ascending⟩]⟩).sort [[1, 0], [1, 1]] 2
          = .ok [[1, 1], [1, 0]]
      ∧ ([[1, 1], [1, 0]] : Region) ≠ [[1, 0], [1, 1]])
    ∧ (RecordView.extract_float_key .little ⟨[0, 0, 0xC0, 0x7F, 1], 5⟩
          ⟨1, 4, .LittleEndianFloat, .Ascending⟩ = .ok .nan
      ∧ RecordComparator.compare .little
          [⟨1, 4, .LittleEndianFloat, .Ascending⟩, ⟨5, 1, .Character, .Ascending⟩]
          ⟨[0, 0, 0, 0x40, 0], 5⟩ ⟨[0, 0, 0xC0, 0x7F, 1], 5⟩ = .ok (-1)
      ∧ RecordComparator.compare .little
          [⟨1, 4, .LittleEndianFloat, .Ascending⟩, ⟨5, 1, .Character, .Ascending⟩]
          ⟨[0, 0, 0xC0, 0x7F, 1], 5⟩ ⟨[0, 0, 0x80, 0x3F, 2], 5⟩ = .ok (-1)
      ∧ (∀ a ∈ ([[0, 0, 0, 0x40, 0], [0, 0, 0xC0, 0x7F, 1], [0, 0, 0x80, 0x3F, 2]] : Region),
          ∀ b ∈ ([[0, 0, 0, 0x40, 0], [0, 0, 0xC0, 0x7F, 1], [0, 0, 0x80, 0x3F, 2]] : Region),
          RecordComparator.compare .little
            [⟨1, 4, .LittleEndianFloat, .Ascending⟩, ⟨5, 1, .Character, .Ascending⟩]
            ⟨a, 5⟩ ⟨b, 5⟩ = .ok 0 → a = b)
      ∧ (SortEngine.create ⟨false, false, .little, true, true, 0⟩ none
            ⟨5, 1, [⟨1, 4, .LittleEndianFloat, .Ascending⟩,
              ⟨5, 1, .Character, .Ascending⟩]⟩).sort
          [[0, 0, 0, 0x40, 0], [0, 0, 0xC0, 0x7F, 1], [0, 0, 0x80, 0x3F, 2]] 3
          = .ok [[0, 0, 0xC0, 0x7F, 1], [0, 0, 0x80, 0x3F, 2], [0, 0, 0, 0x40, 0]]
      ∧ ([[0, 0, 0xC0, 0x7F, 1], [0, 0, 0x80, 0x3F, 2], [0, 0, 0, 0x40, 0]] : Region)
          ≠ [[0, 0, 0, 0x40, 0], [0, 0, 0xC0, 0x7F, 1], [0, 0, 0x80, 0x3F, 2]]) := by
  refine ⟨by decide, by decide, by decide, by decide, by decide, by decide, by decide⟩

/-- C8 (amended): on the fallback path, for Character and integer keys the interpreted
comparator can compare on and float keys of width 4 or 8 inside the record, every worker
count `T ≥ 1` and every region in which no float key holds a NaN, that is already
non-decreasing under the reference comparator and in which any two records that compare
equal are byte-identical, `SortEngine::sort` returns the region byte for byte as it was. -/
theorem sort_keeps_sorted_region (plat : Platform) (g : GlobalComparator) (R T : Nat)
    (K : List KeySpec) (data : Region) (N : Nat) (hfb : plat.x86_64 = false)
    (hK : ∀ k ∈ K, k.sortable R) (hwf : Region.wf R data) (hN : data.length = N)
    (hT : 1 ≤ T)
    (hnan : ∀ r ∈ data, ∀ k ∈ K,
      RecordView.extract_float_key plat.endian ⟨r, R⟩ k ≠ .ok .nan)
    (hsorted : ∀ i, i + 1 < N →
      ∃ c, RecordComparator.compare plat.endian K ⟨record_at data i, R⟩
          ⟨record_at data (i + 1), R⟩ = .ok c ∧ c ≤ 0)
    (hties : ∀ a ∈ data, ∀ b ∈ data,
      RecordComparator.compare plat.endian K ⟨a, R⟩ ⟨b, R⟩ = .ok 0 → a = b) :
    (SortEngine.create plat g ⟨R, T, K⟩).sort data N = .ok data := by
  have hcv : ∀ a b, RecordComparator.compare plat.endian K ⟨a, R⟩ ⟨b, R⟩
      = .ok (full_compare_value plat.endian K a b) :=
    fun a b => compare_sortable plat.endian K a b R hK
  have hfree : ∀ r ∈ data, nan_free plat.endian K r :=
    fun r hr => nan_free_of_extract plat.endian K R r hK (hnan r hr)
  have hadj : ∀ i, i + 1 < data.length →
      full_compare_value plat.endian K (record_at data i) (record_at data (i + 1)) ≤ 0 := by
    intro i hi
    obtain ⟨c, hc1, hc2⟩ := hsorted i (by omega)
    rw [hcv] at hc1
    simp only [Except.ok.injEq] at hc1
    omega
  have hsd := sorted_of_adjacent_full plat.endian K data hfree hadj
  obtain ⟨out, hout, hperm, hso⟩ :=
    reference_sort_full plat g R T K data N hfb hK hwf hN hT hfree
  have hties' : ∀ a ∈ data, ∀ b ∈ data, full_compare_value plat.endian K a b = 0 → a = b := by
    intro a ha b hb h0
    apply hties a ha b hb
    rw [hcv, h0]
  rw [hout, sorted_full_unique plat.endian K data out data hties' hperm (List.Perm.refl _)
    hso hsd]

/-- Witness for C8 (amended): three records in strictly increasing order of a float key of
width 4, holding `-1.5`, `1.0` and `+infinity`, sorted with two workers. -/
theorem sort_keeps_sorted_region_witness :
    (SortEngine.create ⟨false, false, .little, true, true, 0⟩ none
        ⟨4, 2, [⟨1, 4, .LittleEndianFloat, .Ascending⟩]⟩).sort
        [[0, 0, 0xC0, 0xBF], [0, 0, 0x80, 0x3F], [0, 0, 0x80, 0x7F]] 3
      = .ok [[0, 0, 0xC0, 0xBF], [0, 0, 0x80, 0x3F], [0, 0, 0x80, 0x7F]] :=
  sort_keeps_sorted_region ⟨false, false, .little, true, true, 0⟩ none 4 2
    [⟨1, 4, .LittleEndianFloat, .Ascending⟩]
    [[0, 0, 0xC0, 0xBF], [0, 0, 0x80, 0x3F], [0, 0, 0x80, 0x7F]] 3 rfl (by decide) (by decide)
    rfl (by decide) (by decide)
    (fun i hi => by
      have : i = 0 ∨ i = 1 := by omega
      rcases this with rfl | rfl
      · exact ⟨-1, by decide, by decide⟩
      · exact ⟨-1, by decide, by decide⟩)
    (by decide)

/-- C9 (counterexample): two regions whose output on the fallback path is not the same
with 1 worker as with 2. The first: 2000 two-byte records whose key byte (the one-byte
Character key at position 1) is 0 everywhere and whose second byte is 1 in the last record
only; the output with 1 worker starts with the last input record, 00 01, the output with 2
workers with 00 00. The second: 2001 records of 6 bytes with a float key of width 4 at
position 1 and a Character key over the whole record, so that no two different records
compare equal; the first record holds the float `5.0`, the next 1999 the same record with
a float a little above `1.0`, the last one a NaN. The output with 1 worker starts with the
first input record, the output with 2 workers with the last one. -/
theorem thread_count_changes_output :
    (∃ out1 out2 : Region,
      (SortEngine.create ⟨false, false, .little, true, true, 0⟩ none
          ⟨2, 1, [⟨1, 1, .Character, .Ascending⟩]⟩).sort
        (List.replicate 1999 [0, 0] ++ [[0, 1]]) 2000 = .ok out1
      ∧ (SortEngine.create ⟨false, false, .little, true, true, 0⟩ none
          ⟨2, 2, [⟨1, 1, .Character, .Ascending⟩]⟩).sort
        (List.replicate 1999 [0, 0] ++ [[0, 1]]) 2000 = .ok out2
      ∧ record_at out1 0 = [0, 1] ∧ record_at out2 0 = [0, 0] ∧ out1 ≠ out2)
    ∧ (RecordView.extract_float_key .little ⟨[1, 0, 0xC0, 0x7F, 0, 0], 6⟩
          ⟨1, 4, .LittleEndianFloat, .Ascending⟩ = .ok .nan
      ∧ (∀ a ∈ ([0, 0, 0xA0, 0x40, 0, 0] :: List.replicate 1999 [2, 0, 0x80, 0x3F, 0, 0]
            ++ [[1, 0, 0xC0, 0x7F, 0, 0]] : Region),
          ∀ b ∈ ([0, 0, 0xA0, 0x40, 0, 0] :: List.replicate 1999 [2, 0, 0x80, 0x3F, 0, 0]
            ++ [[1, 0, 0xC0, 0x7F, 0, 0]] : Region),
          RecordComparator.compare .little
            [⟨1, 4, .LittleEndianFloat, .Ascending⟩, ⟨1, 6, .Character, .Ascending⟩]
            ⟨a, 6⟩ ⟨b, 6⟩ = .ok 0 → a = b)
      ∧ ∃ out1 out2 : Region,
        (SortEngine.create ⟨false, false, .little, true, true, 0⟩ none
            ⟨6, 1, [⟨1, 4, .LittleEndianFloat, .Ascending⟩,
              ⟨1, 6, .Character, .Ascending⟩]⟩).sort
          ([0, 0, 0xA0, 0x40, 0, 0] :: List.replicate 1999 [2, 0, 0x80, 0x3F, 0, 0]
            ++ [[1, 0, 0xC0, 0x7F, 0, 0]]) 2001 = .ok out1
        ∧ (SortEngine.create ⟨false, false, .little, true, true, 0⟩ none
            ⟨6, 2, [⟨1, 4, .LittleEndianFloat, .Ascending⟩,
              ⟨1, 6, .Character, .Ascending⟩]⟩).sort
          ([0, 0, 0xA0, 0x40, 0, 0] :: List.replicate 1999 [2, 0, 0x80, 0x3F, 0, 0]
            ++ [[1, 0, 0xC0, 0x7F, 0, 0]]) 2001 = .ok out2
        ∧ record_at out1 0 = [0, 0, 0xA0, 0x40, 0, 0]
        ∧ record_at out2 0 = [1, 0, 0xC0, 0x7F, 0, 0] ∧ out1 ≠ out2) := by
  constructor
  · have hmem : ∀ a ∈ (List.replicate 1999 [0, 0] ++ [[0, 1]] : Region),
        a = [0, 0] ∨ a = [0, 1] := by
      intro a ha
      rcases List.mem_append.mp ha with h | h
      · exact Or.inl (List.eq_of_mem_replicate h)
      · exact Or.inr (List.mem_singleton.mp h)
    have hwf : Region.wf 2 (List.replicate 1999 [0, 0] ++ [[0, 1]]) := by
      intro r hr
      rcases hmem r hr with rfl | rfl <;> rfl
    have hlen : (List.replicate 1999 [0, 0] ++ [[0, 1]] : Region).length = 2000 := by
      rw [List.length_append, List.length_replicate]
      rfl
    have hno : ∀ a ∈ (List.replicate 1999 [0, 0] ++ [[0, 1]] : Region),
        ∀ b ∈ (List.replicate 1999 [0, 0] ++ [[0, 1]] : Region),
        ¬ compare_value [⟨1, 1, .Character, .Ascending⟩] a b < 0 := by
      intro a ha b hb
      rcases hmem a ha with rfl | rfl <;> rcases hmem b hb with rfl | rfl <;> decide
    have hlast : record_at (List.replicate 1999 [0, 0] ++ [[0, 1]]) (2000 - 1) = [0, 1] := by
      have hl : (List.replicate 1999 ([0, 0] : Bytes)).length ≤ 2000 - 1 :=
        le_of_eq (List.length_replicate _ _)
      rw [record_at_append_right _ _ _ hl, List.length_replicate]
      rfl
    have hmid : record_at (List.replicate 1999 [0, 0] ++ [[0, 1]]) 999 = [0, 0] := by
      rw [record_at_append_left _ _ _ (by rw [List.length_replicate]; omega)]
      unfold record_at
      rw [List.getD_eq_getElem?_getD, List.getElem?_replicate, if_pos (by omega)]
      rfl
    have hcmp : ∀ T, (SortEngine.create ⟨false, false, .little, true, true, 0⟩ none
        ⟨2, T, [⟨1, 1, .Character, .Ascending⟩]⟩).compare_func_
        = pure_compare (compare_value [⟨1, 1, .Character, .Ascending⟩]) :=
      fun T => interpreted_compare_eq .little [⟨1, 1, .Character, .Ascending⟩] 2 (by decide)
    obtain ⟨out1, h1, f1⟩ := one_thread_first_record _ _ _ 2000 (hcmp 1) rfl hwf hlen
      (by omega) hno
    obtain ⟨out2, h2, f2⟩ := two_chunks_first_record _ _ _ (hcmp 2) rfl hwf hlen hno
    refine ⟨out1, out2, h1, h2, by rw [f1, hlast], by rw [f2, hmid], ?_⟩
    intro h
    rw [h, f2, hmid] at f1
    rw [hlast] at f1
    exact absurd f1 (by decide)
  · have hmemF : ∀ a ∈ ([0, 0, 0xA0, 0x40, 0, 0] :: List.replicate 1999 [2, 0, 0x80, 0x3F, 0, 0]
          : Region), a = [0, 0, 0xA0, 0x40, 0, 0] ∨ a = [2, 0, 0x80, 0x3F, 0, 0] := by
      intro a ha
      rcases List.mem_cons.mp ha with h | h
      · exact Or.inl h
      · exact Or.inr (List.eq_of_mem_replicate h)
    have hmem : ∀ a ∈ ([0, 0, 0xA0, 0x40, 0, 0] :: List.replicate 1999 [2, 0, 0x80, 0x3F, 0, 0]
          ++ [[1, 0, 0xC0, 0x7F, 0, 0]] : Region),
        a = [0, 0, 0xA0, 0x40, 0, 0] ∨ a = [2, 0, 0x80, 0x3F, 0, 0]
          ∨ a = [1, 0, 0xC0, 0x7F, 0, 0] := by
      intro a ha
      rcases List.mem_append.mp ha with h | h
      · rcases hmemF a h with h | h
        · exact Or.inl h
        · exact Or.inr (Or.inl h)
      · exact Or.inr (Or.inr (List.mem_singleton.mp h))
    have hties : ∀ a ∈ ([0, 0, 0xA0, 0x40, 0, 0] :: List.replicate 1999 [2, 0, 0x80, 0x3F, 0, 0]
          ++ [[1, 0, 0xC0, 0x7F, 0, 0]] : Region),
        ∀ b ∈ ([0, 0, 0xA0, 0x40, 0, 0] :: List.replicate 1999 [2, 0, 0x80, 0x3F, 0, 0]
          ++ [[1, 0, 0xC0, 0x7F, 0, 0]] : Region),
        RecordComparator.compare .little
          [⟨1, 4, .LittleEndianFloat, .Ascending⟩, ⟨1, 6, .Character, .Ascending⟩]
          ⟨a, 6⟩ ⟨b, 6⟩ = .ok 0 → a = b := by
      intro a ha b hb
      rcases hmem a ha with rfl | rfl | rfl <;> rcases hmem b hb with rfl | rfl | rfl <;> decide
    refine ⟨by decide, hties, ?_⟩
    have hwf : Region.wf 6 ([0, 0, 0xA0, 0x40, 0, 0]
        :: List.replicate 1999 [2, 0, 0x80, 0x3F, 0, 0] ++ [[1, 0, 0xC0, 0x7F, 0, 0]]) := by
      intro r hr
      rcases hmem r hr with rfl | rfl | rfl <;> rfl
    have hlenF : ([0, 0, 0xA0, 0x40, 0, 0] :: List.replicate 1999 [2, 0, 0x80, 0x3F, 0, 0]
        : Region).length = 2000 := by
      rw [List.length_cons, List.length_replicate]
    have hlen : ([0, 0, 0xA0, 0x40, 0, 0] :: List.replicate 1999 [2, 0, 0x80, 0x3F, 0, 0]
        ++ [[1, 0, 0xC0, 0x7F, 0, 0]] : Region).length = 2001 := by
      rw [List.length_append, hlenF]
      rfl
    have hlast : record_at ([0, 0, 0xA0, 0x40, 0, 0]
        :: List.replicate 1999 [2, 0, 0x80, 0x3F, 0, 0] ++ [[1, 0, 0xC0, 0x7F, 0, 0]]) 2000
        = [1, 0, 0xC0, 0x7F, 0, 0] := by
      rw [record_at_append_right _ _ _ (le_of_eq hlenF), hlenF]
      rfl
    have hfirst : record_at ([0, 0, 0xA0, 0x40, 0, 0]
        :: List.replicate 1999 [2, 0, 0x80, 0x3F, 0, 0] ++ [[1, 0, 0xC0, 0x7F, 0, 0]]) 0
        = [0, 0, 0xA0, 0x40, 0, 0] := rfl
    have hfront : ∀ k, k < 2000 → record_at ([0, 0, 0xA0, 0x40, 0, 0]
        :: List.replicate 1999 [2, 0, 0x80, 0x3F, 0, 0] ++ [[1, 0, 0xC0, 0x7F, 0, 0]]) k
        = [0, 0, 0xA0, 0x40, 0, 0] ∨ record_at ([0, 0, 0xA0, 0x40, 0, 0]
        :: List.replicate 1999 [2, 0, 0x80, 0x3F, 0, 0] ++ [[1, 0, 0xC0, 0x7F, 0, 0]]) k
        = [2, 0, 0x80, 0x3F, 0, 0] := by
      intro k hk
      rw [record_at_append_left _ _ _ (by rw [hlenF]; exact hk)]
      exact hmemF _ (record_at_mem _ k (by rw [hlenF]; exact hk))
    have hinner : ∀ k, 1 ≤ k → k < 2000 → record_at ([0, 0, 0xA0, 0x40, 0, 0]
        :: List.replicate 1999 [2, 0, 0x80, 0x3F, 0, 0] ++ [[1, 0, 0xC0, 0x7F, 0, 0]]) k
        = [2, 0, 0x80, 0x3F, 0, 0] := by
      intro k hk1 hk
      rw [record_at_append_left _ _ _ (by rw [hlenF]; exact hk)]
      obtain ⟨j, rfl⟩ : ∃ j, k = j + 1 := ⟨k - 1, by omega⟩
      unfold record_at
      rw [List.getD_eq_getElem?_getD, List.getElem?_cons_succ, List.getElem?_replicate,
        if_pos (by omega)]
      rfl
    have hK : ∀ k ∈ ([⟨1, 4, .LittleEndianFloat, .Ascending⟩, ⟨1, 6, .Character, .Ascending⟩]
        : List KeySpec), k.sortable 6 := by decide
    have hE : ∀ T, SortEngine.create ⟨false, false, .little, true, true, 0⟩ none
        ⟨6, T, [⟨1, 4, .LittleEndianFloat, .Ascending⟩, ⟨1, 6, .Character, .Ascending⟩]⟩
        = ⟨⟨6, T, [⟨1, 4, .LittleEndianFloat, .Ascending⟩, ⟨1, 6, .Character, .Ascending⟩]⟩,
          pure_compare (full_compare_value .little
            [⟨1, 4, .LittleEndianFloat, .Ascending⟩, ⟨1, 6, .Character, .Ascending⟩]), false⟩ :=
      fun T => create_full ⟨false, false, .little, true, true, 0⟩ none 6 T _ rfl hK
    -- one worker: the quicksort of the whole region
    obtain ⟨out1, hs1, _, _, hor1, _, hless1⟩ :=
      quicksort_first_record 6 (full_compare_value .little
        [⟨1, 4, .LittleEndianFloat, .Ascending⟩, ⟨1, 6, .Character, .Ascending⟩])
        ([0, 0, 0xA0, 0x40, 0, 0] :: List.replicate 1999 [2, 0, 0x80, 0x3F, 0, 0]
          ++ [[1, 0, 0xC0, 0x7F, 0, 0]]) 2001 hwf (by rw [hlen]) (by omega)
    have e2000 : (2001 - 1 : Nat) = 2000 := rfl
    rw [e2000, hlast] at hless1
    have hl1 := hless1 hlen.symm ⟨0, by omega, by rw [hfirst]; decide⟩
    have hf1 : record_at out1 0 = [0, 0, 0xA0, 0x40, 0, 0] := by
      obtain ⟨k', hk', hke⟩ := hor1 0 (by omega)
      rw [hke] at hl1 ⊢
      rcases hmem _ (record_at_mem _ k' (by rw [hlen]; exact hk')) with h | h | h
      · exact h
      · rw [h] at hl1
        exact absurd hl1 (by decide)
      · rw [h] at hl1
        exact absurd hl1 (by decide)
    have h1 : (SortEngine.create ⟨false, false, .little, true, true, 0⟩ none
        ⟨6, 1, [⟨1, 4, .LittleEndianFloat, .Ascending⟩, ⟨1, 6, .Character, .Ascending⟩]⟩).sort
        ([0, 0, 0xA0, 0x40, 0, 0] :: List.replicate 1999 [2, 0, 0x80, 0x3F, 0, 0]
          ++ [[1, 0, 0xC0, 0x7F, 0, 0]]) 2001 = .ok out1 := by
      rw [hE 1, one_thread_sort _ _ _ 2001 rfl rfl (by omega)]
      exact hs1
    -- two workers: three chunks and the merge
    obtain ⟨out2, h2', hf2⟩ :=
      three_chunks_first_record
        ⟨⟨6, 2, [⟨1, 4, .LittleEndianFloat, .Ascending⟩, ⟨1, 6, .Character, .Ascending⟩]⟩,
          pure_compare (full_compare_value .little
            [⟨1, 4, .LittleEndianFloat, .Ascending⟩, ⟨1, 6, .Character, .Ascending⟩]), false⟩
        (full_compare_value .little
          [⟨1, 4, .LittleEndianFloat, .Ascending⟩, ⟨1, 6, .Character, .Ascending⟩])
        ([0, 0, 0xA0, 0x40, 0, 0] :: List.replicate 1999 [2, 0, 0x80, 0x3F, 0, 0]
          ++ [[1, 0, 0xC0, 0x7F, 0, 0]])
        [2, 0, 0x80, 0x3F, 0, 0] [1, 0, 0xC0, 0x7F, 0, 0] rfl rfl hwf hlen
        (hinner 999 (by omega) (by omega))
        (by
          intro k hk
          rcases hfront k (by omega) with h | h
          · right
            rw [h]
            decide
          · exact Or.inl h)
        (fun k hk1 hk2 => hinner k (by omega) hk2)
        hlast (by decide) (by decide)
    have h2 : (SortEngine.create ⟨false, false, .little, true, true, 0⟩ none
        ⟨6, 2, [⟨1, 4, .LittleEndianFloat, .Ascending⟩, ⟨1, 6, .Character, .Ascending⟩]⟩).sort
        ([0, 0, 0xA0, 0x40, 0, 0] :: List.replicate 1999 [2, 0, 0x80, 0x3F, 0, 0]
          ++ [[1, 0, 0xC0, 0x7F, 0, 0]]) 2001 = .ok out2 := by
      rw [hE 2]
      exact h2'
    refine ⟨out1, out2, h1, h2, hf1, hf2, ?_⟩
    intro h
    rw [h, hf2] at hf1
    exact absurd hf1 (by decide)

theorem float_third_byte_not_nan (x y z : Byte) :
    ∀ k ∈ ([⟨1, 4, .LittleEndianFloat, .Ascending⟩, ⟨1, 6, .Character, .Descending⟩]
      : List KeySpec),
      RecordView.extract_float_key .little ⟨[0, 0, x, 0x3F, y, z], 6⟩ k ≠ .ok .nan := by
  intro k hk
  rcases List.mem_cons.mp hk with rfl | hk
  · have hv : RecordView.extract_float_key .little ⟨[0, 0, x, 0x3F, y, z], 6⟩
        ⟨1, 4, .LittleEndianFloat, .Ascending⟩
        = .ok (ieee_value 8 23 (x.val * 65536 + 1056964608)) := by
      have hl : RecordView.read_le32 .little [0, 0, x, 0x3F, y, z]
          = x.val * 65536 + 1056964608 := by
        simp only [RecordView.read_le32, fetch, load, List.foldr_cons, List.foldr_nil,
          reduceCtorEq, if_false]
        have : ((0x3F : Byte)).val = 63 := rfl
        have h0 : ((0 : Byte)).val = 0 := rfl
        rw [this, h0]
        omega
      rw [← hl]
      rfl
    rw [hv]
    have hx := x.isLt
    unfold ieee_value
    simp only
    rw [if_neg (by omega)]
    simp
  · rw [List.mem_singleton.mp hk]
    intro h
    exact absurd h (by simp [RecordView.extract_float_key])

/-- C9 (amended): on the fallback path, for Character and integer keys the interpreted
comparator can compare on and float keys of width 4 or 8 inside the record, and for every
region in which no float key holds a NaN and any two records that compare equal under the
reference comparator are byte-identical, `SortEngine::sort` produces byte for byte the same
output region for every two worker counts `T1, T2 ≥ 1`. -/
theorem thread_invariance_without_ties (plat : Platform) (g : GlobalComparator) (R T1 T2 : Nat)
    (K : List KeySpec) (data : Region) (N : Nat) (hfb : plat.x86_64 = false)
    (hK : ∀ k ∈ K, k.sortable R) (hwf : Region.wf R data) (hN : data.length = N)
    (h1 : 1 ≤ T1) (h2 : 1 ≤ T2)
    (hnan : ∀ r ∈ data, ∀ k ∈ K,
      RecordView.extract_float_key plat.endian ⟨r, R⟩ k ≠ .ok .nan)
    (hties : ∀ a ∈ data, ∀ b ∈ data,
      RecordComparator.compare plat.endian K ⟨a, R⟩ ⟨b, R⟩ = .ok 0 → a = b) :
    ∃ out : Region,
      (SortEngine.create plat g ⟨R, T1, K⟩).sort data N = .ok out
      ∧ (SortEngine.create plat g ⟨R, T2, K⟩).sort data N = .ok out := by
  have hcv : ∀ a b, RecordComparator.compare plat.endian K ⟨a, R⟩ ⟨b, R⟩
      = .ok (full_compare_value plat.endian K a b) :=
    fun a b => compare_sortable plat.endian K a b R hK
  have hfree : ∀ r ∈ data, nan_free plat.endian K r :=
    fun r hr => nan_free_of_extract plat.endian K R r hK (hnan r hr)
  have hties' : ∀ a ∈ data, ∀ b ∈ data, full_compare_value plat.endian K a b = 0 → a = b := by
    intro a ha b hb h0
    apply hties a ha b hb
    rw [hcv, h0]
  obtain ⟨o1, ho1, hp1, hs1⟩ := reference_sort_full plat g R T1 K data N hfb hK hwf hN h1 hfree
  obtain ⟨o2, ho2, hp2, hs2⟩ := reference_sort_full plat g R T2 K data N hfb hK hwf hN h2 hfree
  refine ⟨o1, ho1, ?_⟩
  rw [ho2, sorted_full_unique plat.endian K data o2 o1 hties' hp2 hp1 hs2 hs1]

/-- Witness for C9 (amended): 2000 records of 6 bytes with an ascending float key of width 4
and a descending Character key over the whole record. Record `i` holds the float with the
bytes `00 00 (i mod 256) 3F`, a number between 0.5 and 2 that is never a NaN, and ends in
the two bytes of the number `i`. With 1 worker the region goes to one quicksort, with 2
workers it is cut into two chunks of 1000 records that are sorted and merged. -/
theorem thread_invariance_without_ties_witness :
    ∃ out : Region,
      (SortEngine.create ⟨false, false, .little, true, true, 0⟩ none
          ⟨6, 1, [⟨1, 4, .LittleEndianFloat, .Ascending⟩, ⟨1, 6, .Character, .Descending⟩]⟩).sort
        ((List.range 2000).map
          (fun i => [0, 0, Fin.ofNat (i % 256), 0x3F, Fin.ofNat (i / 256), Fin.ofNat (i % 256)])) 2000 = .ok out
      ∧ (SortEngine.create ⟨false, false, .little, true, true, 0⟩ none
          ⟨6, 2, [⟨1, 4, .LittleEndianFloat, .Ascending⟩, ⟨1, 6, .Character, .Descending⟩]⟩).sort
        ((List.range 2000).map
          (fun i => [0, 0, Fin.ofNat (i % 256), 0x3F, Fin.ofNat (i / 256), Fin.ofNat (i % 256)])) 2000 = .ok out :=
  thread_invariance_without_ties ⟨false, false, .little, true, true, 0⟩ none 6 1 2
    [⟨1, 4, .LittleEndianFloat, .Ascending⟩, ⟨1, 6, .Character, .Descending⟩]
    ((List.range 2000).map
      (fun i => [0, 0, Fin.ofNat (i % 256), 0x3F, Fin.ofNat (i / 256), Fin.ofNat (i % 256)])) 2000 rfl
    (by decide)
    (fun r hr => by
      obtain ⟨i, _, rfl⟩ := List.mem_map.mp hr
      rfl)
    (by rw [List.length_map, List.length_range])
    (by decide) (by decide)
    (fun r hr => by
      obtain ⟨i, _, rfl⟩ := List.mem_map.mp hr
      exact float_third_byte_not_nan _ _ _)
    (fun a ha b hb h =>
      whole_record_no_ties .little
        [⟨1, 4, .LittleEndianFloat, .Ascending⟩, ⟨1, 6, .Character, .Descending⟩] 6 .Descending
        (by decide) (by decide) a b
        (by obtain ⟨i, _, rfl⟩ := List.mem_map.mp ha; rfl)
        (by obtain ⟨i, _, rfl⟩ := List.mem_map.mp hb; rfl) h)

end binsort
